import Mathlib

/-! cosmopp: chain ingestion and density estimation (`source/markov_chain.cpp`)

A shallow embedding of the classes `MarkovChain`, `Posterior1D` and
`Posterior2D` of `markov_chain.cpp` and the properties of them that the
specification states.

Conventions of the embedding.

* A finite `double` is an exact rational (`ℚ`); comparisons are the exact ones,
  `/` is exact division, and decimal constants (`0.05`, `1e-5`, `1000`) stand for
  their decimal value.  No `nan` or infinity arises in the runs the theorems
  are about.  In the loader the only division, `maxP / bigChain.size() / 1000`,
  has a zero divisor only when `bigChain` is empty, and then its result is
  never compared with anything.  In `Posterior1D::generate` every divisor is
  checked before it is used, except `totalP` in the rescaling of the bin
  errors, which is positive on a bin that is not empty when no weight is
  negative, and the step count `N`, which is 0 only when the `int` product
  `100 * resolution` wraps to 0 (`resolution = 2^30`).  In `Posterior2D::generate` the normalization is checked to be
  positive before the table loop divides by it; the bin widths are not checked,
  and where the histogram loop divides by a bin width that is zero the call has
  no result in the embedding (`floorQuotient`).
* `std::sqrt`, `std::pow` and the smoothing classes are not rational functions
  that could be written down here: they are parameters (`Numerics`, `Surface`,
  `Surface2D`), and what is proved holds for every choice of them.
* A text file is the list of its lines.  A line is `none` when it is the empty
  string (at which the readers stop) and otherwise carries the doubles its
  whitespace-separated tokens convert to.  A file that cannot be opened is
  `none`.
* `unsigned long`, `unsigned int` and `int` counters are `Nat`/`Int`; no counter
  of the modelled code can wrap for a file of fewer than `2^31` lines.  The
  `int` variables `resolution` and `N` of `generate` are not counters: the
  first is converted from a `double` and the second is a product, and either
  can leave the range of a 32-bit `int`.  `toInt` and `wrapInt` give them the
  values the machine gives.
* An exception is an `Error` value; the object a throwing member function was
  called on keeps the fields as they stood at the `throw`.
* `output_screen` and the progress meter only print and are left out.
-/

namespace Cosmopp

/-! ## Constants and errors -/

/-- The value of `std::numeric_limits<double>::min()`: the smallest positive
normalised double, `2^-1022`. -/
def DBL_MIN : ℚ := 1 / 2 ^ 1022

/-- The value of `std::numeric_limits<double>::max()`: `(2^53 - 1) * 2^971`. -/
def DBL_MAX : ℚ := (2 ^ 53 - 1) * 2 ^ 971

/-- The largest value of a 32-bit `int`: `2^31 - 1 = 2147483647`. -/
def INT_MAX : Int := 2 ^ 31 - 1

/-- The smallest value of a 32-bit `int`: `-2^31 = -2147483648`. -/
def INT_MIN : Int := -2 ^ 31

/-- The result of an `int` operation whose exact value is `n`, in 32-bit two's
complement arithmetic: the value congruent to `n` modulo `2^32` that lies in
`[INT_MIN, INT_MAX]`.  The language leaves an `int` overflow undefined; this is
what the multiplication instruction gives. -/
def wrapInt (n : Int) : Int := (n - INT_MIN) % 2 ^ 32 + INT_MIN

/-- The error taxonomy of the specification (section 7; `InvalidState` is the
kind section 4.2 names for a failed internal check).  In the source the two
`throw` sites of `readFile` raise a `StandardException` whose message says
which of the two happened. -/
inductive Error where
  | invalidArgument
  | ioError
  | malformedInput
  | insufficientData
  | invalidState
  deriving DecidableEq, Repr

/-- Equality of results `Except ε α` is decidable when it is on both sides. -/
instance decEqExcept {ε α : Type} [DecidableEq ε] [DecidableEq α] : DecidableEq (Except ε α)
  | Except.error a, Except.error b =>
    if h : a = b then isTrue (by rw [h]) else isFalse (fun hc => h (Except.error.inj hc))
  | Except.ok a, Except.ok b =>
    if h : a = b then isTrue (by rw [h]) else isFalse (fun hc => h (Except.ok.inj hc))
  | Except.error _, Except.ok _ => isFalse (fun hc => Except.noConfusion hc)
  | Except.ok _, Except.error _ => isFalse (fun hc => Except.noConfusion hc)

/-! ## Data model -/

/-- The record `MarkovChain::Element` (one chain row). -/
structure Element where
  prob : ℚ
  like : ℚ
  params : List ℚ
  errMean : ℚ
  errVar : ℚ
  deriving DecidableEq

/-- The record `MarkovChain::ErrorEntry` (one error-log row). -/
structure ErrorEntry where
  like : ℚ
  params : List ℚ
  mean : ℚ
  var : ℚ
  deriving DecidableEq

/-- The class `MarkovChain`, by its data members. -/
structure MarkovChain where
  chain_ : List Element
  nParams_ : Int
  minLike_ : ℚ
  errors_ : List ErrorEntry
  deriving DecidableEq

/-- A non-empty line of a chain file: the doubles read by
`str >> elem->prob >> elem->like`, then the doubles the remaining tokens
convert to. -/
structure ChainLine where
  prob : ℚ
  like : ℚ
  rest : List ℚ
  deriving DecidableEq

/-- A chain file: its lines, `none` being an empty line. -/
abbrev ChainFile := List (Option ChainLine)

/-- An error-log file: its lines, `none` being an empty line, a line being the
doubles its tokens convert to. -/
abbrev ErrorFile := List (Option (List ℚ))

/-! ## Parts of the repository that are not among the sources at hand -/

/-- Modelled from the spec: `Element::operator<` is declared in
`markov_chain.hpp`, which is missing.  The specification (section 3 and 4.1)
says the store is "sorted by descending weight", "higher posterior weight
first": an element is less than another when its weight is larger. -/
def Element.lt (a b : Element) : Bool := decide (b.prob < a.prob)

/-- Modelled from the spec: `ErrorEntry::operator<` is declared in
`markov_chain.hpp`, which is missing.  The specification (section 3) says the
error records are "sorted ascending by `logLikelihood`". -/
def ErrorEntry.lt (a b : ErrorEntry) : Bool := decide (a.like < b.like)

/-- Modelled from the spec: `Math::areEqual` is declared in `numerics.hpp`,
which is missing.  The specification (section 4.1) says the parameters match
"within relative tolerance": the distance is at most `precision` times the
larger magnitude. -/
def Math.areEqual (a b precision : ℚ) : Bool :=
  decide (|a - b| ≤ precision * max |a| |b|)

/-- Modelled from the spec: the macro `check(condition, message)` is defined in
`macros.hpp`, which is missing.  The specification (section 7) says a violated
argument condition is a fatal `InvalidArgument`; `none` means the check
passed. -/
def check (condition : Bool) : Option Error :=
  if condition then none else some Error.invalidArgument

/-- Modelled from the spec: the macro `check(condition, message)` of the
missing `macros.hpp` at a call whose failure the specification (sections 4.2
and 7) files under another kind than `InvalidArgument`: `InsufficientData` for
a degenerate sample set, `InvalidState` for a failed internal check. -/
def checkKind (kind : Error) (condition : Bool) : Option Error :=
  if condition then none else some kind

/-! ## Library algorithms -/

/-- The algorithm `std::sort(first, last, comp)`.  It leaves a permutation of
the range in which no element is `comp`-less than an element before it; the
order of equivalent elements is left open by the standard, and this model
takes the one of a stable insertion sort. -/
def stdSort {α : Type} (comp : α → α → Bool) (l : List α) : List α :=
  l.insertionSort (fun a b => comp b a = false)

/-- The algorithm `std::lower_bound(first, last, value)` on a range that is
partitioned with respect to `e < value` (as a sorted range is): the position of
the first element that is not less than `value`. -/
def lowerBound {α : Type} (lt : α → α → Bool) (value : α) : List α → Nat
  | [] => 0
  | e :: es => if lt e value then lowerBound lt value es + 1 else 0

/-- The comparison `lessMarkovChainElementPointer(i, j)`: `(*i) < (*j)`. -/
def lessMarkovChainElementPointer (i j : Element) : Bool := Element.lt i j

/-! ## `MarkovChain::readFile` -/

/-- The inner loop of `readFile` and of `readErrorFiles` that collects the
doubles of a line: it stops at the end of the line, and also at a token whose
value is the sentinel `std::numeric_limits<double>::min()`. -/
def readValues : List ℚ → List ℚ
  | [] => []
  | val :: rest => if val = DBL_MIN then [] else val :: readValues rest

/-- The loop `for(i = 0; i < elem->params.size(); ++i)` of `readFile` comparing
the sample's parameters with `it->params`.  Reading `it->params[i]` past the
end of a shorter record is undefined in C++; it counts as a mismatch here. -/
def paramsEqual : List ℚ → List ℚ → Bool
  | [], _ => true
  | _ :: _, [] => false
  | p :: ps, q :: qs => if Math.areEqual p q (1 / 100000) then paramsEqual ps qs else false

/-- The loop `while(it != end)` of `readFile`: the first record of the window
whose parameters equal the sample's. -/
def findError (params : List ℚ) : List ErrorEntry → Option ErrorEntry
  | [] => none
  | e :: es => if paramsEqual params e.params then some e else findError params es

/-- The block `if(!errors_.empty())` of `readFile`: the window of records is
delimited by two `lower_bound` calls at `like - 0.05` and `like + 0.05`, and the
first matching record gives the sample its `errMean` and `errVar`. -/
def attachError (errors_ : List ErrorEntry) (elem : Element) : Element :=
  if errors_.isEmpty then elem
  else
    let it := lowerBound ErrorEntry.lt ⟨elem.like - 1 / 20, [], 0, 0⟩ errors_
    let stop := lowerBound ErrorEntry.lt ⟨elem.like + 1 / 20, [], 0, 0⟩ errors_
    match findError elem.params ((errors_.take stop).drop it) with
    | some e => { elem with errMean := e.mean, errVar := e.var }
    | none => elem

/-- The local variables of `readFile` that live across iterations of its
`while(!in.eof())` loop, with the two data members the loop writes. -/
structure ReadState where
  nParams_ : Int
  minLike_ : ℚ
  bigChain : List Element
  maxP : ℚ
  line : Nat
  deriving DecidableEq

/-- The element a line is parsed into, before the error log is consulted. -/
def parseLine (l : ChainLine) : Element :=
  { prob := l.prob, like := l.like, params := readValues l.rest, errMean := 0, errVar := 0 }

/-- The loop `while(!in.eof())` of `readFile` over the remaining lines.  The
result is the state at the end of the loop or at the `throw`, and the error
thrown if any.  (In the source the element is pushed onto `bigChain` before the
error log is consulted, through a pointer, so the pushed element is the one
with the error fields set.) -/
def readLoop (errors_ : List ErrorEntry) (burnin thin : Nat) :
    List (Option ChainLine) → ReadState → ReadState × Option Error
  | [], st => (st, none)
  | none :: _, st => (st, none)
  | some l :: rest, st =>
    let elem := parseLine l
    let maxP := if elem.prob > st.maxP then elem.prob else st.maxP
    let minLike := if elem.like < st.minLike_ then elem.like else st.minLike_
    let next (nParams : Int) : ReadState × Option Error :=
      let bigChain :=
        if st.line ≥ burnin ∧ (st.line - burnin) % thin = 0
        then st.bigChain ++ [attachError errors_ elem] else st.bigChain
      readLoop errors_ burnin thin rest
        { nParams_ := nParams, minLike_ := minLike, bigChain := bigChain, maxP := maxP,
          line := st.line + 1 }
    if st.nParams_ = -1 then next (elem.params.length : Int)
    else if st.nParams_ ≠ (elem.params.length : Int) then
      ({ st with minLike_ := minLike, maxP := maxP }, some Error.malformedInput)
    else next st.nParams_

/-- The member function `MarkovChain::readFile(fileName, burnin, thin, bigChain,
maxP)`.  The result is the object after the call and either the error thrown
or the two output parameters `bigChain` and `maxP`. -/
def MarkovChain.readFile (mc : MarkovChain) (file : Option ChainFile) (burnin thin : Nat)
    (bigChain : List Element) : MarkovChain × Except Error (List Element × ℚ) :=
  match check (decide (thin > 0)) with
  | some e => (mc, Except.error e)
  | none =>
    match file with
    | none => (mc, Except.error Error.ioError)
    | some lines =>
      let r := readLoop mc.errors_ burnin thin lines
        { nParams_ := -1, minLike_ := mc.minLike_, bigChain := bigChain, maxP := DBL_MIN,
          line := 0 }
      let mc1 := { mc with nParams_ := r.1.nParams_, minLike_ := r.1.minLike_ }
      match r.2 with
      | some e => (mc1, Except.error e)
      | none => (mc1, Except.ok (r.1.bigChain, r.1.maxP))

/-! ## `MarkovChain::filterChain`, `addFile` and the constructors -/

/-- The loop of `filterChain` over the remaining candidates: a candidate with
`prob < minP` is deleted, any other is pushed onto `chain_`. -/
def filterLoop (minP : ℚ) : List Element → List Element → List Element
  | [], chain => chain
  | e :: rest, chain =>
    if e.prob < minP then filterLoop minP rest chain
    else filterLoop minP rest (chain ++ [e])

/-- The member function `MarkovChain::filterChain(bigChain, minP)`. -/
def MarkovChain.filterChain (mc : MarkovChain) (bigChain : List Element) (minP : ℚ) :
    MarkovChain :=
  { mc with chain_ := filterLoop minP bigChain mc.chain_ }

/-- The statement `std::sort(chain_.begin(), chain_.end(),
lessMarkovChainElementPointer)`. -/
def MarkovChain.sortChain (mc : MarkovChain) : MarkovChain :=
  { mc with chain_ := stdSort lessMarkovChainElementPointer mc.chain_ }

/-- The member function `MarkovChain::addFile(fileName, burnin, thin)`: the
object after the call and the error thrown, if any. -/
def MarkovChain.addFile (mc : MarkovChain) (file : Option ChainFile) (burnin thin : Nat) :
    MarkovChain × Option Error :=
  match mc.readFile file burnin thin [] with
  | (mc1, Except.error e) => (mc1, some e)
  | (mc1, Except.ok (bigChain, maxP)) =>
    let minP := maxP / (bigChain.length : ℚ) / 1000
    ((mc1.filterChain bigChain minP).sortChain, none)

/-! ## `MarkovChain::readErrorFiles` -/

/-- The loop `while(!in.eof())` of `readErrorFiles` over the remaining lines of
one error-log file: `nPar` is the parameter count of the file so far (`-1`
before its first line), `errors` is `errors_`.  The result is `errors_` at the
end of the loop or at the `throw`, and the error thrown if any. -/
def readErrorLoop : List (Option (List ℚ)) → Int → List ErrorEntry →
    List ErrorEntry × Option Error
  | [], _, errors => (errors, none)
  | none :: _, _, errors => (errors, none)
  | some tokens :: rest, nPar, errors =>
    let p0 := readValues tokens
    if p0.length < 6 then (errors, some Error.malformedInput)
    else
      let var := p0.getLast?.getD 0
      let p1 := p0.dropLast
      let mean := p1.getLast?.getD 0
      let p2 := p1.dropLast
      let p3 := p2.dropLast
      let p4 := p3.dropLast
      let like := p4.getLast?.getD 0
      let p5 := p4.dropLast
      let e : ErrorEntry := { like := like, params := p5, mean := mean, var := var }
      if nPar = -1 then readErrorLoop rest (p5.length : Int) (errors ++ [e])
      else if nPar ≠ (p5.length : Int) then (errors, some Error.malformedInput)
      else readErrorLoop rest nPar (errors ++ [e])

/-- The loop `for(int i = 0; i < nError; ++i)` of `readErrorFiles` over the
remaining file indices; `errorFile i` is the file the `i`-th name
(`base.txt`, or `base_i.txt` when `nError > 1`) resolves to. -/
def readErrorFilesLoop (errorFile : Nat → Option ErrorFile) :
    List Nat → List ErrorEntry → List ErrorEntry × Option Error
  | [], errors => (errors, none)
  | i :: is, errors =>
    match errorFile i with
    | none => (errors, some Error.ioError)
    | some lines =>
      match readErrorLoop lines (-1) errors with
      | (errors1, some e) => (errors1, some e)
      | (errors1, none) => readErrorFilesLoop errorFile is errors1

/-- The member function `MarkovChain::readErrorFiles(nError, fileNameBase)`. -/
def MarkovChain.readErrorFiles (mc : MarkovChain) (nError : Int)
    (errorFile : Nat → Option ErrorFile) : MarkovChain × Option Error :=
  match readErrorFilesLoop errorFile (List.range nError.toNat) mc.errors_ with
  | (errors, some e) => ({ mc with errors_ := errors }, some e)
  | (errors, none) => ({ mc with errors_ := stdSort ErrorEntry.lt errors }, none)

/-! ## The constructors -/

/-- The object at the start of a constructor body: the two vectors are empty.
The scalar members are not initialised in C++; each constructor assigns
`minLike_`, and `readFile` assigns `nParams_`, before either is read. -/
def MarkovChain.init : MarkovChain :=
  { chain_ := [], nParams_ := -1, minLike_ := DBL_MAX, errors_ := [] }

/-- The optional first step of both constructors:
`if(errorLogFileNameBase) readErrorFiles(n, errorLogFileNameBase)`; a null
`errorLogFileNameBase` is `none`. -/
def MarkovChain.readErrorLog (mc : MarkovChain) (errorLog : Option (Nat → Option ErrorFile))
    (n : Int) : MarkovChain × Option Error :=
  match errorLog with
  | none => (mc, none)
  | some errorFile => mc.readErrorFiles n errorFile

/-- The constructor `MarkovChain(fileName, burnin, thin, errorLogFileNameBase,
nError)`: the object constructed, or the error thrown. -/
def MarkovChain.fromFile (file : Option ChainFile) (burnin thin : Nat)
    (errorLog : Option (Nat → Option ErrorFile)) (nError : Int) : Except Error MarkovChain :=
  match MarkovChain.init.readErrorLog errorLog nError with
  | (_, some e) => Except.error e
  | (mc0, none) =>
    match ({ mc0 with minLike_ := DBL_MAX }).addFile file burnin thin with
    | (_, some e) => Except.error e
    | (mc1, none) => Except.ok mc1

/-- The loop `for(int i = 0; i < nChains; ++i)` of the multi-chain constructor
over the remaining files, with the locals `bigChain` and `maxP`. -/
def readChains (burnin thin : Nat) :
    List (Option ChainFile) → MarkovChain → List Element → ℚ →
      MarkovChain × Except Error (List Element × ℚ)
  | [], mc, bigChain, maxP => (mc, Except.ok (bigChain, maxP))
  | file :: files, mc, bigChain, maxP =>
    match mc.readFile file burnin thin bigChain with
    | (mc1, Except.error e) => (mc1, Except.error e)
    | (mc1, Except.ok (bigChain1, thisMaxP)) =>
      readChains burnin thin files mc1 bigChain1 (if thisMaxP > maxP then thisMaxP else maxP)

/-- The constructor `MarkovChain(nChains, fileNameRoot, burnin, thin,
errorLogFileNameBase)`.  `files` lists the files the names `root.txt`
(`nChains = 1`) or `root_0.txt`, `root_1.txt`, ... resolve to, so `nChains` is
its length (a non-positive `nChains` fails the first check, as the empty list
does). -/
def MarkovChain.fromChains (files : List (Option ChainFile)) (burnin thin : Nat)
    (errorLog : Option (Nat → Option ErrorFile)) : Except Error MarkovChain :=
  match check (decide (files.length > 0)) with
  | some e => Except.error e
  | none =>
    match MarkovChain.init.readErrorLog errorLog (files.length : Int) with
    | (_, some e) => Except.error e
    | (mc0, none) =>
      match readChains burnin thin files { mc0 with minLike_ := DBL_MAX } [] DBL_MIN with
      | (_, Except.error e) => Except.error e
      | (mc1, Except.ok (bigChain, maxP)) =>
        let minP := maxP / (bigChain.length : ℚ) / 1000
        Except.ok (mc1.filterChain bigChain minP).sortChain

/-! ## `MarkovChain::getRange` -/

/-- The loop `while(total <= pUpper && it != chain_.end())` of `getRange` over
the remaining samples, with the running `total` and the output `container`. -/
def getRangeLoop (pUpper pLower : ℚ) : List Element → ℚ → List Element → List Element
  | [], _, container => container
  | e :: rest, total, container =>
    if total ≤ pUpper then
      getRangeLoop pUpper pLower rest (total + e.prob)
        (if total + e.prob > pLower then container ++ [e] else container)
    else container

/-- The member function `MarkovChain::getRange(container, pUpper, pLower)`:
the output container after the call and the error thrown, if any. -/
def MarkovChain.getRange (mc : MarkovChain) (container : List Element) (pUpper pLower : ℚ) :
    List Element × Option Error :=
  match check (decide (pUpper ≥ 0 ∧ pUpper ≤ 1)) with
  | some e => (container, some e)
  | none =>
    match check (decide (pLower ≥ 0 ∧ pLower ≤ pUpper)) with
    | some e => (container, some e)
    | none =>
      if pUpper = 0 then ([], none)
      else if pLower = 1 then ([] ++ mc.chain_, none)
      else (getRangeLoop pUpper pLower mc.chain_ 0 [], none)

/-! ## `Posterior1D` -/

/-- The enumeration `Posterior1D::SmoothingMethod`, by the two methods that
`generate` knows. -/
inductive SmoothingMethod where
  | GAUSSIAN_SMOOTHING
  | SPLINE_SMOOTHING
  deriving DecidableEq, Repr

/-- A fitted smoothing surface (`Math::GaussSmooth`, `Math::CubicSpline`), by
the two capabilities the specification gives it: the value and the error at a
point. -/
structure Surface where
  evaluate : ℚ → ℚ
  evaluateError : ℚ → ℚ

/-- The numerical routines that `generate` calls and that are not among the
sources at hand, taken as parameters: `std::sqrt` and `std::pow`, whose values
are not rational in general, and the constructors of the two smoothers,
`Math::GaussSmooth(x, y, scale, &vars)` and `Math::CubicSpline(x, y)`. -/
structure Numerics where
  sqrt : ℚ → ℚ
  pow : ℚ → ℚ → ℚ
  gaussSmooth : List ℚ → List ℚ → ℚ → List ℚ → Surface
  cubicSpline : List ℚ → List ℚ → Surface

/-- Modelled from the spec: the class `Math::TableFunction<double, double>` is
declared in the missing `table_function.hpp`.  The specification (section 3)
calls it a lookup table that maps a cumulative probability to a value, and the
source fills it through `(*cumulInv_)[key] = value`: a map from keys to values,
given here by its entries in ascending order of key. -/
abbrev TableFunction := List (ℚ × ℚ)

/-- Modelled from the spec: the assignment `table[key] = value` on a
`Math::TableFunction`, as on a `std::map`: the entry of an existing key is
overwritten, a new key is inserted at its place in the order. -/
def tableAssign : TableFunction → ℚ → ℚ → TableFunction
  | [], key, value => [(key, value)]
  | (k0, v0) :: rest, key, value =>
    if key < k0 then (key, value) :: (k0, v0) :: rest
    else if key = k0 then (key, value) :: rest
    else (k0, v0) :: tableAssign rest key value

/-- The class `Posterior1D`, by the data members that `markov_chain.cpp`
uses. -/
structure Posterior1D where
  points_ : List ℚ
  probs_ : List ℚ
  likes_ : List ℚ
  errMean_ : List ℚ
  errVar_ : List ℚ
  min_ : ℚ
  max_ : ℚ
  minLike_ : ℚ
  maxLikePoint_ : ℚ
  method_ : SmoothingMethod
  smooth_ : Option Surface
  cumulInv_ : Option TableFunction
  mean_ : ℚ
  norm_ : ℚ
  deltaNorm_ : ℚ

/-- Modelled from the spec: the constructor of `Posterior1D` is in the missing
`markov_chain.hpp`.  The specification (section 3) says `minValue` and
`maxValue` are those of the point set and that nothing is fitted before
`generate`: the buffers are empty, `min_` and `minLike_` start at the largest
double, `max_` at the lowest, and there is no surface and no table. -/
def Posterior1D.init : Posterior1D :=
  { points_ := [], probs_ := [], likes_ := [], errMean_ := [], errVar_ := [],
    min_ := DBL_MAX, max_ := -DBL_MAX, minLike_ := DBL_MAX, maxLikePoint_ := 0,
    method_ := SmoothingMethod.GAUSSIAN_SMOOTHING, smooth_ := none, cumulInv_ := none,
    mean_ := 0, norm_ := 0, deltaNorm_ := 0 }

/-- The member function `Posterior1D::addPoint(x, prob, like, errMean, errVar)`. -/
def Posterior1D.addPoint (p : Posterior1D) (x prob like errMean errVar : ℚ) : Posterior1D :=
  let p1 := { p with points_ := p.points_ ++ [x], probs_ := p.probs_ ++ [prob],
                     likes_ := p.likes_ ++ [like], errMean_ := p.errMean_ ++ [errMean],
                     errVar_ := p.errVar_ ++ [errVar] }
  let p2 := if x < p1.min_ then { p1 with min_ := x } else p1
  let p3 := if x > p2.max_ then { p2 with max_ := x } else p2
  if like < p3.minLike_ then { p3 with minLike_ := like, maxLikePoint_ := x } else p3

/-- The comparison `LessPairFirst`: `a.first < b.first`. -/
def LessPairFirst (a b : ℚ × ℚ) : Bool := decide (a.1 < b.1)

/-- The loop of `generate` that walks the sorted points and sets the quartile
indices: `i` is the index of the next point, `last` is
`pointsSorted.size() - 1`, the state is `(q1, q3, cumulWeight)`. -/
def quartileLoop (totalWeight : ℚ) (last : Int) :
    List (ℚ × ℚ) → Int → Int × Int × ℚ → Int × Int × ℚ
  | [], _, st => st
  | pt :: rest, i, (q1, q3, cumulWeight) =>
    let cumul := cumulWeight + pt.2
    let q1n := if cumul ≥ 1 / 4 * totalWeight ∧ q1 = 0 then i else q1
    let q3n := if cumul ≥ 3 / 4 * totalWeight ∧ q3 = last then i else q3
    quartileLoop totalWeight last rest (i + 1) (q1n, q3n, cumul)

/-- The conversion of a `double` to `int`: truncation toward zero, when the
truncated value lies in `[INT_MIN, INT_MAX]`.  For any other value the language
leaves the conversion undefined; the conversion instruction of x86-64 then
gives `INT_MIN`, which is the value taken here. -/
def toInt (q : ℚ) : Int :=
  if INT_MIN ≤ (if 0 ≤ q then ⌊q⌋ else ⌈q⌉) ∧ (if 0 ≤ q then ⌊q⌋ else ⌈q⌉) ≤ INT_MAX
  then (if 0 ≤ q then ⌊q⌋ else ⌈q⌉) else INT_MIN

/-- The statement `l[i] += w` on a `std::vector<double>`. -/
def addAt (l : List ℚ) (i : Nat) (w : ℚ) : List ℚ := l.set i (l.getD i 0 + w)

/-- The locals `y`, `vars`, `totalP` and the member `mean_` that the histogram
loop of `generate` updates. -/
structure Histogram where
  y : List ℚ
  vars : List ℚ
  mean : ℚ
  totalP : ℚ
  deriving DecidableEq

/-- The loop `for(i = 0; i < points_.size(); ++i)` of `generate` that fills
the histogram, over the remaining points, with the weights `probs_[i]` and the
variances `errVar_[i]` from the same index on. -/
def histogramLoop (min_ d : ℚ) (resolution : Int) :
    List ℚ → List ℚ → List ℚ → Histogram → Histogram × Option Error
  | [], _, _, h => (h, none)
  | pt :: points, probs, errVars, h =>
    match checkKind Error.invalidState (decide (pt ≥ min_)) with
    | some e => (h, some e)
    | none =>
      let k0 : Int := ⌊(pt - min_) / d⌋
      match checkKind Error.invalidState (decide (k0 ≥ 0)) with
      | some e => (h, some e)
      | none =>
        let k : Int := if k0 ≥ resolution then resolution - 1 else k0
        let w := probs.headD 0
        let errVar := errVars.headD 0
        histogramLoop min_ d resolution points probs.tail errVars.tail
          { y := addAt h.y (k + 1).toNat w,
            vars := addAt h.vars (k + 1).toNat (w * errVar / 4),
            mean := h.mean + pt * w,
            totalP := h.totalP + w }

/-- The loop `for(i = 0; i < vars.size(); ++i)` of `generate` that turns the
accumulated variances into errors, over the remaining entries of `vars` and
`y`: the entries done and `varNorm`, or the error thrown. -/
def varsLoop (lib : Numerics) (size : Nat) (totalP : ℚ) :
    List ℚ → List ℚ → List ℚ × ℚ → Except Error (List ℚ × ℚ)
  | [], _, acc => Except.ok acc
  | v :: vars, ys, (done, varNorm) =>
    if ys.headD 0 ≠ 0 then
      let v1 := lib.sqrt v / lib.sqrt ((size : ℚ) / totalP)
      varsLoop lib size totalP vars ys.tail (done ++ [v1], varNorm + v1 * v1)
    else
      match checkKind Error.invalidState (decide (v = 0)) with
      | some e => Except.error e
      | none => varsLoop lib size totalP vars ys.tail (done ++ [v], varNorm + v * v)

/-- What `generate` has computed when it reaches the fit: the grid `x`, the
histogram `y` with its smoothed edges, the errors `vars`, the bandwidth, the
bin count, `varNorm`, `totalP` and the weighted sum of the points. -/
structure Prepared where
  x : List ℚ
  y : List ℚ
  vars : List ℚ
  scale : ℚ
  resolution : Int
  varNorm : ℚ
  totalP : ℚ
  mean : ℚ
  deriving DecidableEq

/-- The interquartile range and the bin count that `generate` derives from the
points and weights: the pairs are sorted by value, the quartile indices are set
by `quartileLoop`, and the bin width is `2 * iqr * n^(-1/3)`. -/
def binning (lib : Numerics) (points probs : List ℚ) (min_ max_ : ℚ) : ℚ × Int :=
  let pairs := points.zip probs
  let totalWeight := (pairs.map Prod.snd).foldl (fun acc w => acc + w) 0
  let pointsSorted := stdSort LessPairFirst pairs
  let last : Int := (pointsSorted.length : Int) - 1
  let q := quartileLoop totalWeight last pointsSorted 0 (0, last, 0)
  let iqr := (pointsSorted.getD q.2.1.toNat (0, 0)).1 - (pointsSorted.getD q.1.toNat (0, 0)).1
  let myBinSize := 2 * iqr * lib.pow (pointsSorted.length : ℚ) (-1 / 3)
  let resolution : Int :=
    if myBinSize = 0 ∨ pointsSorted.length < 5 then 1 else toInt ((max_ - min_) / myBinSize)
  (iqr, resolution)

/-- The part of `generate` from its first statement up to `mean_ /= totalP`:
the object at that point (or at the `throw`) and either the error thrown or
what has been computed for the fit. -/
def Posterior1D.prepare (lib : Numerics) (p : Posterior1D) (method : SmoothingMethod)
    (scale : ℚ) : Posterior1D × Except Error Prepared :=
  let p1 := { p with method_ := method }
  match checkKind Error.insufficientData (decide (p1.points_.length ≥ 2)) with
  | some e => (p1, Except.error e)
  | none =>
  match checkKind Error.invalidState (decide (p1.points_.length = p1.probs_.length)) with
  | some e => (p1, Except.error e)
  | none =>
  match checkKind Error.insufficientData (decide (p1.max_ > p1.min_)) with
  | some e => (p1, Except.error e)
  | none =>
  match check (decide (scale ≥ 0)) with
  | some e => (p1, Except.error e)
  | none =>
  let b := binning lib p1.points_ p1.probs_ p1.min_ p1.max_
  let iqr := b.1
  let resolution := b.2
  match (if scale = 0 then checkKind Error.insufficientData (decide (iqr > 0)) else none) with
  | some e => (p1, Except.error e)
  | none =>
  let scale1 := if scale = 0 then iqr / 8 else scale
  match checkKind Error.invalidState (decide (resolution > 0)) with
  | some e => (p1, Except.error e)
  | none =>
  let res := resolution.toNat
  let d := (p1.max_ - p1.min_) / (resolution : ℚ)
  let x := [p1.min_] ++ (List.range res).map (fun i => p1.min_ + d * (i : ℚ) + d / 2)
    ++ [p1.max_]
  match histogramLoop p1.min_ d resolution p1.points_ p1.probs_ p1.errVar_
      { y := List.replicate (res + 2) 0, vars := List.replicate (res + 2) 0, mean := 0,
        totalP := 0 } with
  | (h, some e) => ({ p1 with mean_ := h.mean }, Except.error e)
  | (h, none) =>
  let p2 := { p1 with mean_ := h.mean }
  match varsLoop lib p1.points_.length h.totalP h.vars h.y ([], 0) with
  | Except.error e => (p2, Except.error e)
  | Except.ok (vars, varNorm0) =>
  let varNorm := lib.sqrt varNorm0
  let y1 := h.y.set 0 (h.y.getD 1 0)
  let y2 := y1.set (res + 1) (y1.getD res 0)
  match checkKind Error.insufficientData (decide (h.totalP ≠ 0)) with
  | some e => (p2, Except.error e)
  | none =>
  ({ p2 with mean_ := h.mean / h.totalP },
    Except.ok { x := x, y := y2, vars := vars, scale := scale1, resolution := resolution,
                varNorm := varNorm, totalP := h.totalP, mean := h.mean / h.totalP })

/-- The local `norm_` accumulator and the table under construction in the
integration loop of `generate`. -/
structure Integration where
  norm : ℚ
  table : TableFunction
  deriving DecidableEq

/-- The loop `for(i = 0; i <= N; ++i)` of `generate` that integrates the
surface and fills the inverse table, over the remaining indices.  (The locals
`maxVal` and `maxX` of the source are written and never read, and are left
out.) -/
def integrateLoop (surface : Surface) (x0 xLast delta : ℚ) (N : Int) :
    List Nat → Integration → Integration × Option Error
  | [], st => (st, none)
  | i :: rest, st =>
    let v := if (i : Int) = N then xLast else x0 + (i : ℚ) * delta
    match checkKind Error.invalidState (decide (v ≤ xLast)) with
    | some e => (st, some e)
    | none =>
      let y0 := surface.evaluate v
      let y := if y0 < 0 then 0 else y0
      let norm := st.norm + y * delta
      integrateLoop surface x0 xLast delta N rest
        { norm := norm, table := tableAssign st.table norm v }

/-- The member function `Posterior1D::generate(method, scale)`: the object
after the call and the error thrown, if any.  `N = 100 * resolution` is an
`int` product (`wrapInt`); the loop `for(int i = 0; i <= N; ++i)` has `N + 1`
iterations, and none when `N` is negative. -/
def Posterior1D.generate (lib : Numerics) (p : Posterior1D) (method : SmoothingMethod)
    (scale : ℚ) : Posterior1D × Option Error :=
  match p.prepare lib method scale with
  | (p2, Except.error e) => (p2, some e)
  | (p2, Except.ok r) =>
  match (if p2.smooth_.isSome then checkKind Error.invalidState p2.cumulInv_.isSome else none)
    with
  | some e => (p2, some e)
  | none =>
  let surface := match method with
    | SmoothingMethod.GAUSSIAN_SMOOTHING => lib.gaussSmooth r.x r.y r.scale r.vars
    | SmoothingMethod.SPLINE_SMOOTHING => lib.cubicSpline r.x r.y
  let N : Int := wrapInt (100 * r.resolution)
  let x0 := r.x.headD 0
  let xLast := r.x.getLastD 0
  let delta := (xLast - x0) / (N : ℚ)
  match integrateLoop surface x0 xLast delta N (List.range (N + 1).toNat)
      { norm := 0, table := tableAssign [] 0 0 } with
  | (st, some e) =>
    ({ p2 with smooth_ := some surface, cumulInv_ := some st.table, norm_ := st.norm }, some e)
  | (st, none) =>
    ({ p2 with smooth_ := some surface, cumulInv_ := some st.table, norm_ := st.norm,
               deltaNorm_ := r.varNorm / r.totalP * st.norm, points_ := [], probs_ := [] },
      none)

/-! ## `Posterior2D`: the data and `generate` from the fit on -/

/-- A fitted 2-D surface (`Math::GaussSmooth2D`), by its capability: the value
at a point. -/
structure Surface2D where
  evaluate : ℚ → ℚ → ℚ

/-- The class `Posterior2D`, by the data members that `markov_chain.cpp`
uses. -/
structure Posterior2D where
  points1_ : List ℚ
  points2_ : List ℚ
  probs_ : List ℚ
  min1_ : ℚ
  max1_ : ℚ
  min2_ : ℚ
  max2_ : ℚ
  minLike_ : ℚ
  maxLikePoint1_ : ℚ
  maxLikePoint2_ : ℚ
  smooth_ : Option Surface2D
  cumulInv_ : Option TableFunction
  norm_ : ℚ

/-- The member function `Posterior2D::addPoint(x1, x2, prob, like)`. -/
def Posterior2D.addPoint (p : Posterior2D) (x1 x2 prob like : ℚ) : Posterior2D :=
  let p1 := { p with points1_ := p.points1_ ++ [x1], points2_ := p.points2_ ++ [x2],
                     probs_ := p.probs_ ++ [prob] }
  let p2 := if x1 < p1.min1_ then { p1 with min1_ := x1 } else p1
  let p3 := if x2 < p2.min2_ then { p2 with min2_ := x2 } else p2
  let p4 := if x1 > p3.max1_ then { p3 with max1_ := x1 } else p3
  let p5 := if x2 > p4.max2_ then { p4 with max2_ := x2 } else p4
  if like < p5.minLike_ then
    { p5 with minLike_ := like, maxLikePoint1_ := x1, maxLikePoint2_ := x2 }
  else p5

/-- The constants `N1` and `N2` of `Posterior2D::generate`. -/
def Posterior2D.N1 : Nat := 1000

/-- The constant `N2` of `Posterior2D::generate`. -/
def Posterior2D.N2 : Nat := 1000

/-- The inner loop `for(j = 0; j <= N2; ++j)` of the sampling of the surface,
over the remaining indices, with the samples `probs` and `norm_` so far. -/
def sampleRow (surface : Surface2D) (v1 x2first x2last delta1 delta2 : ℚ) (N2 : Nat) :
    List Nat → List ℚ × ℚ → (List ℚ × ℚ) × Option Error
  | [], st => (st, none)
  | j :: rest, st =>
    let v2 := if j = N2 then x2last else x2first + (j : ℚ) * delta2
    match checkKind Error.invalidState (decide (v2 ≤ x2last)) with
    | some e => (st, some e)
    | none =>
      let y := surface.evaluate v1 v2
      sampleRow surface v1 x2first x2last delta1 delta2 N2 rest
        (st.1 ++ [y], st.2 + y * delta1 * delta2)

/-- The outer loop `for(i = 0; i <= N1; ++i)` of the sampling of the surface,
over the remaining indices. -/
def sampleGrid (surface : Surface2D) (x1first x1last x2first x2last delta1 delta2 : ℚ)
    (N1 N2 : Nat) : List Nat → List ℚ × ℚ → (List ℚ × ℚ) × Option Error
  | [], st => (st, none)
  | i :: rest, st =>
    let v1 := if i = N1 then x1last else x1first + (i : ℚ) * delta1
    match checkKind Error.invalidState (decide (v1 ≤ x1last)) with
    | some e => (st, some e)
    | none =>
      match sampleRow surface v1 x2first x2last delta1 delta2 N2 (List.range (N2 + 1)) st with
      | (st1, some e) => (st1, some e)
      | (st1, none) =>
        sampleGrid surface x1first x1last x2first x2last delta1 delta2 N1 N2 rest st1

/-- The loop `while(total < 1 && index >= 0)` of `Posterior2D::generate` over
the remaining sampled values, from the largest down, with the running `total`
and the table. -/
def credibleLoop (norm delta1 delta2 : ℚ) : List ℚ → ℚ → TableFunction → TableFunction
  | [], _, table => table
  | pr :: rest, total, table =>
    if total < 1 then
      credibleLoop norm delta1 delta2 rest (total + pr / norm * delta1 * delta2)
        (tableAssign table total (pr / norm))
    else table

/-- The sampling of the surface as `Posterior2D::generate` runs it on the grids
`x1` and `x2`: the sampled values and `norm_`, and the error thrown, if any. -/
def Posterior2D.sample (surface : Surface2D) (x1 x2 : List ℚ) :
    (List ℚ × ℚ) × Option Error :=
  sampleGrid surface (x1.headD 0) (x1.getLastD 0) (x2.headD 0) (x2.getLastD 0)
    ((x1.getLastD 0 - x1.headD 0) / (Posterior2D.N1 : ℚ))
    ((x2.getLastD 0 - x2.headD 0) / (Posterior2D.N2 : ℚ))
    Posterior2D.N1 Posterior2D.N2 (List.range (Posterior2D.N1 + 1)) ([], 0)

/-- The part of `Posterior2D::generate` from the statement
`smooth_ = new Math::GaussSmooth2D(x1, x2, y, scale1, scale2)` to its end:
`surface` is the object that the constructor call returns, `x1` and `x2` are
the grids of bin positions.  The result is the object after the call and the
error thrown, if any; a normalization that is not positive counts as
insufficient data. -/
def Posterior2D.integrate (p : Posterior2D) (surface : Surface2D) (x1 x2 : List ℚ) :
    Posterior2D × Option Error :=
  let p1 := { p with smooth_ := some surface, norm_ := 0 }
  let delta1 := (x1.getLastD 0 - x1.headD 0) / (Posterior2D.N1 : ℚ)
  let delta2 := (x2.getLastD 0 - x2.headD 0) / (Posterior2D.N2 : ℚ)
  match Posterior2D.sample surface x1 x2 with
  | (st, some e) => ({ p1 with norm_ := st.2 }, some e)
  | (st, none) =>
    match checkKind Error.insufficientData (decide (st.2 > 0)) with
    | some e => ({ p1 with norm_ := st.2 }, some e)
    | none =>
      let probs := stdSort (fun a b : ℚ => decide (a < b)) st.1
      let table := tableAssign (credibleLoop st.2 delta1 delta2 probs.reverse 0 []) 1 0
      ({ p1 with norm_ := st.2, cumulInv_ := some table, points1_ := [], points2_ := [],
                 probs_ := [] }, none)

/-- Modelled from the spec: the constructor of `Posterior2D` is in the missing
`markov_chain.hpp`.  As for `Posterior1D`, the buffers are empty, the minima
start at the largest double, the maxima at the lowest, and there is no surface
and no table. -/
def Posterior2D.init : Posterior2D :=
  { points1_ := [], points2_ := [], probs_ := [], min1_ := DBL_MAX, max1_ := -DBL_MAX,
    min2_ := DBL_MAX, max2_ := -DBL_MAX, minLike_ := DBL_MAX, maxLikePoint1_ := 0,
    maxLikePoint2_ := 0, smooth_ := none, cumulInv_ := none, norm_ := 0 }

/-! ## `Posterior1D`: the queries -/

/-- The member function `Posterior1D::evaluateError(x)`: the error of the
density at `x`, or the error thrown by `check(smooth_, "not generated")`.  The
cast of `smooth_` to `Math::GaussSmooth*` gives the surface with its
`evaluateError`. -/
def Posterior1D.evaluateError (lib : Numerics) (p : Posterior1D) (x : ℚ) : Except Error ℚ :=
  match p.smooth_ with
  | none => Except.error Error.invalidState
  | some gs =>
    if p.method_ ≠ SmoothingMethod.GAUSSIAN_SMOOTHING then Except.ok 0
    else
      let a := gs.evaluate x
      let deltaA := gs.evaluateError x
      Except.ok (a / p.norm_
        * lib.sqrt (deltaA * deltaA / (a * a) + p.deltaNorm_ * p.deltaNorm_ / (p.norm_ * p.norm_)))

/-- Modelled from the spec: the accessor `Posterior1D::min()` is defined in the
missing `markov_chain.hpp`; the specification (section 3) has `minValue` as a
datum of the density. -/
def Posterior1D.min (p : Posterior1D) : ℚ := p.min_

/-- Modelled from the spec: the accessor `Posterior1D::max()` is defined in the
missing `markov_chain.hpp`; the specification (section 3) has `maxValue` as a
datum of the density. -/
def Posterior1D.max (p : Posterior1D) : ℚ := p.max_

/-- Modelled from the spec: `Posterior1D::evaluate(x)` is defined in the
missing `markov_chain.hpp`.  The specification (section 4.2 and the second open
question of section 9) says it returns the surface value at `x`, not divided
by the normalization; there is no value when nothing has been fitted. -/
def Posterior1D.evaluate (p : Posterior1D) (x : ℚ) : Option ℚ :=
  p.smooth_.map (fun s => s.evaluate x)

/-- The constant `nPoints` of `Posterior1D::peak`. -/
def Posterior1D.nPoints : Nat := 10000

/-- The loop `for(i = 0; i <= nPoints; ++i)` of `Posterior1D::peak` over the
remaining indices, with the state `(peakVal, x)`; there is no result when
`evaluate` has none. -/
def peakLoop (p : Posterior1D) (delta : ℚ) (nPoints : Nat) :
    List Nat → ℚ × ℚ → Option (ℚ × ℚ)
  | [], st => some st
  | i :: rest, st =>
    let t := if i = nPoints then p.max else p.min + (i : ℚ) * delta
    match p.evaluate t with
    | none => none
    | some y => peakLoop p delta nPoints rest (if y > st.1 then (y, t) else st)

/-- The member function `Posterior1D::peak()`. -/
def Posterior1D.peak (p : Posterior1D) : Option ℚ :=
  let delta := (p.max - p.min) / (Posterior1D.nPoints : ℚ)
  (peakLoop p delta Posterior1D.nPoints (List.range (Posterior1D.nPoints + 1)) (0, p.min)).map
    Prod.snd

/-! ## `Posterior2D::generate` up to the fit, and the whole call -/

/-- The interquartile range and the bin count of one axis, as
`Posterior2D::generate` derives them from the pairs (value, weight) of the
axis and the total weight: the pairs are sorted by value, the quartile indices
are set by `quartileLoop`, and the bin width is `2 * iqr * n^(-1/3)`.  (On an
empty buffer the source indexes `pointsSorted` out of its bounds; the pair
`(0, 0)` is read here.) -/
def axisBinning (lib : Numerics) (pairs : List (ℚ × ℚ)) (totalWeight min_ max_ : ℚ) : ℚ × Int :=
  let pointsSorted := stdSort LessPairFirst pairs
  let last : Int := (pointsSorted.length : Int) - 1
  let q := quartileLoop totalWeight last pointsSorted 0 (0, last, 0)
  let iqr := (pointsSorted.getD q.2.1.toNat (0, 0)).1 - (pointsSorted.getD q.1.toNat (0, 0)).1
  let myBinSize := 2 * iqr * lib.pow (pointsSorted.length : ℚ) (-1 / 3)
  let res : Int :=
    if myBinSize = 0 ∨ pointsSorted.length < 5 then 1 else toInt ((max_ - min_) / myBinSize)
  (iqr, res)

/-- The locals of `Posterior2D::generate` when the bin widths `d1` and `d2`
have been computed. -/
structure Binning2D where
  iqr1 : ℚ
  iqr2 : ℚ
  res1 : Int
  res2 : Int
  scale1 : ℚ
  scale2 : ℚ
  d1 : ℚ
  d2 : ℚ
  deriving DecidableEq

/-- The part of `Posterior2D::generate` from its first statement to the
computation of the bin widths `d1` and `d2`: the error thrown, or the locals.
The buffers are paired index by index, as `addPoint` fills them. -/
def Posterior2D.binning (lib : Numerics) (p : Posterior2D) (scale1 scale2 : ℚ) :
    Except Error Binning2D :=
  let pairs1 := p.points1_.zip p.probs_
  let totalWeight := (pairs1.map Prod.snd).foldl (fun acc w => acc + w) 0
  let b1 := axisBinning lib pairs1 totalWeight p.min1_ p.max1_
  match (if scale1 = 0 then checkKind Error.insufficientData (decide (b1.1 > 0)) else none) with
  | some e => Except.error e
  | none =>
  let s1 := if scale1 = 0 then b1.1 / 8 else scale1
  match checkKind Error.invalidState (decide (p.points2_.length = p.points1_.length)) with
  | some e => Except.error e
  | none =>
  let b2 := axisBinning lib (p.points2_.zip p.probs_) totalWeight p.min2_ p.max2_
  match (if scale2 = 0 then checkKind Error.insufficientData (decide (b2.1 > 0)) else none) with
  | some e => Except.error e
  | none =>
  let s2 := if scale2 = 0 then b2.1 / 8 else scale2
  match checkKind Error.invalidState (decide (b1.2 > 0)) with
  | some e => Except.error e
  | none =>
  match checkKind Error.invalidState (decide (b2.2 > 0)) with
  | some e => Except.error e
  | none =>
  Except.ok { iqr1 := b1.1, iqr2 := b2.1, res1 := b1.2, res2 := b2.2, scale1 := s1, scale2 := s2,
              d1 := (p.max1_ - p.min1_) / (b1.2 : ℚ), d2 := (p.max2_ - p.min2_) / (b2.2 : ℚ) }

/-- The conversion `(int)std::floor(q / d)` of the histogram loop of
`Posterior2D::generate`.  For `d = 0` the quotient is not a finite double and
its conversion to `int` is not defined by the language: there is no result. -/
def floorQuotient (q d : ℚ) : Option Int := if d = 0 then none else some ⌊q / d⌋

/-- The statement `y[i][j] += w` on a `std::vector<std::vector<double> >`. -/
def addAt2 (y : List (List ℚ)) (i j : Nat) (w : ℚ) : List (List ℚ) :=
  y.set i (addAt (y.getD i []) j w)

/-- The loop `for(i = 0; i < points1_.size(); ++i)` of `Posterior2D::generate`
that fills the histogram, over the remaining points, with `points2_[i]` and
`probs_[i]` from the same index on: the histogram and the error thrown, if
any, or no result when a bin width is zero. -/
def histogram2DLoop (min1 min2 d1 d2 : ℚ) (res1 res2 : Int) :
    List ℚ → List ℚ → List ℚ → List (List ℚ) → Option (List (List ℚ) × Option Error)
  | [], _, _, y => some (y, none)
  | p1 :: points1, points2, probs, y =>
    let p2 := points2.headD 0
    match checkKind Error.invalidState (decide (p1 ≥ min1)) with
    | some e => some (y, some e)
    | none =>
    match checkKind Error.invalidState (decide (p2 ≥ min2)) with
    | some e => some (y, some e)
    | none =>
    match floorQuotient (p1 - min1) d1, floorQuotient (p2 - min2) d2 with
    | some k10, some k20 =>
      match checkKind Error.invalidState (decide (k10 ≥ 0)) with
      | some e => some (y, some e)
      | none =>
      match checkKind Error.invalidState (decide (k20 ≥ 0)) with
      | some e => some (y, some e)
      | none =>
        let k1 : Int := if k10 ≥ res1 then res1 - 1 else k10
        let k2 : Int := if k20 ≥ res2 then res2 - 1 else k20
        histogram2DLoop min1 min2 d1 d2 res1 res2 points1 points2.tail probs.tail
          (addAt2 y (k1 + 1).toNat (k2 + 1).toNat (probs.headD 0))
    | _, _ => none

/-- The two loops of `Posterior2D::generate` "to make sure edges are smooth":
in every row the first and the last entry take the value of their neighbour,
then the first and the last row take the entries of their neighbour row. -/
def mirrorEdges (res1 res2 : Nat) (y : List (List ℚ)) : List (List ℚ) :=
  let rows := y.map (fun row =>
    let row1 := row.set 0 (row.getD 1 0)
    row1.set (res2 + 1) (row1.getD res2 0))
  let rows1 := rows.set 0 (rows.getD 1 [])
  rows1.set (res1 + 1) (rows1.getD res1 [])

/-- What `Posterior2D::generate` has computed when it reaches the fit: the
grids, the histogram with its mirrored edges, and the bandwidths. -/
structure Prepared2D where
  x1 : List ℚ
  x2 : List ℚ
  y : List (List ℚ)
  scale1 : ℚ
  scale2 : ℚ
  deriving DecidableEq

/-- The part of `Posterior2D::generate` from its first statement up to the
statement `if(smooth_)`: the error thrown or what has been computed for the
fit, or no result when a bin width is zero.  No data member is written in this
part. -/
def Posterior2D.prepare (lib : Numerics) (p : Posterior2D) (scale1 scale2 : ℚ) :
    Option (Except Error Prepared2D) :=
  match p.binning lib scale1 scale2 with
  | Except.error e => some (Except.error e)
  | Except.ok b =>
    let res1 := b.res1.toNat
    let res2 := b.res2.toNat
    let x1 := [p.min1_] ++ (List.range res1).map (fun i => p.min1_ + b.d1 * (i : ℚ) + b.d1 / 2)
      ++ [p.max1_]
    let x2 := [p.min2_] ++ (List.range res2).map (fun i => p.min2_ + b.d2 * (i : ℚ) + b.d2 / 2)
      ++ [p.max2_]
    match histogram2DLoop p.min1_ p.min2_ b.d1 b.d2 b.res1 b.res2 p.points1_ p.points2_ p.probs_
        (List.replicate (res1 + 2) (List.replicate (res2 + 2) 0)) with
    | none => none
    | some (_, some e) => some (Except.error e)
    | some (y, none) =>
      some (Except.ok { x1 := x1, x2 := x2, y := mirrorEdges res1 res2 y, scale1 := b.scale1,
                        scale2 := b.scale2 })

/-- The member function `Posterior2D::generate(scale1, scale2)`: the object
after the call and the error thrown, if any, or no result when a bin width is
zero.  The constructor `Math::GaussSmooth2D(x1, x2, y, scale1, scale2)`, which
is not among the sources at hand, is the parameter `fit`. -/
def Posterior2D.generate (lib : Numerics)
    (fit : List ℚ → List ℚ → List (List ℚ) → ℚ → ℚ → Surface2D) (p : Posterior2D)
    (scale1 scale2 : ℚ) : Option (Posterior2D × Option Error) :=
  match p.prepare lib scale1 scale2 with
  | none => none
  | some (Except.error e) => some (p, some e)
  | some (Except.ok r) =>
    match (if p.smooth_.isSome then checkKind Error.invalidState p.cumulInv_.isSome else none)
      with
    | some e => some (p, some e)
    | none => some (p.integrate (fit r.x1 r.x2 r.y r.scale1 r.scale2) r.x1 r.x2)

/-! ## Vocabulary of the specification -/

/-- The rows of a chain file: its lines up to the first empty line, which is
where `readFile` stops reading. -/
def rowsOf : ChainFile → List ChainLine
  | [] => []
  | none :: _ => []
  | some l :: rest => l :: rowsOf rest

/-- The number of parameters of a row, as `readFile` counts them. -/
def paramCount (l : ChainLine) : Nat := (parseLine l).params.length

/-- The sample a row becomes: the parsed row with its error statistics. -/
def sampleOf (errors_ : List ErrorEntry) (l : ChainLine) : Element :=
  attachError errors_ (parseLine l)

/-- Every row has as many parameters as the first row. -/
def SameParamCount (rows : List ChainLine) : Prop :=
  ∀ l0 ∈ rows.head?, ∀ l ∈ rows, paramCount l = paramCount l0

instance (rows : List ChainLine) : Decidable (SameParamCount rows) := by
  unfold SameParamCount; infer_instance

/-- The rows with zero-based index `i` such that `i >= burnin` and
`(i - burnin) mod thin = 0`, in file order; `start` is the index of the first
row of `rows`. -/
def selectRows (burnin thin start : Nat) (rows : List ChainLine) : List ChainLine :=
  ((rows.enumFrom start).filter
    (fun p => decide (burnin ≤ p.1 ∧ (p.1 - burnin) % thin = 0))).map Prod.snd

/-- The largest of `m` and the weights of the rows. -/
def maxWeight (m : ℚ) (rows : List ChainLine) : ℚ :=
  rows.foldl (fun acc l => max acc l.prob) m

/-- The smallest of `m` and the log-likelihoods of the rows. -/
def minLogLike (m : ℚ) (rows : List ChainLine) : ℚ :=
  rows.foldl (fun acc l => min acc l.like) m

/-- The store is ordered by descending weight: of two consecutive samples the
first has the larger or equal weight. -/
def DescendingWeight (chain : List Element) : Prop :=
  List.Chain' (fun a b => a.prob ≥ b.prob) chain

/-- The parameter count `readFile` leaves in `nParams_`: the first row's, and
`-1` for a file without rows. -/
def learnedParamCount (rows : List ChainLine) : Int :=
  match rows.head? with
  | none => -1
  | some l => (paramCount l : Int)

/-- The largest number of a non-empty list. -/
def maxOf : List ℚ → ℚ
  | [] => 0
  | m :: ms => ms.foldl max m

/-- The multi-file load in the words of the specification: one filter-and-sort
pass over the union.  `results` lists, per file and in file order, the
candidates of the file and its maximum weight; the candidates are
concatenated, filtered with `minWeight = (maximum of the per-file maximum
weights) / (total number of candidates over all files) / 1000`, then sorted. -/
def loadMultipleSpec (results : List (List Element × ℚ)) : List Element :=
  let candidates := (results.map Prod.fst).flatten
  let minWeight :=
    maxOf (results.map Prod.snd) / (((results.map (fun r => r.1.length)).sum : Nat) : ℚ) / 1000
  stdSort lessMarkovChainElementPointer (candidates.filter (fun e => decide (e.prob ≥ minWeight)))

/-- The cumulative weight of the first `i` samples of the store. -/
def cumulWeight (chain : List Element) (i : Nat) : ℚ :=
  ((chain.take i).map Element.prob).sum

/-- The error record the specification of the error attachment selects for a
sample, with the upper end of the window left open: the first record of the
list whose log-likelihood lies in `[like - 0.05, like + 0.05)` and whose
parameters match the sample's. -/
def matchingError (errors_ : List ErrorEntry) (elem : Element) : Option ErrorEntry :=
  errors_.find? (fun r =>
    decide (elem.like - 1 / 20 ≤ r.like ∧ r.like < elem.like + 1 / 20)
      && paramsEqual elem.params r.params)

/-- The error records are in ascending order of log-likelihood. -/
def AscendingLike (errors_ : List ErrorEntry) : Prop :=
  List.Pairwise (fun a b => a.like ≤ b.like) errors_

/-- The error record of a line with the fields `f[0..n-1]`, `n >= 6`, in the
words of the specification: variance `f[n-1]`, mean `f[n-2]`, `f[n-3]` and
`f[n-4]` skipped, log-likelihood `f[n-5]`, parameters `f[0..n-6]`. -/
def errorRecord (f : List ℚ) : ErrorEntry :=
  { like := f.getD (f.length - 5) 0, params := f.take (f.length - 5),
    mean := f.getD (f.length - 2) 0, var := f.getD (f.length - 1) 0 }

/-- The number of samples the loop of `getRange` visits from the running total
`total`: it goes on while the total before a sample does not exceed `pUpper`. -/
def visited (pUpper : ℚ) : List Element → ℚ → Nat
  | [], _ => 0
  | e :: rest, total => if total ≤ pUpper then visited pUpper rest (total + e.prob) + 1 else 0

/-- The keys of the table are in strictly ascending order, as in a `std::map`. -/
def KeysAscending (table : TableFunction) : Prop :=
  List.Pairwise (fun a b : ℚ × ℚ => a.1 < b.1) table

/-- The values the sampling of the surface collects on the grids. -/
def gridSamples (surface : Surface2D) (x1 x2 : List ℚ) : List ℚ :=
  (Posterior2D.sample surface x1 x2).1.1

/-- The invariant of the loop that builds the credible-level table: the keys
are in ascending order, none is above the running total or reaches 1, the
values do not grow with the key, none is negative, and none is below a value
still to come. -/
def CredibleInv (norm : ℚ) (table : TableFunction) (total : ℚ) (remaining : List ℚ) : Prop :=
  KeysAscending table
    ∧ (∀ e ∈ table, e.1 ≤ total)
    ∧ (∀ e ∈ table, e.1 < 1)
    ∧ (∀ e ∈ table, ∀ pr ∈ remaining, pr / norm ≤ e.2)
    ∧ (∀ e1 ∈ table, ∀ e2 ∈ table, e1.1 < e2.1 → e2.2 ≤ e1.2)
    ∧ (∀ e ∈ table, 0 ≤ e.2)

/-- The cumulative weight through the index `i` of pairs (value, weight). -/
def cumulThrough (sorted : List (ℚ × ℚ)) (i : Nat) : ℚ :=
  ((sorted.take (i + 1)).map Prod.snd).sum

/-- The first index at which the cumulative weight of the pairs reaches
`threshold`, if there is one. -/
def firstReaching (sorted : List (ℚ × ℚ)) (threshold : ℚ) : Option Nat :=
  (List.range sorted.length).find? (fun i => decide (cumulThrough sorted i ≥ threshold))

/-- The surface that `generate` fits to what it has prepared: the Gaussian
smoother with the bandwidth and the bin errors, or the spline. -/
def fittedSurface (lib : Numerics) (method : SmoothingMethod) (r : Prepared) : Surface :=
  match method with
  | SmoothingMethod.GAUSSIAN_SMOOTHING => lib.gaussSmooth r.x r.y r.scale r.vars
  | SmoothingMethod.SPLINE_SMOOTHING => lib.cubicSpline r.x r.y

/-- The grid point of index `i` of the scan of `Posterior1D::peak`. -/
def peakGrid (p : Posterior1D) (i : Nat) : ℚ :=
  if i = Posterior1D.nPoints then p.max_
  else p.min_ + (i : ℚ) * ((p.max_ - p.min_) / (Posterior1D.nPoints : ℚ))

/-- The grid point of index `i` of the integration loop of
`Posterior1D::generate`: `x0 + i * delta`, and the last grid entry at `i = N`. -/
def integrationGrid (x0 xLast delta : ℚ) (N : Int) (i : Nat) : ℚ :=
  if (i : Int) = N then xLast else x0 + (i : ℚ) * delta

/-- The sum of `max(s(v), 0) * delta` over the grid points of the indices
below `n`. -/
def runningNorm (s : Surface) (x0 xLast delta : ℚ) (N : Int) (n : Nat) : ℚ :=
  ((List.range n).map
    (fun i => max (s.evaluate (integrationGrid x0 xLast delta N i)) 0 * delta)).sum

/-- The value `x` belongs to the interior bin `k` of the histogram of
`generate`: it lies in `[min_ + k * d, min_ + (k + 1) * d)`, or `k` is the last
interior bin and `x` is `max_`. -/
def inBin (min_ max_ d : ℚ) (res k : Nat) (x : ℚ) : Bool :=
  decide (min_ + (k : ℚ) * d ≤ x ∧ x < min_ + ((k : ℚ) + 1) * d)
    || (decide (k + 1 = res) && decide (x = max_))

/-- The sum of the weights of the points that belong to the interior bin `k`. -/
def binWeight (min_ max_ d : ℚ) (res : Nat) (points probs : List ℚ) (k : Nat) : ℚ :=
  (((points.zip probs).filter (fun pr => inBin min_ max_ d res k pr.1)).map Prod.snd).sum

/-- The number `N = 100 * resolution` of steps of the integration loop of
`Posterior1D::generate`. -/
def stepCount (r : Prepared) : Int := 100 * r.resolution

/-- The step width `delta = (max_ - min_) / N` of the integration loop. -/
def stepWidth (p : Posterior1D) (r : Prepared) : ℚ :=
  (p.max_ - p.min_) / ((100 * r.resolution : Int) : ℚ)

/-- The grid point `v_i` of the integration loop: `min_ + i * delta` for
`i < N`, and `max_` for `i = N`. -/
def gridPoint (p : Posterior1D) (r : Prepared) (i : Nat) : ℚ :=
  integrationGrid p.min_ p.max_ (stepWidth p r) (stepCount r) i

/-- The sum of `max(s(v_i), 0) * delta` over the grid points of the indices
`0..i`. -/
def normThrough (s : Surface) (p : Posterior1D) (r : Prepared) (i : Nat) : ℚ :=
  runningNorm s p.min_ p.max_ (stepWidth p r) (stepCount r) (i + 1)

/-- The state of the integration loop after its iterations `0..i`, and the
error thrown, if any. -/
def integrationAfter (s : Surface) (p : Posterior1D) (r : Prepared) (i : Nat) :
    Integration × Option Error :=
  integrateLoop s p.min_ p.max_ (stepWidth p r) (stepCount r) (List.range (i + 1))
    { norm := 0, table := tableAssign [] 0 0 }

/-- The entry `y[i][j]` of a 2-D histogram; 0 outside the histogram. -/
def cell (y : List (List ℚ)) (i j : Nat) : ℚ := (y.getD i []).getD j 0

/-- The index `i` clamped to the interior indices `1..res`: `clamp(i, 1, res)`. -/
def clampIndex (i res : Nat) : Nat := if i < 1 then 1 else if res < i then res else i

/-- The sum of the weights of the samples `(x1, x2)` that fall in the box of
the interior cell `(k1, k2)`: `x1` belongs to the bin `k1` of axis 1 and `x2`
to the bin `k2` of axis 2. -/
def boxWeight (min1 max1 d1 : ℚ) (res1 : Nat) (min2 max2 d2 : ℚ) (res2 : Nat)
    (points1 points2 probs : List ℚ) (k1 k2 : Nat) : ℚ :=
  (((points1.zip (points2.zip probs)).filter
      (fun s => inBin min1 max1 d1 res1 k1 s.1 && inBin min2 max2 d2 res2 k2 s.2.1)).map
    (fun s => s.2.2)).sum

/-! ## Sample inputs -/

/-- A chain file of five rows with one parameter each and equal weights. -/
def fiveRows : ChainFile :=
  [some ⟨1, 10, [0]⟩, some ⟨1, 11, [1]⟩, some ⟨1, 12, [2]⟩, some ⟨1, 13, [3]⟩, some ⟨1, 14, [4]⟩]

/-- A chain file of three rows with two parameters each; the second row has a
negligible weight. -/
def threeRows : ChainFile :=
  [some ⟨1, 2, [3, 4]⟩, some ⟨1 / 10000, 5, [6, 7]⟩, some ⟨3, 1, [0, 0]⟩]

/-- A chain file whose second row has one parameter more than its first. -/
def raggedRows : ChainFile :=
  [some ⟨1, -3, [1, 2]⟩, some ⟨1, 0, [1, 2, 3]⟩, some ⟨1, 0, [1, 2]⟩]

/-- The chain file of the single row `0 1 2`: weight zero. -/
def zeroWeightRow : ChainFile := [some ⟨0, 1, [2]⟩]

/-- The chain left by loading the single row `1 0 5`. -/
def oneRowChain : MarkovChain :=
  { chain_ := [⟨1, 0, [5], 0, 0⟩], nParams_ := 1, minLike_ := 0, errors_ := [] }

/-- A chain file of twenty rows of equal weight, the row of index `i` having
log-likelihood `i` and the single parameter `i`. -/
def twentyRows : ChainFile :=
  (List.range 20).map (fun i => some ⟨1, (i : ℚ), [(i : ℚ)]⟩)

/-- Two chain files for one multi-chain load: the row `1 0 5` (one parameter)
and the row `1 0 5 6` (two parameters). -/
def mixedChains : List (Option ChainFile) :=
  [some [some ⟨1, 0, [5]⟩], some [some ⟨1, 0, [5, 6]⟩]]

/-- A second chain file of rows with two parameters; on its own its threshold
would be `2 / 2 / 1000`, above the weight of its second row. -/
def secondRun : ChainFile :=
  [some ⟨2, 3, [1, 1]⟩, some ⟨8 / 10000, 4, [2, 2]⟩]

/-- An error log of one file with the single line `1 0.05 0 0 7 9`: the record
with parameter 1, log-likelihood 0.05, mean 7 and variance 9. -/
def boundaryErrorLog : Nat → Option ErrorFile :=
  fun _ => some [some [1, 1 / 20, 0, 0, 7, 9]]

/-- Four error records in ascending order of log-likelihood. -/
def fourErrors : List ErrorEntry :=
  [⟨9 / 10, [1], 1, 1⟩, ⟨95 / 100, [2], 2, 2⟩, ⟨1, [1], 3, 4⟩, ⟨101 / 100, [1], 5, 6⟩]

/-- A store with the weights 0.4, 0.3, 0.2, 0.1, in descending order. -/
def fourWeights : MarkovChain :=
  { chain_ := [⟨4 / 10, 1, [1], 0, 0⟩, ⟨3 / 10, 2, [2], 0, 0⟩, ⟨2 / 10, 3, [3], 0, 0⟩,
               ⟨1 / 10, 4, [4], 0, 0⟩],
    nParams_ := 1, minLike_ := 1, errors_ := [] }

/-- A store with the weights 1/2, 1/4, 1/4, in descending order. -/
def dyadicWeights : MarkovChain :=
  { chain_ := [⟨1 / 2, 1, [1], 0, 0⟩, ⟨1 / 4, 2, [2], 0, 0⟩, ⟨1 / 4, 3, [3], 0, 0⟩],
    nParams_ := 1, minLike_ := 1, errors_ := [] }

/-- A stand-in for the numerical library in concrete runs: every fitted
surface is the constant `c` with error 0, `sqrt` is exact at 0 and at 1, and
`pow` is the constant 1.  (The cubic spline through histogram bins of equal
height `c` is the constant `c`; on fewer than five points the value of `pow`
does not reach the bin count.) -/
def constantNumerics (c : ℚ) : Numerics :=
  { sqrt := fun q => if q = 0 then 0 else 1,
    pow := fun _ _ => 1,
    gaussSmooth := fun _ _ _ _ => { evaluate := fun _ => c, evaluateError := fun _ => 0 },
    cubicSpline := fun _ _ => { evaluate := fun _ => c, evaluateError := fun _ => 0 } }

/-- The points -2 and -1, each of weight 1, log-likelihood 0 and no error. -/
def negativePoints : Posterior1D :=
  (Posterior1D.init.addPoint (-2) 1 0 0 0).addPoint (-1) 1 0 0 0

/-- The point 3 added twice, with weight 1. -/
def twoEqualPoints : Posterior1D :=
  (Posterior1D.init.addPoint 3 1 0 0 0).addPoint 3 1 0 0 0

/-- The points 1 and 2, each of weight 0. -/
def zeroWeightPoints : Posterior1D :=
  (Posterior1D.init.addPoint 1 0 0 0 0).addPoint 2 0 0 0 0

/-- The 2-D surface of constant value 1. -/
def flatSurface : Surface2D := { evaluate := fun _ _ => 1 }

/-- The points (0, 0) and (1, 1), each of weight 1. -/
def unitSquarePoints : Posterior2D :=
  (Posterior2D.init.addPoint 0 0 1 0).addPoint 1 1 1 0

/-- The points 0, 1 and 2, each of weight 1. -/
def threeEqualWeights : Posterior1D :=
  ((Posterior1D.init.addPoint 0 1 0 0 0).addPoint 1 1 0 0 0).addPoint 2 1 0 0 0

/-- The points (3, 0) and (3, 1), each of weight 1: one value on axis 1. -/
def sharedAxisPoints : Posterior2D :=
  (Posterior2D.init.addPoint 3 0 1 0).addPoint 3 1 1 0

/-- The single point (3, 4), of weight 1. -/
def singlePoint2D : Posterior2D := Posterior2D.init.addPoint 3 4 1 0

/-- A stand-in for the constructor of `Math::GaussSmooth2D` in concrete runs:
the surface of constant height `y[1][1]`, the first interior bin of the
histogram.  (On a histogram of one interior bin every bin has this height once
the edges are mirrored.) -/
def cornerFit : List ℚ → List ℚ → List (List ℚ) → ℚ → ℚ → Surface2D :=
  fun _ _ y _ _ => { evaluate := fun _ _ => (y.getD 1 []).getD 1 0 }

/-- The points (0, 0), (1, 1) and (2, 2), each of weight 1. -/
def diagonalPoints : Posterior2D :=
  ((Posterior2D.init.addPoint 0 0 1 0).addPoint 1 1 1 0).addPoint 2 2 1 0

/-- The points 0, 1, ..., 7, each of weight 1. -/
def eightPoints : Posterior1D :=
  (List.range 8).foldl (fun p i => p.addPoint (i : ℚ) 1 0 0 0) Posterior1D.init

/-- A stand-in for the numerical library that is exact where the run on eight
points needs it: `pow(8, -1/3) = 1/2`; elsewhere as `constantNumerics c`. -/
def exactAtEight (c : ℚ) : Numerics :=
  { constantNumerics c with pow := fun b e => if b = 8 ∧ e = -1 / 3 then 1 / 2 else 1 }

/-- The points 0, 1 and 2 with the weights 1, 10 and 1: both quartiles fall on
the point 1, and the interquartile range is 0. -/
def heavyMiddle : Posterior1D :=
  ((Posterior1D.init.addPoint 0 1 0 0 0).addPoint 1 10 0 0 0).addPoint 2 1 0 0 0

/-- The surface of constant value `c`, with error 0. -/
def constantSurface (c : ℚ) : Surface := { evaluate := fun _ => c, evaluateError := fun _ => 0 }

/-- The object that `generate` leaves for the points -2 and -1 of weight 1
each, the spline method and the scale 1, when the fitted surface is the
constant 2. -/
def flatFitted : Posterior1D :=
  (negativePoints.generate (constantNumerics 2) SmoothingMethod.SPLINE_SMOOTHING 1).1

/-- The points 0, 1, ..., 7 with the weights 1, 1, 1, 5, 5, 1, 1, 1: the
quartiles fall on the points 3 and 4. -/
def peakedEight : Posterior1D :=
  ([(0, 1), (1, 1), (2, 1), (3, 5), (4, 5), (5, 1), (6, 1), (7, 1)] : List (ℚ × ℚ)).foldl
    (fun p pr => p.addPoint pr.1 pr.2 0 0 0) Posterior1D.init

/-- What `generate` prepares for the fit on `peakedEight` with
`pow(8, -1/3) = 1/2` and the scale 1: seven interior bins of width 1. -/
def peakedEightPrepared : Prepared :=
  { x := [0, 1 / 2, 3 / 2, 5 / 2, 7 / 2, 9 / 2, 11 / 2, 13 / 2, 7],
    y := [1, 1, 1, 1, 5, 5, 1, 2, 2],
    vars := [0, 0, 0, 0, 0, 0, 0, 0, 0],
    scale := 1, resolution := 7, varNorm := 0, totalP := 16, mean := 7 / 2 }

/-- The points (0, 0) and (1, 1), each of weight 0. -/
def zeroWeightSquare : Posterior2D :=
  (Posterior2D.init.addPoint 0 0 0 0).addPoint 1 1 0 0

/-- What `Posterior2D::generate` prepares for the fit on two points at the
corners (0, 0) and (1, 1) of total weight `w` with the bandwidths 1 and 1: one
interior bin on each axis, of height `w`, and its mirrored edges. -/
def squarePrepared (w : ℚ) : Prepared2D :=
  { x1 := [0, 1 / 2, 1], x2 := [0, 1 / 2, 1], y := [[w, w, w], [w, w, w], [w, w, w]],
    scale1 := 1, scale2 := 1 }

/-- The points 0 and 1 with the weights 3 and 1: the smaller point carries
three quarters of the weight. -/
def heavyFirst : Posterior1D :=
  (Posterior1D.init.addPoint 0 3 0 0 0).addPoint 1 1 0 0 0

/-- The points (0, 0) and (1, 1) with the weights 3 and 1. -/
def heavyFirst2D : Posterior2D :=
  (Posterior2D.init.addPoint 0 0 3 0).addPoint 1 1 1 0

/-- The points 0 and 1, each of weight 1 and error variance 4. -/
def noisyPoints : Posterior1D :=
  (Posterior1D.init.addPoint 0 1 0 0 4).addPoint 1 1 0 0 4

/-- The object that `generate` leaves for `noisyPoints`, the spline method and
the scale 1, when the fitted surface is the constant 2. -/
def noisyFitted : Posterior1D :=
  (noisyPoints.generate (constantNumerics 2) SmoothingMethod.SPLINE_SMOOTHING 1).1

/-- The object `noisyFitted` after the points 0 and 1 have been added again,
now with the error variance 0. -/
def secondCycle : Posterior1D :=
  (noisyFitted.addPoint 0 1 0 0 0).addPoint 1 1 0 0 0

/-- The points 0 and 1, each of weight 1 and error variance 0, added to a new
object. -/
def freshCycle : Posterior1D :=
  (Posterior1D.init.addPoint 0 1 0 0 0).addPoint 1 1 0 0 0

/-- A stand-in for the numerical library with `pow(5, -1/3) = 0.585` (the
cube root of 1/5 is 0.58480...); elsewhere as `constantNumerics c`. -/
def nearFifth (c : ℚ) : Numerics :=
  { constantNumerics c with pow := fun b e => if b = 5 ∧ e = -1 / 3 then 117 / 200 else 1 }

/-- What `Posterior1D::generate` prepares for the fit on the points 0, 1, 2 of
weight 1 with the scale 0: one bin, and the bandwidth `iqr / 8 = 1 / 8`. -/
def threePrepared : Prepared :=
  { x := [0, 1, 2], y := [3, 3, 3], vars := [0, 0, 0], scale := 1 / 8, resolution := 1,
    varNorm := 0, totalP := 3, mean := 1 }

/-- The locals of `Posterior2D::generate` on the points (0, 0), (1, 1), (2, 2)
of weight 1 with the scales 0 and 0, when the bin widths are computed. -/
def diagonalBinning : Binning2D :=
  { iqr1 := 1, iqr2 := 1, res1 := 1, res2 := 1, scale1 := 1 / 8, scale2 := 1 / 8, d1 := 2,
    d2 := 2 }

/-- Five samples of weight 1: (0, 4), (1, 5/2), (2, 0), (5/2, 3/2) and (4, 2).
The quartiles of axis 1 fall on 1 and 5/2, those of axis 2 on 3/2 and 5/2. -/
def fiveSamples2D : Posterior2D :=
  ([(0, 4), (1, 5 / 2), (2, 0), (5 / 2, 3 / 2), (4, 2)] : List (ℚ × ℚ)).foldl
    (fun p s => p.addPoint s.1 s.2 1 0) Posterior2D.init

/-- The locals of `Posterior2D::generate` on the five samples with the
bandwidths 1 and 1 and `pow(5, -1/3) = 0.585`: two bins of width 2 on axis 1
and three bins of width 4/3 on axis 2. -/
def fiveSamplesBinning : Binning2D :=
  { iqr1 := 3 / 2, iqr2 := 1, res1 := 2, res2 := 3, scale1 := 1, scale2 := 1, d1 := 2,
    d2 := 4 / 3 }

/-- What `Posterior2D::generate` prepares for the fit on the five samples: the
histogram of 4 rows of 5 entries, with its mirrored edges. -/
def fiveSamplesPrepared : Prepared2D :=
  { x1 := [0, 1, 3, 4], x2 := [0, 2 / 3, 2, 10 / 3, 4],
    y := [[0, 0, 1, 1, 1], [0, 0, 1, 1, 1], [1, 1, 2, 0, 0], [1, 1, 2, 0, 0]],
    scale1 := 1, scale2 := 1 }

/-- The points 0, 1, ..., 6 and 1000000000002, each of weight 1: the quartiles
fall on the points 1 and 5. -/
def hugeOutlier : Posterior1D :=
  ([0, 1, 2, 3, 4, 5, 6, 1000000000002] : List ℚ).foldl (fun p x => p.addPoint x 1 0 0 0)
    Posterior1D.init

/-- The points 0, 1, ..., 6 and 100000002, each of weight 1: the quartiles
fall on the points 1 and 5. -/
def farOutlier : Posterior1D :=
  ([0, 1, 2, 3, 4, 5, 6, 100000002] : List ℚ).foldl (fun p x => p.addPoint x 1 0 0 0)
    Posterior1D.init

/-- The numerical library `lib` with `pow` exact where the runs on eight
points need it: `pow(8, -1/3) = 1/2`. -/
def withExactPow (lib : Numerics) : Numerics :=
  { lib with pow := fun b e => if b = 8 ∧ e = -1 / 3 then 1 / 2 else lib.pow b e }

/-! ## Lemmas on the loops -/

theorem filterLoop_eq (minP : ℚ) (bigChain chain : List Element) :
    filterLoop minP bigChain chain
      = chain ++ bigChain.filter (fun e => decide (e.prob ≥ minP)) := by
  induction bigChain generalizing chain with
  | nil => simp [filterLoop]
  | cons e rest ih =>
    unfold filterLoop
    by_cases h : e.prob < minP
    · have h2 : ¬ minP ≤ e.prob := not_le.mpr h
      simp [h, h2, ih, List.filter_cons]
    · have h2 : minP ≤ e.prob := not_lt.mp h
      simp [h, h2, ih, List.filter_cons]

theorem stdSort_perm {α : Type} (comp : α → α → Bool) (l : List α) :
    (stdSort comp l).Perm l := by
  unfold stdSort
  exact List.perm_insertionSort _ l

theorem stdSort_pairwise (l : List Element) :
    List.Pairwise (fun a b => a.prob ≥ b.prob) (stdSort lessMarkovChainElementPointer l) := by
  have hT : IsTotal Element (fun a b => lessMarkovChainElementPointer b a = false) :=
    ⟨fun a b => by
      simp only [lessMarkovChainElementPointer, Element.lt, decide_eq_false_iff_not, not_lt]
      exact le_total _ _⟩
  have hTr : IsTrans Element (fun a b => lessMarkovChainElementPointer b a = false) :=
    ⟨fun a b c => by
      simp only [lessMarkovChainElementPointer, Element.lt, decide_eq_false_iff_not, not_lt]
      intro h1 h2
      exact le_trans h2 h1⟩
  have h := List.sorted_insertionSort (fun a b => lessMarkovChainElementPointer b a = false) l
  refine List.Pairwise.imp ?_ h
  intro a b hab
  simpa [lessMarkovChainElementPointer, Element.lt] using hab

theorem stdSort_descending (l : List Element) :
    DescendingWeight (stdSort lessMarkovChainElementPointer l) :=
  List.Pairwise.chain' (stdSort_pairwise l)

theorem natCast_ne_neg_one (n : Nat) : (n : Int) ≠ -1 := by omega

/-- The loop of `readFile` once the parameter count `n` is known, on rows that
all have `n` parameters: it ends without an error. -/
theorem readLoop_known (errors_ : List ErrorEntry) (burnin thin : Nat) (lines : ChainFile)
    (n : Nat) (ml mp : ℚ) (bc : List Element) (ln : Nat)
    (h : ∀ l ∈ rowsOf lines, paramCount l = n) :
    readLoop errors_ burnin thin lines
        { nParams_ := (n : Int), minLike_ := ml, bigChain := bc, maxP := mp, line := ln }
      = ({ nParams_ := (n : Int), minLike_ := minLogLike ml (rowsOf lines),
           bigChain := bc ++ (selectRows burnin thin ln (rowsOf lines)).map (sampleOf errors_),
           maxP := maxWeight mp (rowsOf lines), line := ln + (rowsOf lines).length }, none) := by
  induction lines generalizing ml mp bc ln with
  | nil => simp [readLoop, rowsOf, minLogLike, maxWeight, selectRows]
  | cons x rest ih =>
    cases x with
    | none => simp [readLoop, rowsOf, minLogLike, maxWeight, selectRows]
    | some l =>
      have hl : paramCount l = n := h l (by simp [rowsOf])
      have hrest : ∀ l1 ∈ rowsOf rest, paramCount l1 = n :=
        fun l1 h1 => h l1 (by simp [rowsOf, h1])
      have hlen : ((parseLine l).params.length : Int) = (n : Int) := by
        rw [← hl]; rfl
      have hmax : (if (parseLine l).prob > mp then (parseLine l).prob else mp) = max mp l.prob := by
        simp only [parseLine, gt_iff_lt]
        split_ifs with hc
        · exact (max_eq_right (le_of_lt hc)).symm
        · exact (max_eq_left (not_lt.mp hc)).symm
      have hmin : (if (parseLine l).like < ml then (parseLine l).like else ml) = min ml l.like := by
        simp only [parseLine]
        split_ifs with hc
        · exact (min_eq_right (le_of_lt hc)).symm
        · exact (min_eq_left (not_lt.mp hc)).symm
      unfold readLoop
      simp only [natCast_ne_neg_one, if_false, hlen, ne_eq, not_true_eq_false, hmax, hmin]
      rw [ih _ _ _ _ hrest]
      by_cases hc : burnin ≤ ln ∧ (ln - burnin) % thin = 0
      · simp [hc, rowsOf, minLogLike, maxWeight, selectRows, List.enumFrom, List.filter_cons,
          sampleOf, Nat.add_comm, Nat.add_left_comm]
      · simp [hc, rowsOf, minLogLike, maxWeight, selectRows, List.enumFrom, List.filter_cons,
          sampleOf, Nat.add_comm, Nat.add_left_comm]

/-- The loop of `readFile` once the parameter count `n` is known, on rows one
of which has another number of parameters: it throws. -/
theorem readLoop_mismatch (errors_ : List ErrorEntry) (burnin thin : Nat) (lines : ChainFile)
    (n : Nat) (ml mp : ℚ) (bc : List Element) (ln : Nat)
    (h : ∃ l ∈ rowsOf lines, paramCount l ≠ n) :
    (readLoop errors_ burnin thin lines
        { nParams_ := (n : Int), minLike_ := ml, bigChain := bc, maxP := mp, line := ln }).2
      = some Error.malformedInput := by
  induction lines generalizing ml mp bc ln with
  | nil => simp [rowsOf] at h
  | cons x rest ih =>
    cases x with
    | none => simp [rowsOf] at h
    | some l =>
      unfold readLoop
      by_cases hl : paramCount l = n
      · have hlen : ((parseLine l).params.length : Int) = (n : Int) := by
          rw [← hl]; rfl
        have hrest : ∃ l1 ∈ rowsOf rest, paramCount l1 ≠ n := by
          obtain ⟨l1, h1, h2⟩ := h
          simp only [rowsOf, List.mem_cons] at h1
          rcases h1 with rfl | h1
          · exact absurd hl h2
          · exact ⟨l1, h1, h2⟩
        simp only [natCast_ne_neg_one, if_false, hlen, ne_eq, not_true_eq_false]
        exact ih _ _ _ _ hrest
      · have hlen : ¬ ((n : Int) = ((parseLine l).params.length : Int)) := by
          intro hc
          exact hl (by unfold paramCount; exact_mod_cast hc.symm)
        simp [natCast_ne_neg_one, hlen]

theorem check_pos (thin : Nat) (ht : 0 < thin) : check (decide (thin > 0)) = none := by
  simp [check, ht]

/-- The loop of `readFile` from its initial state (`nParams_ = -1`), on rows
with one parameter count. -/
theorem readLoop_start_ok (errors_ : List ErrorEntry) (burnin thin : Nat) (lines : ChainFile)
    (ml mp : ℚ) (bc : List Element) (h : SameParamCount (rowsOf lines)) :
    readLoop errors_ burnin thin lines
        { nParams_ := -1, minLike_ := ml, bigChain := bc, maxP := mp, line := 0 }
      = ({ nParams_ := learnedParamCount (rowsOf lines), minLike_ := minLogLike ml (rowsOf lines),
           bigChain := bc ++ (selectRows burnin thin 0 (rowsOf lines)).map (sampleOf errors_),
           maxP := maxWeight mp (rowsOf lines), line := (rowsOf lines).length }, none) := by
  cases lines with
  | nil => simp [readLoop, rowsOf, minLogLike, maxWeight, selectRows, learnedParamCount]
  | cons x rest =>
    cases x with
    | none => simp [readLoop, rowsOf, minLogLike, maxWeight, selectRows, learnedParamCount]
    | some l =>
      have hrest : ∀ l1 ∈ rowsOf rest, paramCount l1 = paramCount l := by
        intro l1 h1
        exact h l (by simp [rowsOf]) l1 (by simp [rowsOf, h1])
      have hmax : (if (parseLine l).prob > mp then (parseLine l).prob else mp) = max mp l.prob := by
        simp only [parseLine, gt_iff_lt]
        split_ifs with hc
        · exact (max_eq_right (le_of_lt hc)).symm
        · exact (max_eq_left (not_lt.mp hc)).symm
      have hmin : (if (parseLine l).like < ml then (parseLine l).like else ml) = min ml l.like := by
        simp only [parseLine]
        split_ifs with hc
        · exact (min_eq_right (le_of_lt hc)).symm
        · exact (min_eq_left (not_lt.mp hc)).symm
      have hlen : ((parseLine l).params.length : Int) = (paramCount l : Int) := rfl
      unfold readLoop
      simp only [if_true, hmax, hmin, hlen]
      rw [readLoop_known errors_ burnin thin rest (paramCount l) _ _ _ _ hrest]
      by_cases hc : burnin = 0
      · simp [hc, rowsOf, minLogLike, maxWeight, selectRows, List.enumFrom, List.filter_cons,
          sampleOf, learnedParamCount, Nat.add_comm]
      · simp [hc, rowsOf, minLogLike, maxWeight, selectRows, List.enumFrom, List.filter_cons,
          sampleOf, learnedParamCount, Nat.add_comm]

/-- The loop of `readFile` from its initial state, on rows that do not all
have the first row's parameter count: it throws. -/
theorem readLoop_start_mismatch (errors_ : List ErrorEntry) (burnin thin : Nat)
    (lines : ChainFile) (ml mp : ℚ) (bc : List Element) (h : ¬ SameParamCount (rowsOf lines)) :
    (readLoop errors_ burnin thin lines
        { nParams_ := -1, minLike_ := ml, bigChain := bc, maxP := mp, line := 0 }).2
      = some Error.malformedInput := by
  cases lines with
  | nil => exact absurd (by simp [SameParamCount, rowsOf]) h
  | cons x rest =>
    cases x with
    | none => exact absurd (by simp [SameParamCount, rowsOf]) h
    | some l =>
      have hrest : ∃ l1 ∈ rowsOf rest, paramCount l1 ≠ paramCount l := by
        by_contra hc
        push_neg at hc
        apply h
        intro l0 h0 l1 h1
        simp only [rowsOf, List.head?_cons, Option.mem_def, Option.some.injEq] at h0
        subst h0
        simp only [rowsOf, List.mem_cons] at h1
        rcases h1 with rfl | h1
        · rfl
        · exact hc l1 h1
      have hlen : ((parseLine l).params.length : Int) = (paramCount l : Int) := rfl
      unfold readLoop
      simp only [if_true, hlen]
      exact readLoop_mismatch errors_ burnin thin rest (paramCount l) _ _ _ _ hrest

/-- What `readFile` does on a file that opens, with `thin >= 1` and rows of one
parameter count. -/
theorem readFile_ok (mc : MarkovChain) (lines : ChainFile) (burnin thin : Nat)
    (bc : List Element) (ht : 0 < thin) (h : SameParamCount (rowsOf lines)) :
    mc.readFile (some lines) burnin thin bc
      = ({ mc with nParams_ := learnedParamCount (rowsOf lines),
                   minLike_ := minLogLike mc.minLike_ (rowsOf lines) },
         Except.ok (bc ++ (selectRows burnin thin 0 (rowsOf lines)).map (sampleOf mc.errors_),
                    maxWeight DBL_MIN (rowsOf lines))) := by
  unfold MarkovChain.readFile
  rw [check_pos thin ht]
  simp only [readLoop_start_ok mc.errors_ burnin thin lines mc.minLike_ DBL_MIN bc h]

/-- What `readFile` does on a file that opens, with `thin >= 1` and a row
whose parameter count is not the first row's. -/
theorem readFile_malformed (mc : MarkovChain) (lines : ChainFile) (burnin thin : Nat)
    (bc : List Element) (ht : 0 < thin) (h : ¬ SameParamCount (rowsOf lines)) :
    (mc.readFile (some lines) burnin thin bc).2 = Except.error Error.malformedInput := by
  unfold MarkovChain.readFile
  rw [check_pos thin ht]
  have h2 := readLoop_start_mismatch mc.errors_ burnin thin lines mc.minLike_ DBL_MIN bc h
  simp only [h2]

/-- The member function `readFile` writes neither `chain_` nor `errors_`. -/
theorem readFile_frame (mc : MarkovChain) (file : Option ChainFile) (burnin thin : Nat)
    (bc : List Element) :
    (mc.readFile file burnin thin bc).1.chain_ = mc.chain_
      ∧ (mc.readFile file burnin thin bc).1.errors_ = mc.errors_ := by
  unfold MarkovChain.readFile
  cases check (decide (thin > 0)) with
  | some e => simp
  | none =>
    cases file with
    | none => simp
    | some lines =>
      simp only
      split <;> simp

theorem addFile_chain (mc : MarkovChain) (file : Option ChainFile) (burnin thin : Nat)
    (mc1 : MarkovChain) (bigChain : List Element) (maxP : ℚ)
    (h : mc.readFile file burnin thin [] = (mc1, Except.ok (bigChain, maxP))) :
    mc.addFile file burnin thin
      = ((mc1.filterChain bigChain (maxP / (bigChain.length : ℚ) / 1000)).sortChain, none) := by
  unfold MarkovChain.addFile
  rw [h]

theorem addFile_error (mc : MarkovChain) (file : Option ChainFile) (burnin thin : Nat)
    (mc1 : MarkovChain) (e : Error)
    (h : mc.readFile file burnin thin [] = (mc1, Except.error e)) :
    mc.addFile file burnin thin = (mc1, some e) := by
  unfold MarkovChain.addFile
  rw [h]

theorem addFile_sorted (mc : MarkovChain) (file : Option ChainFile) (burnin thin : Nat)
    (h : (mc.addFile file burnin thin).2 = none) :
    DescendingWeight (mc.addFile file burnin thin).1.chain_ := by
  rcases hr : mc.readFile file burnin thin [] with ⟨mc1, r⟩
  cases r with
  | error e => rw [addFile_error mc file burnin thin mc1 e hr] at h; simp at h
  | ok v =>
    rcases v with ⟨bigChain, maxP⟩
    rw [addFile_chain mc file burnin thin mc1 bigChain maxP hr]
    exact stdSort_descending _

theorem fromFile_sorted (file : Option ChainFile) (burnin thin : Nat)
    (errorLog : Option (Nat → Option ErrorFile)) (nError : Int) (mc : MarkovChain)
    (h : MarkovChain.fromFile file burnin thin errorLog nError = Except.ok mc) :
    DescendingWeight mc.chain_ := by
  unfold MarkovChain.fromFile at h
  rcases h0 : MarkovChain.init.readErrorLog errorLog nError with ⟨mc0, e0⟩
  rw [h0] at h
  cases e0 with
  | some e => simp at h
  | none =>
    simp only at h
    rcases h1 : ({ mc0 with minLike_ := DBL_MAX } : MarkovChain).addFile file burnin thin
      with ⟨mc1, e1⟩
    rw [h1] at h
    cases e1 with
    | some e => simp at h
    | none =>
      simp only [Except.ok.injEq] at h
      have hs := addFile_sorted { mc0 with minLike_ := DBL_MAX } file burnin thin (by rw [h1])
      rw [h1] at hs
      rw [← h]
      exact hs

theorem fromChains_sorted (files : List (Option ChainFile)) (burnin thin : Nat)
    (errorLog : Option (Nat → Option ErrorFile)) (mc : MarkovChain)
    (h : MarkovChain.fromChains files burnin thin errorLog = Except.ok mc) :
    DescendingWeight mc.chain_ := by
  unfold MarkovChain.fromChains at h
  cases hc : check (decide (files.length > 0)) with
  | some e => rw [hc] at h; simp at h
  | none =>
    rw [hc] at h
    simp only at h
    rcases h0 : MarkovChain.init.readErrorLog errorLog (files.length : Int) with ⟨mc0, e0⟩
    rw [h0] at h
    cases e0 with
    | some e => simp at h
    | none =>
      simp only at h
      rcases h1 : readChains burnin thin files { mc0 with minLike_ := DBL_MAX } [] DBL_MIN
        with ⟨mc1, r⟩
      rw [h1] at h
      cases r with
      | error e => simp at h
      | ok v =>
        simp only [Except.ok.injEq] at h
        rw [← h]
        exact stdSort_descending _

theorem selectRows_zero (burnin thin : Nat) (rows : List ChainLine) :
    selectRows burnin thin 0 rows
      = (rows.enum.filter
          (fun p => decide (p.1 ≥ burnin ∧ (p.1 - burnin) % thin = 0))).map Prod.snd := rfl

theorem readFile_thin_zero (mc : MarkovChain) (file : Option ChainFile) (burnin : Nat)
    (bigChain : List Element) :
    mc.readFile file burnin 0 bigChain = (mc, Except.error Error.invalidArgument) := by
  simp [MarkovChain.readFile, check]

theorem readFile_not_invalidArgument (mc : MarkovChain) (file : Option ChainFile)
    (burnin thin : Nat) (bigChain : List Element) (ht : 1 ≤ thin) :
    (mc.readFile file burnin thin bigChain).2 ≠ Except.error Error.invalidArgument := by
  cases file with
  | none =>
    unfold MarkovChain.readFile
    rw [check_pos thin ht]
    simp
  | some lines =>
    by_cases h : SameParamCount (rowsOf lines)
    · rw [readFile_ok mc lines burnin thin bigChain ht h]
      simp
    · rw [readFile_malformed mc lines burnin thin bigChain ht h]
      simp

theorem attachError_prob (errors_ : List ErrorEntry) (e : Element) :
    (attachError errors_ e).prob = e.prob := by
  unfold attachError
  split
  · rfl
  · simp only
    split <;> rfl

theorem attachError_params (errors_ : List ErrorEntry) (e : Element) :
    (attachError errors_ e).params = e.params := by
  unfold attachError
  split
  · rfl
  · simp only
    split <;> rfl

theorem sampleOf_prob (errors_ : List ErrorEntry) (l : ChainLine) :
    (sampleOf errors_ l).prob = l.prob := by
  unfold sampleOf
  rw [attachError_prob]
  rfl

theorem filter_first_of_range (k : Nat) (hk : 0 < k) :
    (List.range k).filter (fun j => decide (j = 0)) = [0] := by
  obtain ⟨n, rfl⟩ : ∃ n, k = n + 1 := ⟨k - 1, by omega⟩
  rw [List.range_succ_eq_map, List.filter_cons]
  simp [List.filter_eq_nil_iff]

theorem length_filter_multiples (k m : Nat) (hk : 0 < k) :
    ((List.range (m * k)).filter (fun i => decide (i % k = 0))).length = m := by
  induction m with
  | zero => simp
  | succ m ih =>
    rw [Nat.succ_mul, List.range_add, List.filter_append, List.length_append, ih,
      List.filter_map, List.length_map]
    have hc : (List.range k).filter ((fun i => decide (i % k = 0)) ∘ fun x => m * k + x)
        = (List.range k).filter (fun j => decide (j = 0)) := by
      apply List.filter_congr
      intro j hj
      have hjk : j < k := List.mem_range.mp hj
      have hm : (m * k + j) % k = j := by
        rw [Nat.add_comm, Nat.add_mul_mod_self_right, Nat.mod_eq_of_lt hjk]
      simp only [Function.comp, hm]
    rw [hc, filter_first_of_range k hk]
    rfl

theorem selectRows_zero_length (k : Nat) (rows : List ChainLine) :
    (selectRows 0 k 0 rows).length
      = ((List.range rows.length).filter (fun i => decide (i % k = 0))).length := by
  unfold selectRows
  rw [List.length_map]
  have hp : (fun p : Nat × ChainLine => decide (0 ≤ p.1 ∧ (p.1 - 0) % k = 0))
      = (fun i => decide (i % k = 0)) ∘ Prod.fst := by
    funext p
    simp
  rw [hp, ← List.length_map (List.filter _ _) Prod.fst, ← List.filter_map,
    List.enumFrom_map_fst, List.range_eq_range']

theorem selectRows_thin_one (rows : List ChainLine) : selectRows 0 1 0 rows = rows := by
  unfold selectRows
  have hp : (fun p : Nat × ChainLine => decide (0 ≤ p.1 ∧ (p.1 - 0) % 1 = 0))
      = fun _ => true := by
    funext p
    simp [Nat.mod_one]
  rw [hp, List.filter_true, List.enumFrom_map_snd]

theorem selectRows_mem (burnin thin start : Nat) (rows : List ChainLine) (l : ChainLine)
    (h : l ∈ selectRows burnin thin start rows) : l ∈ rows := by
  unfold selectRows at h
  rw [List.mem_map] at h
  obtain ⟨p, hp, rfl⟩ := h
  have hp2 := List.mem_of_mem_filter hp
  have h3 : p.2 ∈ (rows.enumFrom start).map Prod.snd := List.mem_map_of_mem Prod.snd hp2
  rwa [List.enumFrom_map_snd] at h3

theorem stdSort_length {α : Type} (comp : α → α → Bool) (l : List α) :
    (stdSort comp l).length = l.length :=
  (stdSort_perm comp l).length_eq

/-- A load of a file that opens, with `thin >= 1`, rows of one parameter count
and no row lighter than the threshold, adds every candidate to the store. -/
theorem addFile_keeps_all (mc : MarkovChain) (lines : ChainFile) (burnin thin : Nat)
    (ht : 1 ≤ thin) (h : SameParamCount (rowsOf lines))
    (hw : ∀ l ∈ rowsOf lines,
      maxWeight DBL_MIN (rowsOf lines)
        / (((selectRows burnin thin 0 (rowsOf lines)).length : Nat) : ℚ) / 1000 ≤ l.prob) :
    (mc.addFile (some lines) burnin thin).2 = none
      ∧ (mc.addFile (some lines) burnin thin).1.chain_.length
          = mc.chain_.length + (selectRows burnin thin 0 (rowsOf lines)).length := by
  have hr := readFile_ok mc lines burnin thin [] ht h
  rw [addFile_chain mc (some lines) burnin thin _ _ _ hr]
  refine ⟨rfl, ?_⟩
  simp only [MarkovChain.sortChain, MarkovChain.filterChain, stdSort_length, filterLoop_eq,
    List.nil_append, List.length_append, List.length_map]
  congr 1
  rw [List.filter_eq_self.mpr, List.length_map]
  intro e he
  rw [List.mem_map] at he
  obtain ⟨l, hl, rfl⟩ := he
  have hl2 := selectRows_mem burnin thin 0 (rowsOf lines) l hl
  simp only [sampleOf_prob, ge_iff_le, decide_eq_true_eq]
  exact hw l hl2

theorem le_maxWeight (m : ℚ) (rows : List ChainLine) : m ≤ maxWeight m rows := by
  induction rows generalizing m with
  | nil => exact le_refl m
  | cons l ls ih =>
    simp only [maxWeight, List.foldl_cons]
    exact le_trans (le_max_left m l.prob) (ih (max m l.prob))

/-- A successful read of a file on its own fixes what `readFile` does on that
file for any object with the same error records and any `bigChain`. -/
theorem readFile_of_ok (mcA mcB : MarkovChain) (file : Option ChainFile) (burnin thin : Nat)
    (bc c : List Element) (m : ℚ) (he : mcB.errors_ = mcA.errors_)
    (h : (mcA.readFile file burnin thin []).2 = Except.ok (c, m)) :
    (mcB.readFile file burnin thin bc).2 = Except.ok (bc ++ c, m) ∧ DBL_MIN ≤ m := by
  rcases Nat.eq_zero_or_pos thin with h0 | ht
  · subst h0
    rw [readFile_thin_zero] at h
    simp at h
  · cases file with
    | none =>
      unfold MarkovChain.readFile at h
      rw [check_pos thin ht] at h
      simp at h
    | some lines =>
      by_cases hs : SameParamCount (rowsOf lines)
      · rw [readFile_ok mcA lines burnin thin [] ht hs] at h
        simp only [Except.ok.injEq, Prod.mk.injEq, List.nil_append] at h
        rw [readFile_ok mcB lines burnin thin bc ht hs, he, h.1]
        refine ⟨by rw [← h.2], ?_⟩
        rw [← h.2]
        exact le_maxWeight _ _
      · rw [readFile_malformed mcA lines burnin thin [] ht hs] at h
        simp at h

/-- The loop of the multi-chain constructor over files each of which reads
without an error on its own. -/
theorem readChains_ok (mc0 : MarkovChain) (burnin thin : Nat) (files : List (Option ChainFile)) :
    ∀ (results : List (List Element × ℚ)) (mc : MarkovChain) (bc : List Element) (mp : ℚ),
      mc.errors_ = mc0.errors_ →
      files.map (fun file => (mc0.readFile file burnin thin []).2) = results.map Except.ok →
      (readChains burnin thin files mc bc mp).2
          = Except.ok (bc ++ (results.map Prod.fst).flatten, (results.map Prod.snd).foldl max mp)
        ∧ (readChains burnin thin files mc bc mp).1.chain_ = mc.chain_ := by
  induction files with
  | nil =>
    intro results mc bc mp _ hr
    cases results with
    | nil => simp [readChains]
    | cons r rs => simp at hr
  | cons file rest ih =>
    intro results mc bc mp he hr
    cases results with
    | nil => simp at hr
    | cons r rs =>
      simp only [List.map_cons, List.cons.injEq] at hr
      obtain ⟨hr1, hr2⟩ := hr
      rcases r with ⟨c, m⟩
      have h1 := (readFile_of_ok mc0 mc file burnin thin bc c m he hr1).1
      have hf := readFile_frame mc file burnin thin bc
      rcases hread : mc.readFile file burnin thin bc with ⟨mc1, res⟩
      rw [hread] at h1 hf
      simp only at h1 hf
      subst h1
      have hmax : (if m > mp then m else mp) = max mp m := by
        simp only [gt_iff_lt]
        split_ifs with hc
        · exact (max_eq_right (le_of_lt hc)).symm
        · exact (max_eq_left (not_lt.mp hc)).symm
      unfold readChains
      rw [hread]
      simp only [hmax]
      have hi := ih rs mc1 (bc ++ c) (max mp m) (by rw [hf.2, he]) hr2
      refine ⟨?_, by rw [hi.2, hf.1]⟩
      rw [hi.1]
      simp [List.append_assoc]

theorem readErrorLog_chain (mc : MarkovChain) (errorLog : Option (Nat → Option ErrorFile))
    (n : Int) : (mc.readErrorLog errorLog n).1.chain_ = mc.chain_ := by
  unfold MarkovChain.readErrorLog
  cases errorLog with
  | none => rfl
  | some errorFile =>
    simp only [MarkovChain.readErrorFiles]
    split <;> rfl

/-- A successful `addFile` into an empty store leaves only samples that have
`nParams_` parameters: within one file `readFile` enforces the count. -/
theorem addFile_param_count (mc : MarkovChain) (file : Option ChainFile) (burnin thin : Nat)
    (hempty : mc.chain_ = []) (h : (mc.addFile file burnin thin).2 = none) :
    ∀ e ∈ (mc.addFile file burnin thin).1.chain_,
      (e.params.length : Int) = (mc.addFile file burnin thin).1.nParams_ := by
  rcases hr : mc.readFile file burnin thin [] with ⟨mc1, r⟩
  cases r with
  | error e1 =>
    rw [addFile_error mc file burnin thin mc1 e1 hr] at h
    simp at h
  | ok v =>
    rcases Nat.eq_zero_or_pos thin with h0 | ht
    · subst h0
      rw [readFile_thin_zero] at hr
      simp at hr
    · cases file with
      | none =>
        unfold MarkovChain.readFile at hr
        rw [check_pos thin ht] at hr
        simp at hr
      | some lines =>
        by_cases hs : SameParamCount (rowsOf lines)
        · have hok := readFile_ok mc lines burnin thin [] ht hs
          rw [addFile_chain mc (some lines) burnin thin _ _ _ hok]
          intro e he
          simp only [MarkovChain.sortChain, MarkovChain.filterChain, filterLoop_eq, hempty,
            List.nil_append] at he ⊢
          have he2 := (stdSort_perm _ _).mem_iff.mp he
          have he3 := List.mem_of_mem_filter he2
          rw [List.mem_map] at he3
          obtain ⟨l, hl, rfl⟩ := he3
          have hl2 := selectRows_mem _ _ _ _ _ hl
          cases hrows : rowsOf lines with
          | nil =>
            rw [hrows] at hl2
            simp at hl2
          | cons l0 ls =>
            rw [hrows] at hs hl2
            have hcount := hs l0 (by simp) l hl2
            simp only [learnedParamCount, List.head?_cons, sampleOf, attachError_params]
            rw [← hcount]
            rfl
        · have hbad := readFile_malformed mc lines burnin thin [] ht hs
          rw [hr] at hbad
          simp at hbad

/-- The single-file constructor leaves only samples that have `nParams_`
parameters. -/
theorem fromFile_param_count (file : Option ChainFile) (burnin thin : Nat)
    (errorLog : Option (Nat → Option ErrorFile)) (nError : Int) (mc : MarkovChain)
    (h : MarkovChain.fromFile file burnin thin errorLog nError = Except.ok mc) :
    ∀ e ∈ mc.chain_, (e.params.length : Int) = mc.nParams_ := by
  unfold MarkovChain.fromFile at h
  have hchain := readErrorLog_chain MarkovChain.init errorLog nError
  rcases h0 : MarkovChain.init.readErrorLog errorLog nError with ⟨mc0, e0⟩
  rw [h0] at h hchain
  cases e0 with
  | some e => simp at h
  | none =>
    simp only at h hchain
    rcases h1 : ({ mc0 with minLike_ := DBL_MAX } : MarkovChain).addFile file burnin thin
      with ⟨mc1, e1⟩
    rw [h1] at h
    cases e1 with
    | some e => simp at h
    | none =>
      simp only [Except.ok.injEq] at h
      have hs := addFile_param_count { mc0 with minLike_ := DBL_MAX } file burnin thin hchain
        (by rw [h1])
      rw [h1] at hs
      rw [← h]
      exact hs

theorem lowerBound_zero (v : ErrorEntry) (l : List ErrorEntry)
    (h : ∀ e ∈ l, v.like ≤ e.like) : lowerBound ErrorEntry.lt v l = 0 := by
  cases l with
  | nil => rfl
  | cons e es =>
    have he : ¬ e.like < v.like := not_lt.mpr (h e (by simp))
    simp [lowerBound, ErrorEntry.lt, he]

theorem findError_eq_find (params : List ℚ) (l : List ErrorEntry) :
    findError params l = l.find? (fun r => paramsEqual params r.params) := by
  induction l with
  | nil => rfl
  | cons e es ih =>
    by_cases h : paramsEqual params e.params = true
    · simp [findError, h]
    · simp [findError, h, ih]

/-- On records in ascending order of log-likelihood, the window that the two
`lower_bound` calls of `readFile` delimit holds the records with
`lo <= like < hi`, and the scan of the window finds the first record of the
list in that range whose parameters match. -/
theorem findError_window (params : List ℚ) (lo hi : ℚ) (hlohi : lo ≤ hi) (p q : ErrorEntry)
    (hp : p.like = lo) (hq : q.like = hi) (l : List ErrorEntry) (hs : AscendingLike l) :
    findError params
        ((l.take (lowerBound ErrorEntry.lt q l)).drop (lowerBound ErrorEntry.lt p l))
      = l.find? (fun r => decide (lo ≤ r.like ∧ r.like < hi) && paramsEqual params r.params) := by
  induction l with
  | nil => simp [lowerBound, findError]
  | cons e es ih =>
    have hs2 : AscendingLike es := (List.pairwise_cons.mp hs).2
    have hge : ∀ r ∈ es, e.like ≤ r.like := (List.pairwise_cons.mp hs).1
    by_cases h1 : e.like < lo
    · have h2 : e.like < hi := lt_of_lt_of_le h1 hlohi
      have h3 : ¬ lo ≤ e.like := not_le.mpr h1
      simp only [lowerBound, ErrorEntry.lt, hp, hq, h1, h2, decide_True, if_true,
        List.take_succ_cons, List.drop_succ_cons, List.find?_cons, h3, false_and,
        decide_False, Bool.false_and]
      have hi2 := ih hs2
      simp only [ErrorEntry.lt, hp, hq] at hi2
      exact hi2
    · have h1' : lo ≤ e.like := not_lt.mp h1
      have hzero : lowerBound ErrorEntry.lt p es = 0 :=
        lowerBound_zero p es (fun r hr => by rw [hp]; exact le_trans h1' (hge r hr))
      by_cases h2 : e.like < hi
      · have hi2 := ih hs2
        rw [hzero, List.drop_zero] at hi2
        simp only [lowerBound, ErrorEntry.lt, hp, hq, h1, h2, decide_True, decide_False,
          if_true, if_false, List.take_succ_cons, List.drop_zero, List.find?_cons, h1',
          true_and, Bool.true_and, findError, Bool.false_eq_true]
        by_cases h3 : paramsEqual params e.params = true
        · simp [h3]
        · simp only [h3, if_false, Bool.false_eq_true]
          exact hi2
      · have hnone : (e :: es).find?
            (fun r => decide (lo ≤ r.like ∧ r.like < hi) && paramsEqual params r.params) = none := by
          rw [List.find?_eq_none]
          intro r hr
          have hr2 : e.like ≤ r.like := by
            rcases List.mem_cons.mp hr with rfl | hr
            · exact le_refl _
            · exact hge r hr
          have : ¬ r.like < hi := fun hc => h2 (lt_of_le_of_lt hr2 hc)
          simp [this]
        rw [hnone]
        simp [lowerBound, ErrorEntry.lt, hp, hq, h1, h2, findError]

/-- What the error-attachment block of `readFile` does on records in ascending
order of log-likelihood. -/
theorem attachError_sorted (errors_ : List ErrorEntry) (elem : Element)
    (hs : AscendingLike errors_) :
    attachError errors_ elem
      = match matchingError errors_ elem with
        | some r => { elem with errMean := r.mean, errVar := r.var }
        | none => elem := by
  unfold attachError matchingError
  by_cases he : errors_.isEmpty = true
  · have : errors_ = [] := List.isEmpty_iff.mp he
    subst this
    simp
  · simp only [he, if_false, Bool.false_eq_true]
    rw [findError_window elem.params (elem.like - 1 / 20) (elem.like + 1 / 20) (by linarith)
      _ _ rfl rfl errors_ hs]

theorem stdSort_errors_ascending (l : List ErrorEntry) :
    AscendingLike (stdSort ErrorEntry.lt l) := by
  have hT : IsTotal ErrorEntry (fun a b => ErrorEntry.lt b a = false) :=
    ⟨fun a b => by
      simp only [ErrorEntry.lt, decide_eq_false_iff_not, not_lt]
      exact le_total _ _⟩
  have hTr : IsTrans ErrorEntry (fun a b => ErrorEntry.lt b a = false) :=
    ⟨fun a b c => by
      simp only [ErrorEntry.lt, decide_eq_false_iff_not, not_lt]
      intro h1 h2
      exact le_trans h1 h2⟩
  have h := List.sorted_insertionSort (fun a b => ErrorEntry.lt b a = false) l
  refine List.Pairwise.imp ?_ h
  intro a b hab
  simpa [ErrorEntry.lt] using hab

/-- The error records that `readErrorFiles` leaves on success are in ascending
order of log-likelihood. -/
theorem readErrorFiles_ascending (mc : MarkovChain) (nError : Int)
    (errorFile : Nat → Option ErrorFile) (h : (mc.readErrorFiles nError errorFile).2 = none) :
    AscendingLike (mc.readErrorFiles nError errorFile).1.errors_ := by
  unfold MarkovChain.readErrorFiles at h ⊢
  rcases hr : readErrorFilesLoop errorFile (List.range nError.toNat) mc.errors_ with ⟨errors, e⟩
  rw [hr] at h
  cases e with
  | some e1 => simp at h
  | none => exact stdSort_errors_ascending errors

theorem paramsEqual_iff (ps qs : List ℚ) :
    paramsEqual ps qs = true
      ↔ ps.length ≤ qs.length
        ∧ ∀ p ∈ ps.zip qs, Math.areEqual p.1 p.2 (1 / 100000) = true := by
  induction ps generalizing qs with
  | nil => simp [paramsEqual]
  | cons p ps ih =>
    cases qs with
    | nil => simp [paramsEqual]
    | cons q qs =>
      have hdef : paramsEqual (p :: ps) (q :: qs)
          = if Math.areEqual p q (1 / 100000) then paramsEqual ps qs else false := rfl
      rw [hdef, List.zip_cons_cons, List.length_cons, List.length_cons]
      by_cases h : Math.areEqual p q (1 / 100000) = true
      · rw [if_pos h, ih]
        constructor
        · rintro ⟨hl, hz⟩
          refine ⟨Nat.succ_le_succ hl, fun x hx => ?_⟩
          rcases List.mem_cons.mp hx with rfl | hx
          · exact h
          · exact hz x hx
        · rintro ⟨hl, hz⟩
          exact ⟨Nat.le_of_succ_le_succ hl, fun x hx => hz x (List.mem_cons_of_mem _ hx)⟩
      · rw [if_neg h]
        constructor
        · intro hc
          exact absurd hc (by simp)
        · rintro ⟨_, hz⟩
          exact absurd (hz (p, q) (List.mem_cons_self _ _)) h

theorem dropLast_take (l : List ℚ) (m : Nat) (hm : m ≤ l.length) :
    (l.take m).dropLast = l.take (m - 1) := by
  rw [List.dropLast_eq_take, List.length_take, List.take_take]
  congr 1
  omega

theorem getLast_take (l : List ℚ) (m : Nat) (hm : m ≤ l.length) (h1 : 1 ≤ m) :
    (l.take m).getLast?.getD 0 = l.getD (m - 1) 0 := by
  rw [List.getLast?_eq_getElem?, List.length_take, List.getElem?_take, List.getD_eq_getElem?_getD]
  have h2 : min m l.length - 1 = m - 1 := by omega
  have h3 : m - 1 < m := by omega
  rw [h2, if_pos h3]

/-- The record that the pops of `readErrorFiles` assemble from a line of at
least six fields is `errorRecord`. -/
theorem popped_record (f : List ℚ) (h : 6 ≤ f.length) :
    ({ like := f.dropLast.dropLast.dropLast.dropLast.getLast?.getD 0,
       params := f.dropLast.dropLast.dropLast.dropLast.dropLast,
       mean := f.dropLast.getLast?.getD 0,
       var := f.getLast?.getD 0 } : ErrorEntry) = errorRecord f := by
  have h0 : f = f.take f.length := (List.take_length f).symm
  have e1 : f.dropLast = f.take (f.length - 1) := by
    conv_lhs => rw [h0]
    exact dropLast_take f f.length (le_refl _)
  have e2 : f.dropLast.dropLast = f.take (f.length - 2) := by
    rw [e1, dropLast_take f _ (by omega)]
    congr 1
  have e3 : f.dropLast.dropLast.dropLast = f.take (f.length - 3) := by
    rw [e2, dropLast_take f _ (by omega)]
    congr 1
  have e4 : f.dropLast.dropLast.dropLast.dropLast = f.take (f.length - 4) := by
    rw [e3, dropLast_take f _ (by omega)]
    congr 1
  have e5 : f.dropLast.dropLast.dropLast.dropLast.dropLast = f.take (f.length - 5) := by
    rw [e4, dropLast_take f _ (by omega)]
    congr 1
  have v1 : f.getLast?.getD 0 = f.getD (f.length - 1) 0 := by
    conv_lhs => rw [h0]
    exact getLast_take f f.length (le_refl _) (by omega)
  have v2 : f.dropLast.getLast?.getD 0 = f.getD (f.length - 2) 0 := by
    rw [e1, getLast_take f _ (by omega) (by omega)]
    congr 1
  have v5 : f.dropLast.dropLast.dropLast.dropLast.getLast?.getD 0
      = f.getD (f.length - 5) 0 := by
    rw [e4, getLast_take f _ (by omega) (by omega)]
    congr 1
  rw [e5, v1, v2, v5]
  rfl

theorem DBL_MIN_pos : 0 < DBL_MIN := by
  unfold DBL_MIN
  positivity

theorem readFile_maxP_ge (mc : MarkovChain) (file : Option ChainFile) (burnin thin : Nat)
    (bc c : List Element) (m : ℚ)
    (h : (mc.readFile file burnin thin bc).2 = Except.ok (c, m)) : DBL_MIN ≤ m := by
  rcases Nat.eq_zero_or_pos thin with h0 | ht
  · subst h0
    rw [readFile_thin_zero] at h
    simp at h
  · cases file with
    | none =>
      unfold MarkovChain.readFile at h
      rw [check_pos thin ht] at h
      simp at h
    | some lines =>
      by_cases hs : SameParamCount (rowsOf lines)
      · rw [readFile_ok mc lines burnin thin bc ht hs] at h
        simp only [Except.ok.injEq, Prod.mk.injEq] at h
        rw [← h.2]
        exact le_maxWeight _ _
      · rw [readFile_malformed mc lines burnin thin bc ht hs] at h
        simp at h

theorem readChains_maxP_ge (burnin thin : Nat) (files : List (Option ChainFile)) :
    ∀ (mc : MarkovChain) (bc c : List Element) (mp m : ℚ),
      (readChains burnin thin files mc bc mp).2 = Except.ok (c, m) → mp ≤ m := by
  induction files with
  | nil =>
    intro mc bc c mp m h
    simp only [readChains, Except.ok.injEq, Prod.mk.injEq] at h
    exact le_of_eq h.2
  | cons file rest ih =>
    intro mc bc c mp m h
    unfold readChains at h
    rcases hr : mc.readFile file burnin thin bc with ⟨mc1, res⟩
    rw [hr] at h
    cases res with
    | error e => simp at h
    | ok v =>
      rcases v with ⟨bc1, m1⟩
      simp only at h
      have h2 := ih mc1 bc1 c _ m h
      refine le_trans ?_ h2
      split_ifs with hc
      · exact le_of_lt hc
      · exact le_refl _

theorem readChains_chain (burnin thin : Nat) (files : List (Option ChainFile)) :
    ∀ (mc : MarkovChain) (bc : List Element) (mp : ℚ),
      (readChains burnin thin files mc bc mp).1.chain_ = mc.chain_ := by
  induction files with
  | nil =>
    intro mc bc mp
    rfl
  | cons file rest ih =>
    intro mc bc mp
    unfold readChains
    have hf := (readFile_frame mc file burnin thin bc).1
    rcases hr : mc.readFile file burnin thin bc with ⟨mc1, res⟩
    rw [hr] at hf
    cases res with
    | error e => exact hf
    | ok v =>
      rcases v with ⟨bc1, m1⟩
      simp only
      rw [ih mc1 bc1 _]
      exact hf

/-- The samples that pass the filter of a load have positive weight: the
threshold `maxP / bigChain.size() / 1000` is positive because `maxP` is never
below `std::numeric_limits<double>::min()`. -/
theorem filter_positive (bigChain : List Element) (maxP : ℚ) (hm : DBL_MIN ≤ maxP) :
    ∀ e ∈ bigChain.filter (fun e => decide (e.prob ≥ maxP / (bigChain.length : ℚ) / 1000)),
      0 < e.prob := by
  intro e he
  have hmem : e ∈ bigChain := List.mem_of_mem_filter he
  have hge : e.prob ≥ maxP / (bigChain.length : ℚ) / 1000 := by
    simpa using (List.mem_filter.mp he).2
  have hlen : 0 < bigChain.length := List.length_pos_of_mem hmem
  have hlenq : (0 : ℚ) < (bigChain.length : ℚ) := by exact_mod_cast hlen
  have hpos : 0 < maxP := lt_of_lt_of_le DBL_MIN_pos hm
  have : 0 < maxP / (bigChain.length : ℚ) / 1000 := by positivity
  exact lt_of_lt_of_le this hge

/-- A successful `addFile` on a store of positive weights leaves a store of
positive weights. -/
theorem addFile_positive (mc : MarkovChain) (file : Option ChainFile) (burnin thin : Nat)
    (hpos : ∀ e ∈ mc.chain_, 0 < e.prob) (h : (mc.addFile file burnin thin).2 = none) :
    ∀ e ∈ (mc.addFile file burnin thin).1.chain_, 0 < e.prob := by
  rcases hr : mc.readFile file burnin thin [] with ⟨mc1, r⟩
  cases r with
  | error e1 =>
    rw [addFile_error mc file burnin thin mc1 e1 hr] at h
    simp at h
  | ok v =>
    rcases v with ⟨bigChain, maxP⟩
    have hm : DBL_MIN ≤ maxP := readFile_maxP_ge mc file burnin thin [] bigChain maxP (by rw [hr])
    have hf := (readFile_frame mc file burnin thin []).1
    rw [hr] at hf
    rw [addFile_chain mc file burnin thin mc1 bigChain maxP hr]
    intro e he
    simp only [MarkovChain.sortChain, MarkovChain.filterChain, filterLoop_eq] at he
    have he2 := (stdSort_perm _ _).mem_iff.mp he
    rcases List.mem_append.mp he2 with h1 | h1
    · exact hpos e (by rw [← hf]; exact h1)
    · exact filter_positive bigChain maxP hm e h1

/-- Every store that the single-file constructor builds has positive weights. -/
theorem fromFile_positive (file : Option ChainFile) (burnin thin : Nat)
    (errorLog : Option (Nat → Option ErrorFile)) (nError : Int) (mc : MarkovChain)
    (h : MarkovChain.fromFile file burnin thin errorLog nError = Except.ok mc) :
    ∀ e ∈ mc.chain_, 0 < e.prob := by
  unfold MarkovChain.fromFile at h
  have hchain := readErrorLog_chain MarkovChain.init errorLog nError
  rcases h0 : MarkovChain.init.readErrorLog errorLog nError with ⟨mc0, e0⟩
  rw [h0] at h hchain
  cases e0 with
  | some e => simp at h
  | none =>
    simp only at h hchain
    rcases h1 : ({ mc0 with minLike_ := DBL_MAX } : MarkovChain).addFile file burnin thin
      with ⟨mc1, e1⟩
    rw [h1] at h
    cases e1 with
    | some e => simp at h
    | none =>
      simp only [Except.ok.injEq] at h
      have hs := addFile_positive { mc0 with minLike_ := DBL_MAX } file burnin thin
        (by intro e he; rw [hchain] at he; simp [MarkovChain.init] at he) (by rw [h1])
      rw [h1] at hs
      rw [← h]
      exact hs

/-- Every store that the multi-chain constructor builds has positive weights. -/
theorem fromChains_positive (files : List (Option ChainFile)) (burnin thin : Nat)
    (errorLog : Option (Nat → Option ErrorFile)) (mc : MarkovChain)
    (h : MarkovChain.fromChains files burnin thin errorLog = Except.ok mc) :
    ∀ e ∈ mc.chain_, 0 < e.prob := by
  unfold MarkovChain.fromChains at h
  cases hc : check (decide (files.length > 0)) with
  | some e => rw [hc] at h; simp at h
  | none =>
    rw [hc] at h
    simp only at h
    have hchain := readErrorLog_chain MarkovChain.init errorLog (files.length : Int)
    rcases h0 : MarkovChain.init.readErrorLog errorLog (files.length : Int) with ⟨mc0, e0⟩
    rw [h0] at h hchain
    cases e0 with
    | some e => simp at h
    | none =>
      simp only at h hchain
      rcases h1 : readChains burnin thin files { mc0 with minLike_ := DBL_MAX } [] DBL_MIN
        with ⟨mc1, r⟩
      rw [h1] at h
      cases r with
      | error e => simp at h
      | ok v =>
        rcases v with ⟨bigChain, maxP⟩
        simp only [Except.ok.injEq] at h
        have hm : DBL_MIN ≤ maxP :=
          readChains_maxP_ge burnin thin files _ [] bigChain DBL_MIN maxP (by rw [h1])
        rw [← h]
        intro e he
        simp only [MarkovChain.sortChain, MarkovChain.filterChain, filterLoop_eq] at he
        have he2 := (stdSort_perm _ _).mem_iff.mp he
        rcases List.mem_append.mp he2 with h2 | h2
        · have hc1 := readChains_chain burnin thin files
            ({ mc0 with minLike_ := DBL_MAX } : MarkovChain) [] DBL_MIN
          rw [h1] at hc1
          simp only at hc1
          rw [hc1, hchain] at h2
          simp [MarkovChain.init] at h2
        · exact filter_positive bigChain maxP hm e h2

theorem cumulWeight_zero (chain : List Element) : cumulWeight chain 0 = 0 := by
  simp [cumulWeight]

theorem cumulWeight_cons (e : Element) (rest : List Element) (i : Nat) :
    cumulWeight (e :: rest) (i + 1) = e.prob + cumulWeight rest i := by
  simp [cumulWeight]

theorem cumulWeight_nonneg (chain : List Element) (hnn : ∀ e ∈ chain, 0 ≤ e.prob) (i : Nat) :
    0 ≤ cumulWeight chain i := by
  unfold cumulWeight
  apply List.sum_nonneg
  intro x hx
  rw [List.mem_map] at hx
  obtain ⟨e, he, rfl⟩ := hx
  exact hnn e (List.mem_of_mem_take he)

theorem cumulWeight_mono (chain : List Element) (hnn : ∀ e ∈ chain, 0 ≤ e.prob) :
    ∀ i j : Nat, i ≤ j → cumulWeight chain i ≤ cumulWeight chain j := by
  induction chain with
  | nil =>
    intro i j _
    simp [cumulWeight]
  | cons e rest ih =>
    intro i j hij
    have hrest : ∀ x ∈ rest, 0 ≤ x.prob := fun x hx => hnn x (List.mem_cons_of_mem _ hx)
    cases j with
    | zero =>
      have : i = 0 := by omega
      subst this
      exact le_refl _
    | succ j =>
      cases i with
      | zero =>
        rw [cumulWeight_zero]
        exact cumulWeight_nonneg _ hnn _
      | succ i =>
        rw [cumulWeight_cons, cumulWeight_cons]
        have := ih hrest i j (by omega)
        linarith

/-- The loop of `getRange` on samples of non-negative weight: from the running
total `total` it appends the samples at the positions `i` of the remaining list
such that the total before the sample does not exceed `pUpper` and the total
through it exceeds `pLower`. -/
theorem getRangeLoop_positions (pUpper pLower : ℚ) (l : List Element) :
    ∀ (total : ℚ) (container : List Element), (∀ e ∈ l, 0 ≤ e.prob) →
      getRangeLoop pUpper pLower l total container
        = container ++ (l.enum.filter (fun p =>
            decide (total + cumulWeight l (p.1 + 1) > pLower
              ∧ total + cumulWeight l p.1 ≤ pUpper))).map Prod.snd := by
  induction l with
  | nil =>
    intro total container _
    simp [getRangeLoop]
  | cons e rest ih =>
    intro total container hnn
    have hrest : ∀ x ∈ rest, 0 ≤ x.prob := fun x hx => hnn x (List.mem_cons_of_mem _ hx)
    unfold getRangeLoop
    by_cases ht : total ≤ pUpper
    · have hpred : ((fun p : Nat × Element =>
            decide (total + cumulWeight (e :: rest) (p.1 + 1) > pLower
              ∧ total + cumulWeight (e :: rest) p.1 ≤ pUpper)) ∘ Prod.map (fun x => x + 1) id)
          = fun p : Nat × Element =>
            decide (total + e.prob + cumulWeight rest (p.1 + 1) > pLower
              ∧ total + e.prob + cumulWeight rest p.1 ≤ pUpper) := by
        funext p
        simp only [Function.comp, Prod.map_fst]
        apply decide_eq_decide.mpr
        rw [cumulWeight_cons, cumulWeight_cons, add_assoc, add_assoc]
      have hsnd : (Prod.snd ∘ Prod.map (fun x : Nat => x + 1) (id : Element → Element))
          = Prod.snd := by
        funext p
        rfl
      have hhead : decide (total + cumulWeight (e :: rest) ((0, e).1 + 1) > pLower
            ∧ total + cumulWeight (e :: rest) (0, e).1 ≤ pUpper)
          = decide (total + e.prob > pLower) := by
        show decide (total + cumulWeight (e :: rest) (0 + 1) > pLower
            ∧ total + cumulWeight (e :: rest) 0 ≤ pUpper) = _
        apply decide_eq_decide.mpr
        rw [cumulWeight_cons, cumulWeight_zero, cumulWeight_zero, add_zero, add_zero]
        exact ⟨fun h => h.1, fun h => ⟨h, ht⟩⟩
      rw [if_pos ht, ih _ _ hrest, List.enum_cons', List.filter_cons, List.filter_map, hpred,
        hhead]
      by_cases hp : total + e.prob > pLower
      · simp only [hp, decide_True, if_true, List.map_cons, List.map_map, hsnd,
          List.append_assoc, List.singleton_append]
      · simp only [hp, decide_False, if_false, Bool.false_eq_true, List.map_map, hsnd]
    · rw [if_neg ht]
      have hnil : (e :: rest).enum.filter (fun p =>
            decide (total + cumulWeight (e :: rest) (p.1 + 1) > pLower
              ∧ total + cumulWeight (e :: rest) p.1 ≤ pUpper)) = [] := by
        rw [List.filter_eq_nil_iff]
        intro p _
        have h0 := cumulWeight_nonneg (e :: rest) hnn p.1
        have : ¬ total + cumulWeight (e :: rest) p.1 ≤ pUpper := by
          intro hc
          exact ht (by linarith)
        simp [this]
      rw [hnil]
      simp

/-- The loop of `getRange` with `pLower = 0` on samples of positive weight,
from a non-negative running total: it appends every sample it visits. -/
theorem getRangeLoop_prefix (pUpper : ℚ) (l : List Element) :
    ∀ (total : ℚ) (container : List Element), (∀ e ∈ l, 0 < e.prob) → 0 ≤ total →
      getRangeLoop pUpper 0 l total container
        = container ++ l.take (visited pUpper l total) := by
  induction l with
  | nil =>
    intro total container _ _
    simp [getRangeLoop]
  | cons e rest ih =>
    intro total container hpos ht0
    have hrest : ∀ x ∈ rest, 0 < x.prob := fun x hx => hpos x (List.mem_cons_of_mem _ hx)
    have he : 0 < e.prob := hpos e (List.mem_cons_self _ _)
    unfold getRangeLoop visited
    by_cases ht : total ≤ pUpper
    · have hp : total + e.prob > 0 := by linarith
      rw [if_pos ht, if_pos ht, if_pos hp, ih _ _ hrest (by linarith)]
      simp
    · rw [if_neg ht, if_neg ht]
      simp

/-- Every sample the loop visits starts at a running total that does not exceed
`pUpper`. -/
theorem visited_before (pUpper : ℚ) (l : List Element) :
    ∀ (total : ℚ) (i : Nat), i < visited pUpper l total →
      total + cumulWeight l i ≤ pUpper := by
  induction l with
  | nil =>
    intro total i hi
    simp [visited] at hi
  | cons e rest ih =>
    intro total i hi
    unfold visited at hi
    by_cases ht : total ≤ pUpper
    · rw [if_pos ht] at hi
      cases i with
      | zero =>
        rw [cumulWeight_zero, add_zero]
        exact ht
      | succ i =>
        rw [cumulWeight_cons, ← add_assoc]
        exact ih _ i (by omega)
    · rw [if_neg ht] at hi
      omega

/-- The loop visits the whole list, or stops after the first sample through
which the running total exceeds `pUpper`. -/
theorem visited_stop (pUpper : ℚ) (l : List Element) :
    ∀ (total : ℚ), total ≤ pUpper →
      visited pUpper l total = l.length
        ∨ pUpper < total + cumulWeight l (visited pUpper l total) := by
  induction l with
  | nil =>
    intro total _
    left
    rfl
  | cons e rest ih =>
    intro total ht
    unfold visited
    rw [if_pos ht]
    by_cases ht2 : total + e.prob ≤ pUpper
    · rcases ih _ ht2 with h | h
      · left
        simp [h]
      · right
        rw [cumulWeight_cons, ← add_assoc]
        exact h
    · right
      have hv : visited pUpper rest (total + e.prob) = 0 := by
        cases rest with
        | nil => rfl
        | cons x xs => simp [visited, ht2]
      rw [hv, cumulWeight_cons, cumulWeight_zero, add_zero]
      exact not_le.mp ht2

theorem getRange_valid (mc : MarkovChain) (container : List Element) (pUpper pLower : ℚ)
    (h0 : 0 ≤ pLower) (h1 : pLower ≤ pUpper) (h2 : pUpper ≤ 1) (h3 : pUpper ≠ 0)
    (h4 : pLower ≠ 1) :
    mc.getRange container pUpper pLower = (getRangeLoop pUpper pLower mc.chain_ 0 [], none) := by
  have hu : 0 ≤ pUpper := le_trans h0 h1
  simp [MarkovChain.getRange, check, hu, h0, h1, h2, h3, h4]

/-- The member functions `prepare` and hence `generate`, up to the fit, write
neither the surface nor the table nor the raw buffers. -/
theorem prepare_frame (lib : Numerics) (p : Posterior1D) (method : SmoothingMethod)
    (scale : ℚ) :
    (p.prepare lib method scale).1.smooth_ = p.smooth_
      ∧ (p.prepare lib method scale).1.cumulInv_ = p.cumulInv_
      ∧ (p.prepare lib method scale).1.points_ = p.points_
      ∧ (p.prepare lib method scale).1.probs_ = p.probs_ := by
  unfold Posterior1D.prepare
  simp only []
  repeat' split
  all_goals exact ⟨rfl, rfl, rfl, rfl⟩

/-- When the histogram loop ends without an error, `totalP` has grown by the
sum of the weights. -/
theorem histogramLoop_totalP (min_ d : ℚ) (resolution : Int) (points : List ℚ) :
    ∀ (probs errVars : List ℚ) (h h1 : Histogram), probs.length = points.length →
      histogramLoop min_ d resolution points probs errVars h = (h1, none) →
      h1.totalP = h.totalP + probs.sum := by
  induction points with
  | nil =>
    intro probs errVars h h1 hlen hr
    have : probs = [] := List.length_eq_zero.mp hlen
    subst this
    simp only [histogramLoop, Prod.mk.injEq, and_true] at hr
    rw [← hr]
    simp
  | cons pt points ih =>
    intro probs errVars h h1 hlen hr
    cases probs with
    | nil => simp at hlen
    | cons w ws =>
      unfold histogramLoop at hr
      split at hr
      · simp at hr
      · simp only [] at hr
        split at hr
        · simp at hr
        · have := ih ws errVars.tail _ h1 (by simpa using hlen) hr
          rw [this]
          simp only [List.headD_cons, List.sum_cons]
          ring

/-- With weights that sum to zero, `generate` does not get to the fit. -/
theorem prepare_zero_weight (lib : Numerics) (p : Posterior1D) (method : SmoothingMethod)
    (scale : ℚ) (hz : p.probs_.sum = 0) :
    ∃ e : Error, (p.prepare lib method scale).2 = Except.error e := by
  unfold Posterior1D.prepare
  simp only []
  split
  · exact ⟨_, rfl⟩
  · split
    · exact ⟨_, rfl⟩
    · rename_i hlen
      split
      · exact ⟨_, rfl⟩
      · split
        · exact ⟨_, rfl⟩
        · split
          · exact ⟨_, rfl⟩
          · split
            · exact ⟨_, rfl⟩
            · split
              · exact ⟨_, rfl⟩
              · rename_i h hr
                split
                · exact ⟨_, rfl⟩
                · have hlen2 : p.probs_.length = p.points_.length := by
                    simp only [checkKind, ite_eq_left_iff, decide_eq_true_eq] at hlen
                    by_contra hc
                    exact absurd (hlen (fun h2 => hc h2.symm)) (by simp)
                  have ht := histogramLoop_totalP _ _ _ _ _ _ _ h hlen2 hr
                  simp only [hz, add_zero] at ht
                  split
                  · exact ⟨_, rfl⟩
                  · rename_i hcheck
                    simp [checkKind, ht] at hcheck

theorem generate_of_prepare_error (lib : Numerics) (p : Posterior1D) (method : SmoothingMethod)
    (scale : ℚ) (e : Error) (h : (p.prepare lib method scale).2 = Except.error e) :
    p.generate lib method scale = ((p.prepare lib method scale).1, some e) := by
  unfold Posterior1D.generate
  rcases hp : p.prepare lib method scale with ⟨p2, r⟩
  rw [hp] at h
  simp only at h
  subst h
  rfl

/-- An assignment leaves in the table the assigned entry and the entries of
the other keys. -/
theorem mem_tableAssign (table : TableFunction) (key value : ℚ) (hs : KeysAscending table)
    (x : ℚ × ℚ) :
    x ∈ tableAssign table key value ↔ x = (key, value) ∨ (x ∈ table ∧ x.1 ≠ key) := by
  induction table with
  | nil => simp [tableAssign]
  | cons a rest ih =>
    obtain ⟨k0, v0⟩ := a
    have hs2 : KeysAscending rest := (List.pairwise_cons.mp hs).2
    have hgt : ∀ b ∈ rest, k0 < b.1 := (List.pairwise_cons.mp hs).1
    unfold tableAssign
    by_cases h1 : key < k0
    · rw [if_pos h1]
      constructor
      · intro hx
        rcases List.mem_cons.mp hx with rfl | hx
        · left; rfl
        · right
          refine ⟨hx, ?_⟩
          rcases List.mem_cons.mp hx with rfl | hx
          · exact ne_of_gt h1
          · exact ne_of_gt (lt_trans h1 (hgt x hx))
      · rintro (rfl | ⟨hx, _⟩)
        · exact List.mem_cons_self _ _
        · exact List.mem_cons_of_mem _ hx
    · rw [if_neg h1]
      by_cases h2 : key = k0
      · rw [if_pos h2]
        constructor
        · intro hx
          rcases List.mem_cons.mp hx with rfl | hx
          · left; rfl
          · right
            exact ⟨List.mem_cons_of_mem _ hx, by rw [h2]; exact ne_of_gt (hgt x hx)⟩
        · rintro (rfl | ⟨hx, hne⟩)
          · exact List.mem_cons_self _ _
          · rcases List.mem_cons.mp hx with rfl | hx
            · exact absurd h2.symm hne
            · exact List.mem_cons_of_mem _ hx
      · rw [if_neg h2]
        constructor
        · intro hx
          rcases List.mem_cons.mp hx with rfl | hx
          · right
            exact ⟨List.mem_cons_self _ _, fun hc => h2 hc.symm⟩
          · rcases (ih hs2).mp hx with rfl | ⟨hx, hne⟩
            · left; rfl
            · right
              exact ⟨List.mem_cons_of_mem _ hx, hne⟩
        · rintro (rfl | ⟨hx, hne⟩)
          · exact List.mem_cons_of_mem _ ((ih hs2).mpr (Or.inl rfl))
          · rcases List.mem_cons.mp hx with rfl | hx
            · exact List.mem_cons_self _ _
            · exact List.mem_cons_of_mem _ ((ih hs2).mpr (Or.inr ⟨hx, hne⟩))

/-- An assignment keeps the keys of the table in strictly ascending order. -/
theorem tableAssign_ascending (table : TableFunction) (key value : ℚ)
    (hs : KeysAscending table) : KeysAscending (tableAssign table key value) := by
  induction table with
  | nil => simp [tableAssign, KeysAscending]
  | cons a rest ih =>
    obtain ⟨k0, v0⟩ := a
    have hs2 : KeysAscending rest := (List.pairwise_cons.mp hs).2
    have hgt : ∀ b ∈ rest, k0 < b.1 := (List.pairwise_cons.mp hs).1
    unfold tableAssign
    by_cases h1 : key < k0
    · rw [if_pos h1]
      refine List.pairwise_cons.mpr ⟨?_, hs⟩
      intro b hb
      rcases List.mem_cons.mp hb with rfl | hb
      · exact h1
      · exact lt_trans h1 (hgt b hb)
    · rw [if_neg h1]
      by_cases h2 : key = k0
      · rw [if_pos h2]
        refine List.pairwise_cons.mpr ⟨?_, hs2⟩
        intro b hb
        rw [h2]
        exact hgt b hb
      · rw [if_neg h2]
        have hlt : k0 < key := lt_of_le_of_ne (not_lt.mp h1) (fun hc => h2 hc.symm)
        refine List.pairwise_cons.mpr ⟨?_, ih hs2⟩
        intro b hb
        rcases (mem_tableAssign rest key value hs2 b).mp hb with rfl | ⟨hb, _⟩
        · exact hlt
        · exact hgt b hb

/-- The loop that builds the credible-level table keeps its invariant, and
never overwrites an entry whose key is below the running total. -/
theorem credibleLoop_inv (norm delta1 delta2 : ℚ) (hn : 0 < norm) (hc : 0 ≤ delta1 * delta2)
    (l : List ℚ) :
    ∀ (total : ℚ) (table : TableFunction), List.Pairwise (fun a b : ℚ => b ≤ a) l →
      (∀ pr ∈ l, 0 ≤ pr) → CredibleInv norm table total l →
      KeysAscending (credibleLoop norm delta1 delta2 l total table)
        ∧ (∀ e ∈ credibleLoop norm delta1 delta2 l total table, e.1 < 1)
        ∧ (∀ e1 ∈ credibleLoop norm delta1 delta2 l total table,
            ∀ e2 ∈ credibleLoop norm delta1 delta2 l total table, e1.1 < e2.1 → e2.2 ≤ e1.2)
        ∧ (∀ e ∈ credibleLoop norm delta1 delta2 l total table, 0 ≤ e.2)
        ∧ (∀ e ∈ table, e.1 < total → e ∈ credibleLoop norm delta1 delta2 l total table) := by
  induction l with
  | nil =>
    intro total table _ _ hinv
    obtain ⟨ha, _, hk, _, hm, hv⟩ := hinv
    exact ⟨ha, hk, hm, hv, fun e he _ => he⟩
  | cons pr rest ih =>
    intro total table hsorted hnn hinv
    obtain ⟨ha, hb, hk, hd, hm, hv⟩ := hinv
    unfold credibleLoop
    by_cases ht : total < 1
    · rw [if_pos ht]
      have hpr : 0 ≤ pr := hnn pr (List.mem_cons_self _ _)
      have hstep : 0 ≤ pr / norm * delta1 * delta2 := by
        have h1 : 0 ≤ pr / norm := div_nonneg hpr (le_of_lt hn)
        have h2 : pr / norm * delta1 * delta2 = pr / norm * (delta1 * delta2) := by ring
        rw [h2]
        exact mul_nonneg h1 hc
      have hrest : List.Pairwise (fun a b : ℚ => b ≤ a) rest := (List.pairwise_cons.mp hsorted).2
      have hle : ∀ x ∈ rest, x ≤ pr := (List.pairwise_cons.mp hsorted).1
      have hnn2 : ∀ x ∈ rest, 0 ≤ x := fun x hx => hnn x (List.mem_cons_of_mem _ hx)
      have hmem := mem_tableAssign table total (pr / norm) ha
      have hinv2 : CredibleInv norm (tableAssign table total (pr / norm))
          (total + pr / norm * delta1 * delta2) rest := by
        refine ⟨tableAssign_ascending table total (pr / norm) ha, ?_, ?_, ?_, ?_, ?_⟩
        · intro e he
          rcases (hmem e).mp he with rfl | ⟨he, _⟩
          · simp only
            linarith
          · have := hb e he
            linarith
        · intro e he
          rcases (hmem e).mp he with rfl | ⟨he, _⟩
          · exact ht
          · exact hk e he
        · intro e he x hx
          rcases (hmem e).mp he with rfl | ⟨he, _⟩
          · exact div_le_div_of_nonneg_right (hle x hx) (le_of_lt hn)
          · exact hd e he x (List.mem_cons_of_mem _ hx)
        · intro e1 he1 e2 he2 hlt
          rcases (hmem e1).mp he1 with rfl | ⟨he1, hne1⟩
          · rcases (hmem e2).mp he2 with rfl | ⟨he2, _⟩
            · exact absurd hlt (lt_irrefl _)
            · have := hb e2 he2
              simp only at hlt
              linarith
          · rcases (hmem e2).mp he2 with rfl | ⟨he2, _⟩
            · exact hd e1 he1 pr (List.mem_cons_self _ _)
            · exact hm e1 he1 e2 he2 hlt
        · intro e he
          rcases (hmem e).mp he with rfl | ⟨he, _⟩
          · exact div_nonneg hpr (le_of_lt hn)
          · exact hv e he
      obtain ⟨r1, r2, r3, r4, r5⟩ := ih _ _ hrest hnn2 hinv2
      refine ⟨r1, r2, r3, r4, ?_⟩
      intro e he hlt
      apply r5 e ((hmem e).mpr (Or.inr ⟨he, ne_of_lt hlt⟩))
      linarith
    · rw [if_neg ht]
      exact ⟨ha, hk, hm, hv, fun e he _ => he⟩

theorem stdSort_rat_ascending (l : List ℚ) :
    List.Pairwise (fun a b : ℚ => a ≤ b) (stdSort (fun a b : ℚ => decide (a < b)) l) := by
  have hT : IsTotal ℚ (fun a b => decide (b < a) = false) :=
    ⟨fun a b => by
      simp only [decide_eq_false_iff_not, not_lt]
      exact le_total _ _⟩
  have hTr : IsTrans ℚ (fun a b => decide (b < a) = false) :=
    ⟨fun a b c => by
      simp only [decide_eq_false_iff_not, not_lt]
      intro h1 h2
      exact le_trans h1 h2⟩
  have h := List.sorted_insertionSort (fun a b : ℚ => decide (b < a) = false) l
  refine List.Pairwise.imp ?_ h
  intro a b hab
  simpa using hab

/-- When the inner sampling loop ends without an error it has appended one
value of the surface per index and added their cells to `norm_`. -/
theorem sampleRow_ok (surface : Surface2D) (v1 x2first x2last delta1 delta2 : ℚ) (N2 : Nat)
    (js : List Nat) :
    ∀ (st st1 : List ℚ × ℚ),
      sampleRow surface v1 x2first x2last delta1 delta2 N2 js st = (st1, none) →
      ∃ new : List ℚ, st1.1 = st.1 ++ new
        ∧ st1.2 = st.2 + (new.map (fun y => y * delta1 * delta2)).sum
        ∧ new.length = js.length
        ∧ ∀ y ∈ new, ∃ a b : ℚ, y = surface.evaluate a b := by
  induction js with
  | nil =>
    intro st st1 h
    simp only [sampleRow, Prod.mk.injEq, and_true] at h
    exact ⟨[], by simp [h], by simp [h], rfl, by simp⟩
  | cons j rest ih =>
    intro st st1 h
    unfold sampleRow at h
    simp only [] at h
    split at h
    · simp at h
    · obtain ⟨new, h1, h2, h3, h4⟩ := ih _ _ h
      simp only at h1 h2
      refine ⟨surface.evaluate v1 (if j = N2 then x2last else x2first + (j : ℚ) * delta2)
        :: new, ?_, ?_, ?_, ?_⟩
      · rw [h1]
        simp
      · rw [h2]
        simp only [List.map_cons, List.sum_cons]
        ring
      · simp [h3]
      · intro y hy
        rcases List.mem_cons.mp hy with rfl | hy
        · exact ⟨_, _, rfl⟩
        · exact h4 y hy

/-- When the sampling of the surface ends without an error it has appended
`N2 + 1` values per index and added their cells to `norm_`. -/
theorem sampleGrid_ok (surface : Surface2D)
    (x1first x1last x2first x2last delta1 delta2 : ℚ) (N1 N2 : Nat) (is : List Nat) :
    ∀ (st st1 : List ℚ × ℚ),
      sampleGrid surface x1first x1last x2first x2last delta1 delta2 N1 N2 is st = (st1, none) →
      ∃ new : List ℚ, st1.1 = st.1 ++ new
        ∧ st1.2 = st.2 + (new.map (fun y => y * delta1 * delta2)).sum
        ∧ new.length = is.length * (N2 + 1)
        ∧ ∀ y ∈ new, ∃ a b : ℚ, y = surface.evaluate a b := by
  induction is with
  | nil =>
    intro st st1 h
    simp only [sampleGrid, Prod.mk.injEq, and_true] at h
    exact ⟨[], by simp [h], by simp [h], by simp, by simp⟩
  | cons i rest ih =>
    intro st st1 h
    unfold sampleGrid at h
    simp only [] at h
    split at h
    · simp at h
    · split at h
      · simp at h
      · rename_i st2 hrow
        obtain ⟨new1, a1, a2, a3, a4⟩ := sampleRow_ok _ _ _ _ _ _ _ _ _ _ hrow
        obtain ⟨new2, b1, b2, b3, b4⟩ := ih _ _ h
        refine ⟨new1 ++ new2, ?_, ?_, ?_, ?_⟩
        · rw [b1, a1, List.append_assoc]
        · rw [b2, a2, List.map_append, List.sum_append]
          ring
        · rw [List.length_append, a3, b3, List.length_range, List.length_cons]
          ring
        · intro y hy
          rcases List.mem_append.mp hy with hy | hy
          · exact a4 y hy
          · exact b4 y hy

theorem sampleRow_pass (surface : Surface2D) (v1 x2first x2last delta1 delta2 : ℚ) (N2 : Nat)
    (js : List Nat)
    (h : ∀ j ∈ js, (if j = N2 then x2last else x2first + (j : ℚ) * delta2) ≤ x2last) :
    ∀ st : List ℚ × ℚ,
      (sampleRow surface v1 x2first x2last delta1 delta2 N2 js st).2 = none := by
  induction js with
  | nil =>
    intro st
    rfl
  | cons j rest ih =>
    intro st
    unfold sampleRow
    have hj := h j (List.mem_cons_self _ _)
    simp only [checkKind, hj, decide_True, if_true]
    exact ih (fun x hx => h x (List.mem_cons_of_mem _ hx)) _

theorem sampleGrid_pass (surface : Surface2D)
    (x1first x1last x2first x2last delta1 delta2 : ℚ) (N1 N2 : Nat) (is : List Nat)
    (h1 : ∀ i ∈ is, (if i = N1 then x1last else x1first + (i : ℚ) * delta1) ≤ x1last)
    (h2 : ∀ j ∈ List.range (N2 + 1),
      (if j = N2 then x2last else x2first + (j : ℚ) * delta2) ≤ x2last) :
    ∀ st : List ℚ × ℚ,
      (sampleGrid surface x1first x1last x2first x2last delta1 delta2 N1 N2 is st).2 = none := by
  induction is with
  | nil =>
    intro st
    rfl
  | cons i rest ih =>
    intro st
    unfold sampleGrid
    have hi := h1 i (List.mem_cons_self _ _)
    simp only [checkKind, hi, decide_True, if_true]
    have hrow := sampleRow_pass surface
      (if i = N1 then x1last else x1first + (i : ℚ) * delta1) x2first x2last delta1 delta2 N2
      (List.range (N2 + 1)) h2 st
    rcases hr : sampleRow surface (if i = N1 then x1last else x1first + (i : ℚ) * delta1)
      x2first x2last delta1 delta2 N2 (List.range (N2 + 1)) st with ⟨st1, e⟩
    rw [hr] at hrow
    simp only at hrow
    subst hrow
    exact ih (fun x hx => h1 x (List.mem_cons_of_mem _ hx)) _

/-- A grid point of the sampling does not pass the end of its axis when the
axis is not reversed. -/
theorem grid_point_le (first last : ℚ) (N : Nat) (hN : 0 < N) (h : first ≤ last) :
    ∀ i ∈ List.range (N + 1),
      (if i = N then last else first + (i : ℚ) * ((last - first) / (N : ℚ))) ≤ last := by
  intro i hi
  have hi2 : i < N + 1 := List.mem_range.mp hi
  by_cases hiN : i = N
  · rw [if_pos hiN]
  · rw [if_neg hiN]
    have hNq : (0 : ℚ) < (N : ℚ) := by exact_mod_cast hN
    have hle : (i : ℚ) ≤ (N : ℚ) := by exact_mod_cast (by omega : i ≤ N)
    have hd : 0 ≤ (last - first) / (N : ℚ) := div_nonneg (by linarith) (le_of_lt hNq)
    have h1 : (i : ℚ) * ((last - first) / (N : ℚ)) ≤ (N : ℚ) * ((last - first) / (N : ℚ)) :=
      mul_le_mul_of_nonneg_right hle hd
    have h2 : (N : ℚ) * ((last - first) / (N : ℚ)) = last - first := by
      field_simp
    linarith

/-- On axes that are not degenerate and a surface that is positive everywhere,
`generate` runs from the fit to its end without an error. -/
theorem integrate_ok (p : Posterior2D) (surface : Surface2D) (x1 x2 : List ℚ)
    (h1 : x1.headD 0 < x1.getLastD 0) (h2 : x2.headD 0 < x2.getLastD 0)
    (hpos : ∀ a b : ℚ, 0 < surface.evaluate a b) :
    (p.integrate surface x1 x2).2 = none := by
  have hpass : (Posterior2D.sample surface x1 x2).2 = none := by
    unfold Posterior2D.sample
    exact sampleGrid_pass _ _ _ _ _ _ _ _ _ _
      (grid_point_le _ _ Posterior2D.N1 (by decide) (le_of_lt h1))
      (grid_point_le _ _ Posterior2D.N2 (by decide) (le_of_lt h2)) _
  rcases hs : Posterior2D.sample surface x1 x2 with ⟨st, e⟩
  rw [hs] at hpass
  simp only at hpass
  subst hpass
  have hs2 := hs
  unfold Posterior2D.sample at hs2
  obtain ⟨new, a1, a2, a3, a4⟩ := sampleGrid_ok _ _ _ _ _ _ _ _ _ _ _ _ hs2
  have hd1 : 0 < (x1.getLastD 0 - x1.headD 0) / (Posterior2D.N1 : ℚ) :=
    div_pos (by linarith) (by simp [Posterior2D.N1])
  have hd2 : 0 < (x2.getLastD 0 - x2.headD 0) / (Posterior2D.N2 : ℚ) :=
    div_pos (by linarith) (by simp [Posterior2D.N2])
  have hne : new ≠ [] := by
    intro hc
    rw [hc, List.length_nil, List.length_range] at a3
    exact Nat.mul_ne_zero (Nat.succ_ne_zero _) (Nat.succ_ne_zero _) a3.symm
  have hnorm : 0 < st.2 := by
    rw [a2, zero_add]
    apply List.sum_pos
    · intro y hy
      rw [List.mem_map] at hy
      obtain ⟨v, hv, rfl⟩ := hy
      obtain ⟨a, b, rfl⟩ := a4 v hv
      exact mul_pos (mul_pos (hpos a b) hd1) hd2
    · simpa using hne
  unfold Posterior2D.integrate
  simp only [hs, checkKind, hnorm, gt_iff_lt, decide_True, if_true]

theorem sum_cells (l : List ℚ) (delta1 delta2 : ℚ) :
    (l.map (fun y => y * delta1 * delta2)).sum = l.sum * (delta1 * delta2) := by
  induction l with
  | nil => simp
  | cons a rest ih =>
    simp only [List.map_cons, List.sum_cons, ih]
    ring

/-- The table that `Posterior2D::generate` builds from sampled values that are
not negative and a positive normalization that is the sum of their cells. -/
theorem credible_table_spec (samples : List ℚ) (norm delta1 delta2 : ℚ)
    (hnn : ∀ v ∈ samples, 0 ≤ v) (hnorm : 0 < norm)
    (hsum : norm = (samples.map (fun y => y * delta1 * delta2)).sum) :
    ∃ m : ℚ, m ∈ samples ∧ (∀ v ∈ samples, v ≤ m)
      ∧ (0, m / norm) ∈ tableAssign (credibleLoop norm delta1 delta2
            (stdSort (fun a b : ℚ => decide (a < b)) samples).reverse 0 []) 1 0
      ∧ (1, 0) ∈ tableAssign (credibleLoop norm delta1 delta2
            (stdSort (fun a b : ℚ => decide (a < b)) samples).reverse 0 []) 1 0
      ∧ (∀ e1 ∈ tableAssign (credibleLoop norm delta1 delta2
              (stdSort (fun a b : ℚ => decide (a < b)) samples).reverse 0 []) 1 0,
          ∀ e2 ∈ tableAssign (credibleLoop norm delta1 delta2
              (stdSort (fun a b : ℚ => decide (a < b)) samples).reverse 0 []) 1 0,
          e1.1 < e2.1 → e2.2 ≤ e1.2)
      ∧ KeysAscending (tableAssign (credibleLoop norm delta1 delta2
            (stdSort (fun a b : ℚ => decide (a < b)) samples).reverse 0 []) 1 0) := by
  have hperm := stdSort_perm (fun a b : ℚ => decide (a < b)) samples
  have hmemR : ∀ v, v ∈ (stdSort (fun a b : ℚ => decide (a < b)) samples).reverse
      ↔ v ∈ samples := by
    intro v
    rw [List.mem_reverse]
    exact hperm.mem_iff
  have hsortedR : List.Pairwise (fun a b : ℚ => b ≤ a)
      (stdSort (fun a b : ℚ => decide (a < b)) samples).reverse := by
    rw [List.pairwise_reverse]
    exact stdSort_rat_ascending samples
  have hs0 : 0 ≤ samples.sum := List.sum_nonneg hnn
  rw [sum_cells] at hsum
  have hspos : 0 < samples.sum := by
    rcases lt_or_eq_of_le hs0 with h | h
    · exact h
    · rw [← h, zero_mul] at hsum
      exact absurd hnorm (by rw [hsum]; exact lt_irrefl _)
  have hcpos : 0 < delta1 * delta2 := by
    rw [hsum] at hnorm
    exact (pos_iff_pos_of_mul_pos hnorm).mp hspos
  generalize hR : (stdSort (fun a b : ℚ => decide (a < b)) samples).reverse = R
    at hmemR hsortedR ⊢
  cases R with
  | nil =>
    have : samples = [] := by
      apply List.eq_nil_iff_forall_not_mem.mpr
      intro v hv
      exact absurd ((hmemR v).mpr hv) (List.not_mem_nil v)
    rw [this] at hspos
    simp at hspos
  | cons m rest =>
    have hm : m ∈ samples := (hmemR m).mp (List.mem_cons_self _ _)
    have hle : ∀ v ∈ rest, v ≤ m := (List.pairwise_cons.mp hsortedR).1
    have hmax : ∀ v ∈ samples, v ≤ m := by
      intro v hv
      rcases List.mem_cons.mp ((hmemR v).mpr hv) with rfl | h
      · exact le_refl _
      · exact hle v h
    have hmpos : 0 < m := by
      by_contra hc
      have hall : ∀ v ∈ samples, v = 0 :=
        fun v hv => le_antisymm (le_trans (hmax v hv) (not_lt.mp hc)) (hnn v hv)
      have : samples.sum = 0 := List.sum_eq_zero hall
      rw [this] at hspos
      exact lt_irrefl _ hspos
    have hfirst : credibleLoop norm delta1 delta2 (m :: rest) 0 []
        = credibleLoop norm delta1 delta2 rest (0 + m / norm * delta1 * delta2)
            (tableAssign [] 0 (m / norm)) := by
      conv_lhs => unfold credibleLoop
      rw [if_pos (by norm_num : (0 : ℚ) < 1)]
    have htot : 0 < 0 + m / norm * delta1 * delta2 := by
      have h1 : 0 < m / norm := div_pos hmpos hnorm
      have h2 : 0 + m / norm * delta1 * delta2 = m / norm * (delta1 * delta2) := by ring
      rw [h2]
      exact mul_pos h1 hcpos
    have hinv : CredibleInv norm (tableAssign [] 0 (m / norm))
        (0 + m / norm * delta1 * delta2) rest := by
      simp only [tableAssign]
      refine ⟨by simp [KeysAscending], ?_, ?_, ?_, ?_, ?_⟩
      · intro e he
        rw [List.mem_singleton] at he
        rw [he]
        exact le_of_lt htot
      · intro e he
        rw [List.mem_singleton] at he
        rw [he]
        norm_num
      · intro e he v hv
        rw [List.mem_singleton] at he
        rw [he]
        exact div_le_div_of_nonneg_right (hle v hv) (le_of_lt hnorm)
      · intro e1 he1 e2 he2 hlt
        rw [List.mem_singleton] at he1 he2
        rw [he1, he2] at hlt
        exact absurd hlt (lt_irrefl _)
      · intro e he
        rw [List.mem_singleton] at he
        rw [he]
        exact le_of_lt (div_pos hmpos hnorm)
    obtain ⟨r1, r2, r3, r4, r5⟩ := credibleLoop_inv norm delta1 delta2 hnorm (le_of_lt hcpos)
      rest _ _ (List.pairwise_cons.mp hsortedR).2
      (fun v hv => hnn v ((hmemR v).mp (List.mem_cons_of_mem _ hv))) hinv
    rw [hfirst]
    have hmem := mem_tableAssign _ 1 0 r1
    refine ⟨m, hm, hmax, ?_, ?_, ?_, tableAssign_ascending _ 1 0 r1⟩
    · apply (hmem _).mpr
      right
      refine ⟨r5 (0, m / norm) (by simp [tableAssign]) htot, by norm_num⟩
    · exact (hmem _).mpr (Or.inl rfl)
    · intro e1 he1 e2 he2 hlt
      rcases (hmem e1).mp he1 with rfl | ⟨he1, _⟩
      · rcases (hmem e2).mp he2 with rfl | ⟨he2, _⟩
        · exact absurd hlt (lt_irrefl _)
        · have := r2 e2 he2
          simp only at hlt
          linarith
      · rcases (hmem e2).mp he2 with rfl | ⟨he2, _⟩
        · exact r4 e1 he1
        · exact r3 e1 he1 e2 he2 hlt

/-- The sampling of the surface ends without an error on axes that are not
reversed. -/
theorem sample_pass (surface : Surface2D) (x1 x2 : List ℚ)
    (h1 : x1.headD 0 < x1.getLastD 0) (h2 : x2.headD 0 < x2.getLastD 0) :
    (Posterior2D.sample surface x1 x2).2 = none := by
  unfold Posterior2D.sample
  exact sampleGrid_pass _ _ _ _ _ _ _ _ _ _
    (grid_point_le _ _ Posterior2D.N1 (by decide) (le_of_lt h1))
    (grid_point_le _ _ Posterior2D.N2 (by decide) (le_of_lt h2)) _

/-- Every value sampled on the grid is a value of the surface. -/
theorem gridSamples_values (surface : Surface2D) (x1 x2 : List ℚ)
    (hpass : (Posterior2D.sample surface x1 x2).2 = none) :
    ∀ v ∈ gridSamples surface x1 x2, ∃ a b : ℚ, v = surface.evaluate a b := by
  intro v hv
  rcases hs : Posterior2D.sample surface x1 x2 with ⟨st, e⟩
  rw [hs] at hpass
  have he : e = none := hpass
  subst he
  have hg : gridSamples surface x1 x2 = st.1 := by
    unfold gridSamples
    rw [hs]
  rw [hg] at hv
  unfold Posterior2D.sample at hs
  obtain ⟨new, a1, _, _, a4⟩ := sampleGrid_ok _ _ _ _ _ _ _ _ _ _ _ _ hs
  rw [a1, List.nil_append] at hv
  exact a4 v hv

/-- On axes that are not reversed, the values sampled from a surface that is
nowhere negative are not negative. -/
theorem gridSamples_nonneg (surface : Surface2D) (x1 x2 : List ℚ)
    (h1 : x1.headD 0 < x1.getLastD 0) (h2 : x2.headD 0 < x2.getLastD 0)
    (hpos : ∀ a b : ℚ, 0 ≤ surface.evaluate a b) :
    ∀ v ∈ gridSamples surface x1 x2, 0 ≤ v := by
  intro v hv
  obtain ⟨a, b, rfl⟩ := gridSamples_values surface x1 x2 (sample_pass surface x1 x2 h1 h2) v hv
  exact hpos a b

/-- What `generate` leaves when it runs from the fit to its end without an
error: the sampling passed, the normalization is positive, and the table is the
one built from the sorted samples. -/
theorem integrate_result (p : Posterior2D) (surface : Surface2D) (x1 x2 : List ℚ)
    (hok : (p.integrate surface x1 x2).2 = none) :
    ∃ st : List ℚ × ℚ, Posterior2D.sample surface x1 x2 = (st, none)
      ∧ 0 < st.2
      ∧ (p.integrate surface x1 x2).1.norm_ = st.2
      ∧ (p.integrate surface x1 x2).1.cumulInv_
          = some (tableAssign (credibleLoop st.2
              ((x1.getLastD 0 - x1.headD 0) / (Posterior2D.N1 : ℚ))
              ((x2.getLastD 0 - x2.headD 0) / (Posterior2D.N2 : ℚ))
              (stdSort (fun a b : ℚ => decide (a < b)) st.1).reverse 0 []) 1 0) := by
  generalize hI : p.integrate surface x1 x2 = r at hok ⊢
  rcases hs : Posterior2D.sample surface x1 x2 with ⟨st, e⟩
  unfold Posterior2D.integrate at hI
  rw [hs] at hI
  cases e with
  | some e1 =>
    simp only at hI
    rw [← hI] at hok
    exact absurd hok (by simp)
  | none =>
    simp only at hI
    by_cases hnorm : st.2 > 0
    · simp only [checkKind, hnorm, decide_True, if_true] at hI
      refine ⟨st, rfl, hnorm, ?_, ?_⟩
      · rw [← hI]
      · rw [← hI]
    · simp only [checkKind, hnorm, decide_False] at hI
      rw [← hI] at hok
      exact absurd hok (by simp)

/-- What `generate` has passed and computed when it reaches the fit. -/
theorem prepare_ok_inv (lib : Numerics) (p : Posterior1D) (method : SmoothingMethod)
    (scale : ℚ) (p2 : Posterior1D) (r : Prepared)
    (h : p.prepare lib method scale = (p2, Except.ok r)) :
    2 ≤ p.points_.length ∧ p.points_.length = p.probs_.length ∧ p.min_ < p.max_ ∧ 0 ≤ scale
    ∧ (scale = 0 → 0 < (binning lib p.points_ p.probs_ p.min_ p.max_).1)
    ∧ r.scale = (if scale = 0 then (binning lib p.points_ p.probs_ p.min_ p.max_).1 / 8
        else scale)
    ∧ r.resolution = (binning lib p.points_ p.probs_ p.min_ p.max_).2
    ∧ 0 < r.resolution
    ∧ r.x = [p.min_] ++ (List.range r.resolution.toNat).map
          (fun i => p.min_ + (p.max_ - p.min_) / (r.resolution : ℚ) * (i : ℚ)
            + (p.max_ - p.min_) / (r.resolution : ℚ) / 2) ++ [p.max_]
    ∧ ∃ (hist : Histogram) (varNorm0 : ℚ),
        histogramLoop p.min_ ((p.max_ - p.min_) / (r.resolution : ℚ)) r.resolution
            p.points_ p.probs_ p.errVar_
            { y := List.replicate (r.resolution.toNat + 2) 0,
              vars := List.replicate (r.resolution.toNat + 2) 0, mean := 0, totalP := 0 }
          = (hist, none)
        ∧ varsLoop lib p.points_.length hist.totalP hist.vars hist.y ([], 0)
          = Except.ok (r.vars, varNorm0)
        ∧ r.varNorm = lib.sqrt varNorm0
        ∧ r.y = (hist.y.set 0 (hist.y.getD 1 0)).set (r.resolution.toNat + 1)
            ((hist.y.set 0 (hist.y.getD 1 0)).getD r.resolution.toNat 0)
        ∧ r.totalP = hist.totalP ∧ hist.totalP ≠ 0
        ∧ r.mean = hist.mean / hist.totalP
        ∧ p2 = { p with method_ := method, mean_ := hist.mean / hist.totalP } := by
  unfold Posterior1D.prepare at h
  simp only [] at h
  split at h
  · simp at h
  · rename_i h1
    split at h
    · simp at h
    · rename_i h2
      split at h
      · simp at h
      · rename_i h3
        split at h
        · simp at h
        · rename_i h4
          split at h
          · simp at h
          · rename_i h5
            split at h
            · simp at h
            · rename_i h6
              split at h
              · simp at h
              · rename_i hist hh
                split at h
                · simp at h
                · rename_i vars varNorm0 hv
                  split at h
                  · simp at h
                  · rename_i h7
                    simp only [Prod.mk.injEq, Except.ok.injEq] at h
                    obtain ⟨hp2, hr⟩ := h
                    subst hr
                    simp only [checkKind, check, ite_eq_left_iff, decide_eq_true_eq,
                      reduceCtorEq, imp_false, not_not, ge_iff_le, gt_iff_lt] at h1 h2 h3 h4 h6 h7
                    refine ⟨h1, h2, h3, h4, ?_, rfl, rfl, h6, rfl, hist, varNorm0, hh, hv, rfl,
                      rfl, rfl, h7, rfl, hp2.symm⟩
                    intro hs
                    simp only [hs, if_true, checkKind, ite_eq_left_iff, decide_eq_true_eq,
                      reduceCtorEq, imp_false, not_not, gt_iff_lt] at h5
                    exact h5

/-- What a successful `generate` has done: it has passed the part up to the
fit, integrated the fitted surface without an error, and stored the surface,
the table and the normalization. -/
theorem generate_ok_inv (lib : Numerics) (p : Posterior1D) (method : SmoothingMethod)
    (scale : ℚ) (h : (p.generate lib method scale).2 = none) :
    ∃ (p2 : Posterior1D) (r : Prepared) (st : Integration),
      p.prepare lib method scale = (p2, Except.ok r)
      ∧ integrateLoop (fittedSurface lib method r) (r.x.headD 0) (r.x.getLastD 0)
          ((r.x.getLastD 0 - r.x.headD 0) / ((wrapInt (100 * r.resolution) : Int) : ℚ))
          (wrapInt (100 * r.resolution)) (List.range (wrapInt (100 * r.resolution) + 1).toNat)
          { norm := 0, table := tableAssign [] 0 0 } = (st, none)
      ∧ p.generate lib method scale
        = ({ p2 with smooth_ := some (fittedSurface lib method r), cumulInv_ := some st.table,
                     norm_ := st.norm, deltaNorm_ := r.varNorm / r.totalP * st.norm,
                     points_ := [], probs_ := [] }, none) := by
  generalize hg : p.generate lib method scale = g at h
  unfold Posterior1D.generate at hg
  rcases hp : p.prepare lib method scale with ⟨p2, res⟩
  rw [hp] at hg
  cases res with
  | error e =>
    simp only at hg
    rw [← hg] at h
    simp at h
  | ok r =>
    simp only at hg
    split at hg
    · rw [← hg] at h
      simp at h
    · split at hg
      · rw [← hg] at h
        simp at h
      · rename_i st hst
        refine ⟨p2, r, st, rfl, ?_, ?_⟩
        · rw [← hst]
          cases method <;> rfl
        · rw [← hg]
          cases method <;> rfl

/-- The first and the last entry of the grid `x` of `generate` are `min_` and
`max_`. -/
theorem prepare_grid_ends (lib : Numerics) (p : Posterior1D) (method : SmoothingMethod)
    (scale : ℚ) (p2 : Posterior1D) (r : Prepared)
    (h : p.prepare lib method scale = (p2, Except.ok r)) :
    r.x.headD 0 = p.min_ ∧ r.x.getLastD 0 = p.max_ := by
  obtain ⟨_, _, _, _, _, _, _, _, hx, _⟩ := prepare_ok_inv lib p method scale p2 r h
  rw [hx]
  constructor
  · simp
  · rw [List.getLastD_eq_getLast?, List.getLast?_append]
    simp

/-- The bin count of `generate` in terms of the interquartile range it has
computed and the number of points. -/
theorem binning_resolution (lib : Numerics) (points probs : List ℚ) (min_ max_ : ℚ)
    (hlen : points.length = probs.length) :
    (binning lib points probs min_ max_).2
      = if 2 * (binning lib points probs min_ max_).1 * lib.pow (points.length : ℚ) (-1 / 3) = 0
            ∨ points.length < 5 then 1
        else toInt ((max_ - min_)
          / (2 * (binning lib points probs min_ max_).1 * lib.pow (points.length : ℚ) (-1 / 3))) := by
  unfold binning
  simp only [stdSort_length, List.length_zip, ← hlen, min_self]

/-- The conversion to `int` is the floor on a value of `[0, 2^31)`, it is
`INT_MIN` on a value of `2^31` or more, and on a negative value neither it nor
the floor is positive. -/
theorem toInt_floor (q : ℚ) :
    (0 ≤ q → q < 2 ^ 31 → toInt q = ⌊q⌋) ∧ (2 ^ 31 ≤ q → toInt q = INT_MIN)
    ∧ (q < 0 → toInt q ≤ 0 ∧ ⌊q⌋ < 0) := by
  unfold toInt INT_MIN INT_MAX
  refine ⟨?_, ?_, ?_⟩
  · intro h hlt
    have h0 : 0 ≤ ⌊q⌋ := Int.floor_nonneg.mpr h
    have h1 : ⌊q⌋ < 2 ^ 31 := Int.floor_lt.mpr (by exact_mod_cast hlt)
    simp only [if_pos h]
    rw [if_pos ⟨by omega, by omega⟩]
  · intro hge
    have h : 0 ≤ q := le_trans (by norm_num) hge
    have h1 : (2 : Int) ^ 31 ≤ ⌊q⌋ := Int.le_floor.mpr (by exact_mod_cast hge)
    simp only [if_pos h]
    rw [if_neg (fun hc => by omega)]
  · intro h
    have hc : ⌈q⌉ ≤ 0 := Int.ceil_le.mpr (by exact_mod_cast le_of_lt h)
    refine ⟨?_, Int.floor_lt.mpr (by exact_mod_cast h)⟩
    simp only [if_neg (not_le.mpr h)]
    split_ifs
    · exact hc
    · norm_num

/-- An `int` product whose exact value is an `int` is that value. -/
theorem wrapInt_of_representable (n : Int) (h1 : INT_MIN ≤ n) (h2 : n ≤ INT_MAX) :
    wrapInt n = n := by
  unfold wrapInt
  unfold INT_MIN INT_MAX at *
  omega

/-- An `int` product is an `int`. -/
theorem wrapInt_range (n : Int) : INT_MIN ≤ wrapInt n ∧ wrapInt n ≤ INT_MAX := by
  unfold wrapInt INT_MIN INT_MAX
  omega

/-- A bin count that is not positive stops `generate`. -/
theorem generate_fails_of_resolution (lib : Numerics) (p : Posterior1D)
    (method : SmoothingMethod) (scale : ℚ)
    (h : ¬ (binning lib p.points_ p.probs_ p.min_ p.max_).2 > 0) :
    (p.generate lib method scale).2 ≠ none := by
  intro hc
  obtain ⟨p2, r, _, hp, _, _⟩ := generate_ok_inv lib p method scale hc
  obtain ⟨_, _, _, _, _, _, hres, hpos, _⟩ := prepare_ok_inv lib p method scale p2 r hp
  rw [hres] at hpos
  exact h hpos

/-- A failed check raises the kind it was given. -/
theorem checkKind_some (kind : Error) (condition : Bool) (e : Error)
    (h : checkKind kind condition = some e) : e = kind := by
  unfold checkKind at h
  split at h
  · simp at h
  · exact (Option.some.inj h).symm

/-- An error of the histogram loop is a failed internal check. -/
theorem histogramLoop_error_kind (min_ d : ℚ) (resolution : Int) (points : List ℚ) :
    ∀ (probs errVars : List ℚ) (h h1 : Histogram) (e : Error),
      histogramLoop min_ d resolution points probs errVars h = (h1, some e) →
      e = Error.invalidState := by
  induction points with
  | nil =>
    intro probs errVars h h1 e hr
    simp [histogramLoop] at hr
  | cons pt points ih =>
    intro probs errVars h h1 e hr
    unfold histogramLoop at hr
    split at hr
    · rename_i e1 hc
      simp only [Prod.mk.injEq, Option.some.injEq] at hr
      rw [← hr.2]
      exact checkKind_some _ _ _ hc
    · simp only [] at hr
      split at hr
      · rename_i e1 hc
        simp only [Prod.mk.injEq, Option.some.injEq] at hr
        rw [← hr.2]
        exact checkKind_some _ _ _ hc
      · exact ih _ _ _ _ _ hr

/-- An error of the loop over the bin errors is a failed internal check. -/
theorem varsLoop_error_kind (lib : Numerics) (size : Nat) (totalP : ℚ) (vars : List ℚ) :
    ∀ (ys : List ℚ) (acc : List ℚ × ℚ) (e : Error),
      varsLoop lib size totalP vars ys acc = Except.error e → e = Error.invalidState := by
  induction vars with
  | nil =>
    intro ys acc e hr
    simp [varsLoop] at hr
  | cons v vars ih =>
    intro ys acc e hr
    obtain ⟨done, varNorm⟩ := acc
    unfold varsLoop at hr
    split at hr
    · exact ih _ _ _ hr
    · split at hr
      · rename_i e1 hc
        simp only [Except.error.injEq] at hr
        rw [← hr]
        exact checkKind_some _ _ _ hc
      · exact ih _ _ _ hr

/-- An error of the integration loop is a failed internal check. -/
theorem integrateLoop_error_kind (surface : Surface) (x0 xLast delta : ℚ) (N : Int)
    (is : List Nat) :
    ∀ (st st1 : Integration) (e : Error),
      integrateLoop surface x0 xLast delta N is st = (st1, some e) → e = Error.invalidState := by
  induction is with
  | nil =>
    intro st st1 e hr
    simp [integrateLoop] at hr
  | cons i rest ih =>
    intro st st1 e hr
    unfold integrateLoop at hr
    simp only [] at hr
    split at hr
    · rename_i e1 hc
      simp only [Prod.mk.injEq, Option.some.injEq] at hr
      rw [← hr.2]
      exact checkKind_some _ _ _ hc
    · exact ih _ _ _ hr

/-- When `generate` fails for want of data, it does so before the fit. -/
theorem generate_insufficient_before_fit (lib : Numerics) (p : Posterior1D)
    (method : SmoothingMethod) (scale : ℚ)
    (h : (p.generate lib method scale).2 = some Error.insufficientData) :
    (p.prepare lib method scale).2 = Except.error Error.insufficientData := by
  generalize hg : p.generate lib method scale = g at h
  unfold Posterior1D.generate at hg
  rcases hp : p.prepare lib method scale with ⟨p2, res⟩
  rw [hp] at hg
  cases res with
  | error e =>
    simp only at hg
    rw [← hg] at h
    simp only [Option.some.injEq] at h
    rw [h]
  | ok r =>
    simp only at hg
    split at hg
    · rename_i e hc
      rw [← hg] at h
      simp only [Option.some.injEq] at h
      split at hc
      · have := checkKind_some _ _ _ hc
        rw [h] at this
        simp at this
      · simp at hc
    · split at hg
      · rename_i st e hl
        rw [← hg] at h
        simp only [Option.some.injEq] at h
        have := integrateLoop_error_kind _ _ _ _ _ _ _ _ _ hl
        rw [h] at this
        simp at this
      · rw [← hg] at h
        simp at h

/-- With at least two points, buffers of one length and `max_ > min_`, the
part of `generate` before the fit fails for want of data only at the check of
the interquartile range (with the scale 0) or at the check of the total
weight. -/
theorem prepare_insufficient (lib : Numerics) (p : Posterior1D) (method : SmoothingMethod)
    (scale : ℚ) (hsize : 2 ≤ p.points_.length) (hlen : p.points_.length = p.probs_.length)
    (hmm : p.min_ < p.max_)
    (h : (p.prepare lib method scale).2 = Except.error Error.insufficientData) :
    (scale = 0 ∧ (binning lib p.points_ p.probs_ p.min_ p.max_).1 ≤ 0) ∨ p.probs_.sum = 0 := by
  generalize hg : p.prepare lib method scale = g at h
  unfold Posterior1D.prepare at hg
  simp only [] at hg
  split at hg
  · rename_i e hc
    simp [checkKind, hsize] at hc
  · split at hg
    · rename_i e hc
      simp [checkKind, hlen] at hc
    · split at hg
      · rename_i e hc
        simp [checkKind, hmm] at hc
      · split at hg
        · rename_i e hc
          rw [← hg] at h
          simp only [Except.error.injEq] at h
          unfold check at hc
          split at hc
          · simp at hc
          · rw [h] at hc
            simp at hc
        · split at hg
          · rename_i e hc
            left
            split at hc
            · rename_i hs
              refine ⟨hs, ?_⟩
              unfold checkKind at hc
              split at hc
              · simp at hc
              · rename_i hd
                simpa using hd
            · simp at hc
          · split at hg
            · rename_i e hc
              rw [← hg] at h
              simp only [Except.error.injEq] at h
              have := checkKind_some _ _ _ hc
              rw [h] at this
              simp at this
            · split at hg
              · rename_i hist e hl
                rw [← hg] at h
                simp only [Except.error.injEq] at h
                have := histogramLoop_error_kind _ _ _ _ _ _ _ _ _ hl
                rw [h] at this
                simp at this
              · rename_i hist hl
                split at hg
                · rename_i e hv
                  rw [← hg] at h
                  simp only [Except.error.injEq] at h
                  have := varsLoop_error_kind _ _ _ _ _ _ _ hv
                  rw [h] at this
                  simp at this
                · split at hg
                  · rename_i e hc
                    right
                    have ht := histogramLoop_totalP _ _ _ _ _ _ _ hist hlen.symm hl
                    simp only [zero_add] at ht
                    rw [← ht]
                    unfold checkKind at hc
                    split at hc
                    · simp at hc
                    · rename_i hd
                      simpa using hd
                  · rw [← hg] at h
                    simp at h

/-- With the scale 0 and an interquartile range that is not positive,
`generate` fails for want of data once its entry checks are passed. -/
theorem prepare_zero_iqr (lib : Numerics) (p : Posterior1D) (method : SmoothingMethod)
    (hsize : 2 ≤ p.points_.length) (hlen : p.points_.length = p.probs_.length)
    (hmm : p.min_ < p.max_)
    (hiqr : (binning lib p.points_ p.probs_ p.min_ p.max_).1 ≤ 0) :
    (p.prepare lib method 0).2 = Except.error Error.insufficientData := by
  have hsize2 : 2 ≤ p.probs_.length := by omega
  have hn : ¬ 0 < (binning lib p.points_ p.probs_ p.min_ p.max_).1 := not_lt.mpr hiqr
  unfold Posterior1D.prepare
  simp [checkKind, check, hsize, hsize2, hlen, hmm, hn]

/-- A negative scale is rejected once the entry checks are passed. -/
theorem prepare_negative_scale (lib : Numerics) (p : Posterior1D) (method : SmoothingMethod)
    (scale : ℚ) (hsize : 2 ≤ p.points_.length) (hlen : p.points_.length = p.probs_.length)
    (hmm : p.min_ < p.max_) (hneg : scale < 0) :
    (p.prepare lib method scale).2 = Except.error Error.invalidArgument := by
  have hsize2 : 2 ≤ p.probs_.length := by omega
  have hn : ¬ 0 ≤ scale := not_le.mpr hneg
  unfold Posterior1D.prepare
  simp [checkKind, check, hsize, hsize2, hlen, hmm, hn]

/-- When the loop over the bin errors ends without an error, `varNorm` has
grown by the sum of the squares of the errors it has appended. -/
theorem varsLoop_norm (lib : Numerics) (size : Nat) (totalP : ℚ) (vars : List ℚ) :
    ∀ (ys : List ℚ) (acc res : List ℚ × ℚ),
      varsLoop lib size totalP vars ys acc = Except.ok res →
      ∃ new : List ℚ, res.1 = acc.1 ++ new
        ∧ res.2 = acc.2 + (new.map (fun v => v * v)).sum
        ∧ new.length = vars.length := by
  induction vars with
  | nil =>
    intro ys acc res hr
    simp only [varsLoop, Except.ok.injEq] at hr
    exact ⟨[], by simp [hr], by simp [hr], rfl⟩
  | cons v vars ih =>
    intro ys acc res hr
    obtain ⟨done, varNorm⟩ := acc
    unfold varsLoop at hr
    split at hr
    · obtain ⟨new, a1, a2, a3⟩ := ih _ _ _ hr
      simp only at a1 a2
      refine ⟨(lib.sqrt v / lib.sqrt ((size : ℚ) / totalP)) :: new, ?_, ?_, ?_⟩
      · rw [a1]
        simp
      · rw [a2]
        simp only [List.map_cons, List.sum_cons]
        ring
      · simp [a3]
    · split at hr
      · simp at hr
      · obtain ⟨new, a1, a2, a3⟩ := ih _ _ _ hr
        simp only at a1 a2
        refine ⟨v :: new, ?_, ?_, ?_⟩
        · rw [a1]
          simp
        · rw [a2]
          simp only [List.map_cons, List.sum_cons]
          ring
        · simp [a3]

/-- The error scale that a successful `generate` stores: the square root of
the sum of the squared bin errors, divided by the total weight, times the
normalization. -/
theorem generate_deltaNorm (lib : Numerics) (p : Posterior1D) (method : SmoothingMethod)
    (scale : ℚ) (h : (p.generate lib method scale).2 = none) :
    ∃ r : Prepared, (p.prepare lib method scale).2 = Except.ok r
      ∧ (p.generate lib method scale).1.smooth_ = some (fittedSurface lib method r)
      ∧ (p.generate lib method scale).1.method_ = method
      ∧ (p.generate lib method scale).1.deltaNorm_
        = lib.sqrt ((r.vars.map (fun v => v * v)).sum) / p.probs_.sum
          * (p.generate lib method scale).1.norm_ := by
  obtain ⟨p2, r, st, hp, _, hg⟩ := generate_ok_inv lib p method scale h
  obtain ⟨_, hlen, _, _, _, _, _, _, _, hist, vn, hh, hv, hvn, _, htp, _, _, hp2⟩ :=
    prepare_ok_inv lib p method scale p2 r hp
  obtain ⟨new, a1, a2, _⟩ := varsLoop_norm _ _ _ _ _ _ _ hv
  simp only [List.nil_append, zero_add] at a1 a2
  have ht := histogramLoop_totalP _ _ _ _ _ _ _ hist hlen.symm hh
  simp only [zero_add] at ht
  refine ⟨r, by rw [hp], by rw [hg], by rw [hg, hp2], ?_⟩
  rw [hg]
  simp only
  rw [hvn, a2, ← a1, htp, ht]

/-- The scan of `peak` over a list of indices followed by another is the scan
over the second from the state the first leaves. -/
theorem peakLoop_append (p : Posterior1D) (delta : ℚ) (nPoints : Nat) (l1 l2 : List Nat) :
    ∀ st : ℚ × ℚ, peakLoop p delta nPoints (l1 ++ l2) st
      = (peakLoop p delta nPoints l1 st).bind (peakLoop p delta nPoints l2) := by
  induction l1 with
  | nil =>
    intro st
    rfl
  | cons i rest ih =>
    intro st
    simp only [List.cons_append, peakLoop]
    cases p.evaluate (if i = nPoints then p.max else p.min + (i : ℚ) * delta) with
    | none => rfl
    | some y => exact ih _

/-- The state of the scan of `peak` after the indices below `n`: `peakVal` is
the largest value seen or 0, and `x` is the first grid point with that value,
or `min()` when no value seen is positive. -/
theorem peakLoop_range (p : Posterior1D) (s : Surface) (hs : p.smooth_ = some s) (delta : ℚ)
    (nPoints : Nat) (n : Nat) :
    ∃ pv x : ℚ, peakLoop p delta nPoints (List.range n) (0, p.min) = some (pv, x)
      ∧ 0 ≤ pv
      ∧ (∀ i < n, s.evaluate (if i = nPoints then p.max else p.min + (i : ℚ) * delta) ≤ pv)
      ∧ ((pv = 0 ∧ x = p.min)
        ∨ (0 < pv ∧ ∃ k < n,
            x = (if k = nPoints then p.max else p.min + (k : ℚ) * delta)
            ∧ s.evaluate (if k = nPoints then p.max else p.min + (k : ℚ) * delta) = pv
            ∧ ∀ i < k,
              s.evaluate (if i = nPoints then p.max else p.min + (i : ℚ) * delta) < pv)) := by
  induction n with
  | zero =>
    refine ⟨0, p.min, rfl, le_refl _, ?_, Or.inl ⟨rfl, rfl⟩⟩
    intro i hi
    omega
  | succ n ih =>
    obtain ⟨pv, x, hl, h0, hle, hx⟩ := ih
    have hev : p.evaluate (if n = nPoints then p.max else p.min + (n : ℚ) * delta)
        = some (s.evaluate (if n = nPoints then p.max else p.min + (n : ℚ) * delta)) := by
      unfold Posterior1D.evaluate
      rw [hs]
      rfl
    rw [List.range_succ, peakLoop_append, hl]
    simp only [Option.some_bind, peakLoop, hev]
    by_cases hgt : s.evaluate (if n = nPoints then p.max else p.min + (n : ℚ) * delta) > pv
    · rw [if_pos hgt]
      refine ⟨_, _, rfl, le_of_lt (lt_of_le_of_lt h0 hgt), ?_, Or.inr ⟨lt_of_le_of_lt h0 hgt,
        n, Nat.lt_succ_self n, rfl, rfl, ?_⟩⟩
      · intro i hi
        rcases Nat.lt_succ_iff_lt_or_eq.mp hi with h | h
        · exact le_of_lt (lt_of_le_of_lt (hle i h) hgt)
        · rw [h]
      · intro i hi
        exact lt_of_le_of_lt (hle i hi) hgt
    · rw [if_neg hgt]
      refine ⟨pv, x, rfl, h0, ?_, ?_⟩
      · intro i hi
        rcases Nat.lt_succ_iff_lt_or_eq.mp hi with h | h
        · exact hle i h
        · rw [h]
          exact not_lt.mp hgt
      · rcases hx with hx | ⟨hp, k, hk, hx1, hx2, hx3⟩
        · exact Or.inl hx
        · exact Or.inr ⟨hp, k, Nat.lt_succ_of_lt hk, hx1, hx2, hx3⟩

/-- What `peak()` returns on an object with a fitted surface `s`: a grid point
at which `max(s, 0)` is largest over the grid, the first such; it is `min()`
when `s` is positive at no grid point, and a first maximum of `s` itself when
`s` is positive at some grid point. -/
theorem peak_spec (p : Posterior1D) (s : Surface) (hs : p.smooth_ = some s) :
    ∃ k : Nat, k ≤ Posterior1D.nPoints
      ∧ p.peak = some (peakGrid p k)
      ∧ (∀ i ≤ Posterior1D.nPoints,
          max (s.evaluate (peakGrid p i)) 0 ≤ max (s.evaluate (peakGrid p k)) 0)
      ∧ (∀ i < k, max (s.evaluate (peakGrid p i)) 0 < max (s.evaluate (peakGrid p k)) 0)
      ∧ ((∃ i ≤ Posterior1D.nPoints, 0 < s.evaluate (peakGrid p i)) →
          (∀ i ≤ Posterior1D.nPoints, s.evaluate (peakGrid p i) ≤ s.evaluate (peakGrid p k))
          ∧ ∀ i < k, s.evaluate (peakGrid p i) < s.evaluate (peakGrid p k))
      ∧ ((∀ i ≤ Posterior1D.nPoints, s.evaluate (peakGrid p i) ≤ 0) → p.peak = some p.min_) := by
  obtain ⟨pv, x, hl, h0, hle, hx⟩ := peakLoop_range p s hs
    ((p.max - p.min) / (Posterior1D.nPoints : ℚ)) Posterior1D.nPoints (Posterior1D.nPoints + 1)
  have hpk : p.peak = some x := by
    unfold Posterior1D.peak
    simp only []
    rw [hl]
    rfl
  have hgrid : ∀ i : Nat, (if i = Posterior1D.nPoints then p.max
      else p.min + (i : ℚ) * ((p.max - p.min) / (Posterior1D.nPoints : ℚ))) = peakGrid p i :=
    fun i => rfl
  simp only [hgrid] at hle hx
  have hle2 : ∀ i ≤ Posterior1D.nPoints, s.evaluate (peakGrid p i) ≤ pv :=
    fun i hi => hle i (Nat.lt_succ_of_le hi)
  rcases hx with ⟨hpv, hxm⟩ | ⟨hp, k, hk, hx1, hx2, hx3⟩
  · have hg0 : peakGrid p 0 = p.min_ := by
      unfold peakGrid
      rw [if_neg (by decide)]
      simp
    have hnp : ∀ i ≤ Posterior1D.nPoints, s.evaluate (peakGrid p i) ≤ 0 := by
      intro i hi
      rw [← hpv]
      exact hle2 i hi
    refine ⟨0, Nat.zero_le _, ?_, ?_, ?_, ?_, ?_⟩
    · rw [hpk, hxm, hg0]
      rfl
    · intro i hi
      rw [max_eq_right (hnp i hi), max_eq_right (hnp 0 (Nat.zero_le _))]
    · intro i hi
      omega
    · rintro ⟨i, hi, hpos⟩
      exact absurd (hnp i hi) (not_le.mpr hpos)
    · intro _
      rw [hpk, hxm]
      rfl
  · have hkl : k ≤ Posterior1D.nPoints := Nat.le_of_lt_succ hk
    refine ⟨k, hkl, ?_, ?_, ?_, ?_, ?_⟩
    · rw [hpk, hx1]
    · intro i hi
      rw [hx2, max_eq_left (le_of_lt hp)]
      exact max_le (hle2 i hi) (le_of_lt hp)
    · intro i hi
      rw [hx2, max_eq_left (le_of_lt hp)]
      exact max_lt (hx3 i hi) hp
    · intro _
      rw [hx2]
      exact ⟨hle2, hx3⟩
    · intro hnp
      have := hnp k hkl
      rw [hx2] at this
      exact absurd this (not_le.mpr hp)

/-- The integration loop over a list of indices followed by another is the
loop over the second from the state the first leaves, unless the first has
thrown. -/
theorem integrateLoop_append (surface : Surface) (x0 xLast delta : ℚ) (N : Int)
    (l1 l2 : List Nat) :
    ∀ st : Integration, integrateLoop surface x0 xLast delta N (l1 ++ l2) st
      = match integrateLoop surface x0 xLast delta N l1 st with
        | (st1, some e) => (st1, some e)
        | (st1, none) => integrateLoop surface x0 xLast delta N l2 st1 := by
  induction l1 with
  | nil =>
    intro st
    rfl
  | cons i rest ih =>
    intro st
    simp only [List.cons_append, integrateLoop]
    split
    · rfl
    · exact ih _

theorem runningNorm_succ (s : Surface) (x0 xLast delta : ℚ) (N : Int) (n : Nat) :
    runningNorm s x0 xLast delta N (n + 1)
      = runningNorm s x0 xLast delta N n
        + max (s.evaluate (integrationGrid x0 xLast delta N n)) 0 * delta := by
  unfold runningNorm
  rw [List.range_succ, List.map_append, List.sum_append]
  simp

/-- The state of the integration loop after the indices below `n`, when it has
not thrown: `norm_` is the sum of the cells of these indices, the keys of the
table are in order, and each running sum is a key of the table, under which the
table holds the last grid point that has this running sum. -/
theorem integrateLoop_range (surface : Surface) (x0 xLast delta : ℚ) (N : Int) (n : Nat) :
    ∀ st : Integration,
      integrateLoop surface x0 xLast delta N (List.range n)
          { norm := 0, table := tableAssign [] 0 0 } = (st, none) →
      st.norm = runningNorm surface x0 xLast delta N n
      ∧ KeysAscending st.table
      ∧ (∀ i < n, ∃ j : Nat, i ≤ j ∧ j < n
          ∧ runningNorm surface x0 xLast delta N (j + 1)
              = runningNorm surface x0 xLast delta N (i + 1)
          ∧ (∀ j2 < n, runningNorm surface x0 xLast delta N (j2 + 1)
                = runningNorm surface x0 xLast delta N (i + 1) → j2 ≤ j)
          ∧ (runningNorm surface x0 xLast delta N (i + 1), integrationGrid x0 xLast delta N j)
              ∈ st.table) := by
  induction n with
  | zero =>
    intro st h
    simp only [List.range_zero, integrateLoop, Prod.mk.injEq, and_true] at h
    rw [← h]
    refine ⟨by simp [runningNorm], by simp [tableAssign, KeysAscending], ?_⟩
    intro i hi
    omega
  | succ n ih =>
    intro st h
    rw [List.range_succ, integrateLoop_append] at h
    rcases hp : integrateLoop surface x0 xLast delta N (List.range n)
        { norm := 0, table := tableAssign [] 0 0 } with ⟨st1, e1⟩
    rw [hp] at h
    cases e1 with
    | some e =>
      simp at h
    | none =>
      obtain ⟨hn, hk, hall⟩ := ih st1 hp
      simp only [] at h
      unfold integrateLoop at h
      simp only [] at h
      split at h
      · simp at h
      · simp only [integrateLoop, Prod.mk.injEq, and_true] at h
        have hy : (if surface.evaluate (integrationGrid x0 xLast delta N n) < 0 then 0
            else surface.evaluate (integrationGrid x0 xLast delta N n))
            = max (surface.evaluate (integrationGrid x0 xLast delta N n)) 0 := by
          split
          · rename_i hlt
            rw [max_eq_right (le_of_lt hlt)]
          · rename_i hge
            rw [max_eq_left (not_lt.mp hge)]
        have hnorm : st.norm = runningNorm surface x0 xLast delta N (n + 1) := by
          rw [← h, runningNorm_succ, ← hn, ← hy]
          rfl
        have htab : st.table = tableAssign st1.table
            (runningNorm surface x0 xLast delta N (n + 1))
            (integrationGrid x0 xLast delta N n) := by
          rw [← hnorm, ← h]
          rfl
        refine ⟨hnorm, ?_, ?_⟩
        · rw [htab]
          exact tableAssign_ascending _ _ _ hk
        · intro i hi
          rw [htab]
          rcases Nat.lt_succ_iff_lt_or_eq.mp hi with hlt | heq
          · obtain ⟨j, hj1, hj2, hj3, hj4, hj5⟩ := hall i hlt
            by_cases hK : runningNorm surface x0 xLast delta N (i + 1)
                = runningNorm surface x0 xLast delta N (n + 1)
            · refine ⟨n, Nat.le_of_lt hlt, Nat.lt_succ_self n, hK.symm, ?_, ?_⟩
              · intro j2 hj2' _
                exact Nat.le_of_lt_succ hj2'
              · rw [hK]
                exact (mem_tableAssign _ _ _ hk _).mpr (Or.inl rfl)
            · refine ⟨j, hj1, Nat.lt_succ_of_lt hj2, hj3, ?_, ?_⟩
              · intro j2 hj2' heq2
                rcases Nat.lt_succ_iff_lt_or_eq.mp hj2' with h2 | h2
                · exact hj4 j2 h2 heq2
                · rw [h2] at heq2
                  exact absurd heq2.symm hK
              · exact (mem_tableAssign _ _ _ hk _).mpr (Or.inr ⟨hj5, hK⟩)
          · rw [heq]
            refine ⟨n, le_refl _, Nat.lt_succ_self n, rfl, ?_, ?_⟩
            · intro j2 hj2' _
              exact Nat.le_of_lt_succ hj2'
            · exact (mem_tableAssign _ _ _ hk _).mpr (Or.inl rfl)

/-- When the integration loop has run over a list of indices without an error,
it has run over every initial part of the list without an error. -/
theorem integrateLoop_prefix_ok (surface : Surface) (x0 xLast delta : ℚ) (N : Int)
    (l1 l2 : List Nat) (st st2 : Integration)
    (h : integrateLoop surface x0 xLast delta N (l1 ++ l2) st = (st2, none)) :
    ∃ st1 : Integration, integrateLoop surface x0 xLast delta N l1 st = (st1, none) := by
  rw [integrateLoop_append] at h
  rcases hp : integrateLoop surface x0 xLast delta N l1 st with ⟨st1, e1⟩
  rw [hp] at h
  cases e1 with
  | some e => simp at h
  | none => exact ⟨st1, rfl⟩

/-- What a successful `generate` has integrated: the loop has run on the grid
from `min_` to `max_` with `N` steps, `N` being the `int` product
`100 * resolution`. -/
theorem generate_integration (lib : Numerics) (p : Posterior1D) (method : SmoothingMethod)
    (scale : ℚ) (h : (p.generate lib method scale).2 = none) :
    ∃ (r : Prepared) (st : Integration),
      (p.prepare lib method scale).2 = Except.ok r
      ∧ 0 < r.resolution
      ∧ integrateLoop (fittedSurface lib method r) p.min_ p.max_
          ((p.max_ - p.min_) / ((wrapInt (100 * r.resolution) : Int) : ℚ))
          (wrapInt (100 * r.resolution)) (List.range (wrapInt (100 * r.resolution) + 1).toNat)
          { norm := 0, table := tableAssign [] 0 0 } = (st, none)
      ∧ (p.generate lib method scale).1.smooth_ = some (fittedSurface lib method r)
      ∧ (p.generate lib method scale).1.norm_ = st.norm
      ∧ (p.generate lib method scale).1.cumulInv_ = some st.table
      ∧ (p.generate lib method scale).1.min_ = p.min_
      ∧ (p.generate lib method scale).1.max_ = p.max_ := by
  obtain ⟨p2, r, st, hp, hl, hg⟩ := generate_ok_inv lib p method scale h
  obtain ⟨h0, hlast⟩ := prepare_grid_ends lib p method scale p2 r hp
  obtain ⟨_, _, _, _, _, _, _, hres, _, _, _, _, _, _, _, _, _, _, hp2⟩ :=
    prepare_ok_inv lib p method scale p2 r hp
  rw [h0, hlast] at hl
  refine ⟨r, st, by rw [hp], hres, hl, by rw [hg], by rw [hg], by rw [hg], ?_, ?_⟩
  · rw [hg, hp2]
  · rw [hg, hp2]

/-- The statement `l[i] += w` changes the entry `i`, when there is one, and no
other entry. -/
theorem addAt_getD (l : List ℚ) (i j : Nat) (w : ℚ) (hi : i < l.length) :
    (addAt l i w).getD j 0 = if j = i then l.getD j 0 + w else l.getD j 0 := by
  unfold addAt
  by_cases h : j = i
  · subst h
    rw [if_pos rfl]
    simp [List.getD_eq_getElem?_getD, List.getElem?_set, hi]
  · rw [if_neg h]
    have h2 : i ≠ j := fun hc => h hc.symm
    simp [List.getD_eq_getElem?_getD, List.getElem?_set, h2]

theorem addAt_length (l : List ℚ) (i : Nat) (w : ℚ) : (addAt l i w).length = l.length := by
  unfold addAt
  simp

/-- The statement `l[i] += w` adds `w` to the sum of the entries. -/
theorem addAt_sum (l : List ℚ) (w : ℚ) : ∀ i : Nat, i < l.length →
    (addAt l i w).sum = l.sum + w := by
  induction l with
  | nil =>
    intro i hi
    simp at hi
  | cons a t ih =>
    intro i hi
    cases i with
    | zero =>
      simp [addAt]
      ring
    | succ i =>
      have hi2 : i < t.length := by simpa using hi
      have := ih i hi2
      unfold addAt at this ⊢
      simp only [List.set_cons_succ, List.sum_cons, List.getD_cons_succ]
      rw [this]
      ring

/-- The sum of a list is the sum of its entries over the indices. -/
theorem sum_eq_sum_getD (l : List ℚ) :
    l.sum = ((List.range l.length).map (fun i => l.getD i 0)).sum := by
  induction l with
  | nil => simp
  | cons a t ih =>
    rw [List.length_cons, List.range_succ_eq_map, List.map_cons, List.sum_cons, List.sum_cons,
      List.map_map, ih]
    rfl

/-- In a list of `n + 2` entries the entries of the indices `1..n` sum to the
sum of the list less its first and its last entry. -/
theorem interior_sum (l : List ℚ) (n : Nat) (h : l.length = n + 2) :
    ((List.range n).map (fun k => l.getD (k + 1) 0)).sum
      = l.sum - l.getD 0 0 - l.getD (n + 1) 0 := by
  rw [sum_eq_sum_getD l, h, List.range_succ_eq_map, List.map_cons, List.sum_cons, List.map_map,
    List.range_succ, List.map_append, List.sum_append]
  have hc : ((fun i => l.getD i 0) ∘ Nat.succ) = fun k => l.getD (k + 1) 0 := rfl
  rw [hc]
  simp only [List.map_cons, List.map_nil, List.sum_cons, List.sum_nil]
  ring

/-- The bin that the histogram loop of `generate` picks for a value between
`min_` and `max_ = min_ + res * d`: the interior bin `k` is picked for the
values of `[min_ + k * d, min_ + (k + 1) * d)`, and the last interior bin also
for `max_`. -/
theorem bin_index_iff (min_ max_ d pt : ℚ) (res k : Nat) (hd : 0 < d)
    (hmax : max_ = min_ + (res : ℚ) * d) (h1 : min_ ≤ pt) (h2 : pt ≤ max_) (hk : k < res) :
    ((if ⌊(pt - min_) / d⌋ ≥ (res : Int) then (res : Int) - 1 else ⌊(pt - min_) / d⌋) + 1).toNat
        = k + 1
      ↔ ((min_ + (k : ℚ) * d ≤ pt ∧ pt < min_ + ((k : ℚ) + 1) * d)
          ∨ (k + 1 = res ∧ pt = max_)) := by
  have hq0 : 0 ≤ (pt - min_) / d := div_nonneg (by linarith) (le_of_lt hd)
  have hqr : (pt - min_) / d ≤ (res : ℚ) := by
    rw [div_le_iff₀ hd]
    linarith
  have hfl0 : 0 ≤ ⌊(pt - min_) / d⌋ := Int.floor_nonneg.mpr hq0
  have hflq : ((⌊(pt - min_) / d⌋ : Int) : ℚ) ≤ (pt - min_) / d := Int.floor_le _
  have hflr : ⌊(pt - min_) / d⌋ ≤ (res : Int) := by
    have : ((⌊(pt - min_) / d⌋ : Int) : ℚ) ≤ ((res : Int) : ℚ) := by
      push_cast
      linarith
    exact_mod_cast this
  have hkq : (k : ℚ) + 1 ≤ (res : ℚ) := by exact_mod_cast hk
  by_cases hge : ⌊(pt - min_) / d⌋ ≥ (res : Int)
  · rw [if_pos hge]
    have hfeq : ⌊(pt - min_) / d⌋ = (res : Int) := le_antisymm hflr hge
    have hqeq : (pt - min_) / d = (res : ℚ) := by
      apply le_antisymm hqr
      have : ((⌊(pt - min_) / d⌋ : Int) : ℚ) = (res : ℚ) := by
        rw [hfeq]
        simp
      linarith
    have hpt : pt = max_ := by
      rw [div_eq_iff (ne_of_gt hd)] at hqeq
      linarith
    constructor
    · intro h
      right
      refine ⟨?_, hpt⟩
      omega
    · intro h
      rcases h with ⟨_, hlt⟩ | ⟨hk1, _⟩
      · exfalso
        rw [hpt, hmax] at hlt
        have : (res : ℚ) * d < ((k : ℚ) + 1) * d := by linarith
        have := lt_of_mul_lt_mul_right this (le_of_lt hd)
        linarith
      · omega
  · rw [if_neg hge]
    have hlt : ⌊(pt - min_) / d⌋ < (res : Int) := not_le.mp hge
    have hiff : ((⌊(pt - min_) / d⌋ + 1).toNat = k + 1) ↔ ⌊(pt - min_) / d⌋ = (k : Int) := by
      constructor
      · intro h
        omega
      · intro h
        omega
    rw [hiff, Int.floor_eq_iff]
    constructor
    · rintro ⟨ha, hb⟩
      left
      constructor
      · have := (le_div_iff₀ hd).mp (by exact_mod_cast ha : (k : ℚ) ≤ (pt - min_) / d)
        linarith
      · have := (div_lt_iff₀ hd).mp (by exact_mod_cast hb : (pt - min_) / d < (k : ℚ) + 1)
        linarith
    · intro h
      rcases h with ⟨ha, hb⟩ | ⟨_, hpt⟩
      · constructor
        · have : (k : ℚ) ≤ (pt - min_) / d := (le_div_iff₀ hd).mpr (by linarith)
          exact_mod_cast this
        · have : (pt - min_) / d < (k : ℚ) + 1 := (div_lt_iff₀ hd).mpr (by linarith)
          exact_mod_cast this
      · exfalso
        have hqeq : (pt - min_) / d = (res : ℚ) := by
          rw [div_eq_iff (ne_of_gt hd), hpt, hmax]
          ring
        have : ⌊(pt - min_) / d⌋ = (res : Int) := by
          rw [hqeq]
          exact Int.floor_natCast res
        omega

theorem binWeight_cons (min_ max_ d : ℚ) (res : Nat) (pt w : ℚ) (points probs : List ℚ)
    (k : Nat) :
    binWeight min_ max_ d res (pt :: points) (w :: probs) k
      = (if inBin min_ max_ d res k pt then w else 0) + binWeight min_ max_ d res points probs k := by
  unfold binWeight
  simp only [List.zip_cons_cons, List.filter_cons]
  split
  · simp
  · simp

/-- When the histogram loop ends without an error on points that do not
exceed `max_ = min_ + res * d`, every interior bin has grown by the weight of
the points that belong to it, the two boundary bins are as they were, and the
sum of the bins has grown by the sum of the weights. -/
theorem histogramLoop_bins (min_ max_ d : ℚ) (res : Nat) (hd : 0 < d)
    (hmax : max_ = min_ + (res : ℚ) * d) (hres : 0 < res) (points : List ℚ) :
    ∀ (probs errVars : List ℚ) (h h1 : Histogram), probs.length = points.length →
      (∀ pt ∈ points, pt ≤ max_) → h.y.length = res + 2 →
      histogramLoop min_ d (res : Int) points probs errVars h = (h1, none) →
      h1.y.length = res + 2
      ∧ h1.y.sum = h.y.sum + probs.sum
      ∧ h1.y.getD 0 0 = h.y.getD 0 0
      ∧ h1.y.getD (res + 1) 0 = h.y.getD (res + 1) 0
      ∧ ∀ k < res, h1.y.getD (k + 1) 0
          = h.y.getD (k + 1) 0 + binWeight min_ max_ d res points probs k := by
  induction points with
  | nil =>
    intro probs errVars h h1 hlen _ hy hr
    have : probs = [] := List.length_eq_zero.mp hlen
    subst this
    simp only [histogramLoop, Prod.mk.injEq, and_true] at hr
    rw [← hr]
    refine ⟨hy, by simp, rfl, rfl, ?_⟩
    intro k _
    simp [binWeight]
  | cons pt points ih =>
    intro probs errVars h h1 hlen hle hy hr
    cases probs with
    | nil => simp at hlen
    | cons w ws =>
      unfold histogramLoop at hr
      split at hr
      · simp at hr
      · rename_i hc1
        simp only [] at hr
        split at hr
        · simp at hr
        · rename_i hc2
          have hmin : min_ ≤ pt := by
            simp only [checkKind, ite_eq_left_iff, decide_eq_true_eq, reduceCtorEq, imp_false,
              not_not, ge_iff_le] at hc1
            exact hc1
          have hk0 : 0 ≤ ⌊(pt - min_) / d⌋ := by
            simp only [checkKind, ite_eq_left_iff, decide_eq_true_eq, reduceCtorEq, imp_false,
              not_not, ge_iff_le] at hc2
            exact hc2
          have hptmax : pt ≤ max_ := hle pt (List.mem_cons_self _ _)
          have hidx : 1 ≤ ((if ⌊(pt - min_) / d⌋ ≥ (res : Int) then (res : Int) - 1
                else ⌊(pt - min_) / d⌋) + 1).toNat
              ∧ ((if ⌊(pt - min_) / d⌋ ≥ (res : Int) then (res : Int) - 1
                else ⌊(pt - min_) / d⌋) + 1).toNat ≤ res := by
            split
            · omega
            · omega
          have hylen : (addAt h.y ((if ⌊(pt - min_) / d⌋ ≥ (res : Int) then (res : Int) - 1
                else ⌊(pt - min_) / d⌋) + 1).toNat w).length = res + 2 := by
            rw [addAt_length, hy]
          have hinl : ((if ⌊(pt - min_) / d⌋ ≥ (res : Int) then (res : Int) - 1
                else ⌊(pt - min_) / d⌋) + 1).toNat < h.y.length := by
            rw [hy]
            omega
          obtain ⟨a1, a2, a3, a4, a5⟩ := ih ws errVars.tail _ h1 (by simpa using hlen)
            (fun x hx => hle x (List.mem_cons_of_mem _ hx)) hylen hr
          simp only [List.headD_cons] at a2 a3 a4 a5
          refine ⟨a1, ?_, ?_, ?_, ?_⟩
          · rw [a2, addAt_sum _ _ _ hinl, List.sum_cons]
            ring
          · rw [a3, addAt_getD _ _ _ _ hinl, if_neg (by omega)]
          · rw [a4, addAt_getD _ _ _ _ hinl, if_neg (by omega)]
          · intro k hk
            rw [a5 k hk, addAt_getD _ _ _ _ hinl, binWeight_cons]
            have hiff := bin_index_iff min_ max_ d pt res k hd hmax hmin hptmax hk
            by_cases hb : inBin min_ max_ d res k pt = true
            · have hin : ((if ⌊(pt - min_) / d⌋ ≥ (res : Int) then (res : Int) - 1
                    else ⌊(pt - min_) / d⌋) + 1).toNat = k + 1 := by
                apply hiff.mpr
                unfold inBin at hb
                simpa using hb
              rw [if_pos hin.symm, if_pos hb]
              ring
            · have hnin : ¬ ((if ⌊(pt - min_) / d⌋ ≥ (res : Int) then (res : Int) - 1
                    else ⌊(pt - min_) / d⌋) + 1).toNat = k + 1 := by
                intro hc
                apply hb
                have := hiff.mp hc
                unfold inBin
                simpa using this
              rw [if_neg (fun hc => hnin hc.symm), if_neg hb]
              ring

/-- The two statements `y[0] = y[1]; y[n + 1] = y[n]` on a vector of `n + 2`
entries, `n >= 1`: the interior entries are as they were and each boundary
entry equals its interior neighbour. -/
theorem smooth_edges (l : List ℚ) (n : Nat) (hn : 0 < n) (hl : l.length = n + 2) :
    ((l.set 0 (l.getD 1 0)).set (n + 1) ((l.set 0 (l.getD 1 0)).getD n 0)).length = n + 2
    ∧ (∀ k < n, ((l.set 0 (l.getD 1 0)).set (n + 1) ((l.set 0 (l.getD 1 0)).getD n 0)).getD
          (k + 1) 0 = l.getD (k + 1) 0)
    ∧ ((l.set 0 (l.getD 1 0)).set (n + 1) ((l.set 0 (l.getD 1 0)).getD n 0)).getD 0 0
        = ((l.set 0 (l.getD 1 0)).set (n + 1) ((l.set 0 (l.getD 1 0)).getD n 0)).getD 1 0
    ∧ ((l.set 0 (l.getD 1 0)).set (n + 1) ((l.set 0 (l.getD 1 0)).getD n 0)).getD (n + 1) 0
        = ((l.set 0 (l.getD 1 0)).set (n + 1) ((l.set 0 (l.getD 1 0)).getD n 0)).getD n 0 := by
  have h0 : 0 < l.length := by omega
  have h1 : n + 1 < l.length := by omega
  have hne : n ≠ 0 := by omega
  have hne2 : ¬ n + 1 = 1 := by omega
  have hne3 : ¬ 0 = n := by omega
  refine ⟨by simp [hl], ?_, ?_, ?_⟩
  · intro k hk
    have hk1 : ¬ n + 1 = k + 1 := by omega
    simp [List.getD_eq_getElem?_getD, List.getElem?_set, hk1]
  · simp [List.getD_eq_getElem?_getD, List.getElem?_set, h0, hne2]
  · simp [List.getD_eq_getElem?_getD, List.getElem?_set, h1, hne, hne3, hl]

/-- Whatever the outcome, `generate` from the fit on stores the fitted surface
and leaves the bounds of the axes as they were; a run that fails leaves the
pointer to the former table as it was. -/
theorem integrate_frame (p : Posterior2D) (surface : Surface2D) (x1 x2 : List ℚ) :
    (p.integrate surface x1 x2).1.smooth_ = some surface
    ∧ (p.integrate surface x1 x2).1.min1_ = p.min1_
    ∧ (p.integrate surface x1 x2).1.max1_ = p.max1_
    ∧ (p.integrate surface x1 x2).1.min2_ = p.min2_
    ∧ (p.integrate surface x1 x2).1.max2_ = p.max2_
    ∧ ((p.integrate surface x1 x2).2 ≠ none →
        (p.integrate surface x1 x2).1.cumulInv_ = p.cumulInv_)
    ∧ ((p.integrate surface x1 x2).2 = none →
        (p.integrate surface x1 x2).1.points1_ = []
        ∧ (p.integrate surface x1 x2).1.points2_ = []
        ∧ (p.integrate surface x1 x2).1.probs_ = []) := by
  generalize hI : p.integrate surface x1 x2 = res
  unfold Posterior2D.integrate at hI
  rcases hs : Posterior2D.sample surface x1 x2 with ⟨st, e⟩
  rw [hs] at hI
  cases e with
  | some e1 =>
    simp only at hI
    rw [← hI]
    exact ⟨rfl, rfl, rfl, rfl, rfl, fun _ => rfl, fun h => by simp at h⟩
  | none =>
    simp only at hI
    split at hI
    · rw [← hI]
      exact ⟨rfl, rfl, rfl, rfl, rfl, fun _ => rfl, fun h => by simp at h⟩
    · rw [← hI]
      exact ⟨rfl, rfl, rfl, rfl, rfl, fun h => by simp at h, fun _ => ⟨rfl, rfl, rfl⟩⟩

/-- On axes that are not reversed, a surface that is zero everywhere has the
normalization zero: `generate` stores the surface and fails at the check of the
normalization. -/
theorem integrate_zero_surface (p : Posterior2D) (surface : Surface2D) (x1 x2 : List ℚ)
    (h1 : x1.headD 0 < x1.getLastD 0) (h2 : x2.headD 0 < x2.getLastD 0)
    (hzero : ∀ a b : ℚ, surface.evaluate a b = 0) :
    (p.integrate surface x1 x2).2 = some Error.insufficientData := by
  have hpass := sample_pass surface x1 x2 h1 h2
  generalize hI : p.integrate surface x1 x2 = res
  unfold Posterior2D.integrate at hI
  rcases hs : Posterior2D.sample surface x1 x2 with ⟨st, e⟩
  rw [hs] at hI hpass
  simp only at hpass
  subst hpass
  have hs2 := hs
  unfold Posterior2D.sample at hs2
  obtain ⟨new, _, a2, _, a4⟩ := sampleGrid_ok _ _ _ _ _ _ _ _ _ _ _ _ hs2
  have hsum : (new.map (fun y => y * ((x1.getLastD 0 - x1.headD 0) / (Posterior2D.N1 : ℚ))
      * ((x2.getLastD 0 - x2.headD 0) / (Posterior2D.N2 : ℚ)))).sum = 0 := by
    apply List.sum_eq_zero
    intro v hv
    rw [List.mem_map] at hv
    obtain ⟨y, hy, rfl⟩ := hv
    obtain ⟨a, b, rfl⟩ := a4 y hy
    rw [hzero]
    ring
  rw [hsum, zero_add] at a2
  simp only at hI
  have hn : ¬ st.2 > 0 := by
    rw [a2]
    exact lt_irrefl 0
  simp only [checkKind, hn, decide_False] at hI
  rw [← hI]
  rfl

/-- When the part of `Posterior2D::generate` before the fit has passed, and a
surface that is in place comes with a table, `generate` goes on with the fit
and the sampling. -/
theorem generate2D_of_prepare (lib : Numerics)
    (fit : List ℚ → List ℚ → List (List ℚ) → ℚ → ℚ → Surface2D) (p : Posterior2D)
    (scale1 scale2 : ℚ) (r : Prepared2D)
    (hprep : p.prepare lib scale1 scale2 = some (Except.ok r))
    (hpair : p.smooth_.isSome = true → p.cumulInv_.isSome = true) :
    p.generate lib fit scale1 scale2
      = some (p.integrate (fit r.x1 r.x2 r.y r.scale1 r.scale2) r.x1 r.x2) := by
  unfold Posterior2D.generate
  rw [hprep]
  simp only
  by_cases hsm : p.smooth_.isSome = true
  · rw [if_pos hsm, hpair hsm]
    rfl
  · rw [if_neg hsm]

/-- The fields of the object after `Posterior2D::addPoint`. -/
theorem addPoint2D_fields (p : Posterior2D) (x1 x2 prob like : ℚ) :
    (p.addPoint x1 x2 prob like).points1_ = p.points1_ ++ [x1]
    ∧ (p.addPoint x1 x2 prob like).points2_ = p.points2_ ++ [x2]
    ∧ (p.addPoint x1 x2 prob like).probs_ = p.probs_ ++ [prob]
    ∧ (p.addPoint x1 x2 prob like).min1_ = (if x1 < p.min1_ then x1 else p.min1_)
    ∧ (p.addPoint x1 x2 prob like).max1_ = (if x1 > p.max1_ then x1 else p.max1_)
    ∧ (p.addPoint x1 x2 prob like).min2_ = (if x2 < p.min2_ then x2 else p.min2_)
    ∧ (p.addPoint x1 x2 prob like).max2_ = (if x2 > p.max2_ then x2 else p.max2_)
    ∧ (p.addPoint x1 x2 prob like).smooth_ = p.smooth_
    ∧ (p.addPoint x1 x2 prob like).cumulInv_ = p.cumulInv_ := by
  unfold Posterior2D.addPoint
  simp only []
  split_ifs <;> exact ⟨rfl, rfl, rfl, rfl, rfl, rfl, rfl, rfl, rfl⟩

/-- The part of `Posterior2D::generate` before the fit reads the buffers and
the bounds of the axes only. -/
theorem prepare2D_congr (lib : Numerics) (p q : Posterior2D) (scale1 scale2 : ℚ)
    (h1 : p.points1_ = q.points1_) (h2 : p.points2_ = q.points2_) (h3 : p.probs_ = q.probs_)
    (h4 : p.min1_ = q.min1_) (h5 : p.max1_ = q.max1_) (h6 : p.min2_ = q.min2_)
    (h7 : p.max2_ = q.max2_) :
    p.prepare lib scale1 scale2 = q.prepare lib scale1 scale2 := by
  unfold Posterior2D.prepare Posterior2D.binning
  simp only [h1, h2, h3, h4, h5, h6, h7]

/-- The integration loop does not throw on indices whose grid points do not
pass the end of the grid. -/
theorem integrateLoop_pass (surface : Surface) (x0 xLast delta : ℚ) (N : Int) (is : List Nat)
    (h : ∀ i ∈ is, (if (i : Int) = N then xLast else x0 + (i : ℚ) * delta) ≤ xLast) :
    ∀ st : Integration, (integrateLoop surface x0 xLast delta N is st).2 = none := by
  induction is with
  | nil =>
    intro st
    rfl
  | cons i rest ih =>
    intro st
    have hi := h i (List.mem_cons_self _ _)
    simp only [integrateLoop, checkKind, hi, decide_True, if_true]
    exact ih (fun x hx => h x (List.mem_cons_of_mem _ hx)) _

/-- Once `Posterior1D::generate` has reached the fit, its integration loop
does not throw, whatever the `int` product `N` is: no grid point passes
`max_`. -/
theorem integrateLoop_of_prepare (lib : Numerics) (p : Posterior1D) (method : SmoothingMethod)
    (scale : ℚ) (p2 : Posterior1D) (r : Prepared) (surface : Surface)
    (hp : p.prepare lib method scale = (p2, Except.ok r)) (st : Integration) :
    (integrateLoop surface (r.x.headD 0) (r.x.getLastD 0)
        ((r.x.getLastD 0 - r.x.headD 0) / ((wrapInt (100 * r.resolution) : Int) : ℚ))
        (wrapInt (100 * r.resolution)) (List.range (wrapInt (100 * r.resolution) + 1).toNat)
        st).2 = none := by
  obtain ⟨h0, hlast⟩ := prepare_grid_ends lib p method scale p2 r hp
  obtain ⟨_, _, hmm, _⟩ := prepare_ok_inv lib p method scale p2 r hp
  rw [h0, hlast]
  generalize wrapInt (100 * r.resolution) = N
  apply integrateLoop_pass
  intro i hi
  have hiN : (i : Int) < N + 1 := by
    have := List.mem_range.mp hi
    omega
  by_cases hi2 : (i : Int) = N
  · rw [if_pos hi2]
  · rw [if_neg hi2]
    have hlt : (i : Int) < N := by omega
    have hNpos : (0 : ℚ) < (N : ℚ) := by
      have : (0 : Int) < N := by omega
      exact_mod_cast this
    have hiq : (i : ℚ) ≤ (N : ℚ) := by
      have : ((i : Int) : ℚ) ≤ (N : ℚ) := by exact_mod_cast le_of_lt hlt
      simpa using this
    have hstep : (i : ℚ) * ((p.max_ - p.min_) / (N : ℚ)) ≤ p.max_ - p.min_ := by
      rw [mul_div_assoc', div_le_iff₀ hNpos]
      have hw : 0 ≤ p.max_ - p.min_ := by linarith
      nlinarith
    linarith

/-- A call of `Posterior1D::generate` that fails leaves the surface and the
table that were in place; a call that succeeds replaces both. -/
theorem generate_pair (lib : Numerics) (p : Posterior1D) (method : SmoothingMethod)
    (scale : ℚ) :
    ((p.generate lib method scale).2 ≠ none →
        (p.generate lib method scale).1.smooth_ = p.smooth_
        ∧ (p.generate lib method scale).1.cumulInv_ = p.cumulInv_)
    ∧ ((p.generate lib method scale).2 = none →
        ∃ (r : Prepared) (table : TableFunction),
          (p.prepare lib method scale).2 = Except.ok r
          ∧ (p.generate lib method scale).1.smooth_ = some (fittedSurface lib method r)
          ∧ (p.generate lib method scale).1.cumulInv_ = some table) := by
  constructor
  · intro hfail
    have hf := prepare_frame lib p method scale
    generalize hg : p.generate lib method scale = g at hfail ⊢
    unfold Posterior1D.generate at hg
    rcases hp : p.prepare lib method scale with ⟨p2, res⟩
    rw [hp] at hg hf
    simp only at hf
    cases res with
    | error e =>
      simp only at hg
      rw [← hg]
      exact ⟨hf.1, hf.2.1⟩
    | ok r =>
      simp only at hg
      split at hg
      · rw [← hg]
        exact ⟨hf.1, hf.2.1⟩
      · split at hg
        · rename_i st e hl
          cases method with
          | GAUSSIAN_SMOOTHING =>
            have hpass := integrateLoop_of_prepare lib p SmoothingMethod.GAUSSIAN_SMOOTHING
              scale p2 r (lib.gaussSmooth r.x r.y r.scale r.vars) hp
              { norm := 0, table := tableAssign [] 0 0 }
            simp only at hl
            rw [hl] at hpass
            simp at hpass
          | SPLINE_SMOOTHING =>
            have hpass := integrateLoop_of_prepare lib p SmoothingMethod.SPLINE_SMOOTHING
              scale p2 r (lib.cubicSpline r.x r.y) hp
              { norm := 0, table := tableAssign [] 0 0 }
            simp only at hl
            rw [hl] at hpass
            simp at hpass
        · rw [← hg] at hfail
          simp at hfail
  · intro hok
    obtain ⟨r, st, hp, _, _, hs, _, hc, _, _⟩ := generate_integration lib p method scale hok
    exact ⟨r, st.table, hp, hs, hc⟩

/-- Every entry of the table of the integration loop after the indices below
`n` is the entry `0 -> 0` written before the loop or pairs a running sum with
its grid point. -/
theorem integrateLoop_entries (surface : Surface) (x0 xLast delta : ℚ) (N : Int) (n : Nat) :
    ∀ st : Integration,
      integrateLoop surface x0 xLast delta N (List.range n)
          { norm := 0, table := tableAssign [] 0 0 } = (st, none) →
      ∀ e ∈ st.table, e = (0, 0)
        ∨ ∃ j < n, e = (runningNorm surface x0 xLast delta N (j + 1),
            integrationGrid x0 xLast delta N j) := by
  induction n with
  | zero =>
    intro st h
    simp only [List.range_zero, integrateLoop, Prod.mk.injEq, and_true] at h
    rw [← h]
    intro e he
    left
    simpa [tableAssign] using he
  | succ n ih =>
    intro st h
    have hall := integrateLoop_range surface x0 xLast delta N (n + 1) st h
    rw [List.range_succ] at h
    obtain ⟨st1, h1⟩ := integrateLoop_prefix_ok _ _ _ _ _ _ _ _ _ h
    obtain ⟨hn1, hk1, _⟩ := integrateLoop_range surface x0 xLast delta N n st1 h1
    rw [integrateLoop_append, h1] at h
    simp only [integrateLoop] at h
    split at h
    · simp at h
    · simp only [Prod.mk.injEq, and_true] at h
      have htab : st.table = tableAssign st1.table st.norm (integrationGrid x0 xLast delta N n) := by
        rw [← h]
        rfl
      intro e he
      rw [htab] at he
      rcases (mem_tableAssign _ _ _ hk1 e).mp he with heq | ⟨hin, _⟩
      · right
        refine ⟨n, Nat.lt_succ_self n, ?_⟩
        rw [heq, hall.1]
      · rcases ih st1 h1 e hin with h0 | ⟨j, hj, hje⟩
        · exact Or.inl h0
        · exact Or.inr ⟨j, Nat.lt_succ_of_lt hj, hje⟩

/-- With a step width that is not negative the running sum does not fall. -/
theorem runningNorm_mono (s : Surface) (x0 xLast delta : ℚ) (N : Int) (hd : 0 ≤ delta) :
    ∀ m n : Nat, m ≤ n → runningNorm s x0 xLast delta N m ≤ runningNorm s x0 xLast delta N n := by
  intro m n hmn
  induction n with
  | zero =>
    have : m = 0 := by omega
    rw [this]
  | succ n ih =>
    rcases Nat.lt_succ_iff_lt_or_eq.mp (Nat.lt_succ_of_le hmn) with h | h
    · have h1 := ih (Nat.le_of_lt_succ h)
      rw [runningNorm_succ]
      have : 0 ≤ max (s.evaluate (integrationGrid x0 xLast delta N n)) 0 * delta :=
        mul_nonneg (le_max_right _ _) hd
      linarith
    · rw [h]

theorem runningNorm_zero (s : Surface) (x0 xLast delta : ℚ) (N : Int) :
    runningNorm s x0 xLast delta N 0 = 0 := by
  simp [runningNorm]

/-- The grid points of the integration loop lie between the two ends of the
grid. -/
theorem integrationGrid_bounds (x0 xLast : ℚ) (N : Int) (hN : 0 < N) (h : x0 ≤ xLast) (j : Nat)
    (hj : j ≤ N.toNat) :
    x0 ≤ integrationGrid x0 xLast ((xLast - x0) / (N : ℚ)) N j
    ∧ integrationGrid x0 xLast ((xLast - x0) / (N : ℚ)) N j ≤ xLast := by
  unfold integrationGrid
  have hNq : (0 : ℚ) < (N : ℚ) := by exact_mod_cast hN
  have hd : 0 ≤ (xLast - x0) / (N : ℚ) := div_nonneg (by linarith) (le_of_lt hNq)
  by_cases hc : (j : Int) = N
  · rw [if_pos hc]
    exact ⟨h, le_refl _⟩
  · rw [if_neg hc]
    have hjN : (j : Int) ≤ N := by omega
    have hjq : (j : ℚ) ≤ (N : ℚ) := by exact_mod_cast hjN
    have h0 : 0 ≤ (j : ℚ) := Nat.cast_nonneg j
    constructor
    · have := mul_nonneg h0 hd
      linarith
    · have h1 : (j : ℚ) * ((xLast - x0) / (N : ℚ)) ≤ (N : ℚ) * ((xLast - x0) / (N : ℚ)) :=
        mul_le_mul_of_nonneg_right hjq hd
      have h2 : (N : ℚ) * ((xLast - x0) / (N : ℚ)) = xLast - x0 := by
        field_simp
      linarith

/-- The inverse table of a successful `generate` whose product
`100 * resolution` is an `int`: every entry but the entry `0 -> 0` written
before the loop has its value in `[min_, max_]`, every key lies in
`[0, norm_]`, and the key `norm_` maps to `max_`. -/
theorem generate_table_bounds (lib : Numerics) (p : Posterior1D) (method : SmoothingMethod)
    (scale : ℚ) (h : (p.generate lib method scale).2 = none)
    (hrep : 100 * (binning lib p.points_ p.probs_ p.min_ p.max_).2 ≤ INT_MAX) :
    ∃ table : TableFunction, (p.generate lib method scale).1.cumulInv_ = some table
      ∧ (∀ e ∈ table, e = (0, 0) ∨ (p.min_ ≤ e.2 ∧ e.2 ≤ p.max_))
      ∧ (∀ e ∈ table, 0 ≤ e.1 ∧ e.1 ≤ (p.generate lib method scale).1.norm_)
      ∧ ((p.generate lib method scale).1.norm_, p.max_) ∈ table := by
  obtain ⟨r, st, hp, hres, hl, _, hn, hc, _, _⟩ := generate_integration lib p method scale h
  rcases hpp : p.prepare lib method scale with ⟨p2, res⟩
  rw [hpp] at hp
  simp only at hp
  subst hp
  obtain ⟨_, _, hmm, _, _, _, hrb, _⟩ := prepare_ok_inv lib p method scale p2 r hpp
  rw [← hrb] at hrep
  have hN : (0 : Int) < 100 * r.resolution := by omega
  have hw : wrapInt (100 * r.resolution) = 100 * r.resolution :=
    wrapInt_of_representable _ (by unfold INT_MIN; omega) hrep
  have hsucc : (100 * r.resolution + 1).toNat = (100 * r.resolution).toNat + 1 := by omega
  rw [hw, hsucc] at hl
  have hNq : (0 : ℚ) < ((100 * r.resolution : Int) : ℚ) := by exact_mod_cast hN
  have hd : 0 ≤ (p.max_ - p.min_) / ((100 * r.resolution : Int) : ℚ) :=
    div_nonneg (by linarith) (le_of_lt hNq)
  obtain ⟨a1, _, a3⟩ := integrateLoop_range _ _ _ _ _ _ st hl
  have hent := integrateLoop_entries _ _ _ _ _ _ st hl
  refine ⟨st.table, hc, ?_, ?_, ?_⟩
  · intro e he
    rcases hent e he with h0 | ⟨j, hj, hje⟩
    · exact Or.inl h0
    · right
      rw [hje]
      exact integrationGrid_bounds p.min_ p.max_ (100 * r.resolution) hN (le_of_lt hmm) j
        (Nat.le_of_lt_succ hj)
  · intro e he
    rw [hn, a1]
    rcases hent e he with h0 | ⟨j, hj, hje⟩
    · rw [h0]
      constructor
      · exact le_refl _
      · have := runningNorm_mono (fittedSurface lib method r) p.min_ p.max_ _
          (100 * r.resolution) hd 0 ((100 * r.resolution).toNat + 1) (Nat.zero_le _)
        rw [runningNorm_zero] at this
        exact this
    · rw [hje]
      constructor
      · have := runningNorm_mono (fittedSurface lib method r) p.min_ p.max_ _
          (100 * r.resolution) hd 0 (j + 1) (Nat.zero_le _)
        rw [runningNorm_zero] at this
        exact this
      · exact runningNorm_mono (fittedSurface lib method r) p.min_ p.max_ _
          (100 * r.resolution) hd (j + 1) ((100 * r.resolution).toNat + 1) hj
  · obtain ⟨j, hj1, hj2, _, _, hj5⟩ := a3 (100 * r.resolution).toNat (Nat.lt_succ_self _)
    have hjeq : j = (100 * r.resolution).toNat := by omega
    rw [hjeq] at hj5
    have hg : integrationGrid p.min_ p.max_
        ((p.max_ - p.min_) / ((100 * r.resolution : Int) : ℚ)) (100 * r.resolution)
        (100 * r.resolution).toNat = p.max_ := by
      unfold integrationGrid
      rw [if_pos (Int.toNat_of_nonneg (le_of_lt hN))]
    rw [hg] at hj5
    rw [hn, a1]
    exact hj5

/-- What `Posterior2D::generate` has passed and computed when it has the bin
widths. -/
theorem binning2D_ok_inv (lib : Numerics) (p : Posterior2D) (scale1 scale2 : ℚ) (b : Binning2D)
    (h : p.binning lib scale1 scale2 = Except.ok b) :
    p.points2_.length = p.points1_.length
    ∧ b.iqr1 = (axisBinning lib (p.points1_.zip p.probs_)
        (((p.points1_.zip p.probs_).map Prod.snd).foldl (fun acc w => acc + w) 0)
        p.min1_ p.max1_).1
    ∧ b.res1 = (axisBinning lib (p.points1_.zip p.probs_)
        (((p.points1_.zip p.probs_).map Prod.snd).foldl (fun acc w => acc + w) 0)
        p.min1_ p.max1_).2
    ∧ b.scale1 = (if scale1 = 0 then b.iqr1 / 8 else scale1)
    ∧ b.iqr2 = (axisBinning lib (p.points2_.zip p.probs_)
        (((p.points1_.zip p.probs_).map Prod.snd).foldl (fun acc w => acc + w) 0)
        p.min2_ p.max2_).1
    ∧ b.res2 = (axisBinning lib (p.points2_.zip p.probs_)
        (((p.points1_.zip p.probs_).map Prod.snd).foldl (fun acc w => acc + w) 0)
        p.min2_ p.max2_).2
    ∧ b.scale2 = (if scale2 = 0 then b.iqr2 / 8 else scale2)
    ∧ 0 < b.res1 ∧ 0 < b.res2
    ∧ b.d1 = (p.max1_ - p.min1_) / (b.res1 : ℚ)
    ∧ b.d2 = (p.max2_ - p.min2_) / (b.res2 : ℚ) := by
  unfold Posterior2D.binning at h
  simp only [] at h
  split at h
  · simp at h
  · split at h
    · simp at h
    · rename_i hlen
      split at h
      · simp at h
      · split at h
        · simp at h
        · rename_i hr1
          split at h
          · simp at h
          · rename_i hr2
            simp only [Except.ok.injEq] at h
            subst h
            simp only [checkKind, ite_eq_left_iff, decide_eq_true_eq, reduceCtorEq, imp_false,
              not_not, gt_iff_lt] at hlen hr1 hr2
            exact ⟨hlen, rfl, rfl, rfl, rfl, rfl, rfl, hr1, hr2, rfl, rfl⟩

/-- The bin count and the interquartile range of `Posterior1D::generate` are
those of the axis on the pairs of its points and weights. -/
theorem binning_eq_axisBinning (lib : Numerics) (points probs : List ℚ) (min_ max_ : ℚ) :
    binning lib points probs min_ max_
      = axisBinning lib (points.zip probs)
          (((points.zip probs).map Prod.snd).foldl (fun acc w => acc + w) 0) min_ max_ := rfl

/-- The weights of the pairs of two buffers of one length are the weights. -/
theorem zip_weights (points probs : List ℚ) (h : points.length = probs.length) :
    (points.zip probs).map Prod.snd = probs := by
  apply List.map_snd_zip
  omega

/-- The fold of `maxWeight` is at least every weight it runs over. -/
theorem weight_le_maxWeight (m : ℚ) (rows : List ChainLine) :
    ∀ l ∈ rows, l.prob ≤ maxWeight m rows := by
  induction rows generalizing m with
  | nil => intro l hl; cases hl
  | cons r rs ih =>
    intro l hl
    simp only [maxWeight, List.foldl_cons]
    rcases List.mem_cons.mp hl with h | h
    · subst h
      exact le_trans (le_max_right m l.prob) (le_maxWeight _ rs)
    · exact ih (max m r.prob) l h

/-- The fold of `maxWeight` ends at its start value or at a weight it ran
over. -/
theorem maxWeight_attained (m : ℚ) (rows : List ChainLine) :
    maxWeight m rows = m ∨ ∃ l ∈ rows, maxWeight m rows = l.prob := by
  induction rows generalizing m with
  | nil => exact Or.inl rfl
  | cons r rs ih =>
    simp only [maxWeight, List.foldl_cons]
    rcases ih (max m r.prob) with h | ⟨l, hl, h⟩
    · rcases max_choice m r.prob with hm | hm
      · left
        exact h.trans hm
      · right
        exact ⟨r, List.mem_cons_self _ _, h.trans hm⟩
    · right
      exact ⟨l, List.mem_cons_of_mem _ hl, h⟩

/-- The fold of `minLogLike` is at most its start value. -/
theorem minLogLike_le (m : ℚ) (rows : List ChainLine) : minLogLike m rows ≤ m := by
  induction rows generalizing m with
  | nil => exact le_refl m
  | cons l ls ih =>
    simp only [minLogLike, List.foldl_cons]
    exact le_trans (ih (min m l.like)) (min_le_left m l.like)

/-- The fold of `minLogLike` is at most every log-likelihood it runs over. -/
theorem minLogLike_le_like (m : ℚ) (rows : List ChainLine) :
    ∀ l ∈ rows, minLogLike m rows ≤ l.like := by
  induction rows generalizing m with
  | nil => intro l hl; cases hl
  | cons r rs ih =>
    intro l hl
    simp only [minLogLike, List.foldl_cons]
    rcases List.mem_cons.mp hl with h | h
    · subst h
      exact le_trans (minLogLike_le _ rs) (min_le_right m l.like)
    · exact ih (min m r.like) l h

/-- The fold of `minLogLike` ends at its start value or at a log-likelihood it
ran over. -/
theorem minLogLike_attained (m : ℚ) (rows : List ChainLine) :
    minLogLike m rows = m ∨ ∃ l ∈ rows, minLogLike m rows = l.like := by
  induction rows generalizing m with
  | nil => exact Or.inl rfl
  | cons r rs ih =>
    simp only [minLogLike, List.foldl_cons]
    rcases ih (min m r.like) with h | ⟨l, hl, h⟩
    · rcases min_choice m r.like with hm | hm
      · left
        exact h.trans hm
      · right
        exact ⟨r, List.mem_cons_self _ _, h.trans hm⟩
    · right
      exact ⟨l, List.mem_cons_of_mem _ hl, h⟩

/-- A read that returns found every row with the parameter count of the first
row. -/
theorem readFile_ok_inv (mc : MarkovChain) (lines : ChainFile) (burnin thin : Nat)
    (bc c : List Element) (m : ℚ)
    (h : (mc.readFile (some lines) burnin thin bc).2 = Except.ok (c, m)) :
    0 < thin ∧ SameParamCount (rowsOf lines) := by
  rcases Nat.eq_zero_or_pos thin with h0 | ht
  · subst h0
    rw [readFile_thin_zero] at h
    simp at h
  · refine ⟨ht, ?_⟩
    by_contra hn
    rw [readFile_malformed mc lines burnin thin bc ht hn] at h
    simp at h

/-- The loop of `getRange` only appends to the container. -/
theorem getRangeLoop_container (pUpper pLower : ℚ) (l : List Element) :
    ∀ (total : ℚ) (container : List Element),
      getRangeLoop pUpper pLower l total container
        = container ++ getRangeLoop pUpper pLower l total [] := by
  induction l with
  | nil =>
    intro total container
    simp [getRangeLoop]
  | cons e rest ih =>
    intro total container
    unfold getRangeLoop
    by_cases ht : total ≤ pUpper
    · rw [if_pos ht, if_pos ht, ih (total + e.prob) (if total + e.prob > pLower then
        container ++ [e] else container), ih (total + e.prob) (if total + e.prob > pLower then
        [] ++ [e] else [])]
      by_cases hc : total + e.prob > pLower
      · rw [if_pos hc, if_pos hc]
        simp
      · rw [if_neg hc, if_neg hc]
        simp
    · rw [if_neg ht, if_neg ht]
      simp

/-- Once the running total is above `pLower`, the loop of `getRange` on
non-negative weights collects every sample it visits: a prefix of what
remains. -/
theorem getRangeLoop_above (pUpper pLower : ℚ) (l : List Element) :
    ∀ (total : ℚ), (∀ e ∈ l, 0 ≤ e.prob) → pLower < total →
      getRangeLoop pUpper pLower l total [] <+: l := by
  induction l with
  | nil =>
    intro total _ _
    simp [getRangeLoop]
  | cons e rest ih =>
    intro total hnn hlt
    have he : 0 ≤ e.prob := hnn e (List.mem_cons_self _ _)
    have hrest : ∀ x ∈ rest, 0 ≤ x.prob := fun x hx => hnn x (List.mem_cons_of_mem _ hx)
    have hc : total + e.prob > pLower := by linarith
    unfold getRangeLoop
    by_cases ht : total ≤ pUpper
    · rw [if_pos ht, if_pos hc, getRangeLoop_container]
      simp only [List.nil_append, List.singleton_append]
      exact (List.prefix_cons_inj e).mpr (ih (total + e.prob) hrest hc)
    · rw [if_neg ht]
      exact List.nil_prefix

/-- The loop of `getRange` on non-negative weights collects a contiguous run
of what remains. -/
theorem getRangeLoop_infix (pUpper pLower : ℚ) (l : List Element) :
    ∀ (total : ℚ), (∀ e ∈ l, 0 ≤ e.prob) →
      getRangeLoop pUpper pLower l total [] <:+: l := by
  induction l with
  | nil =>
    intro total _
    simp [getRangeLoop]
  | cons e rest ih =>
    intro total hnn
    have hrest : ∀ x ∈ rest, 0 ≤ x.prob := fun x hx => hnn x (List.mem_cons_of_mem _ hx)
    by_cases ht : total ≤ pUpper
    · by_cases hc : total + e.prob > pLower
      · have hp : getRangeLoop pUpper pLower (e :: rest) total [] <+: e :: rest := by
          unfold getRangeLoop
          rw [if_pos ht, if_pos hc, getRangeLoop_container]
          simp only [List.nil_append, List.singleton_append]
          exact (List.prefix_cons_inj e).mpr
            (getRangeLoop_above pUpper pLower rest (total + e.prob) hrest hc)
        exact hp.isInfix
      · have hq : getRangeLoop pUpper pLower (e :: rest) total []
            = getRangeLoop pUpper pLower rest (total + e.prob) [] := by
          rw [getRangeLoop, if_pos ht, if_neg hc]
        rw [hq]
        exact List.infix_cons (ih (total + e.prob) hrest)
    · have hq : getRangeLoop pUpper pLower (e :: rest) total [] = [] := by
        rw [getRangeLoop, if_neg ht]
      rw [hq]
      exact List.nil_infix

/-- On samples of weight zero the running total stays where it is, so a total
that does not exceed `pLower` collects nothing. -/
theorem getRangeLoop_zero_weights (pUpper pLower : ℚ) (l : List Element) :
    ∀ (total : ℚ), (∀ e ∈ l, e.prob = 0) → total ≤ pLower →
      getRangeLoop pUpper pLower l total [] = [] := by
  induction l with
  | nil =>
    intro total _ _
    simp [getRangeLoop]
  | cons e rest ih =>
    intro total hz hle
    have he : e.prob = 0 := hz e (List.mem_cons_self _ _)
    have hrest : ∀ x ∈ rest, x.prob = 0 := fun x hx => hz x (List.mem_cons_of_mem _ hx)
    have hc : ¬ total + e.prob > pLower := by rw [he]; linarith
    unfold getRangeLoop
    by_cases ht : total ≤ pUpper
    · rw [if_pos ht, if_neg hc]
      exact ih (total + e.prob) hrest (by rw [he]; linarith)
    · rw [if_neg ht]

/-- In a store in descending order of weight no sample outweighs the first. -/
theorem descending_head (e : Element) (rest : List Element)
    (hd : DescendingWeight (e :: rest)) : ∀ x ∈ rest, x.prob ≤ e.prob := by
  have hp : List.Pairwise (fun a b : Element => a.prob ≥ b.prob) (e :: rest) := by
    unfold DescendingWeight at hd
    have htr : ∀ a b c : Element, a.prob ≥ b.prob → b.prob ≥ c.prob → a.prob ≥ c.prob :=
      fun a b c hab hbc => le_trans hbc hab
    haveI : IsTrans Element (fun a b : Element => a.prob ≥ b.prob) := ⟨htr⟩
    exact List.chain'_iff_pairwise.mp hd
  intro x hx
  exact (List.pairwise_cons.mp hp).1 x hx

/-- With the lower bound 0, on a store of non-negative weights in descending
order, the loop of `getRange` from the total 0 collects a prefix. -/
theorem getRangeLoop_descending_prefix (pUpper : ℚ) (l : List Element)
    (hnn : ∀ e ∈ l, 0 ≤ e.prob) (hd : DescendingWeight l) :
    getRangeLoop pUpper 0 l 0 [] <+: l := by
  cases l with
  | nil => simp [getRangeLoop]
  | cons e rest =>
    have he : 0 ≤ e.prob := hnn e (List.mem_cons_self _ _)
    have hrest : ∀ x ∈ rest, 0 ≤ x.prob := fun x hx => hnn x (List.mem_cons_of_mem _ hx)
    rcases lt_or_eq_of_le he with hpos | hzero
    · by_cases ht : (0 : ℚ) ≤ pUpper
      · have hc : (0 : ℚ) + e.prob > 0 := by linarith
        unfold getRangeLoop
        rw [if_pos ht, if_pos hc, getRangeLoop_container]
        simp only [List.nil_append, List.singleton_append]
        exact (List.prefix_cons_inj e).mpr
          (getRangeLoop_above pUpper 0 rest (0 + e.prob) hrest hc)
      · unfold getRangeLoop
        rw [if_neg ht]
        exact List.nil_prefix
    · have hall : ∀ x ∈ e :: rest, x.prob = 0 := by
        intro x hx
        rcases List.mem_cons.mp hx with h | h
        · rw [h]; exact hzero.symm
        · have h1 := descending_head e rest hd x h
          have h2 := hrest x h
          rw [← hzero] at h1
          exact le_antisymm h1 h2
      rw [getRangeLoop_zero_weights pUpper 0 (e :: rest) 0 hall (le_refl 0)]
      exact List.nil_prefix

/-- A larger `pUpper` lets the loop of `getRange` go on for longer and changes
nothing else. -/
theorem getRangeLoop_mono (pUpper1 pUpper2 pLower : ℚ) (h : pUpper1 ≤ pUpper2)
    (l : List Element) :
    ∀ (total : ℚ),
      getRangeLoop pUpper1 pLower l total [] <+: getRangeLoop pUpper2 pLower l total [] := by
  induction l with
  | nil =>
    intro total
    simp [getRangeLoop]
  | cons e rest ih =>
    intro total
    by_cases ht : total ≤ pUpper1
    · have ht2 : total ≤ pUpper2 := le_trans ht h
      have h1 : getRangeLoop pUpper1 pLower (e :: rest) total []
          = (if total + e.prob > pLower then [e] else [])
              ++ getRangeLoop pUpper1 pLower rest (total + e.prob) [] := by
        rw [getRangeLoop, if_pos ht, getRangeLoop_container]
        simp
      have h2 : getRangeLoop pUpper2 pLower (e :: rest) total []
          = (if total + e.prob > pLower then [e] else [])
              ++ getRangeLoop pUpper2 pLower rest (total + e.prob) [] := by
        rw [getRangeLoop, if_pos ht2, getRangeLoop_container]
        simp
      rw [h1, h2]
      exact (List.prefix_append_right_inj _).mpr (ih (total + e.prob))
    · have h1 : getRangeLoop pUpper1 pLower (e :: rest) total [] = [] := by
        rw [getRangeLoop, if_neg ht]
      rw [h1]
      exact List.nil_prefix

/-- On points that are not below `min_`, with a positive bin width, neither
assertion of the histogram loop fails. -/
theorem histogramLoop_pass (min_ d : ℚ) (resolution : Int) (hd : 0 < d) (points : List ℚ) :
    ∀ (probs errVars : List ℚ) (h : Histogram), (∀ pt ∈ points, min_ ≤ pt) →
      (histogramLoop min_ d resolution points probs errVars h).2 = none := by
  induction points with
  | nil =>
    intro probs errVars h _
    rfl
  | cons pt points ih =>
    intro probs errVars h hb
    have hpt : min_ ≤ pt := hb pt (List.mem_cons_self _ _)
    have hq0 : 0 ≤ (pt - min_) / d := div_nonneg (by linarith) (le_of_lt hd)
    have hfl0 : 0 ≤ ⌊(pt - min_) / d⌋ := Int.floor_nonneg.mpr hq0
    have c1 : checkKind Error.invalidState (decide (pt ≥ min_)) = none := by
      simp [checkKind, hpt]
    have c2 : checkKind Error.invalidState (decide (⌊(pt - min_) / d⌋ ≥ 0)) = none := by
      simp [checkKind, hfl0]
    unfold histogramLoop
    rw [c1]
    simp only
    rw [c2]
    exact ih _ _ _ (fun x hx => hb x (List.mem_cons_of_mem _ hx))

theorem clampIndex_range (i n : Nat) (hn : 0 < n) :
    1 ≤ clampIndex i n ∧ clampIndex i n ≤ n := by
  unfold clampIndex
  split_ifs <;> omega

theorem clampIndex_interior (i n : Nat) (h1 : 1 ≤ i) (h2 : i ≤ n) : clampIndex i n = i := by
  unfold clampIndex
  split_ifs <;> omega

/-- The two statements `l[0] = l[1]; l[n + 1] = l[n]` on a vector of `n + 2`
entries, `n >= 1`: every entry becomes the entry at the clamped index. -/
theorem set_edges_getD {α : Type} (dflt : α) (l : List α) (n : Nat) (hn : 0 < n)
    (hl : l.length = n + 2) :
    ((l.set 0 (l.getD 1 dflt)).set (n + 1) ((l.set 0 (l.getD 1 dflt)).getD n dflt)).length
        = n + 2
    ∧ ∀ i ≤ n + 1,
        ((l.set 0 (l.getD 1 dflt)).set (n + 1) ((l.set 0 (l.getD 1 dflt)).getD n dflt)).getD i
            dflt = l.getD (clampIndex i n) dflt := by
  have h0 : 0 < l.length := by omega
  have h1 : n + 1 < l.length := by omega
  have hne : n ≠ 0 := by omega
  have hne3 : ¬ 0 = n := by omega
  refine ⟨by simp [hl], ?_⟩
  intro i hi
  by_cases hi0 : i = 0
  · subst hi0
    have hc : clampIndex 0 n = 1 := by unfold clampIndex; simp
    rw [hc]
    simp [List.getD_eq_getElem?_getD, List.getElem?_set, h0]
  · by_cases hin : i = n + 1
    · subst hin
      have hc : clampIndex (n + 1) n = n := by unfold clampIndex; simp
      rw [hc]
      simp [List.getD_eq_getElem?_getD, List.getElem?_set, h1, hne, hne3, hl]
    · have hc : clampIndex i n = i := clampIndex_interior i n (by omega) (by omega)
      rw [hc]
      have hne4 : ¬ n + 1 = i := fun h => hin h.symm
      have hne5 : ¬ 0 = i := fun h => hi0 h.symm
      simp [List.getD_eq_getElem?_getD, List.getElem?_set, hne4, hne5]

/-- The entry of a mapped list, when the function maps the empty row to the
empty row. -/
theorem getD_map_rows (f : List ℚ → List ℚ) (hf : f [] = []) (y : List (List ℚ)) (i : Nat) :
    (y.map f).getD i [] = f (y.getD i []) := by
  rw [List.getD_eq_getElem?_getD, List.getD_eq_getElem?_getD, List.getElem?_map]
  cases y[i]? with
  | none => simp [hf]
  | some row => simp

/-- An entry of a list within its length is a member. -/
theorem getD_mem_rows (y : List (List ℚ)) (i : Nat) (hi : i < y.length) : y.getD i [] ∈ y := by
  rw [List.getD_eq_getElem?_getD, List.getElem?_eq_getElem hi]
  simp

/-- The two loops of `Posterior2D::generate` that smooth the edges, on a
histogram of `res1 + 2` rows of `res2 + 2` entries: the shape is kept, and
every cell `(i, j)` becomes the cell at the clamped indices. -/
theorem mirrorEdges_cells (res1 res2 : Nat) (h1 : 0 < res1) (h2 : 0 < res2)
    (y : List (List ℚ)) (hy : y.length = res1 + 2) (hrows : ∀ row ∈ y, row.length = res2 + 2) :
    (mirrorEdges res1 res2 y).length = res1 + 2
    ∧ (∀ i ≤ res1 + 1, ((mirrorEdges res1 res2 y).getD i []).length = res2 + 2)
    ∧ ∀ i ≤ res1 + 1, ∀ j ≤ res2 + 1,
        cell (mirrorEdges res1 res2 y) i j = cell y (clampIndex i res1) (clampIndex j res2) := by
  have hf0 : (fun row : List ℚ =>
      (row.set 0 (row.getD 1 0)).set (res2 + 1) ((row.set 0 (row.getD 1 0)).getD res2 0)) [] = [] := by
    simp
  have hrl : (y.map (fun row : List ℚ =>
      (row.set 0 (row.getD 1 0)).set (res2 + 1) ((row.set 0 (row.getD 1 0)).getD res2 0))).length
        = res1 + 2 := by
    rw [List.length_map, hy]
  obtain ⟨e1, e2⟩ := set_edges_getD ([] : List ℚ) _ res1 h1 hrl
  have hrow : ∀ i ≤ res1 + 1, (mirrorEdges res1 res2 y).getD i []
      = ((y.getD (clampIndex i res1) []).set 0 ((y.getD (clampIndex i res1) []).getD 1 0)).set
          (res2 + 1)
          (((y.getD (clampIndex i res1) []).set 0
            ((y.getD (clampIndex i res1) []).getD 1 0)).getD res2 0) := by
    intro i hi
    unfold mirrorEdges
    simp only
    rw [e2 i hi, getD_map_rows _ hf0]
  have hmem : ∀ i ≤ res1 + 1, (y.getD (clampIndex i res1) []).length = res2 + 2 := by
    intro i _
    apply hrows
    apply getD_mem_rows
    have := clampIndex_range i res1 h1
    omega
  refine ⟨?_, ?_, ?_⟩
  · unfold mirrorEdges
    simp only
    exact e1
  · intro i hi
    rw [hrow i hi]
    exact (set_edges_getD (0 : ℚ) _ res2 h2 (hmem i hi)).1
  · intro i hi j hj
    unfold cell
    rw [hrow i hi]
    exact (set_edges_getD (0 : ℚ) _ res2 h2 (hmem i hi)).2 j hj

/-- The statement `y[i][j] += w` changes the cell `(i, j)` only. -/
theorem addAt2_cell (y : List (List ℚ)) (i j a b : Nat) (w : ℚ) (hi : i < y.length)
    (hj : j < (y.getD i []).length) :
    cell (addAt2 y i j w) a b = if a = i ∧ b = j then cell y a b + w else cell y a b := by
  unfold cell addAt2
  by_cases ha : a = i
  · subst ha
    have hrow : (y.set a (addAt (y.getD a []) j w)).getD a [] = addAt (y.getD a []) j w := by
      simp [List.getD_eq_getElem?_getD, List.getElem?_set, hi]
    rw [hrow, addAt_getD _ _ _ _ hj]
    by_cases hb : b = j
    · rw [if_pos hb, if_pos ⟨rfl, hb⟩]
    · rw [if_neg hb, if_neg (fun h => hb h.2)]
  · have hrow : (y.set i (addAt (y.getD i []) j w)).getD a [] = y.getD a [] := by
      have h2 : i ≠ a := fun h => ha h.symm
      simp [List.getD_eq_getElem?_getD, List.getElem?_set, h2]
    rw [hrow, if_neg (fun h => ha h.1)]

theorem addAt2_length (y : List (List ℚ)) (i j : Nat) (w : ℚ) :
    (addAt2 y i j w).length = y.length := by
  unfold addAt2
  simp

/-- The statement `y[i][j] += w` keeps the length of every row. -/
theorem addAt2_rows (y : List (List ℚ)) (i j n : Nat) (w : ℚ) (hi : i < y.length)
    (hrows : ∀ row ∈ y, row.length = n) : ∀ row ∈ addAt2 y i j w, row.length = n := by
  intro row hrow
  unfold addAt2 at hrow
  rcases List.mem_or_eq_of_mem_set hrow with h | h
  · exact hrows row h
  · rw [h, addAt_length]
    exact hrows _ (getD_mem_rows y i hi)

/-- The statement `y[i][j] += w` adds `w` to the sum of all cells. -/
theorem addAt2_total (y : List (List ℚ)) (i j : Nat) (w : ℚ) (hi : i < y.length)
    (hj : j < (y.getD i []).length) :
    ((addAt2 y i j w).map List.sum).sum = (y.map List.sum).sum + w := by
  have hset : (addAt2 y i j w).map List.sum = addAt (y.map List.sum) i w := by
    unfold addAt2
    rw [List.map_set, addAt_sum _ _ j hj]
    unfold addAt
    congr 1
    rw [List.getD_eq_getElem?_getD, List.getD_eq_getElem?_getD, List.getElem?_map]
    cases y[i]? with
    | none => simp
    | some row => simp
  rw [hset, addAt_sum _ _ i (by rw [List.length_map]; exact hi)]

theorem boxWeight_cons (min1 max1 d1 : ℚ) (res1 : Nat) (min2 max2 d2 : ℚ) (res2 : Nat)
    (p1 p2 w : ℚ) (points1 points2 probs : List ℚ) (k1 k2 : Nat) :
    boxWeight min1 max1 d1 res1 min2 max2 d2 res2 (p1 :: points1) (p2 :: points2) (w :: probs)
        k1 k2
      = (if (inBin min1 max1 d1 res1 k1 p1 && inBin min2 max2 d2 res2 k2 p2) = true then w
          else 0)
        + boxWeight min1 max1 d1 res1 min2 max2 d2 res2 points1 points2 probs k1 k2 := by
  unfold boxWeight
  simp only [List.zip_cons_cons, List.filter_cons]
  split
  · simp
  · simp

/-- The bin index of the histogram loops, in terms of `inBin`. -/
theorem bin_index_inBin (min_ max_ d pt : ℚ) (res k : Nat) (hd : 0 < d)
    (hmax : max_ = min_ + (res : ℚ) * d) (h1 : min_ ≤ pt) (h2 : pt ≤ max_) (hk : k < res) :
    ((if ⌊(pt - min_) / d⌋ ≥ (res : Int) then (res : Int) - 1 else ⌊(pt - min_) / d⌋) + 1).toNat
        = k + 1
      ↔ inBin min_ max_ d res k pt = true := by
  rw [bin_index_iff min_ max_ d pt res k hd hmax h1 h2 hk]
  unfold inBin
  simp

/-- When the histogram loop of `Posterior2D::generate` ends without an error
on points that do not exceed `max1 = min1 + res1 * d1` and
`max2 = min2 + res2 * d2`, the histogram keeps its shape, the sum of its cells
has grown by the sum of the weights, every boundary cell is as it was, and
every interior cell has grown by the weight of the samples in its box. -/
theorem histogram2DLoop_cells (min1 max1 d1 min2 max2 d2 : ℚ) (res1 res2 : Nat)
    (hd1 : 0 < d1) (hd2 : 0 < d2) (hmax1 : max1 = min1 + (res1 : ℚ) * d1)
    (hmax2 : max2 = min2 + (res2 : ℚ) * d2) (hres1 : 0 < res1) (hres2 : 0 < res2)
    (points1 : List ℚ) :
    ∀ (points2 probs : List ℚ) (y y1 : List (List ℚ)),
      points2.length = points1.length → probs.length = points1.length →
      (∀ pt ∈ points1, pt ≤ max1) → (∀ pt ∈ points2, pt ≤ max2) →
      y.length = res1 + 2 → (∀ row ∈ y, row.length = res2 + 2) →
      histogram2DLoop min1 min2 d1 d2 (res1 : Int) (res2 : Int) points1 points2 probs y
        = some (y1, none) →
      y1.length = res1 + 2
      ∧ (∀ row ∈ y1, row.length = res2 + 2)
      ∧ (y1.map List.sum).sum = (y.map List.sum).sum + probs.sum
      ∧ (∀ i j, (i = 0 ∨ i = res1 + 1 ∨ j = 0 ∨ j = res2 + 1) → cell y1 i j = cell y i j)
      ∧ ∀ k1 < res1, ∀ k2 < res2, cell y1 (k1 + 1) (k2 + 1)
          = cell y (k1 + 1) (k2 + 1)
            + boxWeight min1 max1 d1 res1 min2 max2 d2 res2 points1 points2 probs k1 k2 := by
  induction points1 with
  | nil =>
    intro points2 probs y y1 hl2 hlp _ _ hy hrows hr
    have e2 : points2 = [] := List.length_eq_zero.mp hl2
    have ep : probs = [] := List.length_eq_zero.mp hlp
    subst e2 ep
    simp only [histogram2DLoop, Option.some.injEq, Prod.mk.injEq, and_true] at hr
    subst hr
    refine ⟨hy, hrows, by simp, fun _ _ _ => rfl, ?_⟩
    intro k1 _ k2 _
    simp [boxWeight]
  | cons p1 points1 ih =>
    intro points2 probs y y1 hl2 hlp hle1 hle2 hy hrows hr
    cases points2 with
    | nil => simp at hl2
    | cons p2 ps2 =>
    cases probs with
    | nil => simp at hlp
    | cons w ws =>
      have fq1 : floorQuotient (p1 - min1) d1 = some ⌊(p1 - min1) / d1⌋ := by
        simp [floorQuotient, ne_of_gt hd1]
      have fq2 : floorQuotient (p2 - min2) d2 = some ⌊(p2 - min2) / d2⌋ := by
        simp [floorQuotient, ne_of_gt hd2]
      unfold histogram2DLoop at hr
      simp only [List.headD_cons, List.tail_cons, fq1, fq2] at hr
      split at hr
      · simp at hr
      · rename_i hc1
        split at hr
        · simp at hr
        · rename_i hc2
          split at hr
          · simp at hr
          · rename_i hc3
            split at hr
            · simp at hr
            · rename_i hc4
              have hmin1 : min1 ≤ p1 := by
                simp only [checkKind, ite_eq_left_iff, decide_eq_true_eq, reduceCtorEq, imp_false,
                  not_not, ge_iff_le] at hc1
                exact hc1
              have hmin2 : min2 ≤ p2 := by
                simp only [checkKind, ite_eq_left_iff, decide_eq_true_eq, reduceCtorEq, imp_false,
                  not_not, ge_iff_le] at hc2
                exact hc2
              have hk1 : 0 ≤ ⌊(p1 - min1) / d1⌋ := by
                simp only [checkKind, ite_eq_left_iff, decide_eq_true_eq, reduceCtorEq, imp_false,
                  not_not, ge_iff_le] at hc3
                exact hc3
              have hk2 : 0 ≤ ⌊(p2 - min2) / d2⌋ := by
                simp only [checkKind, ite_eq_left_iff, decide_eq_true_eq, reduceCtorEq, imp_false,
                  not_not, ge_iff_le] at hc4
                exact hc4
              have hp1max : p1 ≤ max1 := hle1 p1 (List.mem_cons_self _ _)
              have hp2max : p2 ≤ max2 := hle2 p2 (List.mem_cons_self _ _)
              have hiff1 := fun k hk =>
                bin_index_inBin min1 max1 d1 p1 res1 k hd1 hmax1 hmin1 hp1max hk
              have hiff2 := fun k hk =>
                bin_index_inBin min2 max2 d2 p2 res2 k hd2 hmax2 hmin2 hp2max hk
              have hI : 1 ≤ ((if ⌊(p1 - min1) / d1⌋ ≥ (res1 : Int) then (res1 : Int) - 1
                    else ⌊(p1 - min1) / d1⌋) + 1).toNat
                  ∧ ((if ⌊(p1 - min1) / d1⌋ ≥ (res1 : Int) then (res1 : Int) - 1
                    else ⌊(p1 - min1) / d1⌋) + 1).toNat ≤ res1 := by
                split_ifs <;> omega
              have hJ : 1 ≤ ((if ⌊(p2 - min2) / d2⌋ ≥ (res2 : Int) then (res2 : Int) - 1
                    else ⌊(p2 - min2) / d2⌋) + 1).toNat
                  ∧ ((if ⌊(p2 - min2) / d2⌋ ≥ (res2 : Int) then (res2 : Int) - 1
                    else ⌊(p2 - min2) / d2⌋) + 1).toNat ≤ res2 := by
                split_ifs <;> omega
              generalize ((if ⌊(p1 - min1) / d1⌋ ≥ (res1 : Int) then (res1 : Int) - 1
                    else ⌊(p1 - min1) / d1⌋) + 1).toNat = I at hr hiff1 hI
              generalize ((if ⌊(p2 - min2) / d2⌋ ≥ (res2 : Int) then (res2 : Int) - 1
                    else ⌊(p2 - min2) / d2⌋) + 1).toNat = J at hr hiff2 hJ
              have hIl : I < y.length := by rw [hy]; omega
              have hJl : J < (y.getD I []).length := by
                rw [hrows _ (getD_mem_rows y I hIl)]
                omega
              obtain ⟨a1, a2, a3, a4, a5⟩ := ih ps2 ws (addAt2 y I J w) y1
                (by simpa using hl2) (by simpa using hlp)
                (fun x hx => hle1 x (List.mem_cons_of_mem _ hx))
                (fun x hx => hle2 x (List.mem_cons_of_mem _ hx))
                (by rw [addAt2_length, hy]) (addAt2_rows y I J _ w hIl hrows) hr
              refine ⟨a1, a2, ?_, ?_, ?_⟩
              · rw [a3, addAt2_total y I J w hIl hJl, List.sum_cons]
                ring
              · intro i j hij
                rw [a4 i j hij, addAt2_cell y I J i j w hIl hJl, if_neg]
                rintro ⟨h1, h2⟩
                omega
              · intro k1 hk1l k2 hk2l
                rw [a5 k1 hk1l k2 hk2l, addAt2_cell y I J _ _ w hIl hJl, boxWeight_cons]
                have e1 := hiff1 k1 hk1l
                have e2 := hiff2 k2 hk2l
                by_cases hb : (inBin min1 max1 d1 res1 k1 p1 && inBin min2 max2 d2 res2 k2 p2)
                    = true
                · have hb2 := hb
                  rw [Bool.and_eq_true] at hb2
                  have i1 : k1 + 1 = I := (e1.mpr hb2.1).symm
                  have i2 : k2 + 1 = J := (e2.mpr hb2.2).symm
                  rw [if_pos ⟨i1, i2⟩, if_pos hb]
                  ring
                · have hn : ¬ (k1 + 1 = I ∧ k2 + 1 = J) := by
                    rintro ⟨i1, i2⟩
                    apply hb
                    rw [Bool.and_eq_true]
                    exact ⟨e1.mp i1.symm, e2.mp i2.symm⟩
                  rw [if_neg hn, if_neg hb]
                  ring

/-- The sum of the sums of the rows, over the indices of the rows. -/
theorem total_eq_sum_rows (y : List (List ℚ)) :
    (y.map List.sum).sum = ((List.range y.length).map (fun i => (y.getD i []).sum)).sum := by
  rw [sum_eq_sum_getD (y.map List.sum), List.length_map]
  congr 1
  apply List.map_congr_left
  intro i _
  rw [List.getD_eq_getElem?_getD, List.getD_eq_getElem?_getD, List.getElem?_map]
  cases y[i]? with
  | none => simp
  | some row => simp

/-- In a histogram of `res1 + 2` rows of `res2 + 2` entries whose boundary
cells are all 0, the interior cells sum to the sum of all cells. -/
theorem interior_total (y : List (List ℚ)) (res1 res2 : Nat) (hy : y.length = res1 + 2)
    (hrows : ∀ row ∈ y, row.length = res2 + 2)
    (hbd : ∀ i j, (i = 0 ∨ i = res1 + 1 ∨ j = 0 ∨ j = res2 + 1) → cell y i j = 0) :
    ((List.range res1).map (fun k1 =>
        ((List.range res2).map (fun k2 => cell y (k1 + 1) (k2 + 1))).sum)).sum
      = (y.map List.sum).sum := by
  have hrowlen : ∀ i < res1 + 2, (y.getD i []).length = res2 + 2 := by
    intro i hi
    exact hrows _ (getD_mem_rows y i (by rw [hy]; exact hi))
  have hedge : ∀ i, (i = 0 ∨ i = res1 + 1) → (y.getD i []).sum = 0 := by
    intro i hi
    have hl : (y.getD i []).length = res2 + 2 := hrowlen i (by omega)
    rw [sum_eq_sum_getD, hl]
    apply List.sum_eq_zero
    intro x hx
    rw [List.mem_map] at hx
    obtain ⟨j, _, rfl⟩ := hx
    exact hbd i j (by omega)
  have hinner : ∀ k1 < res1,
      ((List.range res2).map (fun k2 => cell y (k1 + 1) (k2 + 1))).sum
        = (y.getD (k1 + 1) []).sum := by
    intro k1 hk1
    have hl : (y.getD (k1 + 1) []).length = res2 + 2 := hrowlen (k1 + 1) (by omega)
    have h0 : (y.getD (k1 + 1) []).getD 0 0 = 0 := hbd (k1 + 1) 0 (by omega)
    have h1 : (y.getD (k1 + 1) []).getD (res2 + 1) 0 = 0 := hbd (k1 + 1) (res2 + 1) (by omega)
    have := interior_sum (y.getD (k1 + 1) []) res2 hl
    rw [h0, h1] at this
    unfold cell
    rw [this]
    ring
  have hl2 : (y.map List.sum).length = res1 + 2 := by rw [List.length_map, hy]
  have hg : ∀ i, (y.map List.sum).getD i 0 = (y.getD i []).sum := by
    intro i
    rw [List.getD_eq_getElem?_getD, List.getD_eq_getElem?_getD, List.getElem?_map]
    cases y[i]? with
    | none => simp
    | some row => simp
  have hsum := interior_sum (y.map List.sum) res1 hl2
  rw [hg 0, hg (res1 + 1), hedge 0 (Or.inl rfl), hedge (res1 + 1) (Or.inr rfl)] at hsum
  have hrw : (List.range res1).map (fun k1 =>
        ((List.range res2).map (fun k2 => cell y (k1 + 1) (k2 + 1))).sum)
      = (List.range res1).map (fun k => (y.map List.sum).getD (k + 1) 0) := by
    apply List.map_congr_left
    intro k hk
    rw [hinner k (List.mem_range.mp hk), hg]
  rw [hrw, hsum]
  ring

/-- The histogram of zeros that `Posterior2D::generate` starts from. -/
theorem zero_histogram (res1 res2 : Nat) :
    (List.replicate (res1 + 2) (List.replicate (res2 + 2) (0 : ℚ))).length = res1 + 2
    ∧ (∀ row ∈ List.replicate (res1 + 2) (List.replicate (res2 + 2) (0 : ℚ)),
        row.length = res2 + 2)
    ∧ ((List.replicate (res1 + 2) (List.replicate (res2 + 2) (0 : ℚ))).map List.sum).sum = 0
    ∧ ∀ i j, cell (List.replicate (res1 + 2) (List.replicate (res2 + 2) (0 : ℚ))) i j = 0 := by
  refine ⟨by simp, ?_, ?_, ?_⟩
  · intro row hrow
    rw [List.eq_of_mem_replicate hrow]
    simp
  · apply List.sum_eq_zero
    intro x hx
    rw [List.mem_map] at hx
    obtain ⟨row, hrow, rfl⟩ := hx
    rw [List.eq_of_mem_replicate hrow]
    simp
  · intro i j
    unfold cell
    rw [List.getD_eq_getElem?_getD, List.getD_eq_getElem?_getD]
    by_cases hi : i < res1 + 2
    · rw [List.getElem?_replicate, if_pos hi]
      simp only [Option.getD_some]
      by_cases hj : j < res2 + 2
      · rw [List.getElem?_replicate, if_pos hj]
        rfl
      · rw [List.getElem?_replicate, if_neg hj]
        rfl
    · rw [List.getElem?_replicate, if_neg hi]
      rfl

/-- A run of the histogram loop of `Posterior2D::generate` that gets through
its first point found both bin widths other than 0 and the point not below the
lower bounds. -/
theorem histogram2DLoop_first (min1 min2 d1 d2 : ℚ) (res1 res2 : Int) (p1 p2 : ℚ)
    (points1 points2 probs : List ℚ) (y y1 : List (List ℚ))
    (h : histogram2DLoop min1 min2 d1 d2 res1 res2 (p1 :: points1) (p2 :: points2) probs y
      = some (y1, none)) :
    d1 ≠ 0 ∧ d2 ≠ 0 ∧ min1 ≤ p1 ∧ min2 ≤ p2 := by
  unfold histogram2DLoop at h
  simp only [List.headD_cons] at h
  split at h
  · simp at h
  · rename_i hc1
    split at h
    · simp at h
    · rename_i hc2
      simp only [checkKind, ite_eq_left_iff, decide_eq_true_eq, reduceCtorEq, imp_false,
        not_not, ge_iff_le] at hc1 hc2
      refine ⟨?_, ?_, hc1, hc2⟩
      · intro hd
        simp [floorQuotient, hd] at h
      · intro hd
        by_cases hd1 : d1 = 0
        · simp [floorQuotient, hd1] at h
        · simp [floorQuotient, hd, hd1] at h

/-- What `Posterior2D::generate` has computed when it reaches the fit. -/
theorem prepare2D_ok_inv (lib : Numerics) (p : Posterior2D) (scale1 scale2 : ℚ)
    (b : Binning2D) (r : Prepared2D) (hb : p.binning lib scale1 scale2 = Except.ok b)
    (h : p.prepare lib scale1 scale2 = some (Except.ok r)) :
    ∃ y : List (List ℚ),
      histogram2DLoop p.min1_ p.min2_ b.d1 b.d2 b.res1 b.res2 p.points1_ p.points2_ p.probs_
          (List.replicate (b.res1.toNat + 2) (List.replicate (b.res2.toNat + 2) 0))
        = some (y, none)
      ∧ r.y = mirrorEdges b.res1.toNat b.res2.toNat y
      ∧ r.scale1 = b.scale1 ∧ r.scale2 = b.scale2 := by
  unfold Posterior2D.prepare at h
  rw [hb] at h
  simp only at h
  split at h
  · simp at h
  · simp at h
  · rename_i y hl
    simp only [Option.some.injEq, Except.ok.injEq] at h
    subst h
    exact ⟨y, hl, rfl, rfl, rfl⟩

/-- The interquartile range and the bin count depend on the numerical library
through `pow(n, -1/3)` only. -/
theorem binning_pow_congr (lib1 lib2 : Numerics) (points probs : List ℚ) (min_ max_ : ℚ)
    (h : lib1.pow ((stdSort LessPairFirst (points.zip probs)).length : ℚ) (-1 / 3)
      = lib2.pow ((stdSort LessPairFirst (points.zip probs)).length : ℚ) (-1 / 3)) :
    binning lib1 points probs min_ max_ = binning lib2 points probs min_ max_ := by
  unfold binning
  simp only [h]

/-- On eight points the bin count does not depend on the library once
`pow(8, -1/3)` is `1/2`. -/
theorem binning_exact_pow (lib : Numerics) (points probs : List ℚ) (min_ max_ : ℚ)
    (h8 : points.length = 8) (hlen : points.length = probs.length) :
    binning (withExactPow lib) points probs min_ max_
      = binning (exactAtEight 1) points probs min_ max_ := by
  apply binning_pow_congr
  have hl : (stdSort LessPairFirst (points.zip probs)).length = 8 := by
    rw [stdSort_length, List.length_zip, ← hlen, h8]
    rfl
  rw [hl]
  simp [withExactPow, exactAtEight]

/-- Every entry read from a vector of zeros is 0. -/
theorem getD_zero_of_zeros (l : List ℚ) (h : ∀ v ∈ l, v = 0) (i : Nat) : l.getD i 0 = 0 := by
  by_cases hi : i < l.length
  · rw [List.getD_eq_getElem?_getD, List.getElem?_eq_getElem hi]
    simp only [Option.getD_some]
    exact h _ (List.getElem_mem hi)
  · rw [List.getD_eq_getElem?_getD, List.getElem?_eq_none (not_lt.mp hi)]
    rfl

/-- With error variances that are all 0 the histogram loop leaves the
accumulated variances at 0. -/
theorem histogramLoop_vars_zero (min_ d : ℚ) (resolution : Int) (points : List ℚ) :
    ∀ (probs errVars : List ℚ) (h h1 : Histogram) (e : Option Error),
      (∀ v ∈ errVars, v = 0) → (∀ v ∈ h.vars, v = 0) →
      histogramLoop min_ d resolution points probs errVars h = (h1, e) →
      ∀ v ∈ h1.vars, v = 0 := by
  induction points with
  | nil =>
    intro probs errVars h h1 e _ hv hr
    simp only [histogramLoop, Prod.mk.injEq] at hr
    rw [← hr.1]
    exact hv
  | cons pt points ih =>
    intro probs errVars h h1 e he hv hr
    unfold histogramLoop at hr
    split at hr
    · simp only [Prod.mk.injEq] at hr
      rw [← hr.1]
      exact hv
    · simp only [] at hr
      split at hr
      · simp only [Prod.mk.injEq] at hr
        rw [← hr.1]
        exact hv
      · have hhead : errVars.headD 0 = 0 := by
          cases errVars with
          | nil => rfl
          | cons a t => exact he a (List.mem_cons_self _ _)
        have htail : ∀ v ∈ errVars.tail, v = 0 := fun v hv2 => he v (List.mem_of_mem_tail hv2)
        refine ih _ _ _ h1 e htail ?_ hr
        intro v hv2
        simp only [addAt, hhead, mul_zero, zero_div, add_zero] at hv2
        rcases List.mem_or_eq_of_mem_set hv2 with h3 | h3
        · exact hv v h3
        · rw [h3]
          exact getD_zero_of_zeros h.vars hv _

/-- On accumulated variances that are all 0 the loop over the bin errors does
not throw. -/
theorem varsLoop_zero_ok (lib : Numerics) (size : Nat) (totalP : ℚ) (vars : List ℚ) :
    ∀ (ys : List ℚ) (acc : List ℚ × ℚ), (∀ v ∈ vars, v = 0) →
      ∃ res : List ℚ × ℚ, varsLoop lib size totalP vars ys acc = Except.ok res := by
  induction vars with
  | nil =>
    intro ys acc _
    exact ⟨acc, rfl⟩
  | cons v vars ih =>
    intro ys acc hv
    have hv0 : v = 0 := hv v (List.mem_cons_self _ _)
    have hrest : ∀ x ∈ vars, x = 0 := fun x hx => hv x (List.mem_cons_of_mem _ hx)
    obtain ⟨done, varNorm⟩ := acc
    unfold varsLoop
    split
    · exact ih _ _ hrest
    · have c : checkKind Error.invalidState (decide (v = 0)) = none := by
        simp [checkKind, hv0]
      rw [c]
      exact ih _ _ hrest

/-- The part of `generate` up to the fit succeeds on a point set that passes
the entry checks and the check of the bin count, with a positive scale, points
that are not below `min_`, error variances that are all 0 and a total weight
that is not 0. -/
theorem prepare_succeeds (lib : Numerics) (p : Posterior1D) (method : SmoothingMethod)
    (scale : ℚ) (hsize : 2 ≤ p.points_.length) (hlen : p.points_.length = p.probs_.length)
    (hmm : p.min_ < p.max_) (hscale : 0 < scale)
    (hres : 0 < (binning lib p.points_ p.probs_ p.min_ p.max_).2)
    (hlow : ∀ pt ∈ p.points_, p.min_ ≤ pt) (hvar : ∀ v ∈ p.errVar_, v = 0)
    (hsum : p.probs_.sum ≠ 0) :
    ∃ (p2 : Posterior1D) (r : Prepared), p.prepare lib method scale = (p2, Except.ok r) := by
  have hresq : (0 : ℚ) < (((binning lib p.points_ p.probs_ p.min_ p.max_).2 : Int) : ℚ) := by
    exact_mod_cast hres
  have hd : 0 < (p.max_ - p.min_) / (((binning lib p.points_ p.probs_ p.min_ p.max_).2 : Int) : ℚ) :=
    div_pos (by linarith) hresq
  have c1 : checkKind Error.insufficientData (decide (p.points_.length ≥ 2)) = none := by
    simp [checkKind, hsize]
  have c2 : checkKind Error.invalidState (decide (p.points_.length = p.probs_.length)) = none := by
    simp [checkKind, hlen]
  have c3 : checkKind Error.insufficientData (decide (p.max_ > p.min_)) = none := by
    simp [checkKind, hmm]
  have c4 : check (decide (scale ≥ 0)) = none := by
    simp [check, le_of_lt hscale]
  have c6 : checkKind Error.invalidState
      (decide ((binning lib p.points_ p.probs_ p.min_ p.max_).2 > 0)) = none := by
    simp [checkKind, hres]
  unfold Posterior1D.prepare
  simp only [c1, c2, c3, c4, c6, if_neg (ne_of_gt hscale)]
  split
  · rename_i h e heq
    have hpass := histogramLoop_pass p.min_ _ (binning lib p.points_ p.probs_ p.min_ p.max_).2
      hd p.points_ p.probs_ p.errVar_
      { y := List.replicate ((binning lib p.points_ p.probs_ p.min_ p.max_).2.toNat + 2) 0,
        vars := List.replicate ((binning lib p.points_ p.probs_ p.min_ p.max_).2.toNat + 2) 0,
        mean := 0, totalP := 0 } hlow
    rw [heq] at hpass
    simp at hpass
  · rename_i h heq
    have hvz := histogramLoop_vars_zero _ _ _ _ _ _ _ _ _ hvar
      (by intro v hv; exact List.eq_of_mem_replicate hv) heq
    have htot := histogramLoop_totalP _ _ _ _ _ _ _ _ hlen.symm heq
    simp only [zero_add] at htot
    obtain ⟨res, hvl⟩ := varsLoop_zero_ok lib p.points_.length h.totalP h.vars h.y ([], 0) hvz
    split
    · rename_i e heq2
      rw [hvl] at heq2
      simp at heq2
    · have c7 : checkKind Error.insufficientData (decide (h.totalP ≠ 0)) = none := by
        rw [htot]
        simp [checkKind, hsum]
      simp only [c7]
      exact ⟨_, _, rfl⟩

/-- When the `int` product `100 * resolution` has wrapped to a negative number
the integration loop of `generate` has no iteration: on an object without a
surface, a `generate` that reaches the fit returns without an error, with the
normalization 0 and the table that holds the entry `0 -> 0` only. -/
theorem generate_of_negative_steps (lib : Numerics) (p : Posterior1D)
    (method : SmoothingMethod) (scale : ℚ) (p2 : Posterior1D) (r : Prepared)
    (hp : p.prepare lib method scale = (p2, Except.ok r)) (hs : p.smooth_ = none)
    (hneg : wrapInt (100 * r.resolution) < 0) :
    (p.generate lib method scale).2 = none
    ∧ (p.generate lib method scale).1.norm_ = 0
    ∧ (p.generate lib method scale).1.cumulInv_ = some [(0, 0)]
    ∧ (p.generate lib method scale).1.smooth_ = some (fittedSurface lib method r) := by
  have hf := prepare_frame lib p method scale
  rw [hp] at hf
  simp only at hf
  have hs2 : p2.smooth_ = none := by rw [hf.1, hs]
  have hrange : List.range (wrapInt (100 * r.resolution) + 1).toNat = [] := by
    have : (wrapInt (100 * r.resolution) + 1).toNat = 0 := by omega
    rw [this]
    rfl
  unfold Posterior1D.generate
  rw [hp]
  simp only [hs2, Option.isSome_none, hrange, integrateLoop]
  cases method <;> exact ⟨rfl, rfl, rfl, rfl⟩

/-! ## The claims -/

/-- C1: after every successful load (`addFile` on any chain, the single-file
constructor, the multi-file constructor) the store is ordered by descending
weight: of two consecutive samples the first has the larger or equal weight.
The order is the one of `Element::operator<`, which is modelled from the
specification (`Element.lt`). -/
theorem C1_store_sorted_after_load :
    (∀ (mc : MarkovChain) (file : Option ChainFile) (burnin thin : Nat),
        (mc.addFile file burnin thin).2 = none →
        List.Chain' (fun a b => a.prob ≥ b.prob) (mc.addFile file burnin thin).1.chain_)
    ∧ (∀ (file : Option ChainFile) (burnin thin : Nat)
        (errorLog : Option (Nat → Option ErrorFile)) (nError : Int) (mc : MarkovChain),
        MarkovChain.fromFile file burnin thin errorLog nError = Except.ok mc →
        List.Chain' (fun a b => a.prob ≥ b.prob) mc.chain_)
    ∧ (∀ (files : List (Option ChainFile)) (burnin thin : Nat)
        (errorLog : Option (Nat → Option ErrorFile)) (mc : MarkovChain),
        MarkovChain.fromChains files burnin thin errorLog = Except.ok mc →
        List.Chain' (fun a b => a.prob ≥ b.prob) mc.chain_) :=
  ⟨addFile_sorted, fromFile_sorted, fromChains_sorted⟩

/-- C1, at a concrete input: loading `threeRows` into an empty chain succeeds
and leaves the weights `3, 1` in this order. -/
theorem C1_store_sorted_after_load_witness :
    (MarkovChain.init.addFile (some threeRows) 0 1).2 = none
    ∧ (MarkovChain.init.addFile (some threeRows) 0 1).1.chain_.map Element.prob = [3, 1]
    ∧ List.Chain' (fun a b => a.prob ≥ b.prob)
        (MarkovChain.init.addFile (some threeRows) 0 1).1.chain_ :=
  ⟨by decide!, by decide!,
    C1_store_sorted_after_load.1 MarkovChain.init (some threeRows) 0 1 (by decide!)⟩

/-- C2: `filterChain` appends to the store exactly the candidates whose weight
is at least `minP`, in candidate order, and so drops exactly those with weight
below `minP`; `addFile` calls it with
`minP = maxP / bigChain.size() / 1000`, where `maxP` and `bigChain` are what
`readFile` returned. -/
theorem C2_filterChain_keeps_exactly :
    (∀ (mc : MarkovChain) (bigChain : List Element) (maxP : ℚ),
        (mc.filterChain bigChain (maxP / (bigChain.length : ℚ) / 1000)).chain_
          = mc.chain_ ++ bigChain.filter
              (fun e => decide (e.prob ≥ maxP / (bigChain.length : ℚ) / 1000)))
    ∧ (∀ (mc mc1 : MarkovChain) (file : Option ChainFile) (burnin thin : Nat)
        (bigChain : List Element) (maxP : ℚ),
        mc.readFile file burnin thin [] = (mc1, Except.ok (bigChain, maxP)) →
        (mc.addFile file burnin thin).1.chain_
          = stdSort lessMarkovChainElementPointer
              (mc.chain_ ++ bigChain.filter
                (fun e => decide (e.prob ≥ maxP / (bigChain.length : ℚ) / 1000)))) := by
  constructor
  · intro mc bigChain maxP
    simp only [MarkovChain.filterChain]
    exact filterLoop_eq _ _ _
  · intro mc mc1 file burnin thin bigChain maxP h
    rw [addFile_chain mc file burnin thin mc1 bigChain maxP h]
    have hf := (readFile_frame mc file burnin thin []).1
    rw [h] at hf
    simp only [MarkovChain.sortChain, MarkovChain.filterChain]
    rw [filterLoop_eq, hf]

/-- C2, at a concrete input: of the three candidates of `threeRows`, with
largest weight 3, the one of weight `1/10000 < 3/3/1000` is dropped. -/
theorem C2_filterChain_keeps_exactly_witness :
    (MarkovChain.init.addFile (some threeRows) 0 1).1.chain_
      = stdSort lessMarkovChainElementPointer
          ([] ++ [⟨1, 2, [3, 4], 0, 0⟩, ⟨1 / 10000, 5, [6, 7], 0, 0⟩, ⟨3, 1, [0, 0], 0, 0⟩].filter
            (fun e => decide (e.prob ≥ 3 / ((3 : Nat) : ℚ) / 1000))) :=
  C2_filterChain_keeps_exactly.2 MarkovChain.init
    { MarkovChain.init with nParams_ := 2, minLike_ := 1 } (some threeRows) 0 1
    [⟨1, 2, [3, 4], 0, 0⟩, ⟨1 / 10000, 5, [6, 7], 0, 0⟩, ⟨3, 1, [0, 0], 0, 0⟩] 3 (by decide!)

/-- C3 (the code departs from the claim): on the chain file of the single row
`0 1 2`, of weight zero, `readFile` collects the row as a candidate but
reports `maxP = std::numeric_limits<double>::min()`, which is positive, not the
largest weight read; the threshold `maxP / 1 / 1000` is then above the row's
weight and the load leaves the store empty. -/
theorem C3_zero_weight_row_dropped :
    (MarkovChain.init.readFile (some zeroWeightRow) 0 1 []).2
      = Except.ok ([⟨0, 1, [2], 0, 0⟩], DBL_MIN)
    ∧ (0 : ℚ) < DBL_MIN / ((1 : Nat) : ℚ) / 1000
    ∧ MarkovChain.fromFile (some zeroWeightRow) 0 1 none 0
      = Except.ok { chain_ := [], nParams_ := 1, minLike_ := 1, errors_ := [] } :=
  ⟨by decide!, by decide!, by decide!⟩

/-- C4: for every chain file that opens, every `burnin` and every
`thin >= 1`, the candidates `readFile` appends to `bigChain` are the samples of
exactly the rows whose zero-based index `i` satisfies `i >= burnin` and
`(i - burnin) mod thin = 0`, in file order: `readFile` returns them when the
rows have one parameter count, and returns nothing else when it returns. -/
theorem C4_candidates_by_index (mc : MarkovChain) (lines : ChainFile) (burnin thin : Nat)
    (bigChain : List Element) (ht : 1 ≤ thin) :
    (SameParamCount (rowsOf lines) →
      (mc.readFile (some lines) burnin thin bigChain).2
        = Except.ok
            (bigChain ++ ((rowsOf lines).enum.filter
                (fun p => decide (p.1 ≥ burnin ∧ (p.1 - burnin) % thin = 0))).map
                  (fun p => sampleOf mc.errors_ p.2),
             maxWeight DBL_MIN (rowsOf lines)))
    ∧ (∀ (candidates : List Element) (maxP : ℚ),
      (mc.readFile (some lines) burnin thin bigChain).2 = Except.ok (candidates, maxP) →
      candidates
        = bigChain ++ ((rowsOf lines).enum.filter
            (fun p => decide (p.1 ≥ burnin ∧ (p.1 - burnin) % thin = 0))).map
              (fun p => sampleOf mc.errors_ p.2)) := by
  have hok : SameParamCount (rowsOf lines) →
      (mc.readFile (some lines) burnin thin bigChain).2
        = Except.ok
            (bigChain ++ ((rowsOf lines).enum.filter
                (fun p => decide (p.1 ≥ burnin ∧ (p.1 - burnin) % thin = 0))).map
                  (fun p => sampleOf mc.errors_ p.2),
             maxWeight DBL_MIN (rowsOf lines)) := by
    intro h
    rw [readFile_ok mc lines burnin thin bigChain ht h, selectRows_zero, List.map_map]
    rfl
  refine ⟨hok, ?_⟩
  intro candidates maxP hr
  by_cases h : SameParamCount (rowsOf lines)
  · rw [hok h] at hr
    simp only [Except.ok.injEq, Prod.mk.injEq] at hr
    exact hr.1.symm
  · rw [readFile_malformed mc lines burnin thin bigChain ht h] at hr
    simp at hr

/-- C4, at a concrete input: of the five rows of `fiveRows`, with
`burnin = 1` and `thin = 2`, the rows of index 1 and 3 are collected. -/
theorem C4_candidates_by_index_witness :
    (MarkovChain.init.readFile (some fiveRows) 1 2 []).2
      = Except.ok ([⟨1, 11, [1], 0, 0⟩, ⟨1, 13, [3], 0, 0⟩], 1)
    ∧ (MarkovChain.init.readFile (some fiveRows) 1 2 []).2
      = Except.ok
          ([] ++ ((rowsOf fiveRows).enum.filter
              (fun p => decide (p.1 ≥ 1 ∧ (p.1 - 1) % 2 = 0))).map
                (fun p => sampleOf MarkovChain.init.errors_ p.2),
           maxWeight DBL_MIN (rowsOf fiveRows)) :=
  ⟨by decide!,
    (C4_candidates_by_index MarkovChain.init fiveRows 1 2 [] (by decide)).1 (by decide!)⟩

/-- C5 (the claim as stated fails): `threeRows` has three rows and is loaded
with `burnin = 0` and `thin = 1`, yet the store holds two samples: the row of
weight `1/10000` is below the threshold `3 / 3 / 1000` and is filtered out. -/
theorem C5_thin_one_drops_a_row :
    (rowsOf threeRows).length = 3
    ∧ MarkovChain.fromFile (some threeRows) 0 1 none 0
        = Except.ok { chain_ := [⟨3, 1, [0, 0], 0, 0⟩, ⟨1, 2, [3, 4], 0, 0⟩], nParams_ := 2,
                      minLike_ := 1, errors_ := [] }
    ∧ (MarkovChain.init.addFile (some threeRows) 0 1).1.chain_.length = 2 :=
  ⟨by decide!, by decide!, by decide!⟩

/-- C5, amended: with `burnin = 0` the number of candidates `readFile` collects
is determined by thinning alone (`thin = 1` collects every row, `thin = k >= 1`
on a chain of `10 * k` rows collects exactly 10), and the load adds all of them
to the store when no row is lighter than
`minWeight = maxWeight / candidateCount / 1000`. -/
theorem C5_rows_kept_by_thinning (mc : MarkovChain) (lines : ChainFile)
    (h : SameParamCount (rowsOf lines)) :
    (mc.readFile (some lines) 0 1 []).2
        = Except.ok ((rowsOf lines).map (sampleOf mc.errors_), maxWeight DBL_MIN (rowsOf lines))
    ∧ ((∀ l ∈ rowsOf lines,
          maxWeight DBL_MIN (rowsOf lines) / (((rowsOf lines).length : Nat) : ℚ) / 1000 ≤ l.prob) →
        (mc.addFile (some lines) 0 1).2 = none
          ∧ (mc.addFile (some lines) 0 1).1.chain_.length
              = mc.chain_.length + (rowsOf lines).length)
    ∧ (∀ k : Nat, 1 ≤ k → (rowsOf lines).length = 10 * k →
        (∃ candidates : List Element,
          (mc.readFile (some lines) 0 k []).2
              = Except.ok (candidates, maxWeight DBL_MIN (rowsOf lines))
            ∧ candidates.length = 10)
        ∧ ((∀ l ∈ rowsOf lines,
              maxWeight DBL_MIN (rowsOf lines) / ((10 : Nat) : ℚ) / 1000 ≤ l.prob) →
            (mc.addFile (some lines) 0 k).2 = none
              ∧ (mc.addFile (some lines) 0 k).1.chain_.length = mc.chain_.length + 10)) := by
  refine ⟨?_, ?_, ?_⟩
  · rw [readFile_ok mc lines 0 1 [] (by decide) h, selectRows_thin_one]
    rfl
  · intro hw
    have hk := addFile_keeps_all mc lines 0 1 (by decide) h
    rw [selectRows_thin_one] at hk
    exact hk hw
  · intro k hk hlen
    have hcount : (selectRows 0 k 0 (rowsOf lines)).length = 10 := by
      rw [selectRows_zero_length, hlen]
      exact length_filter_multiples k 10 hk
    refine ⟨⟨_, by rw [readFile_ok mc lines 0 k [] hk h], ?_⟩, ?_⟩
    · simp only [List.nil_append, List.length_map]
      exact hcount
    · intro hw
      have hall := addFile_keeps_all mc lines 0 k hk h
      rw [hcount] at hall
      exact hall hw

/-- C5 amended, at concrete inputs: the five equal-weight rows of `fiveRows`
are all kept with `thin = 1`, and of the twenty equal-weight rows of
`twentyRows` exactly ten are kept with `thin = 2`. -/
theorem C5_rows_kept_by_thinning_witness :
    ((MarkovChain.init.addFile (some fiveRows) 0 1).2 = none
      ∧ (MarkovChain.init.addFile (some fiveRows) 0 1).1.chain_.length
          = MarkovChain.init.chain_.length + (rowsOf fiveRows).length)
    ∧ ((MarkovChain.init.addFile (some twentyRows) 0 2).2 = none
      ∧ (MarkovChain.init.addFile (some twentyRows) 0 2).1.chain_.length
          = MarkovChain.init.chain_.length + 10) :=
  ⟨(C5_rows_kept_by_thinning MarkovChain.init fiveRows (by decide!)).2.1 (by decide!),
    ((C5_rows_kept_by_thinning MarkovChain.init twentyRows (by decide!)).2.2 2 (by decide)
      (by decide!)).2 (by decide!)⟩

/-- C6 (the code departs from the claim): the multi-chain constructor loads
`mixedChains`, a file of rows with one parameter and a file of rows with two,
without an error; `readFile` resets `nParams_` to `-1` at the start of each
file, so `nParams_` ends at 2 while the first sample of the store has one
parameter.  (Within one file the count is enforced, and the single-file
constructor keeps the invariant: `fromFile_param_count`.) -/
theorem C6_mixed_param_counts_load :
    MarkovChain.fromChains mixedChains 0 1 none
      = Except.ok { chain_ := [⟨1, 0, [5], 0, 0⟩, ⟨1, 0, [5, 6], 0, 0⟩], nParams_ := 2,
                    minLike_ := 0, errors_ := [] }
    ∧ ((⟨1, 0, [5], 0, 0⟩ : Element).params.length : Int) < 2 :=
  ⟨by decide!, by decide⟩

/-- C7: for every chain file that opens and every `thin >= 1`, `readFile`
fails with the malformed-input error exactly when some row of the file has a
number of parameters different from the first row's, whatever `burnin` and
`thin` are, hence also for a row that they would not keep. -/
theorem C7_malformed_iff_param_count_differs (mc : MarkovChain) (lines : ChainFile)
    (burnin thin : Nat) (bigChain : List Element) (ht : 1 ≤ thin) :
    (mc.readFile (some lines) burnin thin bigChain).2 = Except.error Error.malformedInput
      ↔ ∃ l0 ∈ (rowsOf lines).head?, ∃ l ∈ rowsOf lines, paramCount l ≠ paramCount l0 := by
  have hiff : (∃ l0 ∈ (rowsOf lines).head?, ∃ l ∈ rowsOf lines, paramCount l ≠ paramCount l0)
      ↔ ¬ SameParamCount (rowsOf lines) := by
    unfold SameParamCount
    push_neg
    rfl
  rw [hiff]
  constructor
  · intro hr h
    rw [readFile_ok mc lines burnin thin bigChain ht h] at hr
    simp at hr
  · intro h
    exact readFile_malformed mc lines burnin thin bigChain ht h

/-- C7, at a concrete input: the second row of `raggedRows` has three
parameters, the first has two, and with `burnin = 2` and `thin = 5` neither
row would be kept; reading fails. -/
theorem C7_malformed_iff_param_count_differs_witness :
    (MarkovChain.init.readFile (some raggedRows) 2 5 []).2 = Except.error Error.malformedInput
    ∧ ((MarkovChain.init.readFile (some raggedRows) 2 5 []).2
          = Except.error Error.malformedInput
        ↔ ∃ l0 ∈ (rowsOf raggedRows).head?, ∃ l ∈ rowsOf raggedRows,
            paramCount l ≠ paramCount l0) :=
  ⟨by decide!,
    C7_malformed_iff_param_count_differs MarkovChain.init raggedRows 2 5 [] (by decide)⟩

/-- C8: with `thin = 0` the check at the head of `readFile` fails with the
invalid-argument error and leaves the object as it was, no row read; so do
`addFile` and, without an error log, both constructors.  For every
`thin >= 1` the check passes and `readFile` never fails with that error.  The
macro `check` is modelled from the specification. -/
theorem C8_thin_zero_rejected :
    (∀ (mc : MarkovChain) (file : Option ChainFile) (burnin : Nat) (bigChain : List Element),
        mc.readFile file burnin 0 bigChain = (mc, Except.error Error.invalidArgument))
    ∧ (∀ (mc : MarkovChain) (file : Option ChainFile) (burnin : Nat),
        mc.addFile file burnin 0 = (mc, some Error.invalidArgument))
    ∧ (∀ (file : Option ChainFile) (burnin : Nat) (nError : Int),
        MarkovChain.fromFile file burnin 0 none nError = Except.error Error.invalidArgument)
    ∧ (∀ (files : List (Option ChainFile)) (burnin : Nat),
        MarkovChain.fromChains files burnin 0 none = Except.error Error.invalidArgument)
    ∧ (∀ thin : Nat, 1 ≤ thin → check (decide (thin > 0)) = none)
    ∧ (∀ (mc : MarkovChain) (file : Option ChainFile) (burnin thin : Nat)
        (bigChain : List Element), 1 ≤ thin →
        (mc.readFile file burnin thin bigChain).2 ≠ Except.error Error.invalidArgument) := by
  refine ⟨readFile_thin_zero, ?_, ?_, ?_, check_pos, readFile_not_invalidArgument⟩
  · intro mc file burnin
    exact addFile_error mc file burnin 0 mc _ (readFile_thin_zero mc file burnin [])
  · intro file burnin nError
    simp only [MarkovChain.fromFile, MarkovChain.readErrorLog]
    rw [addFile_error _ file burnin 0 _ _ (readFile_thin_zero _ file burnin [])]
  · intro files burnin
    cases files with
    | nil => simp [MarkovChain.fromChains, check]
    | cons file rest =>
      simp only [MarkovChain.fromChains, MarkovChain.readErrorLog, check, List.length_cons,
        gt_iff_lt, Nat.zero_lt_succ, decide_True, if_true, readChains]
      rw [readFile_thin_zero _ file burnin []]

/-- C8, at concrete inputs: `thin = 0` is rejected before the file is looked
at, `thin = 2` passes the check and the read succeeds. -/
theorem C8_thin_zero_rejected_witness :
    MarkovChain.init.addFile (some fiveRows) 0 0 = (MarkovChain.init, some Error.invalidArgument)
    ∧ check (decide (2 > 0)) = none
    ∧ (MarkovChain.init.readFile (some fiveRows) 0 2 []).2
        ≠ Except.error Error.invalidArgument :=
  ⟨C8_thin_zero_rejected.2.1 MarkovChain.init (some fiveRows) 0,
    C8_thin_zero_rejected.2.2.2.2.1 2 (by decide),
    C8_thin_zero_rejected.2.2.2.2.2 MarkovChain.init (some fiveRows) 0 2 [] (by decide)⟩

/-- C9 (the claim as stated fails): `oneRowChain` is the chain the single-file
constructor builds from the row `1 0 5`; adding `raggedRows` to it fails with
the malformed-input error on the second row, and leaves `nParams_` at 2 (it was
1) and `minLike_` at -3 (it was 0), the values of the first row read. -/
theorem C9_failed_addFile_changes_state :
    MarkovChain.fromFile (some [some ⟨1, 0, [5]⟩]) 0 1 none 0 = Except.ok oneRowChain
    ∧ oneRowChain.addFile (some raggedRows) 0 1
        = ({ chain_ := [⟨1, 0, [5], 0, 0⟩], nParams_ := 2, minLike_ := -3, errors_ := [] },
           some Error.malformedInput)
    ∧ (oneRowChain.addFile (some raggedRows) 0 1).1 ≠ oneRowChain :=
  ⟨by decide!, by decide!, by decide!⟩

/-- C9, amended: if `addFile` fails, with a parse error or any other, the
samples of the chain (and its error records) are exactly what they were before
the call. -/
theorem C9_failed_addFile_keeps_samples (mc : MarkovChain) (file : Option ChainFile)
    (burnin thin : Nat) (e : Error) (h : (mc.addFile file burnin thin).2 = some e) :
    (mc.addFile file burnin thin).1.chain_ = mc.chain_
      ∧ (mc.addFile file burnin thin).1.errors_ = mc.errors_ := by
  rcases hr : mc.readFile file burnin thin [] with ⟨mc1, r⟩
  have hf := readFile_frame mc file burnin thin []
  rw [hr] at hf
  cases r with
  | error e1 =>
    rw [addFile_error mc file burnin thin mc1 e1 hr]
    exact hf
  | ok v =>
    rcases v with ⟨bigChain, maxP⟩
    rw [addFile_chain mc file burnin thin mc1 bigChain maxP hr] at h
    simp at h

/-- C9 amended, at a concrete input: the failed `addFile` of `raggedRows`
leaves the one sample of `oneRowChain` in place. -/
theorem C9_failed_addFile_keeps_samples_witness :
    (oneRowChain.addFile (some raggedRows) 0 1).2 = some Error.malformedInput
    ∧ (oneRowChain.addFile (some raggedRows) 0 1).1.chain_ = oneRowChain.chain_
    ∧ (oneRowChain.addFile (some raggedRows) 0 1).1.errors_ = oneRowChain.errors_ :=
  ⟨by decide!,
    C9_failed_addFile_keeps_samples oneRowChain (some raggedRows) 0 1 Error.malformedInput
      (by decide!)⟩

/-- C10: for every non-empty list of chain files each of which reads without
an error, the multi-file constructor succeeds and its store is the one of a
single filter-and-sort pass over the union (`loadMultipleSpec`): the candidates
of all files concatenated in file order and filtered with
`minWeight = (maximum of the per-file maximum weights) / (total number of
candidates) / 1000`, then sorted.  `results` lists per file the candidates and
the maximum weight that `readFile` returns for the file read on its own. -/
theorem C10_multi_file_single_pass (files : List (Option ChainFile))
    (results : List (List Element × ℚ)) (burnin thin : Nat)
    (errorLog : Option (Nat → Option ErrorFile)) (mc0 : MarkovChain)
    (hne : files ≠ [])
    (hlog : MarkovChain.init.readErrorLog errorLog (files.length : Int) = (mc0, none))
    (hread : files.map (fun file => (mc0.readFile file burnin thin []).2)
      = results.map Except.ok) :
    Except.map MarkovChain.chain_ (MarkovChain.fromChains files burnin thin errorLog)
      = Except.ok (loadMultipleSpec results) := by
  have hlen : files.length > 0 := List.length_pos.mpr hne
  have hchain : mc0.chain_ = [] := by
    have h := readErrorLog_chain MarkovChain.init errorLog (files.length : Int)
    rw [hlog] at h
    exact h
  have hrc := readChains_ok mc0 burnin thin files results { mc0 with minLike_ := DBL_MAX } []
    DBL_MIN rfl hread
  rcases hrun : readChains burnin thin files { mc0 with minLike_ := DBL_MAX } [] DBL_MIN
    with ⟨mc1, res⟩
  rw [hrun] at hrc
  obtain ⟨hres, hc1⟩ := hrc
  simp only at hres hc1
  subst hres
  have hmax : (results.map Prod.snd).foldl max DBL_MIN = maxOf (results.map Prod.snd) := by
    cases files with
    | nil => exact absurd rfl hne
    | cons file rest =>
      cases results with
      | nil => simp at hread
      | cons r rs =>
        rcases r with ⟨c, m⟩
        simp only [List.map_cons, List.cons.injEq] at hread
        have hm := (readFile_of_ok mc0 mc0 file burnin thin [] c m rfl hread.1).2
        simp only [List.map_cons, List.foldl_cons, maxOf, max_eq_right hm]
  have hsum : ((results.map Prod.fst).flatten).length = (results.map (fun r => r.1.length)).sum := by
    rw [List.length_flatten, List.map_map]
    rfl
  unfold MarkovChain.fromChains
  rw [check, if_pos (by simpa using hlen), hlog]
  simp only [hrun]
  simp only [Except.map, MarkovChain.sortChain, MarkovChain.filterChain, filterLoop_eq,
    hc1, hchain, List.nil_append, hmax, hsum, loadMultipleSpec]

/-- C10, at a concrete input: `threeRows` and `secondRun` are merged with the
single threshold `3 / 5 / 1000`, which drops the row of weight `1/10000` and
keeps the row of weight `8/10000` that the threshold `2 / 2 / 1000` of
`secondRun` alone would drop. -/
theorem C10_multi_file_single_pass_witness :
    Except.map MarkovChain.chain_ (MarkovChain.fromChains [some threeRows, some secondRun] 0 1 none)
        = Except.ok (loadMultipleSpec
            [([⟨1, 2, [3, 4], 0, 0⟩, ⟨1 / 10000, 5, [6, 7], 0, 0⟩, ⟨3, 1, [0, 0], 0, 0⟩], 3),
             ([⟨2, 3, [1, 1], 0, 0⟩, ⟨8 / 10000, 4, [2, 2], 0, 0⟩], 2)])
    ∧ (loadMultipleSpec
            [([⟨1, 2, [3, 4], 0, 0⟩, ⟨1 / 10000, 5, [6, 7], 0, 0⟩, ⟨3, 1, [0, 0], 0, 0⟩], 3),
             ([⟨2, 3, [1, 1], 0, 0⟩, ⟨8 / 10000, 4, [2, 2], 0, 0⟩], 2)]).map Element.prob
        = [3, 2, 1, 8 / 10000] :=
  ⟨C10_multi_file_single_pass [some threeRows, some secondRun] _ 0 1 none MarkovChain.init
      (by decide) (by decide!) (by decide!),
    by decide!⟩

/-- C11 (the claim as stated fails): the chain row `1 0 1` (log-likelihood 0,
parameter 1) is loaded with an error log whose record has the same parameter
and log-likelihood `0.05`, the upper end of the closed interval
`[0 - 0.05, 0 + 0.05]`; the second `lower_bound` call of `readFile` puts the
end of the window at that record, so it is not looked at and the sample keeps
`errMean = 0` and `errVar = 0` instead of 7 and 9. -/
theorem C11_record_at_upper_end_missed :
    MarkovChain.fromFile (some [some ⟨1, 0, [1]⟩]) 0 1 (some boundaryErrorLog) 1
      = Except.ok { chain_ := [⟨1, 0, [1], 0, 0⟩], nParams_ := 1, minLike_ := 0,
                    errors_ := [⟨1 / 20, [1], 7, 9⟩] }
    ∧ ((0 : ℚ) - 1 / 20 ≤ 1 / 20 ∧ (1 / 20 : ℚ) ≤ 0 + 1 / 20)
    ∧ paramsEqual [1] [1] = true :=
  ⟨by decide!, by decide!, by decide!⟩

/-- C11, amended: for every row and every error-record list in ascending order
of log-likelihood, the sample the row becomes carries the mean and variance of
the first record of the list whose log-likelihood lies in the half-open
interval `[L - 0.05, L + 0.05)` and whose parameters match the sample's
(`paramsEqual`: each parameter of the sample equals the record's parameter at
the same position within the relative tolerance `1e-5`); without such a record
its `errMean` and `errVar` are 0.  The tolerance test `Math::areEqual` and the
order of the records are modelled from the specification. -/
theorem C11_error_match_half_open (errors_ : List ErrorEntry) (l : ChainLine)
    (hs : List.Pairwise (fun a b => a.like ≤ b.like) errors_) :
    sampleOf errors_ l
        = (match errors_.find? (fun r =>
              decide (l.like - 1 / 20 ≤ r.like ∧ r.like < l.like + 1 / 20)
                && paramsEqual (parseLine l).params r.params) with
          | some r => { parseLine l with errMean := r.mean, errVar := r.var }
          | none => parseLine l)
    ∧ (parseLine l).errMean = 0 ∧ (parseLine l).errVar = 0
    ∧ (∀ ps qs : List ℚ, paramsEqual ps qs = true
        ↔ ps.length ≤ qs.length
          ∧ ∀ p ∈ ps.zip qs, Math.areEqual p.1 p.2 (1 / 100000) = true) := by
  refine ⟨?_, rfl, rfl, paramsEqual_iff⟩
  unfold sampleOf
  rw [attachError_sorted errors_ (parseLine l) hs]
  rfl

/-- C11 amended, at a concrete input: of `fourErrors`, the record with
log-likelihood 0.9 is below the window of the row `1 1 1`, the record with
log-likelihood 0.95 has another parameter, and the records with log-likelihood
1 and 1.01 both match; the sample gets mean 3 and variance 4 of the first. -/
theorem C11_error_match_half_open_witness :
    sampleOf fourErrors ⟨1, 1, [1]⟩ = ⟨1, 1, [1], 3, 4⟩
    ∧ sampleOf fourErrors ⟨1, 1, [1]⟩
        = (match fourErrors.find? (fun r =>
              decide ((1 : ℚ) - 1 / 20 ≤ r.like ∧ r.like < 1 + 1 / 20)
                && paramsEqual (parseLine ⟨1, 1, [1]⟩).params r.params) with
          | some r => { parseLine ⟨1, 1, [1]⟩ with errMean := r.mean, errVar := r.var }
          | none => parseLine ⟨1, 1, [1]⟩) :=
  ⟨by decide!, (C11_error_match_half_open fourErrors ⟨1, 1, [1]⟩ (by decide!)).1⟩

/-- C12: for every error-log line, with `f` the fields that `readErrorFiles`
reads from it and `n` their number: if `n < 6` reading fails with the
malformed-input error; if `n >= 6` the record appended to `errors_` has
variance `f[n-1]`, mean `f[n-2]`, log-likelihood `f[n-5]` and parameters
`f[0..n-6]`, the fields `f[n-3]` and `f[n-4]` being dropped (`errorRecord`),
unless an earlier line of the file had another number of parameters, which is
a malformed-input error too. -/
theorem C12_error_line_fields (tokens : List ℚ) (rest : List (Option (List ℚ))) (nPar : Int)
    (errors : List ErrorEntry) :
    ((readValues tokens).length < 6 →
      readErrorLoop (some tokens :: rest) nPar errors = (errors, some Error.malformedInput))
    ∧ (6 ≤ (readValues tokens).length →
        (nPar = -1 ∨ nPar = (((readValues tokens).length - 5 : Nat) : Int)) →
        readErrorLoop (some tokens :: rest) nPar errors
          = readErrorLoop rest (((readValues tokens).length - 5 : Nat) : Int)
              (errors ++ [errorRecord (readValues tokens)]))
    ∧ (6 ≤ (readValues tokens).length →
        nPar ≠ -1 → nPar ≠ (((readValues tokens).length - 5 : Nat) : Int) →
        readErrorLoop (some tokens :: rest) nPar errors = (errors, some Error.malformedInput))
    ∧ (6 ≤ (readValues tokens).length →
        (errorRecord (readValues tokens)).var
            = (readValues tokens).getD ((readValues tokens).length - 1) 0
          ∧ (errorRecord (readValues tokens)).mean
            = (readValues tokens).getD ((readValues tokens).length - 2) 0
          ∧ (errorRecord (readValues tokens)).like
            = (readValues tokens).getD ((readValues tokens).length - 5) 0
          ∧ (errorRecord (readValues tokens)).params
            = (readValues tokens).take ((readValues tokens).length - 5)) := by
  have hlen : ∀ f : List ℚ, 6 ≤ f.length →
      f.dropLast.dropLast.dropLast.dropLast.dropLast.length = f.length - 5 := by
    intro f _
    simp only [List.length_dropLast]
    omega
  refine ⟨?_, ?_, ?_, ?_⟩
  · intro h
    unfold readErrorLoop
    simp [h]
  · intro h hn
    have h6 : ¬ (readValues tokens).length < 6 := by omega
    conv_lhs => unfold readErrorLoop
    simp only [h6, if_false, popped_record _ h, hlen _ h]
    rcases hn with hn | hn
    · rw [if_pos hn]
    · have hne : nPar ≠ -1 := by omega
      rw [if_neg hne, if_neg (not_not.mpr hn), hn]
  · intro h hn1 hn2
    have h6 : ¬ (readValues tokens).length < 6 := by omega
    conv_lhs => unfold readErrorLoop
    simp only [h6, if_false, popped_record _ h, hlen _ h]
    rw [if_neg hn1, if_pos hn2]
  · intro _
    exact ⟨rfl, rfl, rfl, rfl⟩

/-- C12, at concrete inputs: the line `1 2 3 0 0 7 9` gives the record with
parameters `1 2`, log-likelihood 3, mean 7 and variance 9; the line
`1 2 3 4 5` has five fields and is rejected. -/
theorem C12_error_line_fields_witness :
    readErrorLoop [some [1, 2, 3, 0, 0, 7, 9]] (-1) []
        = ([⟨3, [1, 2], 7, 9⟩], none)
    ∧ readErrorLoop [some [1, 2, 3, 4, 5]] (-1) [] = ([], some Error.malformedInput)
    ∧ readErrorLoop [some [1, 2, 3, 0, 0, 7, 9]] (-1) []
        = readErrorLoop [] (((readValues [1, 2, 3, 0, 0, 7, 9]).length - 5 : Nat) : Int)
            ([] ++ [errorRecord (readValues [1, 2, 3, 0, 0, 7, 9])]) :=
  ⟨by decide!,
    (C12_error_line_fields [1, 2, 3, 4, 5] [] (-1) []).1 (by decide!),
    (C12_error_line_fields [1, 2, 3, 0, 0, 7, 9] [] (-1) []).2.1 (by decide!) (Or.inl rfl)⟩

/-- C13: for every store of samples with non-negative weights (the weight of a
sample is non-negative by the data model, and every store that the loader
builds has positive weights: `fromFile_positive`, `fromChains_positive`,
`addFile_positive`) and every `0 <= pLower <= pUpper <= 1` with `pUpper > 0`
and `pLower < 1`, `getRange` returns without an error, in store order, exactly
the samples at the positions `i` such that the cumulative weight through
sample `i` exceeds `pLower` and the cumulative weight of the samples before `i`
does not exceed `pUpper`; once the cumulative weight through a sample exceeds
`pUpper`, no later position qualifies, so that sample is the last one
included. -/
theorem C13_getRange_positions (mc : MarkovChain) (container : List Element)
    (pUpper pLower : ℚ) (h0 : 0 ≤ pLower) (h1 : pLower ≤ pUpper) (h2 : pUpper ≤ 1)
    (h3 : 0 < pUpper) (h4 : pLower < 1) (hnn : ∀ e ∈ mc.chain_, 0 ≤ e.prob) :
    mc.getRange container pUpper pLower
        = ((mc.chain_.enum.filter (fun p =>
              decide (cumulWeight mc.chain_ (p.1 + 1) > pLower
                ∧ cumulWeight mc.chain_ p.1 ≤ pUpper))).map Prod.snd, none)
    ∧ (∀ i j : Nat, i < j → pUpper < cumulWeight mc.chain_ (i + 1) →
        ¬ cumulWeight mc.chain_ j ≤ pUpper) := by
  constructor
  · rw [getRange_valid mc container pUpper pLower h0 h1 h2 (ne_of_gt h3) (ne_of_lt h4),
      getRangeLoop_positions pUpper pLower mc.chain_ 0 [] hnn]
    simp only [zero_add, List.nil_append]
  · intro i j hij hi hc
    have hm := cumulWeight_mono mc.chain_ hnn (i + 1) j (by omega)
    linarith

/-- C13, at a concrete input: on the weights 0.4, 0.3, 0.2, 0.1 with
`pUpper = 0.5` and `pLower = 0.25`, the first two samples are returned: the
cumulative weight before the third is 0.7. -/
theorem C13_getRange_positions_witness :
    fourWeights.getRange [] (1 / 2) (1 / 4) = (fourWeights.chain_.take 2, none)
    ∧ fourWeights.getRange [] (1 / 2) (1 / 4)
        = ((fourWeights.chain_.enum.filter (fun p =>
              decide (cumulWeight fourWeights.chain_ (p.1 + 1) > 1 / 4
                ∧ cumulWeight fourWeights.chain_ p.1 ≤ 1 / 2))).map Prod.snd, none) :=
  ⟨by decide!,
    (C13_getRange_positions fourWeights [] (1 / 2) (1 / 4) (by norm_num) (by norm_num)
      (by norm_num) (by norm_num) (by norm_num) (by decide!)).1⟩

/-- C14 (the claim as stated fails): on the store with the weights 0.4, 0.3,
0.2, 0.1, `getRange(0.7, 0)` returns the first three samples, not two: after
the second sample the running total is 0.7, the loop condition
`total <= pUpper` still holds, and the third sample is visited and included.
The same happens on the weights 1/2, 1/4, 1/4 with `pUpper = 1/2`: the
cumulative weight reaches `pUpper` at the first sample and two are returned. -/
theorem C14_exact_hit_continues :
    fourWeights.getRange [] (7 / 10) 0 = (fourWeights.chain_.take 3, none)
    ∧ cumulWeight fourWeights.chain_ 2 = 7 / 10
    ∧ dyadicWeights.getRange [] (1 / 2) 0 = (dyadicWeights.chain_.take 2, none)
    ∧ cumulWeight dyadicWeights.chain_ 1 = 1 / 2 :=
  ⟨by decide!, by decide!, by decide!, by decide!⟩

/-- C14, amended: for every store with positive weights and every `pUpper` in
`(0, 1]`, `getRange(pUpper, 0)` returns the first `n` samples of the store,
where every one of them starts at a cumulative weight that does not exceed
`pUpper` and the cumulative weight through the last of them exceeds `pUpper`,
unless the whole store is returned: the samples up to and including the first
one at which the cumulative weight exceeds `pUpper`.  On the weights 0.4, 0.3,
0.2, 0.1, `getRange(0.7, 0)` returns the first three samples and
`getRange(1, 0)` returns all four. -/
theorem C14_getRange_prefix :
    (∀ (mc : MarkovChain) (container : List Element) (pUpper : ℚ),
        (∀ e ∈ mc.chain_, 0 < e.prob) → 0 < pUpper → pUpper ≤ 1 →
        ∃ n : Nat, mc.getRange container pUpper 0 = (mc.chain_.take n, none)
          ∧ (∀ i, i < n → cumulWeight mc.chain_ i ≤ pUpper)
          ∧ (n = mc.chain_.length ∨ pUpper < cumulWeight mc.chain_ n))
    ∧ fourWeights.getRange [] (7 / 10) 0 = (fourWeights.chain_.take 3, none)
    ∧ fourWeights.getRange [] 1 0 = (fourWeights.chain_, none) := by
  refine ⟨?_, by decide!, by decide!⟩
  intro mc container pUpper hpos h0 h1
  refine ⟨visited pUpper mc.chain_ 0, ?_, ?_, ?_⟩
  · rw [getRange_valid mc container pUpper 0 (le_refl _) (le_of_lt h0) h1 (ne_of_gt h0)
        (by norm_num),
      getRangeLoop_prefix pUpper mc.chain_ 0 [] hpos (le_refl _)]
    simp
  · intro i hi
    have := visited_before pUpper mc.chain_ 0 i hi
    rwa [zero_add] at this
  · have := visited_stop pUpper mc.chain_ 0 (le_of_lt h0)
    rwa [zero_add] at this

/-- C14 amended, at a concrete input: on the weights 1/2, 1/4, 1/4 with
`pUpper = 1/2` a prefix of the store is returned. -/
theorem C14_getRange_prefix_witness :
    ∃ n : Nat, dyadicWeights.getRange [] (1 / 2) 0 = (dyadicWeights.chain_.take n, none)
      ∧ (∀ i, i < n → cumulWeight dyadicWeights.chain_ i ≤ 1 / 2)
      ∧ (n = dyadicWeights.chain_.length ∨ 1 / 2 < cumulWeight dyadicWeights.chain_ n) :=
  C14_getRange_prefix.1 dyadicWeights [] (1 / 2) (by decide!) (by norm_num) (by norm_num)

/-- C15: for every store and whatever the output container held before the
call, `getRange` with `pUpper = 0` (then `pLower = 0` is the only valid lower
bound) yields the empty container, and `getRange` with `pLower = 1` (then
`pUpper = 1` is the only valid upper bound) yields the whole store in store
order. -/
theorem C15_getRange_extremes (mc : MarkovChain) (container : List Element) :
    mc.getRange container 0 0 = ([], none)
    ∧ mc.getRange container 1 1 = (mc.chain_, none) := by
  constructor
  · simp [MarkovChain.getRange, check]
  · simp [MarkovChain.getRange, check]

/-- C16: `getRange` fails, with the invalid-argument error, if and only if
`pUpper` is outside `[0, 1]`, or `pLower < 0`, or `pLower > pUpper`; when it
fails the output container is left as it was.  The macro `check` is modelled
from the specification. -/
theorem C16_getRange_invalid_iff (mc : MarkovChain) (container : List Element)
    (pUpper pLower : ℚ) :
    ((mc.getRange container pUpper pLower).2 = some Error.invalidArgument
        ↔ (pUpper < 0 ∨ 1 < pUpper ∨ pLower < 0 ∨ pUpper < pLower))
    ∧ ((mc.getRange container pUpper pLower).2 = none
        ∨ (mc.getRange container pUpper pLower).2 = some Error.invalidArgument)
    ∧ ((mc.getRange container pUpper pLower).2 ≠ none →
        (mc.getRange container pUpper pLower).1 = container) := by
  unfold MarkovChain.getRange check
  by_cases hu : pUpper ≥ 0 ∧ pUpper ≤ 1
  · by_cases hl : pLower ≥ 0 ∧ pLower ≤ pUpper
    · have hn : ¬ (pUpper < 0 ∨ 1 < pUpper ∨ pLower < 0 ∨ pUpper < pLower) := by
        rintro (h | h | h | h) <;> linarith [hu.1, hu.2, hl.1, hl.2]
      simp only [hu, hl, and_self, decide_True, if_true, hn, iff_false]
      split_ifs <;> simp
    · have hy : pUpper < 0 ∨ 1 < pUpper ∨ pLower < 0 ∨ pUpper < pLower := by
        by_contra hc
        push_neg at hc
        exact hl ⟨hc.2.2.1, hc.2.2.2⟩
      simp [hu, hl, hy]
  · have hy : pUpper < 0 ∨ 1 < pUpper ∨ pLower < 0 ∨ pUpper < pLower := by
      by_contra hc
      push_neg at hc
      exact hu ⟨hc.1, hc.2.1⟩
    simp [hu, hy]

/-- C16, at concrete inputs: `pLower = 0.8 > pUpper = 0.5` is rejected and the
container keeps its sample; `pUpper = 0.5`, `pLower = 0.25` is accepted. -/
theorem C16_getRange_invalid_iff_witness :
    fourWeights.getRange [⟨1, 0, [5], 0, 0⟩] (1 / 2) (8 / 10)
        = ([⟨1, 0, [5], 0, 0⟩], some Error.invalidArgument)
    ∧ (fourWeights.getRange [⟨1, 0, [5], 0, 0⟩] (1 / 2) (1 / 4)).2 = none
    ∧ (fourWeights.getRange [⟨1, 0, [5], 0, 0⟩] (1 / 2) (8 / 10)).1 = [⟨1, 0, [5], 0, 0⟩] :=
  ⟨by decide!, by decide!,
    (C16_getRange_invalid_iff fourWeights [⟨1, 0, [5], 0, 0⟩] (1 / 2) (8 / 10)).2.2
      (by decide!)⟩

/-- C17: `generate` fails with the insufficient-data error whenever fewer than
two points were added, or the buffers agree in length (as `addPoint` keeps
them) and `max_ <= min_`, that is, the added values are not two distinct
values; the surface and the inverse table are then the ones the object had
before the call, none being fitted or built.  The error kind of the macro
`check` is modelled from the specification. -/
theorem C17_generate_insufficient_data (lib : Numerics) (p : Posterior1D)
    (method : SmoothingMethod) (scale : ℚ)
    (h : p.points_.length < 2 ∨ (p.points_.length = p.probs_.length ∧ p.max_ ≤ p.min_)) :
    (p.generate lib method scale).2 = some Error.insufficientData
    ∧ (p.generate lib method scale).1.smooth_ = p.smooth_
    ∧ (p.generate lib method scale).1.cumulInv_ = p.cumulInv_ := by
  have herr : (p.prepare lib method scale).2 = Except.error Error.insufficientData := by
    unfold Posterior1D.prepare
    by_cases h2 : p.points_.length ≥ 2
    · rcases h with h | ⟨hl, hm⟩
      · omega
      · have hm2 : ¬ p.max_ > p.min_ := not_lt.mpr hm
        have h3 : 2 ≤ p.probs_.length := by omega
        simp [checkKind, h2, h3, hl, hm2]
    · simp [checkKind, h2]
  rw [generate_of_prepare_error lib p method scale _ herr]
  have hf := prepare_frame lib p method scale
  exact ⟨rfl, hf.1, hf.2.1⟩

/-- C17, at concrete inputs: with no point added, and with the point 3 added
twice (`max_ = min_ = 3`), `generate` fails and leaves the object without a
surface and without a table. -/
theorem C17_generate_insufficient_data_witness :
    ((Posterior1D.init.generate (constantNumerics 1) SmoothingMethod.SPLINE_SMOOTHING 1).2
        = some Error.insufficientData
      ∧ (Posterior1D.init.generate (constantNumerics 1) SmoothingMethod.SPLINE_SMOOTHING 1).1.smooth_
        = Posterior1D.init.smooth_
      ∧ (Posterior1D.init.generate (constantNumerics 1)
          SmoothingMethod.SPLINE_SMOOTHING 1).1.cumulInv_ = Posterior1D.init.cumulInv_)
    ∧ ((twoEqualPoints.generate (constantNumerics 1) SmoothingMethod.GAUSSIAN_SMOOTHING 1).2
        = some Error.insufficientData
      ∧ (twoEqualPoints.generate (constantNumerics 1)
          SmoothingMethod.GAUSSIAN_SMOOTHING 1).1.smooth_ = twoEqualPoints.smooth_
      ∧ (twoEqualPoints.generate (constantNumerics 1)
          SmoothingMethod.GAUSSIAN_SMOOTHING 1).1.cumulInv_ = twoEqualPoints.cumulInv_) :=
  ⟨C17_generate_insufficient_data (constantNumerics 1) Posterior1D.init
      SmoothingMethod.SPLINE_SMOOTHING 1 (Or.inl (by decide)),
    C17_generate_insufficient_data (constantNumerics 1) twoEqualPoints
      SmoothingMethod.GAUSSIAN_SMOOTHING 1 (Or.inr (by decide!))⟩

/-- C18: for every point set with non-negative weights whose total weight is
zero, every smoothing method and every scale, `generate` fails with an error
and fits no surface and builds no table: whichever earlier check it passes, it
stops at `check(totalP)` at the latest.  The macro `check` is modelled from
the specification. -/
theorem C18_generate_zero_weight (lib : Numerics) (p : Posterior1D) (method : SmoothingMethod)
    (scale : ℚ) (_hnn : ∀ w ∈ p.probs_, 0 ≤ w) (hz : p.probs_.sum = 0) :
    (p.generate lib method scale).2 ≠ none
    ∧ (p.generate lib method scale).1.smooth_ = p.smooth_
    ∧ (p.generate lib method scale).1.cumulInv_ = p.cumulInv_ := by
  obtain ⟨e, he⟩ := prepare_zero_weight lib p method scale hz
  rw [generate_of_prepare_error lib p method scale e he]
  have hf := prepare_frame lib p method scale
  exact ⟨by simp, hf.1, hf.2.1⟩

/-- C18, at a concrete input: the points 1 and 2 with weight 0 each pass the
entry checks and the bin-count check with the scale 1, and `generate` fails at
`check(totalP)`. -/
theorem C18_generate_zero_weight_witness :
    (zeroWeightPoints.generate (constantNumerics 1) SmoothingMethod.SPLINE_SMOOTHING 1).2
        = some Error.insufficientData
    ∧ ((zeroWeightPoints.generate (constantNumerics 1) SmoothingMethod.SPLINE_SMOOTHING 1).2
          ≠ none
      ∧ (zeroWeightPoints.generate (constantNumerics 1)
          SmoothingMethod.SPLINE_SMOOTHING 1).1.smooth_ = zeroWeightPoints.smooth_
      ∧ (zeroWeightPoints.generate (constantNumerics 1)
          SmoothingMethod.SPLINE_SMOOTHING 1).1.cumulInv_ = zeroWeightPoints.cumulInv_) :=
  ⟨by decide!,
    C18_generate_zero_weight (constantNumerics 1) zeroWeightPoints
      SmoothingMethod.SPLINE_SMOOTHING 1 (by decide!) (by decide!)⟩

/-- C19 (the code departs from the claim): the points -2 and -1 of weight 1
each are fitted with the spline method and the scale 1; the histogram has one
bin of height 2 with its two edges, whose interpolating spline is the constant
2.  `generate` succeeds, and the inverse table it builds starts with the entry
`0 -> 0` written before the loop and goes on with `0.02 -> -2`, the first entry
of the loop: the key grows and the value falls from 0 to `min_ = -2`. -/
theorem C19_table_starts_above_min :
    (negativePoints.generate (constantNumerics 2) SmoothingMethod.SPLINE_SMOOTHING 1).2 = none
    ∧ (negativePoints.generate (constantNumerics 2)
          SmoothingMethod.SPLINE_SMOOTHING 1).1.cumulInv_.map (List.take 3)
        = some [(0, 0), (1 / 50, -2), (2 / 50, -199 / 100)]
    ∧ ((0 : ℚ) < 1 / 50 ∧ ¬ ((0 : ℚ) ≤ -2)) :=
  ⟨by decide!, by decide!, by decide!⟩

/-- C20: for every 2-D surface, when `Posterior2D::generate` runs from the fit
to its end without an error (so that the normalization is positive) and the
values sampled on the grid are not negative, the credible-level table it
builds holds, at key 0, the largest sampled value divided by the
normalization, and at key 1 the value 0; its values do not grow as the key
grows, and its keys are distinct and in ascending order. -/
theorem C20_credible_table (p : Posterior2D) (surface : Surface2D) (x1 x2 : List ℚ)
    (hok : (p.integrate surface x1 x2).2 = none)
    (hnn : ∀ v ∈ gridSamples surface x1 x2, 0 ≤ v) :
    ∃ (table : TableFunction) (m : ℚ),
      (p.integrate surface x1 x2).1.cumulInv_ = some table
      ∧ 0 < (p.integrate surface x1 x2).1.norm_
      ∧ m ∈ gridSamples surface x1 x2
      ∧ (∀ v ∈ gridSamples surface x1 x2, v ≤ m)
      ∧ (0, m / (p.integrate surface x1 x2).1.norm_) ∈ table
      ∧ (1, 0) ∈ table
      ∧ (∀ e1 ∈ table, ∀ e2 ∈ table, e1.1 < e2.1 → e2.2 ≤ e1.2)
      ∧ List.Pairwise (fun a b : ℚ × ℚ => a.1 < b.1) table := by
  obtain ⟨st, hs, hnorm, hn, hc⟩ := integrate_result p surface x1 x2 hok
  have hg : gridSamples surface x1 x2 = st.1 := by
    unfold gridSamples
    rw [hs]
  rw [hg] at hnn ⊢
  rw [hn, hc]
  have hs2 := hs
  unfold Posterior2D.sample at hs2
  obtain ⟨new, a1, a2, _, _⟩ := sampleGrid_ok _ _ _ _ _ _ _ _ _ _ _ _ hs2
  rw [List.nil_append] at a1
  rw [zero_add, ← a1] at a2
  obtain ⟨m, c1, c2, c3, c4, c5, c6⟩ :=
    credible_table_spec st.1 st.2 _ _ hnn hnorm a2
  exact ⟨_, m, rfl, hnorm, c1, c2, c3, c4, c5, c6⟩

/-- C20, at a concrete input: the surface of constant value 1 on the unit
square is sampled without an error, its sampled values are all 1, and the table
has the stated shape. -/
theorem C20_credible_table_witness :
    ∃ (table : TableFunction) (m : ℚ),
      (unitSquarePoints.integrate flatSurface [0, 1] [0, 1]).1.cumulInv_ = some table
      ∧ 0 < (unitSquarePoints.integrate flatSurface [0, 1] [0, 1]).1.norm_
      ∧ m ∈ gridSamples flatSurface [0, 1] [0, 1]
      ∧ (∀ v ∈ gridSamples flatSurface [0, 1] [0, 1], v ≤ m)
      ∧ (0, m / (unitSquarePoints.integrate flatSurface [0, 1] [0, 1]).1.norm_) ∈ table
      ∧ (1, 0) ∈ table
      ∧ (∀ e1 ∈ table, ∀ e2 ∈ table, e1.1 < e2.1 → e2.2 ≤ e1.2)
      ∧ List.Pairwise (fun a b : ℚ × ℚ => a.1 < b.1) table :=
  C20_credible_table unitSquarePoints flatSurface [0, 1] [0, 1]
    (integrate_ok unitSquarePoints flatSurface [0, 1] [0, 1] zero_lt_one zero_lt_one
      (fun _ _ => zero_lt_one))
    (gridSamples_nonneg flatSurface [0, 1] [0, 1] zero_lt_one zero_lt_one
      (fun _ _ => zero_le_one))

/-- C21 (the code departs from the claim): the points (0, 0) and (1, 1) of
weight 1 each are fitted by `Posterior2D::generate` with the bandwidths 1 and
1; the call succeeds and leaves an object `g` with a surface of height 2 and a
table.  The points (0, 0) and (1, 1) are then added to `g` with the weight 0
and `generate` is called again: the histogram is zero, the fitted surface is
zero, and the call fails at `check(norm_ > 0)`, which comes after the
statements `delete smooth_; delete cumulInv_; smooth_ = new ...`.  The object
`g2` it leaves holds the new surface, of height 0, not the surface fitted
before, and `cumulInv_` still points to the table that has been deleted. -/
theorem C21_failed_regeneration_replaces_surface :
    ∃ g g2 : Posterior2D,
      unitSquarePoints.generate (constantNumerics 1) cornerFit 1 1 = some (g, none)
      ∧ g.smooth_.map (fun s => s.evaluate 0 0) = some 2
      ∧ g.cumulInv_.isSome = true
      ∧ ((g.addPoint 0 0 0 0).addPoint 1 1 0 0).generate (constantNumerics 1) cornerFit 1 1
          = some (g2, some Error.insufficientData)
      ∧ g2.smooth_.map (fun s => s.evaluate 0 0) = some 0
      ∧ g2.cumulInv_ = g.cumulInv_ := by
  have hp1 : unitSquarePoints.prepare (constantNumerics 1) 1 1
      = some (Except.ok (squarePrepared 2)) := by decide!
  have hp0 : zeroWeightSquare.prepare (constantNumerics 1) 1 1
      = some (Except.ok (squarePrepared 0)) := by decide!
  have hx : ((squarePrepared 2).x1.headD 0 < (squarePrepared 2).x1.getLastD 0)
      ∧ ((squarePrepared 2).x2.headD 0 < (squarePrepared 2).x2.getLastD 0)
      ∧ ((squarePrepared 0).x1.headD 0 < (squarePrepared 0).x1.getLastD 0)
      ∧ ((squarePrepared 0).x2.headD 0 < (squarePrepared 0).x2.getLastD 0) := by decide!
  have hg1 := generate2D_of_prepare (constantNumerics 1) cornerFit unitSquarePoints 1 1
    (squarePrepared 2) hp1 (fun h => absurd h (by decide!))
  have hok1 := integrate_ok unitSquarePoints
    (cornerFit (squarePrepared 2).x1 (squarePrepared 2).x2 (squarePrepared 2).y
      (squarePrepared 2).scale1 (squarePrepared 2).scale2)
    (squarePrepared 2).x1 (squarePrepared 2).x2 hx.1 hx.2.1
    (fun _ _ => (by decide! : (0 : ℚ) < 2))
  obtain ⟨f1, f2, f3, f4, f5, _, f7⟩ := integrate_frame unitSquarePoints
    (cornerFit (squarePrepared 2).x1 (squarePrepared 2).x2 (squarePrepared 2).y
      (squarePrepared 2).scale1 (squarePrepared 2).scale2)
    (squarePrepared 2).x1 (squarePrepared 2).x2
  obtain ⟨f8, f9, f10⟩ := f7 hok1
  obtain ⟨_, _, _, _, hc1⟩ := integrate_result unitSquarePoints _ _ _ hok1
  generalize hgdef : (unitSquarePoints.integrate
    (cornerFit (squarePrepared 2).x1 (squarePrepared 2).x2 (squarePrepared 2).y
      (squarePrepared 2).scale1 (squarePrepared 2).scale2)
    (squarePrepared 2).x1 (squarePrepared 2).x2) = res1 at hg1 hok1 f1 f2 f3 f4 f5 f8 f9 f10 hc1
  obtain ⟨g, e1⟩ := res1
  simp only at hok1 f1 f2 f3 f4 f5 f8 f9 f10 hc1
  subst hok1
  obtain ⟨a1, a2, a3, a4, a5, a6, a7, a8, a9⟩ := addPoint2D_fields g 0 0 0 0
  obtain ⟨b1, b2, b3, b4, b5, b6, b7, b8, b9⟩ := addPoint2D_fields (g.addPoint 0 0 0 0) 1 1 0 0
  have hu : unitSquarePoints.min1_ = 0 ∧ unitSquarePoints.max1_ = 1
      ∧ unitSquarePoints.min2_ = 0 ∧ unitSquarePoints.max2_ = 1 := by decide!
  have hz : zeroWeightSquare.points1_ = [0, 1] ∧ zeroWeightSquare.points2_ = [0, 1]
      ∧ zeroWeightSquare.probs_ = [0, 0] ∧ zeroWeightSquare.min1_ = 0
      ∧ zeroWeightSquare.max1_ = 1 ∧ zeroWeightSquare.min2_ = 0
      ∧ zeroWeightSquare.max2_ = 1 := by decide!
  have hp2 : ((g.addPoint 0 0 0 0).addPoint 1 1 0 0).prepare (constantNumerics 1) 1 1
      = some (Except.ok (squarePrepared 0)) := by
    rw [← hp0]
    apply prepare2D_congr
    · rw [b1, a1, f8, hz.1]
      rfl
    · rw [b2, a2, f9, hz.2.1]
      rfl
    · rw [b3, a3, f10, hz.2.2.1]
      rfl
    · rw [b4, a4, f2, hu.1, hz.2.2.2.1]
      norm_num
    · rw [b5, a5, f3, hu.2.1, hz.2.2.2.2.1]
      norm_num
    · rw [b6, a6, f4, hu.2.2.1, hz.2.2.2.2.2.1]
      norm_num
    · rw [b7, a7, f5, hu.2.2.2, hz.2.2.2.2.2.2]
      norm_num
  have hsome : g.cumulInv_.isSome = true := by
    rw [hc1]
    rfl
  have hg2 := generate2D_of_prepare (constantNumerics 1) cornerFit
    ((g.addPoint 0 0 0 0).addPoint 1 1 0 0) 1 1 (squarePrepared 0) hp2
    (fun _ => by rw [b9, a9]; exact hsome)
  have hfail := integrate_zero_surface ((g.addPoint 0 0 0 0).addPoint 1 1 0 0)
    (cornerFit (squarePrepared 0).x1 (squarePrepared 0).x2 (squarePrepared 0).y
      (squarePrepared 0).scale1 (squarePrepared 0).scale2)
    (squarePrepared 0).x1 (squarePrepared 0).x2 hx.2.2.1 hx.2.2.2 (fun _ _ => rfl)
  obtain ⟨k1, _, _, _, _, k6, _⟩ := integrate_frame ((g.addPoint 0 0 0 0).addPoint 1 1 0 0)
    (cornerFit (squarePrepared 0).x1 (squarePrepared 0).x2 (squarePrepared 0).y
      (squarePrepared 0).scale1 (squarePrepared 0).scale2)
    (squarePrepared 0).x1 (squarePrepared 0).x2
  have k6b := k6 (by rw [hfail]; simp)
  generalize hg2def : (((g.addPoint 0 0 0 0).addPoint 1 1 0 0).integrate
    (cornerFit (squarePrepared 0).x1 (squarePrepared 0).x2 (squarePrepared 0).y
      (squarePrepared 0).scale1 (squarePrepared 0).scale2)
    (squarePrepared 0).x1 (squarePrepared 0).x2) = res2 at hg2 hfail k1 k6b
  obtain ⟨g2, e2⟩ := res2
  simp only at hfail k1 k6b
  subst hfail
  refine ⟨g, g2, hg1, ?_, hsome, hg2, ?_, ?_⟩
  · rw [f1]
    rfl
  · rw [k1]
    rfl
  · rw [k6b, b9, a9]

/-- C22 (the code departs from the claim): `Posterior2D::generate` has no
check of the number of points or of `max > min` on an axis.  With the points
(3, 0) and (3, 1), which share their value on axis 1, and with the single
point (3, 4), each with the bandwidths 1 and 1, it raises no error up to the
bin widths and computes `d1 = (3 - 3) / 1 = 0` (and `d2 = 0` for the single
point); the histogram loop then divides by it, and the call has no defined
result. -/
theorem C22_degenerate_axis_reaches_zero_width :
    sharedAxisPoints.binning (constantNumerics 1) 1 1
        = Except.ok { iqr1 := 0, iqr2 := 0, res1 := 1, res2 := 1, scale1 := 1, scale2 := 1,
                      d1 := 0, d2 := 1 }
    ∧ (sharedAxisPoints.generate (constantNumerics 1) cornerFit 1 1).isNone = true
    ∧ singlePoint2D.binning (constantNumerics 1) 1 1
        = Except.ok { iqr1 := 0, iqr2 := 0, res1 := 1, res2 := 1, scale1 := 1, scale2 := 1,
                      d1 := 0, d2 := 0 }
    ∧ (singlePoint2D.generate (constantNumerics 1) cornerFit 1 1).isNone = true :=
  ⟨by decide!, by decide!, by decide!, by decide!⟩

/-- C23: for every `Posterior1D` that `generate` has fitted without an error,
with `r` what `generate` had prepared for the fit, `s` the fitted surface and
`norm_` the normalization: `evaluateError(x)` returns 0 when the method is not
the Gaussian one; for the Gaussian method and `a = s.evaluate(x)` not zero it
returns `a / norm_ * sqrt((da / a)^2 + (e / norm_)^2)` with
`da = s.evaluateError(x)` and `e = sqrt(sum of the squared bin errors) /
(total weight) * norm_`. -/
theorem C23_evaluateError (lib : Numerics) (p : Posterior1D) (method : SmoothingMethod)
    (scale : ℚ) (hgen : (p.generate lib method scale).2 = none) :
    ∃ (r : Prepared) (s : Surface),
      (p.prepare lib method scale).2 = Except.ok r
      ∧ (p.generate lib method scale).1.smooth_ = some s
      ∧ (method ≠ SmoothingMethod.GAUSSIAN_SMOOTHING →
          ∀ x : ℚ, (p.generate lib method scale).1.evaluateError lib x = Except.ok 0)
      ∧ (method = SmoothingMethod.GAUSSIAN_SMOOTHING →
          ∀ x : ℚ, s.evaluate x ≠ 0 →
            (p.generate lib method scale).1.evaluateError lib x
              = Except.ok (s.evaluate x / (p.generate lib method scale).1.norm_
                  * lib.sqrt ((s.evaluateError x / s.evaluate x) ^ 2
                      + (lib.sqrt ((r.vars.map (fun v => v * v)).sum) / p.probs_.sum
                          * (p.generate lib method scale).1.norm_
                        / (p.generate lib method scale).1.norm_) ^ 2))) := by
  obtain ⟨r, hp, hs, hm, hd⟩ := generate_deltaNorm lib p method scale hgen
  refine ⟨r, fittedSurface lib method r, hp, hs, ?_, ?_⟩
  · intro hne x
    unfold Posterior1D.evaluateError
    rw [hs]
    simp only [hm]
    rw [if_pos hne]
  · intro heq x _
    unfold Posterior1D.evaluateError
    rw [hs]
    simp only [hm]
    rw [if_neg (not_not.mpr heq), hd]
    congr 3
    rw [div_pow, div_pow, pow_two, pow_two, pow_two, pow_two]

/-- C23, at a concrete input: the points -2 and -1 of weight 1 each, fitted by
either method with the scale 1. -/
theorem C23_evaluateError_witness :
    ((negativePoints.generate (constantNumerics 2) SmoothingMethod.SPLINE_SMOOTHING 1).2 = none
      ∧ (negativePoints.generate (constantNumerics 2)
          SmoothingMethod.SPLINE_SMOOTHING 1).1.evaluateError (constantNumerics 2) (-3 / 2)
        = Except.ok 0
      ∧ (negativePoints.generate (constantNumerics 2)
          SmoothingMethod.GAUSSIAN_SMOOTHING 1).1.evaluateError (constantNumerics 2) (-3 / 2)
        = Except.ok 0)
    ∧ ∃ (r : Prepared) (s : Surface),
      (negativePoints.prepare (constantNumerics 2) SmoothingMethod.GAUSSIAN_SMOOTHING 1).2
          = Except.ok r
      ∧ (negativePoints.generate (constantNumerics 2)
          SmoothingMethod.GAUSSIAN_SMOOTHING 1).1.smooth_ = some s
      ∧ (SmoothingMethod.GAUSSIAN_SMOOTHING ≠ SmoothingMethod.GAUSSIAN_SMOOTHING →
          ∀ x : ℚ, (negativePoints.generate (constantNumerics 2)
            SmoothingMethod.GAUSSIAN_SMOOTHING 1).1.evaluateError (constantNumerics 2) x
              = Except.ok 0)
      ∧ (SmoothingMethod.GAUSSIAN_SMOOTHING = SmoothingMethod.GAUSSIAN_SMOOTHING →
          ∀ x : ℚ, s.evaluate x ≠ 0 →
            (negativePoints.generate (constantNumerics 2)
                SmoothingMethod.GAUSSIAN_SMOOTHING 1).1.evaluateError (constantNumerics 2) x
              = Except.ok (s.evaluate x
                  / (negativePoints.generate (constantNumerics 2)
                      SmoothingMethod.GAUSSIAN_SMOOTHING 1).1.norm_
                  * (constantNumerics 2).sqrt ((s.evaluateError x / s.evaluate x) ^ 2
                      + ((constantNumerics 2).sqrt ((r.vars.map (fun v => v * v)).sum)
                          / negativePoints.probs_.sum
                          * (negativePoints.generate (constantNumerics 2)
                              SmoothingMethod.GAUSSIAN_SMOOTHING 1).1.norm_
                        / (negativePoints.generate (constantNumerics 2)
                            SmoothingMethod.GAUSSIAN_SMOOTHING 1).1.norm_) ^ 2))) :=
  ⟨⟨by decide!, by decide!, by decide!⟩,
    C23_evaluateError (constantNumerics 2) negativePoints SmoothingMethod.GAUSSIAN_SMOOTHING 1
      (by decide!)⟩

/-- C24: for every `Posterior1D` with a fitted surface `s` (as every generated
one has) that is not negative at `min`, `peak()` returns a point `t_k` of the
grid `t_i = min + i * (max - min) / 10000`, `i = 0..10000`, `t_10000 = max`,
with `s(t_k) >= s(t_i)` for every `i` and `s(t_i) < s(t_k)` for every `i < k`:
the first grid point at which `s` is maximal over the grid.  (The surface is
fitted to the histogram, whose first entry `y[0]` belongs to the grid point
`x[0] = min`; the scan of `peak()` starts from the value 0 at `min`.) -/
theorem C24_peak_first_maximum (p : Posterior1D) (s : Surface) (hs : p.smooth_ = some s)
    (hmin : 0 ≤ s.evaluate p.min_) :
    ∃ k : Nat, k ≤ Posterior1D.nPoints
      ∧ p.peak = some (peakGrid p k)
      ∧ (∀ i ≤ Posterior1D.nPoints, s.evaluate (peakGrid p i) ≤ s.evaluate (peakGrid p k))
      ∧ (∀ i < k, s.evaluate (peakGrid p i) < s.evaluate (peakGrid p k)) := by
  obtain ⟨k, hk, hpk, hmax, hfirst, hpos, _⟩ := peak_spec p s hs
  by_cases hex : ∃ i ≤ Posterior1D.nPoints, 0 < s.evaluate (peakGrid p i)
  · exact ⟨k, hk, hpk, (hpos hex).1, (hpos hex).2⟩
  · have hnp : ∀ i ≤ Posterior1D.nPoints, s.evaluate (peakGrid p i) ≤ 0 := by
      intro i hi
      by_contra hc
      exact hex ⟨i, hi, not_le.mp hc⟩
    have hg0 : peakGrid p 0 = p.min_ := by
      unfold peakGrid
      rw [if_neg (by decide)]
      simp
    have h0 : s.evaluate (peakGrid p 0) = 0 := by
      rw [hg0]
      have := hnp 0 (Nat.zero_le _)
      rw [hg0] at this
      exact le_antisymm this hmin
    have hk0 : k = 0 := by
      by_contra hc
      have hlt := hfirst 0 (Nat.pos_of_ne_zero hc)
      rw [h0, max_eq_right (hnp k hk)] at hlt
      simp at hlt
    subst hk0
    refine ⟨0, hk, hpk, ?_, ?_⟩
    · intro i hi
      rw [h0]
      exact hnp i hi
    · intro i hi
      omega

/-- C24, at a concrete input: the object generated from the points -2 and -1
of weight 1 each, whose histogram is flat and whose fitted surface is the
constant 2. -/
theorem C24_peak_first_maximum_witness :
    (flatFitted.smooth_ = some (constantSurface 2)
      ∧ 0 ≤ (constantSurface 2).evaluate flatFitted.min_)
    ∧ ∃ k : Nat, k ≤ Posterior1D.nPoints
      ∧ flatFitted.peak = some (peakGrid flatFitted k)
      ∧ (∀ i ≤ Posterior1D.nPoints, (constantSurface 2).evaluate (peakGrid flatFitted i)
            ≤ (constantSurface 2).evaluate (peakGrid flatFitted k))
      ∧ (∀ i < k, (constantSurface 2).evaluate (peakGrid flatFitted i)
            < (constantSurface 2).evaluate (peakGrid flatFitted k)) :=
  have hs : flatFitted.smooth_ = some (constantSurface 2) :=
    (generate_deltaNorm (constantNumerics 2) negativePoints SmoothingMethod.SPLINE_SMOOTHING 1
      (by decide!)).elim (fun _ h => h.2.1)
  have hmin : 0 ≤ (constantSurface 2).evaluate flatFitted.min_ := by
    show (0 : ℚ) ≤ 2
    norm_num
  ⟨⟨hs, hmin⟩, C24_peak_first_maximum flatFitted (constantSurface 2) hs hmin⟩

/-- C26 (the code departs from the claim): the points 0, 1 and 2 of weight 1
each have the total weight 3, and in the order of their values the cumulative
weight is 1, 2, 3.  The first index at which it reaches `0.25 * 3` is 0 and
the first at which it reaches `0.75 * 3` is 2.  The loop of `generate` ends
with `q1 = 1` and `q3 = 2`: at index 0 it stores 0 in `q1`, which is also the
value that stands for "not set yet", so at index 1 it stores again.  The
interquartile range that `generate` goes on with is `2 - 1 = 1`, not
`2 - 0 = 2`; the loops of `Posterior2D::generate` do the same on each axis. -/
theorem C26_first_quartile_index_skips_zero :
    threeEqualWeights.probs_.sum = 3
    ∧ stdSort LessPairFirst (threeEqualWeights.points_.zip threeEqualWeights.probs_)
        = [(0, 1), (1, 1), (2, 1)]
    ∧ firstReaching [(0, 1), (1, 1), (2, 1)] (1 / 4 * 3) = some 0
    ∧ firstReaching [(0, 1), (1, 1), (2, 1)] (3 / 4 * 3) = some 2
    ∧ quartileLoop 3 2 [(0, 1), (1, 1), (2, 1)] 0 (0, 2, 0) = (1, 2, 3)
    ∧ (binning (constantNumerics 1) threeEqualWeights.points_ threeEqualWeights.probs_
          threeEqualWeights.min_ threeEqualWeights.max_).1 = 1
    ∧ (diagonalPoints.binning (constantNumerics 1) 1 1).map (fun b => (b.iqr1, b.iqr2))
        = Except.ok (1, 1) :=
  ⟨by decide!, by decide!, by decide!, by decide!, by decide!, by decide!, by decide!⟩

/-- The bin count of `Posterior1D::generate` where the conversion to `int` is
defined.  For every point set of `n` points (with weight buffer of the same
length) and every numerical library whose `pow(n, -1/3)` is not zero, the bin
count computed from the interquartile range `iqr` is 1 if `iqr = 0` or
`n < 5`; otherwise, with `q = (max - min) / (2 * iqr * n^(-1/3))`, it is the
floor of `q` when `0 <= q < 2^31`, it is `INT_MIN` when `q >= 2^31`, and when
`q` is negative neither the bin count nor the floor is positive.  Whenever the
bin count is not positive, `generate` fails. -/
theorem bin_count_of_quotient (lib : Numerics) (p : Posterior1D) (method : SmoothingMethod)
    (scale : ℚ) (hlen : p.points_.length = p.probs_.length)
    (hpow : lib.pow (p.points_.length : ℚ) (-1 / 3) ≠ 0) :
    ((binning lib p.points_ p.probs_ p.min_ p.max_).1 = 0 ∨ p.points_.length < 5 →
        (binning lib p.points_ p.probs_ p.min_ p.max_).2 = 1)
    ∧ (¬ ((binning lib p.points_ p.probs_ p.min_ p.max_).1 = 0 ∨ p.points_.length < 5) →
        (0 ≤ (p.max_ - p.min_) / (2 * (binning lib p.points_ p.probs_ p.min_ p.max_).1
              * lib.pow (p.points_.length : ℚ) (-1 / 3)) →
          (p.max_ - p.min_) / (2 * (binning lib p.points_ p.probs_ p.min_ p.max_).1
              * lib.pow (p.points_.length : ℚ) (-1 / 3)) < 2 ^ 31 →
          (binning lib p.points_ p.probs_ p.min_ p.max_).2
            = ⌊(p.max_ - p.min_) / (2 * (binning lib p.points_ p.probs_ p.min_ p.max_).1
                * lib.pow (p.points_.length : ℚ) (-1 / 3))⌋)
        ∧ (2 ^ 31 ≤ (p.max_ - p.min_) / (2 * (binning lib p.points_ p.probs_ p.min_ p.max_).1
              * lib.pow (p.points_.length : ℚ) (-1 / 3)) →
          (binning lib p.points_ p.probs_ p.min_ p.max_).2 = INT_MIN)
        ∧ ((p.max_ - p.min_) / (2 * (binning lib p.points_ p.probs_ p.min_ p.max_).1
              * lib.pow (p.points_.length : ℚ) (-1 / 3)) < 0 →
          (binning lib p.points_ p.probs_ p.min_ p.max_).2 ≤ 0
          ∧ ⌊(p.max_ - p.min_) / (2 * (binning lib p.points_ p.probs_ p.min_ p.max_).1
                * lib.pow (p.points_.length : ℚ) (-1 / 3))⌋ < 0))
    ∧ (¬ (binning lib p.points_ p.probs_ p.min_ p.max_).2 > 0 →
        (p.generate lib method scale).2 ≠ none) := by
  have hres := binning_resolution lib p.points_ p.probs_ p.min_ p.max_ hlen
  refine ⟨?_, ?_, generate_fails_of_resolution lib p method scale⟩
  · intro h
    rw [hres]
    apply if_pos
    rcases h with h | h
    · left
      rw [h]
      ring
    · right
      exact h
  · intro h
    have hne : ¬ (2 * (binning lib p.points_ p.probs_ p.min_ p.max_).1
        * lib.pow (p.points_.length : ℚ) (-1 / 3) = 0 ∨ p.points_.length < 5) := by
      intro hc
      rcases hc with hc | hc
      · rcases mul_eq_zero.mp hc with h2 | h2
        · rcases mul_eq_zero.mp h2 with h3 | h3
          · norm_num at h3
          · exact h (Or.inl h3)
        · exact hpow h2
      · exact h (Or.inr hc)
    rw [if_neg hne] at hres
    have hf := toInt_floor ((p.max_ - p.min_)
      / (2 * (binning lib p.points_ p.probs_ p.min_ p.max_).1
        * lib.pow (p.points_.length : ℚ) (-1 / 3)))
    refine ⟨?_, ?_, ?_⟩
    · intro hq hlt
      rw [hres]
      exact hf.1 hq hlt
    · intro hq
      rw [hres]
      exact hf.2.1 hq
    · intro hq
      rw [hres]
      exact hf.2.2 hq

/-- C27 (the code departs from the claim): the points 0, 1, ..., 6 and
1000000000002 of weight 1 are eight points whose quartiles fall on the points
1 and 5: the interquartile range is 4, and with `8^(-1/3) = 1/2` the bin width
is 4.  The quotient `(max - min) / 4` is `250000000000.5`, whose floor
`250000000000` is positive, but it is not a value of `int`: the conversion
`int resolution = (max_ - min_) / myBinSize` leaves `INT_MIN` in `resolution`,
and `generate` fails at `check(resolution > 0)`. -/
theorem C27_conversion_out_of_range :
    hugeOutlier.points_.length = 8
    ∧ firstReaching (stdSort LessPairFirst (hugeOutlier.points_.zip hugeOutlier.probs_))
        (1 / 4 * 8) = some 1
    ∧ firstReaching (stdSort LessPairFirst (hugeOutlier.points_.zip hugeOutlier.probs_))
        (3 / 4 * 8) = some 5
    ∧ (binning (exactAtEight 1) hugeOutlier.points_ hugeOutlier.probs_ hugeOutlier.min_
        hugeOutlier.max_).1 = 4
    ∧ (hugeOutlier.max_ - hugeOutlier.min_) / (2 * 4 * (exactAtEight 1).pow 8 (-1 / 3))
        = 500000000001 / 2
    ∧ ⌊(500000000001 / 2 : ℚ)⌋ = 250000000000
    ∧ INT_MAX < 250000000000
    ∧ (binning (exactAtEight 1) hugeOutlier.points_ hugeOutlier.probs_ hugeOutlier.min_
        hugeOutlier.max_).2 = INT_MIN
    ∧ (hugeOutlier.generate (exactAtEight 1) SmoothingMethod.GAUSSIAN_SMOOTHING 1).2
        = some Error.invalidState :=
  ⟨by decide!, by decide!, by decide!, by decide!, by decide!, by decide!, by decide!,
    by decide!, by decide!⟩

/-- C28: for every point set that passes the entry checks of
`Posterior1D::generate` (at least two points, buffers of one length,
`max_ > min_`), with `iqr` the interquartile range that `generate` computes:
with the scale 0, `generate` fails with `InsufficientData` if `iqr` is 0 (or
below), and when it succeeds the bandwidth is `iqr / 8`, which is what the
Gaussian smoother is constructed with; with a positive scale the bandwidth is
the scale itself, and the only failure for want of data that is left is a
total weight of zero, so a zero `iqr` is not an error; a negative scale is
rejected. -/
theorem C28_bandwidth (lib : Numerics) (p : Posterior1D) (method : SmoothingMethod)
    (scale : ℚ) (hsize : 2 ≤ p.points_.length) (hlen : p.points_.length = p.probs_.length)
    (hmm : p.min_ < p.max_) :
    (scale = 0 → (binning lib p.points_ p.probs_ p.min_ p.max_).1 ≤ 0 →
        (p.generate lib method scale).2 = some Error.insufficientData)
    ∧ (scale = 0 → (p.generate lib method scale).2 = none →
        ∃ r : Prepared, (p.prepare lib method scale).2 = Except.ok r
          ∧ r.scale = (binning lib p.points_ p.probs_ p.min_ p.max_).1 / 8
          ∧ (method = SmoothingMethod.GAUSSIAN_SMOOTHING →
              (p.generate lib method scale).1.smooth_
                = some (lib.gaussSmooth r.x r.y
                    ((binning lib p.points_ p.probs_ p.min_ p.max_).1 / 8) r.vars)))
    ∧ (0 < scale → (p.generate lib method scale).2 = none →
        ∃ r : Prepared, (p.prepare lib method scale).2 = Except.ok r
          ∧ r.scale = scale
          ∧ (method = SmoothingMethod.GAUSSIAN_SMOOTHING →
              (p.generate lib method scale).1.smooth_
                = some (lib.gaussSmooth r.x r.y scale r.vars)))
    ∧ (0 < scale → (p.generate lib method scale).2 = some Error.insufficientData →
        p.probs_.sum = 0)
    ∧ (scale < 0 → (p.generate lib method scale).2 = some Error.invalidArgument) := by
  refine ⟨?_, ?_, ?_, ?_, ?_⟩
  · intro hs hiqr
    subst hs
    rw [generate_of_prepare_error lib p method 0 _
      (prepare_zero_iqr lib p method hsize hlen hmm hiqr)]
  · intro hs hok
    obtain ⟨p2, r, st, hp, _, hg⟩ := generate_ok_inv lib p method scale hok
    obtain ⟨_, _, _, _, _, hsc, _⟩ := prepare_ok_inv lib p method scale p2 r hp
    rw [if_pos hs] at hsc
    refine ⟨r, by rw [hp], hsc, ?_⟩
    intro hm
    subst hm
    rw [hg, ← hsc]
    rfl
  · intro hs hok
    obtain ⟨p2, r, st, hp, _, hg⟩ := generate_ok_inv lib p method scale hok
    obtain ⟨_, _, _, _, _, hsc, _⟩ := prepare_ok_inv lib p method scale p2 r hp
    rw [if_neg (ne_of_gt hs)] at hsc
    refine ⟨r, by rw [hp], hsc, ?_⟩
    intro hm
    subst hm
    rw [hg, ← hsc]
    rfl
  · intro hs herr
    have h1 := generate_insufficient_before_fit lib p method scale herr
    rcases prepare_insufficient lib p method scale hsize hlen hmm h1 with ⟨h0, _⟩ | h2
    · exact absurd h0 (ne_of_gt hs)
    · exact h2
  · intro hs
    rw [generate_of_prepare_error lib p method scale _
      (prepare_negative_scale lib p method scale hsize hlen hmm hs)]

/-- C28, at a concrete input: the points 0, 1, 2 with the weights 1, 10, 1
have the interquartile range 0; with the scale 1 the Gaussian fit succeeds. -/
theorem C28_bandwidth_witness :
    (2 ≤ heavyMiddle.points_.length ∧ heavyMiddle.points_.length = heavyMiddle.probs_.length
      ∧ heavyMiddle.min_ < heavyMiddle.max_
      ∧ (binning (constantNumerics 1) heavyMiddle.points_ heavyMiddle.probs_ heavyMiddle.min_
          heavyMiddle.max_).1 = 0
      ∧ (heavyMiddle.generate (constantNumerics 1) SmoothingMethod.GAUSSIAN_SMOOTHING 1).2 = none
      ∧ (heavyMiddle.generate (constantNumerics 1) SmoothingMethod.GAUSSIAN_SMOOTHING 0).2
          = some Error.insufficientData
      ∧ (heavyMiddle.generate (constantNumerics 1) SmoothingMethod.GAUSSIAN_SMOOTHING (-1)).2
          = some Error.invalidArgument)
    ∧ (((1 : ℚ) = 0 → (binning (constantNumerics 1) heavyMiddle.points_ heavyMiddle.probs_
            heavyMiddle.min_ heavyMiddle.max_).1 ≤ 0 →
        (heavyMiddle.generate (constantNumerics 1) SmoothingMethod.GAUSSIAN_SMOOTHING 1).2
          = some Error.insufficientData)
    ∧ ((1 : ℚ) = 0 →
        (heavyMiddle.generate (constantNumerics 1) SmoothingMethod.GAUSSIAN_SMOOTHING 1).2 = none →
        ∃ r : Prepared,
          (heavyMiddle.prepare (constantNumerics 1) SmoothingMethod.GAUSSIAN_SMOOTHING 1).2
              = Except.ok r
          ∧ r.scale = (binning (constantNumerics 1) heavyMiddle.points_ heavyMiddle.probs_
              heavyMiddle.min_ heavyMiddle.max_).1 / 8
          ∧ (SmoothingMethod.GAUSSIAN_SMOOTHING = SmoothingMethod.GAUSSIAN_SMOOTHING →
              (heavyMiddle.generate (constantNumerics 1)
                  SmoothingMethod.GAUSSIAN_SMOOTHING 1).1.smooth_
                = some ((constantNumerics 1).gaussSmooth r.x r.y
                    ((binning (constantNumerics 1) heavyMiddle.points_ heavyMiddle.probs_
                      heavyMiddle.min_ heavyMiddle.max_).1 / 8) r.vars)))
    ∧ ((0 : ℚ) < 1 →
        (heavyMiddle.generate (constantNumerics 1) SmoothingMethod.GAUSSIAN_SMOOTHING 1).2 = none →
        ∃ r : Prepared,
          (heavyMiddle.prepare (constantNumerics 1) SmoothingMethod.GAUSSIAN_SMOOTHING 1).2
              = Except.ok r
          ∧ r.scale = 1
          ∧ (SmoothingMethod.GAUSSIAN_SMOOTHING = SmoothingMethod.GAUSSIAN_SMOOTHING →
              (heavyMiddle.generate (constantNumerics 1)
                  SmoothingMethod.GAUSSIAN_SMOOTHING 1).1.smooth_
                = some ((constantNumerics 1).gaussSmooth r.x r.y 1 r.vars)))
    ∧ ((0 : ℚ) < 1 →
        (heavyMiddle.generate (constantNumerics 1) SmoothingMethod.GAUSSIAN_SMOOTHING 1).2
          = some Error.insufficientData →
        heavyMiddle.probs_.sum = 0)
    ∧ ((1 : ℚ) < 0 →
        (heavyMiddle.generate (constantNumerics 1) SmoothingMethod.GAUSSIAN_SMOOTHING 1).2
          = some Error.invalidArgument)) :=
  ⟨⟨by decide!, by decide!, by decide!, by decide!, by decide!, by decide!, by decide!⟩,
    C28_bandwidth (constantNumerics 1) heavyMiddle SmoothingMethod.GAUSSIAN_SMOOTHING 1
      (by decide!) (by decide!) (by decide!)⟩

/-- C29: for every point set whose points do not exceed `max_` (as `addPoint`
keeps them) and on which `Posterior1D::generate` reaches the fit, with
`d = (max - min) / resolution`: the histogram `y` has `resolution + 2` bins;
every interior bin `k` (`0 <= k < resolution`, at `y[k + 1]`) holds the sum of
the weights of the points whose value lies in `[min + k*d, min + (k+1)*d)`, the
last interior bin also taking the points of value `max`; the interior bins sum
to the total weight; and each of the two boundary bins equals its interior
neighbour. -/
theorem C29_histogram (lib : Numerics) (p : Posterior1D) (method : SmoothingMethod)
    (scale : ℚ) (r : Prepared) (hprep : (p.prepare lib method scale).2 = Except.ok r)
    (hrange : ∀ pt ∈ p.points_, pt ≤ p.max_) :
    0 < r.resolution
    ∧ r.y.length = r.resolution.toNat + 2
    ∧ (∀ k < r.resolution.toNat,
        r.y.getD (k + 1) 0
          = binWeight p.min_ p.max_ ((p.max_ - p.min_) / (r.resolution : ℚ)) r.resolution.toNat
              p.points_ p.probs_ k)
    ∧ ((List.range r.resolution.toNat).map (fun k => r.y.getD (k + 1) 0)).sum = p.probs_.sum
    ∧ r.y.getD 0 0 = r.y.getD 1 0
    ∧ r.y.getD (r.resolution.toNat + 1) 0 = r.y.getD r.resolution.toNat 0 := by
  rcases hp : p.prepare lib method scale with ⟨p2, res⟩
  rw [hp] at hprep
  simp only at hprep
  subst hprep
  obtain ⟨_, hlen, hmm, _, _, _, _, hres, _, hist, vn, hh, _, _, hy, _, _, _, _⟩ :=
    prepare_ok_inv lib p method scale p2 r hp
  have hn : 0 < r.resolution.toNat := by omega
  have hcast : ((r.resolution.toNat : Nat) : Int) = r.resolution :=
    Int.toNat_of_nonneg (le_of_lt hres)
  have hcastq : ((r.resolution.toNat : Nat) : ℚ) = (r.resolution : ℚ) := by
    rw [← Int.cast_natCast, hcast]
  have hrq : (0 : ℚ) < (r.resolution : ℚ) := by exact_mod_cast hres
  have hd : 0 < (p.max_ - p.min_) / (r.resolution : ℚ) := div_pos (by linarith) hrq
  have hmax : p.max_ = p.min_ + ((r.resolution.toNat : Nat) : ℚ)
      * ((p.max_ - p.min_) / (r.resolution : ℚ)) := by
    rw [hcastq]
    field_simp
  have hh2 : histogramLoop p.min_ ((p.max_ - p.min_) / (r.resolution : ℚ))
      ((r.resolution.toNat : Nat) : Int) p.points_ p.probs_ p.errVar_
      { y := List.replicate (r.resolution.toNat + 2) 0,
        vars := List.replicate (r.resolution.toNat + 2) 0, mean := 0, totalP := 0 }
      = (hist, none) := by
    rw [hcast]
    exact hh
  obtain ⟨b1, b2, b3, b4, b5⟩ := histogramLoop_bins p.min_ p.max_
    ((p.max_ - p.min_) / (r.resolution : ℚ)) r.resolution.toNat hd hmax hn p.points_ p.probs_
    p.errVar_ _ hist hlen.symm hrange (by simp) hh2
  simp only [List.sum_replicate, smul_zero, zero_add] at b2
  have c3 : hist.y.getD 0 0 = 0 := by
    rw [b3]
    simp [List.getD_eq_getElem?_getD]
  have c4 : hist.y.getD (r.resolution.toNat + 1) 0 = 0 := by
    rw [b4]
    simp [List.getD_eq_getElem?_getD]
  obtain ⟨e1, e2, e3, e4⟩ := smooth_edges hist.y r.resolution.toNat hn b1
  rw [← hy] at e1 e2 e3 e4
  refine ⟨hres, e1, ?_, ?_, e3, e4⟩
  · intro k hk
    rw [e2 k hk, b5 k hk]
    simp [List.getD_eq_getElem?_getD]
  · have hsum : ((List.range r.resolution.toNat).map (fun k => r.y.getD (k + 1) 0))
        = (List.range r.resolution.toNat).map (fun k => hist.y.getD (k + 1) 0) := by
      apply List.map_congr_left
      intro k hk
      exact e2 k (List.mem_range.mp hk)
    rw [hsum, interior_sum hist.y r.resolution.toNat b1, b2, c3, c4]
    ring

/-- C29, at a concrete input: the points 0..7 with the weights 1, 1, 1, 5, 5,
1, 1, 1 get seven interior bins of width 1; the last one holds the weights of
the points 6 and 7, and the histogram is `[1, 1, 1, 1, 5, 5, 1, 2, 2]`. -/
theorem C29_histogram_witness :
    ((peakedEight.prepare (exactAtEight 1) SmoothingMethod.GAUSSIAN_SMOOTHING 1).2
        = Except.ok peakedEightPrepared
      ∧ ∀ pt ∈ peakedEight.points_, pt ≤ peakedEight.max_)
    ∧ (0 < peakedEightPrepared.resolution
      ∧ peakedEightPrepared.y.length = peakedEightPrepared.resolution.toNat + 2
      ∧ (∀ k < peakedEightPrepared.resolution.toNat,
          peakedEightPrepared.y.getD (k + 1) 0
            = binWeight peakedEight.min_ peakedEight.max_
                ((peakedEight.max_ - peakedEight.min_) / (peakedEightPrepared.resolution : ℚ))
                peakedEightPrepared.resolution.toNat peakedEight.points_ peakedEight.probs_ k)
      ∧ ((List.range peakedEightPrepared.resolution.toNat).map
            (fun k => peakedEightPrepared.y.getD (k + 1) 0)).sum = peakedEight.probs_.sum
      ∧ peakedEightPrepared.y.getD 0 0 = peakedEightPrepared.y.getD 1 0
      ∧ peakedEightPrepared.y.getD (peakedEightPrepared.resolution.toNat + 1) 0
          = peakedEightPrepared.y.getD peakedEightPrepared.resolution.toNat 0) :=
  ⟨⟨by decide!, by decide!⟩,
    C29_histogram (exactAtEight 1) peakedEight SmoothingMethod.GAUSSIAN_SMOOTHING 1
      peakedEightPrepared (by decide!) (by decide!)⟩

/-- The normalization of `Posterior1D::generate` where the product
`100 * resolution` is an `int`.  For every point set on which `generate`
succeeds with such a bin count, with `s` the fitted surface,
`N = 100 * resolution`, `delta = (max - min) / N` and the grid points
`v_i = min + i * delta` for `i < N`, `v_N = max`: the normalization is the sum
of `max(s(v_i), 0) * delta` over `i = 0..N`; after the iteration `i` of the
loop the running sum is the sum through `i` and the table holds the grid point
`v_i` under it; and in the final table every running sum is a key, under which
stands the last grid point with that running sum. -/
theorem normalization_of_representable (lib : Numerics) (p : Posterior1D)
    (method : SmoothingMethod) (scale : ℚ) (hgen : (p.generate lib method scale).2 = none)
    (hrep : 100 * (binning lib p.points_ p.probs_ p.min_ p.max_).2 ≤ INT_MAX) :
    ∃ (r : Prepared) (table : TableFunction),
      (p.prepare lib method scale).2 = Except.ok r
      ∧ 0 < stepCount r
      ∧ (p.generate lib method scale).1.smooth_ = some (fittedSurface lib method r)
      ∧ (p.generate lib method scale).1.cumulInv_ = some table
      ∧ (p.generate lib method scale).1.norm_
          = normThrough (fittedSurface lib method r) p r (stepCount r).toNat
      ∧ (∀ i ≤ (stepCount r).toNat, ∃ st : Integration,
          integrationAfter (fittedSurface lib method r) p r i = (st, none)
          ∧ st.norm = normThrough (fittedSurface lib method r) p r i
          ∧ (st.norm, gridPoint p r i) ∈ st.table)
      ∧ (∀ i ≤ (stepCount r).toNat, ∃ j : Nat, i ≤ j ∧ j ≤ (stepCount r).toNat
          ∧ normThrough (fittedSurface lib method r) p r j
              = normThrough (fittedSurface lib method r) p r i
          ∧ (∀ j2 ≤ (stepCount r).toNat,
              normThrough (fittedSurface lib method r) p r j2
                = normThrough (fittedSurface lib method r) p r i → j2 ≤ j)
          ∧ (normThrough (fittedSurface lib method r) p r i, gridPoint p r j) ∈ table) := by
  obtain ⟨r, st, hp, hres, hl, hs, hn, hc, _, _⟩ := generate_integration lib p method scale hgen
  have hrb : r.resolution = (binning lib p.points_ p.probs_ p.min_ p.max_).2 := by
    rcases hpp : p.prepare lib method scale with ⟨p2, res⟩
    rw [hpp] at hp
    simp only at hp
    subst hp
    exact (prepare_ok_inv lib p method scale p2 r hpp).2.2.2.2.2.2.1
  rw [← hrb] at hrep
  have hw : wrapInt (100 * r.resolution) = 100 * r.resolution :=
    wrapInt_of_representable _ (by unfold INT_MIN; omega) hrep
  have hsucc : (100 * r.resolution + 1).toNat = (100 * r.resolution).toNat + 1 := by omega
  rw [hw, hsucc] at hl
  obtain ⟨a1, _, a3⟩ := integrateLoop_range _ _ _ _ _ _ st hl
  have hpos : 0 < stepCount r := by
    unfold stepCount
    omega
  refine ⟨r, st.table, hp, hpos, hs, hc, by rw [hn, a1]; rfl, ?_, ?_⟩
  · intro i hi
    have hsplit : List.range ((100 * r.resolution).toNat + 1)
        = List.range (i + 1) ++ (List.range ((100 * r.resolution).toNat - i)).map (i + 1 + ·) := by
      rw [← List.range_add]
      congr 1
      unfold stepCount at hi
      omega
    rw [hsplit] at hl
    obtain ⟨st1, h1⟩ := integrateLoop_prefix_ok _ _ _ _ _ _ _ _ _ hl
    obtain ⟨b1, _, b3⟩ := integrateLoop_range _ _ _ _ _ _ st1 h1
    obtain ⟨j, hj1, hj2, _, _, hj5⟩ := b3 i (Nat.lt_succ_self i)
    have hji : j = i := by omega
    rw [hji] at hj5
    exact ⟨st1, h1, b1, by rw [b1]; exact hj5⟩
  · intro i hi
    obtain ⟨j, hj1, hj2, hj3, hj4, hj5⟩ := a3 i (Nat.lt_succ_of_le hi)
    exact ⟨j, hj1, Nat.le_of_lt_succ hj2, hj3,
      fun j2 hj2' => hj4 j2 (Nat.lt_succ_of_le hj2'), hj5⟩

/-- C30 (the code departs from the claim): the points 0, 1, ..., 6 and
100000002 of weight 1, with the scale 1, any smoothing method and any
numerical library with `pow(8, -1/3) = 1/2`.  The interquartile range is 4 and
the bin width is 4, so the bin count is the floor of `100000002 / 4`, which is
25000000, and `generate` reaches the fit.  The product `100 * resolution` is
2500000000, above `INT_MAX`: as an `int` it is -1794967296.  The loop
`for(int i = 0; i <= N; ++i)` has no iteration, and `generate` returns without
an error with the normalization 0 and an inverse table that holds the entry
`0 -> 0` only: no grid point is recorded, `max = 100000002` included. -/
theorem C30_step_count_overflows (lib : Numerics) (method : SmoothingMethod) :
    binning (withExactPow lib) farOutlier.points_ farOutlier.probs_ farOutlier.min_
        farOutlier.max_ = (4, 25000000)
    ∧ farOutlier.min_ = 0 ∧ farOutlier.max_ = 100000002
    ∧ (∃ r : Prepared, (farOutlier.prepare (withExactPow lib) method 1).2 = Except.ok r
        ∧ r.resolution = 25000000 ∧ stepCount r = 2500000000 ∧ INT_MAX < stepCount r
        ∧ wrapInt (100 * r.resolution) = -1794967296
        ∧ (farOutlier.generate (withExactPow lib) method 1).1.smooth_
            = some (fittedSurface (withExactPow lib) method r))
    ∧ (farOutlier.generate (withExactPow lib) method 1).2 = none
    ∧ (farOutlier.generate (withExactPow lib) method 1).1.norm_ = 0
    ∧ (farOutlier.generate (withExactPow lib) method 1).1.cumulInv_ = some [(0, 0)] := by
  have hb : binning (withExactPow lib) farOutlier.points_ farOutlier.probs_ farOutlier.min_
      farOutlier.max_ = (4, 25000000) := by
    rw [binning_exact_pow lib _ _ _ _ (by decide!) (by decide!)]
    decide!
  have hs : farOutlier.smooth_ = none := by
    cases h : farOutlier.smooth_ with
    | none => rfl
    | some s =>
      have hn : farOutlier.smooth_.isSome = false := by decide!
      rw [h] at hn
      simp at hn
  obtain ⟨p2, r, hp⟩ := prepare_succeeds (withExactPow lib) farOutlier method 1 (by decide!)
    (by decide!) (by decide!) (by norm_num) (by rw [hb]; decide) (by decide!) (by decide!)
    (by decide!)
  have hr : r.resolution = 25000000 := by
    rw [(prepare_ok_inv _ farOutlier method 1 p2 r hp).2.2.2.2.2.2.1, hb]
  have hw : wrapInt (100 * r.resolution) = -1794967296 := by
    rw [hr]
    decide
  obtain ⟨g1, g2, g3, g4⟩ := generate_of_negative_steps (withExactPow lib) farOutlier method 1
    p2 r hp hs (by rw [hw]; decide)
  refine ⟨hb, by decide!, by decide!, ⟨r, by rw [hp], hr, ?_, ?_, hw, g4⟩, g1, g2, g3⟩
  · unfold stepCount
    rw [hr]
    rfl
  · unfold stepCount
    rw [hr]
    decide

/-- C31 (the code departs from the claim): the points 0 and 1 are added with
the weight 1 and the error variance 4, and `generate` succeeds.  It has cleared
`points_` and `probs_` only: `likes_`, `errMean_` and `errVar_` still hold the
two entries.  The points 0 and 1 are then added again with the error variance
0: `errVar_` is `[4, 4, 0, 0]`, and the histogram loop of the next `generate`
pairs the weights `probs_[0]`, `probs_[1]` with `errVar_[0] = errVar_[1] = 4`,
the variances of the former samples.  The bin error it computes is 1, where a
new object with the same two points computes 0. -/
theorem C31_stale_error_variances :
    (noisyPoints.generate (constantNumerics 2) SmoothingMethod.SPLINE_SMOOTHING 1).2 = none
    ∧ noisyFitted.points_ = [] ∧ noisyFitted.probs_ = []
    ∧ noisyFitted.likes_ = [0, 0] ∧ noisyFitted.errMean_ = [0, 0]
    ∧ noisyFitted.errVar_ = [4, 4]
    ∧ secondCycle.points_ = [0, 1] ∧ secondCycle.probs_ = [1, 1]
    ∧ secondCycle.errVar_ = [4, 4, 0, 0]
    ∧ (secondCycle.prepare (constantNumerics 2) SmoothingMethod.SPLINE_SMOOTHING 1).2.map
        (fun r => r.vars) = Except.ok [0, 1, 0]
    ∧ (freshCycle.prepare (constantNumerics 2) SmoothingMethod.SPLINE_SMOOTHING 1).2.map
        (fun r => r.vars) = Except.ok [0, 0, 0] :=
  ⟨by decide!, by decide!, by decide!, by decide!, by decide!, by decide!, by decide!,
    by decide!, by decide!, by decide!, by decide!⟩

/-- C32: for every chain file that `readFile` reads to its end and in which
some row has a weight above the smallest positive double: the `maxP` reported
is the weight of a row and is at least the weight of every row of the file,
whether or not burn-in and thinning let the row into the candidates (which are
the rows selected by `burnin` and `thin`, appended to `bigChain`); and the
`minLike_` left in the object is at most the log-likelihood of every row of the
file and at most the `minLike_` before the call, and it is one of these
numbers. -/
theorem C32_extremes_over_every_row (mc : MarkovChain) (lines : ChainFile) (burnin thin : Nat)
    (bc c : List Element) (m : ℚ)
    (h : (mc.readFile (some lines) burnin thin bc).2 = Except.ok (c, m))
    (hw : ∃ l ∈ rowsOf lines, DBL_MIN < l.prob) :
    c = bc ++ (selectRows burnin thin 0 (rowsOf lines)).map (sampleOf mc.errors_)
    ∧ (∃ l ∈ rowsOf lines, m = l.prob) ∧ (∀ l ∈ rowsOf lines, l.prob ≤ m)
    ∧ (∀ l ∈ rowsOf lines, (mc.readFile (some lines) burnin thin bc).1.minLike_ ≤ l.like)
    ∧ (mc.readFile (some lines) burnin thin bc).1.minLike_ ≤ mc.minLike_
    ∧ ((mc.readFile (some lines) burnin thin bc).1.minLike_ = mc.minLike_
        ∨ ∃ l ∈ rowsOf lines, (mc.readFile (some lines) burnin thin bc).1.minLike_ = l.like) := by
  obtain ⟨ht, hs⟩ := readFile_ok_inv mc lines burnin thin bc c m h
  rw [readFile_ok mc lines burnin thin bc ht hs] at h ⊢
  simp only [Except.ok.injEq, Prod.mk.injEq] at h
  obtain ⟨hc, hm⟩ := h
  subst hm
  refine ⟨hc.symm, ?_, weight_le_maxWeight _ _, minLogLike_le_like _ _, minLogLike_le _ _,
    minLogLike_attained _ _⟩
  rcases maxWeight_attained DBL_MIN (rowsOf lines) with he | he
  · obtain ⟨l, hl, hlt⟩ := hw
    have := weight_le_maxWeight DBL_MIN (rowsOf lines) l hl
    rw [he] at this
    exact absurd hlt (not_lt.mpr this)
  · exact he

/-- C32, at a concrete input: the three rows of weight 1, 1/10000, 3 and
log-likelihood 2, 5, 1 read with `thin = 3` into an object whose `minLike_` is
4.  Only the first row becomes a candidate; the reported maximum is 3 and the
`minLike_` left is 1, both from the third row. -/
theorem C32_extremes_over_every_row_witness :
    (({ MarkovChain.init with minLike_ := 4 }).readFile (some threeRows) 0 3 []).2
        = Except.ok ([⟨1, 2, [3, 4], 0, 0⟩], 3)
    ∧ (∃ l ∈ rowsOf threeRows, DBL_MIN < l.prob)
    ∧ (∃ l ∈ rowsOf threeRows, (3 : ℚ) = l.prob) ∧ (∀ l ∈ rowsOf threeRows, l.prob ≤ 3)
    ∧ (({ MarkovChain.init with minLike_ := 4 }).readFile (some threeRows) 0 3 []).1.minLike_ = 1
    ∧ (∀ l ∈ rowsOf threeRows,
        (({ MarkovChain.init with minLike_ := 4 }).readFile (some threeRows) 0 3 []).1.minLike_
          ≤ l.like) :=
  have h := C32_extremes_over_every_row { MarkovChain.init with minLike_ := 4 } threeRows 0 3 []
    [⟨1, 2, [3, 4], 0, 0⟩] 3 (by decide!) ⟨⟨3, 1, [0, 0]⟩, by decide!, by decide!⟩
  ⟨by decide!, ⟨⟨3, 1, [0, 0]⟩, by decide!, by decide!⟩, h.2.1, h.2.2.1, by decide!, h.2.2.2.1⟩

/-- C33: for every 2-D point set whose buffers have one length and whose
points do not exceed `max1_` and `max2_` (as `addPoint` keeps them), and on
which `Posterior2D::generate` reaches the fit with the bin counts `res1` and
`res2` and the bin widths `d1` and `d2`: the histogram `y` handed to the fit
has `res1 + 2` rows of `res2 + 2` entries; every cell `(i, j)` equals the cell
`(clamp(i, 1, res1), clamp(j, 1, res2))`, which is an interior cell; every
interior cell `(k1 + 1, k2 + 1)` holds the sum of the weights of the samples
with `x1` in the bin `k1` of axis 1 and `x2` in the bin `k2` of axis 2 (bin `k`
is `[min + k*d, min + (k+1)*d)`, the last bin also taking `max`); and the
interior cells sum to the total weight. -/
theorem C33_histogram2D (lib : Numerics) (p : Posterior2D) (scale1 scale2 : ℚ)
    (b : Binning2D) (r : Prepared2D) (hb : p.binning lib scale1 scale2 = Except.ok b)
    (hprep : p.prepare lib scale1 scale2 = some (Except.ok r))
    (hlen : p.probs_.length = p.points1_.length)
    (hrange1 : ∀ pt ∈ p.points1_, pt ≤ p.max1_) (hrange2 : ∀ pt ∈ p.points2_, pt ≤ p.max2_) :
    (0 < b.res1 ∧ 0 < b.res2)
    ∧ r.y.length = b.res1.toNat + 2
    ∧ (∀ i ≤ b.res1.toNat + 1, (r.y.getD i []).length = b.res2.toNat + 2)
    ∧ (∀ i ≤ b.res1.toNat + 1, ∀ j ≤ b.res2.toNat + 1,
        1 ≤ clampIndex i b.res1.toNat ∧ clampIndex i b.res1.toNat ≤ b.res1.toNat
        ∧ 1 ≤ clampIndex j b.res2.toNat ∧ clampIndex j b.res2.toNat ≤ b.res2.toNat
        ∧ cell r.y i j = cell r.y (clampIndex i b.res1.toNat) (clampIndex j b.res2.toNat))
    ∧ (∀ k1 < b.res1.toNat, ∀ k2 < b.res2.toNat,
        cell r.y (k1 + 1) (k2 + 1)
          = boxWeight p.min1_ p.max1_ b.d1 b.res1.toNat p.min2_ p.max2_ b.d2 b.res2.toNat
              p.points1_ p.points2_ p.probs_ k1 k2)
    ∧ ((List.range b.res1.toNat).map (fun k1 =>
          ((List.range b.res2.toNat).map (fun k2 => cell r.y (k1 + 1) (k2 + 1))).sum)).sum
        = p.probs_.sum := by
  obtain ⟨hl21, _, _, _, _, _, _, hres1, hres2, hd1, hd2⟩ :=
    binning2D_ok_inv lib p scale1 scale2 b hb
  obtain ⟨y, hloop, hy, _, _⟩ := prepare2D_ok_inv lib p scale1 scale2 b r hb hprep
  have hn1 : 0 < b.res1.toNat := by omega
  have hn2 : 0 < b.res2.toNat := by omega
  have hc1 : ((b.res1.toNat : Nat) : Int) = b.res1 := Int.toNat_of_nonneg (le_of_lt hres1)
  have hc2 : ((b.res2.toNat : Nat) : Int) = b.res2 := Int.toNat_of_nonneg (le_of_lt hres2)
  have hq1 : ((b.res1.toNat : Nat) : ℚ) = (b.res1 : ℚ) := by rw [← Int.cast_natCast, hc1]
  have hq2 : ((b.res2.toNat : Nat) : ℚ) = (b.res2 : ℚ) := by rw [← Int.cast_natCast, hc2]
  have hr1q : (0 : ℚ) < (b.res1 : ℚ) := by exact_mod_cast hres1
  have hr2q : (0 : ℚ) < (b.res2 : ℚ) := by exact_mod_cast hres2
  obtain ⟨z1, z2, z3, z4⟩ := zero_histogram b.res1.toNat b.res2.toNat
  -- the histogram before the edges are mirrored
  have hshape : y.length = b.res1.toNat + 2
      ∧ (∀ row ∈ y, row.length = b.res2.toNat + 2)
      ∧ (y.map List.sum).sum = p.probs_.sum
      ∧ (∀ i j, (i = 0 ∨ i = b.res1.toNat + 1 ∨ j = 0 ∨ j = b.res2.toNat + 1) → cell y i j = 0)
      ∧ ∀ k1 < b.res1.toNat, ∀ k2 < b.res2.toNat, cell y (k1 + 1) (k2 + 1)
          = boxWeight p.min1_ p.max1_ b.d1 b.res1.toNat p.min2_ p.max2_ b.d2 b.res2.toNat
              p.points1_ p.points2_ p.probs_ k1 k2 := by
    cases hp1 : p.points1_ with
    | nil =>
      rw [hp1] at hloop hlen hl21
      have e2 : p.points2_ = [] := List.length_eq_zero.mp hl21
      have ep : p.probs_ = [] := List.length_eq_zero.mp hlen
      simp only [histogram2DLoop, Option.some.injEq, Prod.mk.injEq, and_true] at hloop
      subst hloop
      rw [e2, ep]
      refine ⟨z1, z2, by rw [z3]; simp, fun i j _ => z4 i j, ?_⟩
      intro k1 _ k2 _
      rw [z4]
      simp [boxWeight]
    | cons a rest =>
      cases hp2 : p.points2_ with
      | nil =>
        rw [hp1, hp2] at hl21
        simp at hl21
      | cons a2 rest2 =>
        have hloop2 := hloop
        rw [hp1, hp2] at hloop2
        obtain ⟨n1, n2, m1, m2⟩ := histogram2DLoop_first _ _ _ _ _ _ _ _ _ _ _ _ _ hloop2
        have ha1 : a ≤ p.max1_ := hrange1 a (by rw [hp1]; exact List.mem_cons_self _ _)
        have ha2 : a2 ≤ p.max2_ := hrange2 a2 (by rw [hp2]; exact List.mem_cons_self _ _)
        have hpos1 : 0 < b.d1 := by
          have h0 : 0 ≤ b.d1 := by
            rw [hd1]
            exact div_nonneg (by linarith) (le_of_lt hr1q)
          exact lt_of_le_of_ne h0 (fun h => n1 h.symm)
        have hpos2 : 0 < b.d2 := by
          have h0 : 0 ≤ b.d2 := by
            rw [hd2]
            exact div_nonneg (by linarith) (le_of_lt hr2q)
          exact lt_of_le_of_ne h0 (fun h => n2 h.symm)
        have hmax1 : p.max1_ = p.min1_ + ((b.res1.toNat : Nat) : ℚ) * b.d1 := by
          rw [hq1, hd1]
          field_simp
        have hmax2 : p.max2_ = p.min2_ + ((b.res2.toNat : Nat) : ℚ) * b.d2 := by
          rw [hq2, hd2]
          field_simp
        have hloop3 : histogram2DLoop p.min1_ p.min2_ b.d1 b.d2 ((b.res1.toNat : Nat) : Int)
            ((b.res2.toNat : Nat) : Int) p.points1_ p.points2_ p.probs_
            (List.replicate (b.res1.toNat + 2) (List.replicate (b.res2.toNat + 2) 0))
            = some (y, none) := by
          rw [hc1, hc2]
          exact hloop
        obtain ⟨a1, a2', a3, a4, a5⟩ := histogram2DLoop_cells p.min1_ p.max1_ b.d1 p.min2_
          p.max2_ b.d2 b.res1.toNat b.res2.toNat hpos1 hpos2 hmax1 hmax2 hn1 hn2 p.points1_
          p.points2_ p.probs_ _ y hl21 hlen hrange1 hrange2 z1 z2 hloop3
        rw [← hp1, ← hp2]
        refine ⟨a1, a2', by rw [a3, z3]; ring, ?_, ?_⟩
        · intro i j hij
          rw [a4 i j hij, z4]
        · intro k1 hk1 k2 hk2
          rw [a5 k1 hk1 k2 hk2, z4]
          ring
  obtain ⟨s1, s2, s3, s4, s5⟩ := hshape
  obtain ⟨m1, m2, m3⟩ := mirrorEdges_cells b.res1.toNat b.res2.toNat hn1 hn2 y s1 s2
  rw [← hy] at m1 m2 m3
  have hint : ∀ k1 < b.res1.toNat, ∀ k2 < b.res2.toNat,
      cell r.y (k1 + 1) (k2 + 1) = cell y (k1 + 1) (k2 + 1) := by
    intro k1 hk1 k2 hk2
    rw [m3 (k1 + 1) (by omega) (k2 + 1) (by omega),
      clampIndex_interior (k1 + 1) _ (by omega) (by omega),
      clampIndex_interior (k2 + 1) _ (by omega) (by omega)]
  refine ⟨⟨hres1, hres2⟩, m1, m2, ?_, ?_, ?_⟩
  · intro i hi j hj
    obtain ⟨ci1, ci2⟩ := clampIndex_range i b.res1.toNat hn1
    obtain ⟨cj1, cj2⟩ := clampIndex_range j b.res2.toNat hn2
    refine ⟨ci1, ci2, cj1, cj2, ?_⟩
    rw [m3 i hi j hj, m3 _ (by omega) _ (by omega),
      clampIndex_interior _ _ ci1 ci2, clampIndex_interior _ _ cj1 cj2]
  · intro k1 hk1 k2 hk2
    rw [hint k1 hk1 k2 hk2, s5 k1 hk1 k2 hk2]
  · rw [← s3, ← interior_total y b.res1.toNat b.res2.toNat s1 s2 s4]
    congr 1
    apply List.map_congr_left
    intro k1 hk1
    congr 1
    apply List.map_congr_left
    intro k2 hk2
    exact hint k1 (List.mem_range.mp hk1) k2 (List.mem_range.mp hk2)

/-- C33, at a concrete input: the five samples (0, 4), (1, 5/2), (2, 0),
(5/2, 3/2), (4, 2) of weight 1 get two bins on axis 1 and three on axis 2; the
interior cells are `0 1 1` and `1 2 0`, and the histogram of 4 rows of 5
entries repeats them on its edges. -/
theorem C33_histogram2D_witness :
    (fiveSamples2D.binning (nearFifth 1) 1 1 = Except.ok fiveSamplesBinning
      ∧ fiveSamples2D.prepare (nearFifth 1) 1 1 = some (Except.ok fiveSamplesPrepared)
      ∧ fiveSamples2D.probs_.length = fiveSamples2D.points1_.length
      ∧ (∀ pt ∈ fiveSamples2D.points1_, pt ≤ fiveSamples2D.max1_)
      ∧ (∀ pt ∈ fiveSamples2D.points2_, pt ≤ fiveSamples2D.max2_))
    ∧ ((0 < fiveSamplesBinning.res1 ∧ 0 < fiveSamplesBinning.res2)
      ∧ fiveSamplesPrepared.y.length = fiveSamplesBinning.res1.toNat + 2
      ∧ (∀ i ≤ fiveSamplesBinning.res1.toNat + 1,
          (fiveSamplesPrepared.y.getD i []).length = fiveSamplesBinning.res2.toNat + 2)
      ∧ (∀ i ≤ fiveSamplesBinning.res1.toNat + 1, ∀ j ≤ fiveSamplesBinning.res2.toNat + 1,
          1 ≤ clampIndex i fiveSamplesBinning.res1.toNat
          ∧ clampIndex i fiveSamplesBinning.res1.toNat ≤ fiveSamplesBinning.res1.toNat
          ∧ 1 ≤ clampIndex j fiveSamplesBinning.res2.toNat
          ∧ clampIndex j fiveSamplesBinning.res2.toNat ≤ fiveSamplesBinning.res2.toNat
          ∧ cell fiveSamplesPrepared.y i j
              = cell fiveSamplesPrepared.y (clampIndex i fiveSamplesBinning.res1.toNat)
                  (clampIndex j fiveSamplesBinning.res2.toNat))
      ∧ (∀ k1 < fiveSamplesBinning.res1.toNat, ∀ k2 < fiveSamplesBinning.res2.toNat,
          cell fiveSamplesPrepared.y (k1 + 1) (k2 + 1)
            = boxWeight fiveSamples2D.min1_ fiveSamples2D.max1_ fiveSamplesBinning.d1
                fiveSamplesBinning.res1.toNat fiveSamples2D.min2_ fiveSamples2D.max2_
                fiveSamplesBinning.d2 fiveSamplesBinning.res2.toNat fiveSamples2D.points1_
                fiveSamples2D.points2_ fiveSamples2D.probs_ k1 k2)
      ∧ ((List.range fiveSamplesBinning.res1.toNat).map (fun k1 =>
            ((List.range fiveSamplesBinning.res2.toNat).map
              (fun k2 => cell fiveSamplesPrepared.y (k1 + 1) (k2 + 1))).sum)).sum
          = fiveSamples2D.probs_.sum) :=
  ⟨⟨by decide!, by decide!, by decide!, by decide!, by decide!⟩,
    C33_histogram2D (nearFifth 1) fiveSamples2D 1 1 fiveSamplesBinning fiveSamplesPrepared
      (by decide!) (by decide!) (by decide!) (by decide!) (by decide!)⟩

/-- C34: for every 2-D point set on which `Posterior2D::generate` gets to its
bin widths, and every `Posterior1D` that holds the projection of the point set
onto an axis (the values of the axis, the weights, and the bounds of the axis)
and on which `Posterior1D::generate` reaches the fit with the scale requested
for that axis: the bin count and the bandwidth of the axis in
`Posterior2D::generate` are the resolution and the scale of
`Posterior1D::generate`.  The values of the other axis do not enter. -/
theorem C34_axis_binning (lib : Numerics) (p : Posterior2D) (q : Posterior1D)
    (method : SmoothingMethod) (scale1 scale2 : ℚ) (r : Prepared) (b : Binning2D)
    (hb : p.binning lib scale1 scale2 = Except.ok b) :
    ((q.points_ = p.points1_ ∧ q.probs_ = p.probs_ ∧ q.min_ = p.min1_ ∧ q.max_ = p.max1_) →
        (q.prepare lib method scale1).2 = Except.ok r →
        b.res1 = r.resolution ∧ b.scale1 = r.scale)
    ∧ ((q.points_ = p.points2_ ∧ q.probs_ = p.probs_ ∧ q.min_ = p.min2_ ∧ q.max_ = p.max2_) →
        (q.prepare lib method scale2).2 = Except.ok r →
        b.res2 = r.resolution ∧ b.scale2 = r.scale) := by
  obtain ⟨hl21, hi1, hr1, hs1, hi2, hr2, hs2, _⟩ := binning2D_ok_inv lib p scale1 scale2 b hb
  constructor
  · rintro ⟨e1, e2, e3, e4⟩ hq
    rcases hpp : q.prepare lib method scale1 with ⟨q2, res⟩
    rw [hpp] at hq
    simp only at hq
    subst hq
    obtain ⟨_, _, _, _, _, hsc, hres, _⟩ := prepare_ok_inv lib q method scale1 q2 r hpp
    rw [e1, e2, e3, e4, binning_eq_axisBinning] at hsc hres
    rw [hr1, hres, hs1, hsc, hi1]
    exact ⟨rfl, rfl⟩
  · rintro ⟨e1, e2, e3, e4⟩ hq
    rcases hpp : q.prepare lib method scale2 with ⟨q2, res⟩
    rw [hpp] at hq
    simp only at hq
    subst hq
    obtain ⟨_, hlen, _, _, _, hsc, hres, _⟩ := prepare_ok_inv lib q method scale2 q2 r hpp
    rw [e1, e2] at hlen
    rw [e1, e2, e3, e4, binning_eq_axisBinning] at hsc hres
    have hw : (p.points1_.zip p.probs_).map Prod.snd = (p.points2_.zip p.probs_).map Prod.snd := by
      rw [zip_weights p.points2_ p.probs_ hlen,
        zip_weights p.points1_ p.probs_ (by rw [← hl21]; exact hlen)]
    rw [hw] at hi2 hr2
    rw [hr2, hres, hs2, hsc, hi2]
    exact ⟨rfl, rfl⟩

/-- C34, at a concrete input: the points (0, 0), (1, 1), (2, 2) of weight 1
with the scales 0 and 0, and the 1-D point set 0, 1, 2 of weight 1, which is
their projection onto either axis: one bin and the bandwidth `1 / 8` on both
sides. -/
theorem C34_axis_binning_witness :
    diagonalPoints.binning (constantNumerics 1) 0 0 = Except.ok diagonalBinning
    ∧ ((threeEqualWeights.points_ = diagonalPoints.points1_
          ∧ threeEqualWeights.probs_ = diagonalPoints.probs_
          ∧ threeEqualWeights.min_ = diagonalPoints.min1_
          ∧ threeEqualWeights.max_ = diagonalPoints.max1_)
        ∧ (threeEqualWeights.prepare (constantNumerics 1)
            SmoothingMethod.GAUSSIAN_SMOOTHING 0).2 = Except.ok threePrepared)
    ∧ (((threeEqualWeights.points_ = diagonalPoints.points1_
          ∧ threeEqualWeights.probs_ = diagonalPoints.probs_
          ∧ threeEqualWeights.min_ = diagonalPoints.min1_
          ∧ threeEqualWeights.max_ = diagonalPoints.max1_) →
        (threeEqualWeights.prepare (constantNumerics 1)
            SmoothingMethod.GAUSSIAN_SMOOTHING 0).2 = Except.ok threePrepared →
        diagonalBinning.res1 = threePrepared.resolution
          ∧ diagonalBinning.scale1 = threePrepared.scale)
      ∧ ((threeEqualWeights.points_ = diagonalPoints.points2_
          ∧ threeEqualWeights.probs_ = diagonalPoints.probs_
          ∧ threeEqualWeights.min_ = diagonalPoints.min2_
          ∧ threeEqualWeights.max_ = diagonalPoints.max2_) →
        (threeEqualWeights.prepare (constantNumerics 1)
            SmoothingMethod.GAUSSIAN_SMOOTHING 0).2 = Except.ok threePrepared →
        diagonalBinning.res2 = threePrepared.resolution
          ∧ diagonalBinning.scale2 = threePrepared.scale)) :=
  ⟨by decide!, ⟨by decide!, by decide!⟩,
    C34_axis_binning (constantNumerics 1) diagonalPoints threeEqualWeights
      SmoothingMethod.GAUSSIAN_SMOOTHING 0 0 threePrepared diagonalBinning (by decide!)⟩

/-- C35 (the code departs from the claim): the points 0 and 1 with the weights
3 and 1 have non-negative weights and the total weight 4.  At index 0 the
cumulative weight 3 reaches both `0.25 * 4` and `0.75 * 4`: the loop of
`generate` stores 0 in `q1` and in `q3`.  At index 1 it finds `q1 == 0`, its
mark for "not set yet", and stores 1 in `q1`.  It ends with `q1 = 1 > q3 = 0`,
and the interquartile range is `sorted[0] - sorted[1] = -1`; the loops of
`Posterior2D::generate` give -1 on both axes for the points (0, 0), (1, 1). -/
theorem C35_quartile_indices_cross :
    (∀ w ∈ heavyFirst.probs_, 0 ≤ w) ∧ heavyFirst.probs_.sum = 4
    ∧ stdSort LessPairFirst (heavyFirst.points_.zip heavyFirst.probs_) = [(0, 3), (1, 1)]
    ∧ quartileLoop 4 1 [(0, 3), (1, 1)] 0 (0, 1, 0) = (1, 0, 4)
    ∧ (binning (constantNumerics 1) heavyFirst.points_ heavyFirst.probs_ heavyFirst.min_
          heavyFirst.max_).1 = -1
    ∧ (heavyFirst2D.binning (constantNumerics 1) 1 1).map (fun b => (b.iqr1, b.iqr2))
        = Except.ok (-1, -1) :=
  ⟨by decide!, by decide!, by decide!, by decide!, by decide!, by decide!⟩

/-- C38 (the code departs from the claim): the points -2 and -1 of weight 1
each are fitted with the spline method and the scale 1, the fitted surface
being the constant 2.  `generate` succeeds with `min_ = -2`, `max_ = -1` and
the normalization `101 / 50`.  The largest key of the inverse table is the
normalization and maps to `max_`, and the keys lie in `[0, 101 / 50]`; but the
table starts with the entry `0 -> 0` that `generate` writes before its loop,
and the value 0 is not in `[min_, max_] = [-2, -1]`. -/
theorem C38_anchor_outside_value_range :
    (negativePoints.generate (constantNumerics 2) SmoothingMethod.SPLINE_SMOOTHING 1).2 = none
    ∧ flatFitted.min_ = -2 ∧ flatFitted.max_ = -1 ∧ flatFitted.norm_ = 101 / 50
    ∧ flatFitted.cumulInv_.map (List.take 2) = some [(0, 0), (1 / 50, -2)]
    ∧ flatFitted.cumulInv_.map List.getLast? = some (some (101 / 50, -1))
    ∧ ¬ ((-2 : ℚ) ≤ 0 ∧ (0 : ℚ) ≤ -1) :=
  ⟨by decide!, by decide!, by decide!, by decide!, by decide!, by decide!, by decide!⟩

/-- C39: for every store with non-negative weights and every valid pair
`(pUpper, pLower)`, `getRange` returns without an error, and what it puts into
the container is a contiguous run of the store in store order; it is a prefix
of the store when `pLower = 0` and the store is in descending order of weight,
which is the order the loader leaves it in; and for every valid `pUpper2` that
is at least `pUpper`, what `getRange(pUpper, pLower)` yields is a prefix of
what `getRange(pUpper2, pLower)` yields, whatever the containers held. -/
theorem C39_getRange_contiguous_monotone (mc : MarkovChain) (container : List Element)
    (pUpper pLower : ℚ) (h0 : 0 ≤ pLower) (h1 : pLower ≤ pUpper) (h2 : pUpper ≤ 1)
    (hnn : ∀ e ∈ mc.chain_, 0 ≤ e.prob) :
    (mc.getRange container pUpper pLower).2 = none
    ∧ (mc.getRange container pUpper pLower).1 <:+: mc.chain_
    ∧ (pLower = 0 → DescendingWeight mc.chain_ →
        (mc.getRange container pUpper pLower).1 <+: mc.chain_)
    ∧ (∀ (container2 : List Element) (pUpper2 : ℚ), pUpper ≤ pUpper2 → pUpper2 ≤ 1 →
        (mc.getRange container2 pUpper2 pLower).2 = none
        ∧ (mc.getRange container pUpper pLower).1 <+: (mc.getRange container2 pUpper2 pLower).1) := by
  have key : ∀ (c : List Element) (pU : ℚ), pLower ≤ pU → pU ≤ 1 →
      mc.getRange c pU pLower
        = (if pU = 0 then [] else if pLower = 1 then mc.chain_
            else getRangeLoop pU pLower mc.chain_ 0 [], none) := by
    intro c pU hl hu
    have hu0 : 0 ≤ pU := le_trans h0 hl
    have c1 : check (decide (pU ≥ 0 ∧ pU ≤ 1)) = none := by simp [check, hu0, hu]
    have c2 : check (decide (pLower ≥ 0 ∧ pLower ≤ pU)) = none := by simp [check, h0, hl]
    unfold MarkovChain.getRange
    rw [c1, c2]
    simp only [List.nil_append]
    split_ifs <;> rfl
  rw [key container pUpper h1 h2]
  refine ⟨rfl, ?_, ?_, ?_⟩
  · simp only
    split
    · exact List.nil_infix
    · split
      · exact List.infix_refl _
      · exact getRangeLoop_infix pUpper pLower mc.chain_ 0 hnn
  · intro hl hd
    simp only
    split
    · exact List.nil_prefix
    · split
      · exact List.prefix_refl _
      · rw [hl]
        exact getRangeLoop_descending_prefix pUpper mc.chain_ hnn hd
  · intro container2 pUpper2 h12 h22
    rw [key container2 pUpper2 (le_trans h1 h12) h22]
    refine ⟨rfl, ?_⟩
    simp only
    by_cases hz : pUpper = 0
    · rw [if_pos hz]
      exact List.nil_prefix
    · have hz2 : pUpper2 ≠ 0 := by
        intro h
        have hp : 0 ≤ pUpper := le_trans h0 h1
        have : pUpper ≤ 0 := by rw [← h]; exact h12
        exact hz (le_antisymm this hp)
      rw [if_neg hz, if_neg hz2]
      by_cases ho : pLower = 1
      · rw [if_pos ho, if_pos ho]
      · rw [if_neg ho, if_neg ho]
        exact getRangeLoop_mono pUpper pUpper2 pLower h12 mc.chain_ 0

/-- C39, at a concrete input: the store with the weights 0.4, 0.3, 0.2, 0.1
and the pair `(pUpper, pLower) = (8/10, 1/2)`, for which `getRange` yields the
second and the third sample. -/
theorem C39_getRange_contiguous_monotone_witness :
    (fourWeights.getRange [] (8 / 10) (1 / 2)).1 = (fourWeights.chain_.drop 1).take 2
    ∧ (fourWeights.getRange [] 1 (1 / 2)).1 = fourWeights.chain_.drop 1
    ∧ (fourWeights.getRange [] (8 / 10) (1 / 2)).2 = none
    ∧ (fourWeights.getRange [] (8 / 10) (1 / 2)).1 <:+: fourWeights.chain_
    ∧ ((1 / 2 : ℚ) = 0 → DescendingWeight fourWeights.chain_ →
        (fourWeights.getRange [] (8 / 10) (1 / 2)).1 <+: fourWeights.chain_)
    ∧ (∀ (container2 : List Element) (pUpper2 : ℚ), 8 / 10 ≤ pUpper2 → pUpper2 ≤ 1 →
        (fourWeights.getRange container2 pUpper2 (1 / 2)).2 = none
        ∧ (fourWeights.getRange [] (8 / 10) (1 / 2)).1
            <+: (fourWeights.getRange container2 pUpper2 (1 / 2)).1) :=
  ⟨by decide!, by decide!,
    C39_getRange_contiguous_monotone fourWeights [] (8 / 10) (1 / 2) (by norm_num) (by norm_num)
      (by norm_num) (by decide!)⟩

/-- C40: for every chain file (also one that cannot be opened or is
malformed), every `burnIn` and `thin` and no error log, the multi-chain
constructor with `nChains = 1` and the single-file constructor give the same
result: the same object (the same samples in the same order, the same
`nParams_`, the same `minLike_`) or the same error.  The multi-chain
constructor takes the larger of the file's maximum weight and
`numeric_limits<double>::min()`, which is where `readFile` starts its maximum
from, so both filter with the same threshold. -/
theorem C40_single_chain_constructors_agree (file : Option ChainFile) (burnin thin : Nat)
    (nError : Int) :
    MarkovChain.fromChains [file] burnin thin none
      = MarkovChain.fromFile file burnin thin none nError := by
  unfold MarkovChain.fromChains MarkovChain.fromFile MarkovChain.readErrorLog
  simp only [List.length_singleton, check, gt_iff_lt, Nat.lt_one_iff, zero_lt_one, decide_True,
    if_true]
  unfold MarkovChain.addFile
  unfold readChains
  rcases hr : ({ MarkovChain.init with minLike_ := DBL_MAX } : MarkovChain).readFile file burnin
    thin [] with ⟨mc1, res⟩
  cases res with
  | error e => rfl
  | ok pr =>
    obtain ⟨bigChain, maxP⟩ := pr
    have hge : DBL_MIN ≤ maxP :=
      readFile_maxP_ge _ file burnin thin [] bigChain maxP (by rw [hr])
    simp only [readChains]
    by_cases hgt : maxP > DBL_MIN
    · rw [if_pos hgt]
    · rw [if_neg hgt]
      have : maxP = DBL_MIN := le_antisymm (not_lt.mp hgt) hge
      rw [this]

end Cosmopp
